import Mathlib

/-!
# tier1 serialization buffer (`utlbuffer.cpp`) — shallow embedding

Bytes are natural numbers (a `char` holds a value below 256), cursors are
integers (`intp`), a memory region is a list of bytes.  A pointer into a region
is the list of bytes that starts at the pointed index.  Loops of the text
scanner carry an explicit fuel argument and answer `none` when it runs out.
-/

namespace Tier1

/-! ## Byte regions -/

/-- Content of the NUL-terminated string that starts at the head of a region. -/
def cstr (p : List Nat) : List Nat :=
  p.takeWhile (fun c => c != 0)

/-- Length of a NUL-terminated string. -/
def V_strlen (p : List Nat) : Int :=
  ((cstr p).length : Int)

/-- Region pointed by `&mem[i]`. -/
def ptrAt (mem : List Nat) (i : Int) : List Nat :=
  mem.drop i.toNat

/-- Copy `n` bytes from `src` over the head of `dst` (`memcpy (dst, src, n)`). -/
def memcpy (dst src : List Nat) (n : Int) : List Nat :=
  src.take n.toNat ++ dst.drop (src.take n.toNat).length

/-- Copy `n` bytes from `src` into `mem` at index `i` (`memcpy (&mem[i], src, n)`). -/
def memcpyAt (mem : List Nat) (i : Int) (src : List Nat) (n : Int) : List Nat :=
  mem.take i.toNat ++ memcpy (mem.drop i.toNat) src n

/-- Store one byte: `mem[i] = v`. -/
def storeAt (mem : List Nat) (i : Int) (v : Nat) : List Nat :=
  mem.set i.toNat v

/-! ## The allocator collaborator (`CUtlMemory<unsigned char>`) -/

/-- Modelled from the spec: the growable byte-array allocator, an external
collaborator of the buffer.  The allocation count is the length of `m_pMemory`;
a negative `m_nGrowSize` marks externally allocated storage; bytes that were
allocated and never written read as `uninit`. -/
structure CUtlMemory where
  m_pMemory : List Nat
  m_nGrowSize : Int
  uninit : Nat
deriving DecidableEq, Repr

namespace CUtlMemory

/-- Modelled from the spec: `num_allocated ()`. -/
def NumAllocated (m : CUtlMemory) : Int :=
  (m.m_pMemory.length : Int)

/-- Modelled from the spec: the external-vs-owned memory distinction. -/
def IsExternallyAllocated (m : CUtlMemory) : Bool :=
  decide (m.m_nGrowSize < 0)

/-- Modelled from the spec: `init (grow_size, init_size)`. -/
def Init (growSize initSize : Int) (uninit : Nat) : CUtlMemory :=
  { m_pMemory := List.replicate initSize.toNat uninit, m_nGrowSize := growSize, uninit := uninit }

/-- Modelled from the spec: `set_external (ptr, size)` for writable caller memory. -/
def SetExternalBuffer (pMemory : List Nat) (uninit : Nat) : CUtlMemory :=
  { m_pMemory := pMemory, m_nGrowSize := -1, uninit := uninit }

/-- Modelled from the spec: a constant external region (the read-only view). -/
def SetExternalConstBuffer (pMemory : List Nat) (uninit : Nat) : CUtlMemory :=
  { m_pMemory := pMemory, m_nGrowSize := -2, uninit := uninit }

/-- Doubling loop of the geometric growth policy. -/
def doubleUntil : Nat → Nat → Nat → Nat
  | 0, n, _ => n
  | fuel + 1, n, target => if n < target then doubleUntil fuel (n * 2) target else n

/-- Modelled from the spec: the capacity growth policy (geometric growth when no
grow size is given, otherwise the next multiple of the grow size). -/
def CalcNewAllocationCount (nAllocationCount nGrowSize nNewSize : Nat) : Nat :=
  if nGrowSize ≠ 0 then (1 + (nNewSize - 1) / nGrowSize) * nGrowSize
  else doubleUntil nNewSize (if nAllocationCount = 0 then 32 else nAllocationCount) nNewSize

/-- Modelled from the spec: `grow ()`, room for at least one more byte. -/
def Grow (m : CUtlMemory) : CUtlMemory :=
  if m.IsExternallyAllocated then m
  else
    let n := CalcNewAllocationCount m.m_pMemory.length m.m_nGrowSize.toNat (m.m_pMemory.length + 1)
    { m with m_pMemory := m.m_pMemory ++ List.replicate (n - m.m_pMemory.length) m.uninit }

/-- Modelled from the spec: `convert_to_growable (min_size)`. -/
def ConvertToGrowableMemory (m : CUtlMemory) (nGrowSize : Int) : CUtlMemory :=
  if m.IsExternallyAllocated then { m with m_nGrowSize := nGrowSize } else m

/-- Modelled from the spec: `ensure_capacity (n)`. -/
def EnsureCapacity (m : CUtlMemory) (num : Int) : CUtlMemory :=
  if num ≤ m.NumAllocated then m
  else if m.IsExternallyAllocated then m
  else { m with m_pMemory := m.m_pMemory ++ List.replicate (num.toNat - m.m_pMemory.length) m.uninit }

/-- Modelled from the spec: release of owned storage. -/
def Purge (m : CUtlMemory) : CUtlMemory :=
  if m.IsExternallyAllocated then m else { m with m_pMemory := [] }

/-- The loop `while (Size () < target) m_Memory.Grow ()` of `PutOverflow`. -/
def growLoop : Nat → CUtlMemory → Int → CUtlMemory
  | 0, m, _ => m
  | fuel + 1, m, target => if m.NumAllocated < target then growLoop fuel m.Grow target else m

end CUtlMemory

/-! ## Buffer state -/

/-- Bits of `m_Flags`. -/
structure BufferFlags_t where
  TEXT_BUFFER : Bool
  EXTERNAL_GROWABLE : Bool
  CONTAINS_CRLF : Bool
  READ_ONLY : Bool
  AUTO_TABS_DISABLED : Bool
deriving DecidableEq, Repr

/-- Bits of `m_Error`. -/
structure ErrorFlags_t where
  PUT_OVERFLOW : Bool
  GET_OVERFLOW : Bool
deriving DecidableEq, Repr

/-- Seek origins. -/
inductive SeekType_t where
  | SEEK_HEAD
  | SEEK_CURRENT
  | SEEK_TAIL
deriving DecidableEq, Repr

/-- The member function stored in `m_GetOverflowFunc`: the default
`CUtlBuffer::GetOverflow`, or the hook of a streaming subclass reading `source`. -/
inductive GetOverflowFunc_t where
  | GetOverflow
  | StreamGetOverflow (source : List Nat)
deriving DecidableEq, Repr

/-- The member function stored in `m_PutOverflowFunc`. -/
inductive PutOverflowFunc_t where
  | PutOverflow
deriving DecidableEq, Repr

/-- State of a `CUtlBuffer`. -/
structure CUtlBuffer where
  m_Memory : CUtlMemory
  m_Get : Int
  m_Put : Int
  m_Error : ErrorFlags_t
  m_Flags : BufferFlags_t
  m_nTab : Int
  m_nMaxPut : Int
  m_nOffset : Int
  m_GetOverflowFunc : GetOverflowFunc_t
  m_PutOverflowFunc : PutOverflowFunc_t
deriving DecidableEq, Repr

namespace CUtlBuffer

/-! ### Inline accessors -/

def TellGet (b : CUtlBuffer) : Int := b.m_Get

def TellPut (b : CUtlBuffer) : Int := b.m_Put

def TellMaxPut (b : CUtlBuffer) : Int := b.m_nMaxPut

def Size (b : CUtlBuffer) : Int := b.m_Memory.NumAllocated

def IsValid (b : CUtlBuffer) : Bool := !b.m_Error.PUT_OVERFLOW && !b.m_Error.GET_OVERFLOW

def IsText (b : CUtlBuffer) : Bool := b.m_Flags.TEXT_BUFFER

def IsGrowable (b : CUtlBuffer) : Bool := b.m_Flags.EXTERNAL_GROWABLE

def IsReadOnly (b : CUtlBuffer) : Bool := b.m_Flags.READ_ONLY

def ContainsCRLF (b : CUtlBuffer) : Bool := b.IsText && b.m_Flags.CONTAINS_CRLF

/-- Set or clear the GET_OVERFLOW bit. -/
def setGetOverflow (b : CUtlBuffer) (v : Bool) : CUtlBuffer :=
  { b with m_Error := { b.m_Error with GET_OVERFLOW := v } }

/-- Set or clear the PUT_OVERFLOW bit. -/
def setPutOverflow (b : CUtlBuffer) (v : Bool) : CUtlBuffer :=
  { b with m_Error := { b.m_Error with PUT_OVERFLOW := v } }

/-- The inline `PeekGet (offset)`: `&m_Memory[m_Get + offset - m_nOffset]`. -/
def PeekGetPtr (b : CUtlBuffer) (offset : Int) : List Nat :=
  ptrAt b.m_Memory.m_pMemory (b.m_Get + offset - b.m_nOffset)

/-! ### Overflow hooks -/

/-- Default put-overflow hook: `CUtlBuffer::PutOverflow`. -/
def PutOverflow (b : CUtlBuffer) (nSize : Int) : Bool × CUtlBuffer :=
  if b.m_Memory.IsExternallyAllocated ∧ ¬ b.IsGrowable then (false, b)
  else
    let m1 := if b.m_Memory.IsExternallyAllocated then b.m_Memory.ConvertToGrowableMemory 0
              else b.m_Memory
    let target := b.m_Put - b.m_nOffset + nSize
    (true, { b with m_Memory := CUtlMemory.growLoop target.toNat m1 target })

/-- Default get-overflow hook: `CUtlBuffer::GetOverflow`. -/
def GetOverflow (b : CUtlBuffer) (_nSize : Int) : Bool × CUtlBuffer :=
  (false, b)

/-- Modelled from the spec: the get-overflow hook of a streaming subclass, which
is not part of these sources: it "fetches more bytes from an external source
and advances window_base".  The window is moved to the get cursor and refilled
from `source`; the answer tells whether `nSize` bytes could be supplied. -/
def StreamGetOverflow (source : List Nat) (b : CUtlBuffer) (nSize : Int) : Bool × CUtlBuffer :=
  let chunk := (source.drop b.m_Get.toNat).take b.m_Memory.m_pMemory.length
  let mem := chunk ++ b.m_Memory.m_pMemory.drop chunk.length
  (decide (0 ≤ b.m_Get ∧ nSize ≤ (chunk.length : Int)),
    { b with m_nOffset := b.m_Get, m_Memory := { b.m_Memory with m_pMemory := mem } })

def OnPutOverflow (b : CUtlBuffer) (nSize : Int) : Bool × CUtlBuffer :=
  match b.m_PutOverflowFunc with
  | .PutOverflow => b.PutOverflow nSize

def OnGetOverflow (b : CUtlBuffer) (nSize : Int) : Bool × CUtlBuffer :=
  match b.m_GetOverflowFunc with
  | .GetOverflow => b.GetOverflow nSize
  | .StreamGetOverflow source => StreamGetOverflow source b nSize

/-! ### Put side -/

def CheckPut (b : CUtlBuffer) (nSize : Int) : Bool × CUtlBuffer :=
  if b.m_Error.PUT_OVERFLOW ∨ b.IsReadOnly then (false, b)
  else if b.m_Put < b.m_nOffset ∨ b.m_Memory.NumAllocated < b.m_Put - b.m_nOffset + nSize then
    match b.OnPutOverflow nSize with
    | (false, b1) => (false, b1.setPutOverflow true)
    | (true, b1) => (true, b1)
  else (true, b)

def AddNullTermination (b : CUtlBuffer) (nPut : Int) : CUtlBuffer :=
  if nPut > b.m_nMaxPut then
    let b1 :=
      if ¬ b.IsReadOnly ∧ b.m_Error.PUT_OVERFLOW = false then
        match b.CheckPut 1 with
        | (true, b2) =>
          { b2 with m_Memory :=
              { b2.m_Memory with m_pMemory := storeAt b2.m_Memory.m_pMemory (nPut - b2.m_nOffset) 0 } }
        | (false, b2) => b2.setPutOverflow false
      else b
    { b1 with m_nMaxPut := nPut }
  else b

def Put (b : CUtlBuffer) (pMem : List Nat) (size : Int) : CUtlBuffer :=
  if size ≠ 0 then
    match b.CheckPut size with
    | (true, b1) =>
      let b2 : CUtlBuffer :=
        { b1 with
          m_Memory := { b1.m_Memory with
            m_pMemory := memcpyAt b1.m_Memory.m_pMemory (b1.m_Put - b1.m_nOffset) pMem size }
          m_Put := b1.m_Put + size }
      b2.AddNullTermination b2.m_Put
    | (false, b1) => b1
  else b

def SeekPut (b : CUtlBuffer) (type : SeekType_t) (offset : Int) : CUtlBuffer :=
  let nNextPut : Int :=
    match type with
    | .SEEK_HEAD => offset
    | .SEEK_CURRENT => b.m_Put + offset
    | .SEEK_TAIL => b.m_nMaxPut - offset
  let b1 := (b.OnPutOverflow (-nNextPut - 1)).2
  let b2 := { b1 with m_Put := nNextPut }
  b2.AddNullTermination b2.m_Put

/-! ### Get side -/

def CheckGet (b : CUtlBuffer) (nSize : Int) : Bool × CUtlBuffer :=
  if b.m_Error.GET_OVERFLOW then (false, b)
  else if b.TellMaxPut < b.m_Get + nSize then (false, b.setGetOverflow true)
  else if b.m_Get < b.m_nOffset ∨ b.m_Memory.NumAllocated < b.m_Get - b.m_nOffset + nSize then
    match b.OnGetOverflow nSize with
    | (false, b1) => (false, b1.setGetOverflow true)
    | (true, b1) => (true, b1)
  else (true, b)

def CheckPeekGet (b : CUtlBuffer) (nOffset nSize : Int) : Bool × CUtlBuffer :=
  if b.m_Error.GET_OVERFLOW then (false, b)
  else
    let r := b.CheckGet (nOffset + nSize)
    (r.1, r.2.setGetOverflow false)

/-- The increment is passed by reference: the answer carries its new value. -/
def CheckArbitraryPeekGet (b : CUtlBuffer) (nOffset nIncrement : Int) : Bool × Int × CUtlBuffer :=
  if b.TellGet + nOffset ≥ b.TellMaxPut then (false, 0, b)
  else
    let n1 := if b.TellGet + nOffset + nIncrement > b.TellMaxPut
              then b.TellMaxPut - b.TellGet - nOffset else nIncrement
    let b1 := (b.CheckPeekGet nOffset n1).2
    let nMaxGet := b1.TellMaxPut - b1.TellGet
    let n2 := if nMaxGet < n1 then nMaxGet else n1
    (decide (n2 ≠ 0), n2, b1)

/-- The checked `PeekGet (nMaxSize, nOffset)`: `none` stands for the null pointer. -/
def PeekGet (b : CUtlBuffer) (nMaxSize nOffset : Int) : Option (List Nat) × CUtlBuffer :=
  match b.CheckPeekGet nOffset nMaxSize with
  | (false, b1) => (none, b1)
  | (true, b1) => (some (ptrAt b1.m_Memory.m_pMemory (b1.m_Get + nOffset - b1.m_nOffset)), b1)

def Get (b : CUtlBuffer) (pMem : List Nat) (size : Int) : CUtlBuffer × List Nat :=
  if size > 0 then
    match b.CheckGet size with
    | (true, b1) =>
      ({ b1 with m_Get := b1.m_Get + size }, memcpy pMem (b1.PeekGetPtr 0) size)
    | (false, b1) => (b1, pMem)
  else (b, pMem)

/-- The count read and the destination are both returned. -/
def GetUpTo (b : CUtlBuffer) (pMem : List Nat) (nSize : Int) : Int × CUtlBuffer × List Nat :=
  match b.CheckArbitraryPeekGet 0 nSize with
  | (true, n, b1) => (n, { b1 with m_Get := b1.m_Get + n }, memcpy pMem (b1.PeekGetPtr 0) n)
  | (false, _, b1) => (0, b1, pMem)

def SeekGet (b : CUtlBuffer) (type : SeekType_t) (offset : Int) : CUtlBuffer :=
  let b1 : CUtlBuffer :=
    match type with
    | .SEEK_HEAD => { b with m_Get := offset }
    | .SEEK_CURRENT => { b with m_Get := b.m_Get + offset }
    | .SEEK_TAIL => { b with m_Get := b.m_nMaxPut - offset }
  if b1.m_Get > b1.m_nMaxPut then b1.setGetOverflow true
  else
    let b2 := b1.setGetOverflow false
    if b2.m_Get < b2.m_nOffset ∨ b2.m_Get ≥ b2.m_nOffset + b2.Size then (b2.OnGetOverflow (-1)).2
    else b2

/-! ### Constructors -/

/-- The constructor `CUtlBuffer (growSize, initSize, nFlags)`. -/
def new (growSize initSize : Int) (nFlags : BufferFlags_t) (uninit : Nat) : CUtlBuffer :=
  let b0 : CUtlBuffer :=
    { m_Memory := CUtlMemory.Init growSize initSize uninit
      m_Get := 0, m_Put := 0, m_Error := ⟨false, false⟩, m_Flags := nFlags, m_nTab := 0
      m_nMaxPut := 0, m_nOffset := 0
      m_GetOverflowFunc := .GetOverflow, m_PutOverflowFunc := .PutOverflow }
  if initSize ≠ 0 ∧ ¬ b0.IsReadOnly then
    ({ b0 with m_nMaxPut := -1 } : CUtlBuffer).AddNullTermination 0
  else b0

/-- The constructor `CUtlBuffer (pBuffer, nSize, nFlags)` over caller memory. -/
def newExternal (pBuffer : List Nat) (nFlags : BufferFlags_t) (uninit : Nat) : CUtlBuffer :=
  let b0 : CUtlBuffer :=
    { m_Memory := CUtlMemory.SetExternalBuffer pBuffer uninit
      m_Get := 0, m_Put := 0, m_Error := ⟨false, false⟩, m_Flags := nFlags, m_nTab := 0
      m_nMaxPut := 0, m_nOffset := 0
      m_GetOverflowFunc := .GetOverflow, m_PutOverflowFunc := .PutOverflow }
  if b0.IsReadOnly then
    { b0 with m_nMaxPut := (pBuffer.length : Int), m_Put := (pBuffer.length : Int) }
  else
    ({ b0 with m_nMaxPut := -1 } : CUtlBuffer).AddNullTermination 0

/-! ### Character helpers (strtools, characterset) -/

end CUtlBuffer

/-- Modelled from the spec: `V_isspace` of strtools, the white-space test of the
C locale (space, tab, line feed, vertical tab, form feed, carriage return). -/
def V_isspace (c : Nat) : Bool :=
  c == 32 || c == 9 || c == 10 || c == 11 || c == 12 || c == 13

/-- Lower-case form of an ASCII letter, used by the case-insensitive comparisons. -/
def toLowerASCII (c : Nat) : Nat :=
  if 65 ≤ c ∧ c ≤ 90 then c + 32 else c

/-- The byte a pointer points to; reading past the region gives 0. -/
def deref (p : List Nat) : Nat :=
  p.headD 0

/-- Modelled from the spec: `V_strncmp (a, b, n) == 0`, equality of the first `n`
characters of two NUL-terminated strings. -/
def V_strncmp_eq (a b : List Nat) (n : Int) : Bool :=
  (cstr a).take n.toNat == (cstr b).take n.toNat

/-- Modelled from the spec: `V_strcmp (a, b) == 0`, equality of two NUL-terminated strings. -/
def V_strcmp_eq (a b : List Nat) : Bool :=
  cstr a == cstr b

/-- The pattern matches, ignoring ASCII case, at the head of the text. -/
def ciPrefix : List Nat → List Nat → Bool
  | [], _ => true
  | _ :: _, [] => false
  | p :: ps, h :: hs => toLowerASCII p == toLowerASCII h && ciPrefix ps hs

/-- Index of the first case-insensitive occurrence of the pattern, counted from `i`. -/
def findCI (pat : List Nat) : List Nat → Nat → Option Nat
  | [], _ => none
  | h :: hs, i => if ciPrefix pat (h :: hs) then some i else findCI pat hs (i + 1)

/-- Modelled from the spec: `V_strnistr (pStr, pSearch, n)` of strtools, which
"locates the next case-insensitive occurrence of a literal substring": the index
of the first occurrence of `pSearch` lying within the first `n` bytes of the
NUL-terminated `pStr`, or `none` for the null pointer. -/
def V_strnistr (pStr pSearch : List Nat) (n : Int) : Option Nat :=
  if cstr pSearch = [] then none
  else findCI (cstr pSearch) ((cstr pStr).take n.toNat) 0

/-- Modelled from the spec: `characterset_t`, the break set, as its membership test. -/
abbrev characterset_t := Nat → Bool

/-- Modelled from the spec: `IN_CHARACTERSET (set, c)`, indexed by the unsigned byte. -/
def IN_CHARACTERSET (set : characterset_t) (c : Nat) : Bool :=
  set (c % 256)

/-! ## Character conversion tables -/

/-- One entry of the replacement table; `none` is the null pointer. -/
structure ConversionInfo_t where
  m_nLength : Int
  m_pReplacementString : Option (List Nat)

/-- One entry of the initialiser array. -/
structure ConversionArray_t where
  m_nActualChar : Nat
  m_pReplacementString : List Nat
deriving DecidableEq, Repr

/-- The three classes of conversion table, which differ in `FindConversion`. -/
inductive ConversionClass_t where
  | CUtlCharConversion
  | CUtlCStringConversion
  | CUtlNoEscConversion
deriving DecidableEq, Repr

/-- State of a `CUtlCharConversion` (with the lookup table of `CUtlCStringConversion`). -/
structure CUtlCharConversion where
  cls : ConversionClass_t
  m_nEscapeChar : Nat
  m_pDelimiter : List Nat
  m_nDelimiterLength : Int
  m_nCount : Nat
  m_nMaxConversionLength : Int
  m_pList : List Nat
  m_pReplacements : Nat → ConversionInfo_t
  m_pConversion : Nat → Nat

namespace CUtlCharConversion

/-- Body of the constructor loop of `CUtlCharConversion`. -/
def ctorStep (cv : CUtlCharConversion) (e : ConversionArray_t) : CUtlCharConversion :=
  let len : Int := V_strlen e.m_pReplacementString
  { cv with
    m_pList := cv.m_pList ++ [e.m_nActualChar]
    m_pReplacements := fun c =>
      if c = e.m_nActualChar % 256 then ⟨len, some e.m_pReplacementString⟩
      else cv.m_pReplacements c
    m_nMaxConversionLength :=
      if len > cv.m_nMaxConversionLength then len else cv.m_nMaxConversionLength }

/-- The constructor `CUtlCharConversion (nEscapeChar, pDelimiter, nCount, pArray)`. -/
def new (nEscapeChar : Nat) (pDelimiter : List Nat) (pArray : List ConversionArray_t) :
    CUtlCharConversion :=
  pArray.foldl ctorStep
    { cls := .CUtlCharConversion, m_nEscapeChar := nEscapeChar, m_pDelimiter := pDelimiter
      m_nDelimiterLength := V_strlen pDelimiter, m_nCount := pArray.length
      m_nMaxConversionLength := 0, m_pList := []
      m_pReplacements := fun _ => ⟨0, none⟩, m_pConversion := fun _ => 0 }

/-- The constructor of `CUtlCStringConversion`: the base table plus `m_pConversion`. -/
def newCString (nEscapeChar : Nat) (pDelimiter : List Nat) (pArray : List ConversionArray_t) :
    CUtlCharConversion :=
  { new nEscapeChar pDelimiter pArray with
    cls := .CUtlCStringConversion
    m_pConversion := pArray.foldl
      (fun t e => fun k => if k = deref e.m_pReplacementString % 256 then e.m_nActualChar else t k)
      (fun _ => 0) }

/-- The constructor of `CUtlNoEscConversion`. -/
def newNoEsc (nEscapeChar : Nat) (pDelimiter : List Nat) (pArray : List ConversionArray_t) :
    CUtlCharConversion :=
  { new nEscapeChar pDelimiter pArray with cls := .CUtlNoEscConversion }

def GetEscapeChar (cv : CUtlCharConversion) : Nat := cv.m_nEscapeChar

def GetDelimiter (cv : CUtlCharConversion) : List Nat := cv.m_pDelimiter

def GetDelimiterLength (cv : CUtlCharConversion) : Int := cv.m_nDelimiterLength

/-- The replacement string of a byte; the null pointer reads as the empty region. -/
def GetConversionString (cv : CUtlCharConversion) (c : Nat) : List Nat :=
  ((cv.m_pReplacements (c % 256)).m_pReplacementString).getD []

def GetConversionLength (cv : CUtlCharConversion) (c : Nat) : Int :=
  (cv.m_pReplacements (c % 256)).m_nLength

def MaxConversionLength (cv : CUtlCharConversion) : Int := cv.m_nMaxConversionLength

/-- The loop of the base `FindConversion` over `m_pList`. -/
def findLoop (cv : CUtlCharConversion) (pString : List Nat) : List Nat → Nat × Int
  | [] => (0, 0)
  | c :: rest =>
    if V_strcmp_eq pString (cv.GetConversionString c) then (c, cv.GetConversionLength c)
    else findLoop cv pString rest

/-- The virtual `FindConversion (pString, pLength)`: the character and the length. -/
def FindConversion (cv : CUtlCharConversion) (pString : List Nat) : Nat × Int :=
  match cv.cls with
  | .CUtlCharConversion => findLoop cv pString cv.m_pList
  | .CUtlCStringConversion =>
    let c := cv.m_pConversion (deref pString % 256)
    (c, if c ≠ 0 then 1 else 0)
  | .CUtlNoEscConversion => (0, 0)

end CUtlCharConversion

/-- The table `s_StringCharConversion`. -/
def s_StringCharConversion : CUtlCharConversion :=
  CUtlCharConversion.newCString 92 [34]
    [⟨10, [110]⟩, ⟨9, [116]⟩, ⟨11, [118]⟩, ⟨8, [98]⟩, ⟨13, [114]⟩, ⟨12, [102]⟩, ⟨7, [97]⟩,
      ⟨92, [92]⟩, ⟨63, [63]⟩, ⟨39, [39]⟩, ⟨34, [34]⟩]

def GetCStringCharConversion : CUtlCharConversion := s_StringCharConversion

/-- The table `s_NoEscConversion`. -/
def s_NoEscConversion : CUtlCharConversion :=
  CUtlCharConversion.newNoEsc 127 [34] [⟨127, []⟩]

def GetNoEscCharConversion : CUtlCharConversion := s_NoEscConversion

namespace CUtlBuffer

/-! ### Single characters -/

/-- Modelled from the spec: the inline `GetChar ()` of the header, one byte read
through `check_get (1)`; a failed check yields 0. -/
def GetChar (b : CUtlBuffer) : Nat × CUtlBuffer :=
  match b.CheckGet 1 with
  | (true, b1) => (deref (b1.PeekGetPtr 0), { b1 with m_Get := b1.m_Get + 1 })
  | (false, b1) => (0, b1)

/-- Modelled from the spec: the inline `WasLastCharacterCR ()` of the header: in
text mode, whether the byte before the put cursor is a line feed. -/
def WasLastCharacterCR (b : CUtlBuffer) : Bool :=
  if ¬ b.IsText ∨ b.TellPut = 0 then false
  else deref (ptrAt b.m_Memory.m_pMemory (b.m_Put - 1 - b.m_nOffset)) == 10

/-- Writes `n` tab bytes. -/
def putTabsLoop : Nat → CUtlBuffer → CUtlBuffer
  | 0, b => b
  | n + 1, b => putTabsLoop n (b.Put [9] 1)

/-- Modelled from the spec: the inline `PutTabs ()` of the header, the indentation
"emitted first" when auto-tabs are enabled: `tab_depth` tab bytes. -/
def PutTabs (b : CUtlBuffer) : CUtlBuffer :=
  putTabsLoop (if b.m_Flags.AUTO_TABS_DISABLED then 0 else b.m_nTab.toNat) b

/-- Modelled from the spec: the inline `PutChar (c)` of the header, one byte
written through the put primitive after the indentation of a new line. -/
def PutChar (b : CUtlBuffer) (c : Nat) : CUtlBuffer :=
  (if b.WasLastCharacterCR then b.PutTabs else b).Put [c] 1

/-! ### Text scanning -/

/-- The loop of `EatWhiteSpace`. -/
def eatWhiteSpaceLoop : Nat → CUtlBuffer → Option CUtlBuffer
  | 0, _ => none
  | fuel + 1, b =>
    match b.CheckGet 1 with
    | (false, b1) => some b1
    | (true, b1) =>
      if ¬ V_isspace (deref (b1.PeekGetPtr 0)) then some b1
      else eatWhiteSpaceLoop fuel { b1 with m_Get := b1.m_Get + 1 }

def EatWhiteSpace (b : CUtlBuffer) : Option CUtlBuffer :=
  if b.IsText ∧ b.IsValid then eatWhiteSpaceLoop ((b.m_nMaxPut - b.m_Get).toNat + 1) b
  else some b

/-- The line-reading loop of `EatCPPComment`: `c` is the character just read. -/
def eatCommentLoop : Nat → Nat → CUtlBuffer → Option CUtlBuffer
  | 0, _, _ => none
  | fuel + 1, c, b =>
    if ¬ b.IsValid then some b
    else if c = 10 then some b
    else eatCommentLoop fuel b.GetChar.1 b.GetChar.2

def EatCPPComment (b : CUtlBuffer) : Option (Bool × CUtlBuffer) :=
  if b.IsText ∧ b.IsValid then
    match b.PeekGet 2 0 with
    | (none, b1) => some (false, b1)
    | (some pPeek, b1) =>
      if deref pPeek ≠ 47 ∨ deref (pPeek.drop 1) ≠ 47 then some (false, b1)
      else
        let b2 : CUtlBuffer := { b1 with m_Get := b1.m_Get + 2 }
        (eatCommentLoop ((b2.m_nMaxPut - b2.m_Get).toNat + 2) b2.GetChar.1 b2.GetChar.2).map
          (fun b3 => (true, b3))
  else some (false, b)

/-- The loop of `PeekWhiteSpace`. -/
def peekWhiteSpaceLoop : Nat → CUtlBuffer → Int → Option (Int × CUtlBuffer)
  | 0, _, _ => none
  | fuel + 1, b, nOffset =>
    match b.CheckPeekGet nOffset 1 with
    | (false, b1) => some (nOffset, b1)
    | (true, b1) =>
      if ¬ V_isspace (deref (b1.PeekGetPtr nOffset)) then some (nOffset, b1)
      else peekWhiteSpaceLoop fuel b1 (nOffset + 1)

def PeekWhiteSpace (b : CUtlBuffer) (nOffset : Int) : Option (Int × CUtlBuffer) :=
  if ¬ b.IsText ∨ ¬ b.IsValid then some (0, b)
  else peekWhiteSpaceLoop ((b.m_nMaxPut - b.m_Get - nOffset).toNat + 1) b nOffset

/-- The inner `for` loops of the length peeks: the first index `i < n`, counted
from `i0`, whose byte satisfies `stop`. -/
def scanFor (stop : Nat → Bool) : Nat → List Nat → Nat → Option Nat
  | 0, _, _ => none
  | n + 1, p, i0 => if stop (deref p) then some i0 else scanFor stop n (p.drop 1) (i0 + 1)

/-- The `do ... while (true)` loop of `PeekStringLength`. -/
def peekStringLengthLoop : Nat → CUtlBuffer → Int → Int → Option (Int × CUtlBuffer)
  | 0, _, _, _ => none
  | fuel + 1, b, nStartingOffset, nOffset =>
    match b.CheckArbitraryPeekGet nOffset 128 with
    | (false, _, b1) =>
      if nOffset = nStartingOffset then some (0, b1) else some (nOffset - nStartingOffset + 1, b1)
    | (true, nPeekAmount, b1) =>
      let pTest := b1.PeekGetPtr nOffset
      let stop : Nat → Bool :=
        if ¬ b1.IsText then fun c => c == 0 else fun c => V_isspace c || c == 0
      match scanFor stop nPeekAmount.toNat pTest 0 with
      | some i => some ((i : Int) + nOffset - nStartingOffset + 1, b1)
      | none => peekStringLengthLoop fuel b1 nStartingOffset (nOffset + nPeekAmount)

def PeekStringLength (b : CUtlBuffer) : Option (Int × CUtlBuffer) :=
  if ¬ b.IsValid then some (0, b)
  else
    match (if b.IsText then b.PeekWhiteSpace 0 else some (0, b)) with
    | none => none
    | some (nOffset, b1) =>
      peekStringLengthLoop ((b1.m_nMaxPut - b1.m_Get - nOffset).toNat + 1) b1 nOffset nOffset

/-- What the inner loop of `PeekLineLength` found. -/
def lineStop (c : Nat) : Bool :=
  c == 10 || c == 13 || c == 0

/-- The `do ... while (true)` loop of `PeekLineLength`. -/
def peekLineLengthLoop : Nat → CUtlBuffer → Int → Int → Option (Int × CUtlBuffer)
  | 0, _, _, _ => none
  | fuel + 1, b, nStartingOffset, nOffset =>
    match b.CheckArbitraryPeekGet nOffset 128 with
    | (false, _, b1) =>
      if nOffset = nStartingOffset then some (0, b1) else some (nOffset - nStartingOffset + 1, b1)
    | (true, nPeekAmount, b1) =>
      let pTest := b1.PeekGetPtr nOffset
      match scanFor lineStop nPeekAmount.toNat pTest 0 with
      | some i =>
        let c := deref (pTest.drop i)
        if c = 10 ∨ c = 13 then some ((i : Int) + nOffset - nStartingOffset + 2, b1)
        else some ((i : Int) + nOffset - nStartingOffset + 1, b1)
      | none => peekLineLengthLoop fuel b1 nStartingOffset (nOffset + nPeekAmount)

def PeekLineLength (b : CUtlBuffer) : Option (Int × CUtlBuffer) :=
  if ¬ b.IsValid then some (0, b)
  else peekLineLengthLoop ((b.m_nMaxPut - b.m_Get).toNat + 1) b 0 0

def PeekStringMatch (b : CUtlBuffer) (nOffset : Int) (pString : List Nat) (nLen : Int) :
    Bool × CUtlBuffer :=
  match b.CheckPeekGet nOffset nLen with
  | (false, b1) => (false, b1)
  | (true, b1) => (V_strncmp_eq (b1.PeekGetPtr nOffset) pString nLen, b1)

/-- The `do ... while (true)` loop of `PeekDelimitedStringLength`; the answer is
the pair of `nLen` and `nOffset` at the exit. -/
def peekDelimitedLoop (pConv : CUtlCharConversion) :
    Nat → CUtlBuffer → Int → Int → Option ((Int × Int) × CUtlBuffer)
  | 0, _, _, _ => none
  | fuel + 1, b, nLen, nOffset =>
    match b.PeekStringMatch nOffset pConv.GetDelimiter pConv.GetDelimiterLength with
    | (true, b1) => some ((nLen, nOffset), b1)
    | (false, b1) =>
      match b1.CheckPeekGet nOffset 1 with
      | (false, b2) => some ((nLen, nOffset), b2)
      | (true, b2) =>
        let c := deref (b2.PeekGetPtr nOffset)
        if c = pConv.GetEscapeChar then
          match b2.CheckArbitraryPeekGet (nOffset + 1) pConv.MaxConversionLength with
          | (false, _, b3) => some ((nLen + 1, nOffset + 1), b3)
          | (true, _, b3) =>
            let nLength := (pConv.FindConversion (b3.PeekGetPtr (nOffset + 1))).2
            peekDelimitedLoop pConv fuel b3 (nLen + 1) (nOffset + 1 + nLength)
        else peekDelimitedLoop pConv fuel b2 (nLen + 1) (nOffset + 1)

/-- The conversion table is `none` for a null `pConv`. -/
def PeekDelimitedStringLength (b : CUtlBuffer) (pConv : Option CUtlCharConversion)
    (bActualSize : Bool) : Option (Int × CUtlBuffer) :=
  match pConv with
  | none => b.PeekStringLength
  | some cv =>
    if ¬ b.IsText then b.PeekStringLength
    else
      match b.PeekWhiteSpace 0 with
      | none => none
      | some (nOffset, b1) =>
        match b1.PeekStringMatch nOffset cv.GetDelimiter cv.GetDelimiterLength with
        | (false, b2) => some (0, b2)
        | (true, b2) =>
          let nActualStart := nOffset
          match peekDelimitedLoop cv ((b2.m_nMaxPut - b2.m_Get - nOffset).toNat + 1) b2 1
              (nOffset + cv.GetDelimiterLength) with
          | none => none
          | some ((nLen, nOff), b3) =>
            some (if bActualSize then nLen else nOff - nActualStart + cv.GetDelimiterLength + 1, b3)

/-! ### Strings and lines -/

/-- The constant `INT_MAX`. -/
def INT_MAX : Int := 2147483647

/-- The destination string is returned with the buffer. -/
def GetString (b : CUtlBuffer) (pString : List Nat) (nMaxChars : Int) :
    Option (CUtlBuffer × List Nat) :=
  if ¬ b.IsValid then some (b, storeAt pString 0 0)
  else
    let nMaxChars := if nMaxChars = 0 then INT_MAX else nMaxChars
    match b.PeekStringLength with
    | none => none
    | some (nLen, b1) =>
      match (if b1.IsText then b1.EatWhiteSpace else some b1) with
      | none => none
      | some b2 =>
        if nLen = 0 then some (b2.setGetOverflow true, storeAt pString 0 0)
        else
          let r : CUtlBuffer × List Nat :=
            if nLen ≤ nMaxChars then
              let g := b2.Get pString (nLen - 1)
              (g.1, storeAt g.2 (nLen - 1) 0)
            else
              let g := b2.Get pString (nMaxChars - 1)
              (g.1.SeekGet .SEEK_CURRENT (nLen - nMaxChars), storeAt g.2 (nMaxChars - 1) 0)
          if ¬ r.1.IsText then some (r.1.GetChar.2, r.2) else some r

def GetLine (b : CUtlBuffer) (pLine : List Nat) (nMaxChars : Int) :
    Option (CUtlBuffer × List Nat) :=
  if ¬ b.IsValid then some (b, storeAt pLine 0 0)
  else
    let nMaxChars := if nMaxChars = 0 then INT_MAX else nMaxChars
    match b.PeekLineLength with
    | none => none
    | some (nLen, b1) =>
      if nLen = 0 then some (b1.setGetOverflow true, storeAt pLine 0 0)
      else if nLen ≤ nMaxChars then
        let g := b1.Get pLine (nLen - 1)
        some (g.1, storeAt g.2 (nLen - 1) 0)
      else
        let g := b1.Get pLine (nMaxChars - 1)
        some (g.1.SeekGet .SEEK_CURRENT (nLen - 1 - nMaxChars), storeAt g.2 (nMaxChars - 1) 0)

/-! ### Delimited strings: reading -/

def GetDelimitedCharInternal (b : CUtlBuffer) (pConv : CUtlCharConversion) : Nat × CUtlBuffer :=
  let r := b.GetChar
  if r.1 = pConv.GetEscapeChar then
    match r.2.CheckArbitraryPeekGet 0 pConv.MaxConversionLength with
    | (false, _, b2) => (0, b2)
    | (true, _, b2) =>
      let f := pConv.FindConversion (b2.PeekGetPtr 0)
      (f.1, b2.SeekGet .SEEK_CURRENT f.2)
  else r

def GetDelimitedChar (b : CUtlBuffer) (pConv : Option CUtlCharConversion) : Nat × CUtlBuffer :=
  match pConv with
  | none => b.GetChar
  | some cv => if ¬ b.IsText then b.GetChar else b.GetDelimitedCharInternal cv

/-- The `while (IsValid ())` loop of `GetDelimitedString`; the answer carries the
destination and `nRead`. -/
def getDelimitedLoop (pConv : CUtlCharConversion) (nMaxChars : Int) :
    Nat → CUtlBuffer → List Nat → Int → Option (CUtlBuffer × List Nat × Int)
  | 0, _, _, _ => none
  | fuel + 1, b, pString, nRead =>
    if ¬ b.IsValid then some (b, pString, nRead)
    else
      match b.PeekStringMatch 0 pConv.GetDelimiter pConv.GetDelimiterLength with
      | (true, b1) => some (b1.SeekGet .SEEK_CURRENT pConv.GetDelimiterLength, pString, nRead)
      | (false, b1) =>
        let r := b1.GetDelimitedCharInternal pConv
        if nRead < nMaxChars then
          getDelimitedLoop pConv nMaxChars fuel r.2 (storeAt pString nRead r.1) (nRead + 1)
        else getDelimitedLoop pConv nMaxChars fuel r.2 pString nRead

def GetDelimitedString (b : CUtlBuffer) (pConv : Option CUtlCharConversion) (pString : List Nat)
    (nMaxChars : Int) : Option (CUtlBuffer × List Nat) :=
  match pConv with
  | none => b.GetString pString nMaxChars
  | some cv =>
    if ¬ b.IsText then b.GetString pString nMaxChars
    else if ¬ b.IsValid then some (b, storeAt pString 0 0)
    else
      let nMaxChars := if nMaxChars = 0 then INT_MAX else nMaxChars
      match b.EatWhiteSpace with
      | none => none
      | some b1 =>
        match b1.PeekStringMatch 0 cv.GetDelimiter cv.GetDelimiterLength with
        | (false, b2) => some (b2, pString)
        | (true, b2) =>
          let b3 := b2.SeekGet .SEEK_CURRENT cv.GetDelimiterLength
          match getDelimitedLoop cv nMaxChars ((b3.m_nMaxPut - b3.m_Get).toNat + 2) b3 pString 0 with
          | none => none
          | some (b4, pString1, nRead) =>
            let nRead1 := if nRead ≥ nMaxChars then nMaxChars - 1 else nRead
            some (b4, storeAt pString1 nRead1 0)

/-! ### Delimited strings: writing -/

/-- Index of the first line feed of a NUL-terminated string (`strchr (p, 10)`). -/
def strchrLF (p : List Nat) : Option Nat :=
  let i := (cstr p).findIdx (fun c => c == 10)
  if i < (cstr p).length then some i else none

/-- The `while (pEndl)` loop of `PutString`; the answer carries the rest of the string. -/
def putStringLoop : Nat → CUtlBuffer → List Nat → Option (CUtlBuffer × List Nat)
  | 0, _, _ => none
  | fuel + 1, b, pString =>
    match strchrLF pString with
    | none => some (b, pString)
    | some i =>
      let b1 := b.Put pString ((i : Int) + 1)
      let rest := pString.drop (i + 1)
      if deref rest ≠ 0 then putStringLoop fuel b1.PutTabs rest else some (b1, rest)

/-- The string is `none` for a null pointer. -/
def PutString (b : CUtlBuffer) (pString : Option (List Nat)) : Option CUtlBuffer :=
  if ¬ b.IsText then
    match pString with
    | some str => some (b.Put (cstr str ++ [0]) (V_strlen str + 1))
    | none => some (b.Put [0] 1)
  else
    match pString with
    | none => some b
    | some str =>
      let nTabCount : Int := if b.m_Flags.AUTO_TABS_DISABLED then 0 else b.m_nTab
      let r : Option (CUtlBuffer × List Nat) :=
        if nTabCount > 0 then
          putStringLoop ((cstr str).length + 1) (if b.WasLastCharacterCR then b.PutTabs else b) str
        else some (b, str)
      match r with
      | none => none
      | some (b1, rest) =>
        if V_strlen rest ≠ 0 then some (b1.Put rest (V_strlen rest)) else some b1

def PutDelimitedCharInternal (b : CUtlBuffer) (pConv : CUtlCharConversion) (c : Nat) : CUtlBuffer :=
  let l := pConv.GetConversionLength c
  if l = 0 then b.PutChar c
  else (b.PutChar pConv.GetEscapeChar).Put (pConv.GetConversionString c) l

def PutDelimitedChar (b : CUtlBuffer) (pConv : Option CUtlCharConversion) (c : Nat) : CUtlBuffer :=
  match pConv with
  | none => b.PutChar c
  | some cv => if ¬ b.IsText then b.PutChar c else b.PutDelimitedCharInternal cv c

/-- The `for` loop of `PutDelimitedString` over the characters of the string. -/
def putDelimitedLoop (pConv : CUtlCharConversion) : List Nat → CUtlBuffer → CUtlBuffer
  | [], b => b
  | c :: rest, b => putDelimitedLoop pConv rest (b.PutDelimitedCharInternal pConv c)

def PutDelimitedString (b : CUtlBuffer) (pConv : Option CUtlCharConversion)
    (pString : Option (List Nat)) : Option CUtlBuffer :=
  match pConv with
  | none => b.PutString pString
  | some cv =>
    if ¬ b.IsText then b.PutString pString
    else
      let b1 := if b.WasLastCharacterCR then b.PutTabs else b
      let b2 := b1.Put cv.GetDelimiter cv.GetDelimiterLength
      let b3 := putDelimitedLoop cv (cstr (pString.getD [])) b2
      let b4 := if b3.WasLastCharacterCR then b3.PutTabs else b3
      some (b4.Put cv.GetDelimiter cv.GetDelimiterLength)

/-! ### Tokens -/

/-- The `while (nSizeRemaining >= nLen)` loop of `GetToken`: the answer tells
whether the token was found, with the buffer at the exit of the loop. -/
def getTokenLoop (pToken : List Nat) (nLen : Int) :
    Nat → CUtlBuffer → Int → Int → Option (Bool × CUtlBuffer)
  | 0, _, _, _ => none
  | fuel + 1, b, nMaxSize, nSizeRemaining =>
    if nSizeRemaining ≥ nLen then
      let bOverFlow : Bool := decide (nSizeRemaining > nMaxSize)
      let nSizeToCheck := if bOverFlow then nMaxSize else nSizeRemaining
      match b.CheckPeekGet 0 nSizeToCheck with
      | (false, b1) => some (false, b1)
      | (true, b1) =>
        let pFoundEnd := V_strnistr (b1.PeekGetPtr 0) pToken nSizeToCheck
        match pFoundEnd with
        | some nOffset =>
          if bOverFlow ∧ (nOffset : Int) = b1.Size - nLen then
            getTokenLoop pToken nLen fuel (b1.SeekGet .SEEK_CURRENT (nSizeToCheck - nLen)) b1.Size
              (nSizeRemaining - nSizeToCheck + nLen)
          else some (true, b1.SeekGet .SEEK_CURRENT ((nOffset : Int) + nLen))
        | none =>
          if nSizeRemaining - nSizeToCheck < nLen then some (false, b1)
          else
            getTokenLoop pToken nLen fuel (b1.SeekGet .SEEK_CURRENT (nSizeToCheck - nLen)) b1.Size
              (nSizeRemaining - nSizeToCheck + nLen)
    else some (false, b)

/-- The answer is `none` when the search does not end within the fuel; the fuel
is enough for every search over a window larger than the token. -/
def GetToken (b : CUtlBuffer) (pToken : List Nat) : Option (Bool × CUtlBuffer) :=
  let nLen := V_strlen pToken
  let nMaxSize0 := b.Size - (b.TellGet - b.m_nOffset)
  let nMaxSize := if nMaxSize0 ≤ nLen then b.Size else nMaxSize0
  let nSizeRemaining := b.TellMaxPut - b.TellGet
  let nGet := b.TellGet
  match getTokenLoop pToken nLen (nSizeRemaining.toNat + 1) b nMaxSize nSizeRemaining with
  | none => none
  | some (true, b1) => some (true, b1)
  | some (false, b1) => some (false, b1.SeekGet .SEEK_HEAD nGet)

/-- The loop that skips white space and comments at the head of `ParseToken`:
the flag is false when the loop leaves through `return -1`. -/
def parseSkipLoop (bParseComments : Bool) : Nat → CUtlBuffer → Option (Bool × CUtlBuffer)
  | 0, _ => none
  | fuel + 1, b =>
    if ¬ b.IsValid then some (false, b)
    else
      match b.EatWhiteSpace with
      | none => none
      | some b1 =>
        if bParseComments then
          match b1.EatCPPComment with
          | none => none
          | some (false, b2) => some (true, b2)
          | some (true, b2) => parseSkipLoop bParseComments fuel b2
        else some (true, b1)

/-- The quoted-string loop of `ParseToken`. -/
def parseQuotedLoop (nMaxLen : Int) : Nat → CUtlBuffer → List Nat → Int →
    Option (Int × List Nat × CUtlBuffer)
  | 0, _, _, _ => none
  | fuel + 1, b, pTokenBuf, nLen =>
    if ¬ b.IsValid then some (nLen, storeAt pTokenBuf nLen 0, b)
    else
      let r := b.GetChar
      if r.1 = 34 ∨ r.1 = 0 then some (nLen, storeAt pTokenBuf nLen 0, r.2)
      else if nLen + 1 = nMaxLen then
        some (nMaxLen, storeAt (storeAt pTokenBuf nLen r.1) nLen 0, r.2)
      else parseQuotedLoop nMaxLen fuel r.2 (storeAt pTokenBuf nLen r.1) (nLen + 1)

/-- The comparison `c <= 32` on a signed `char`: bytes from 128 up are negative. -/
def leSpace (c : Nat) : Bool :=
  decide (c ≤ 32 ∨ 128 ≤ c)

/-- The word loop of `ParseToken`: `c` is the character to store next. -/
def parseWordLoop (pBreaks : characterset_t) (nMaxLen : Int) :
    Nat → CUtlBuffer → List Nat → Int → Nat → Option (Int × List Nat × CUtlBuffer)
  | 0, _, _, _, _ => none
  | fuel + 1, b, pTokenBuf, nLen, c =>
    let buf1 := storeAt pTokenBuf nLen c
    if nLen + 1 = nMaxLen then some (nMaxLen, storeAt buf1 nLen 0, b)
    else
      let r := b.GetChar
      if ¬ r.2.IsValid then some (nLen + 1, storeAt buf1 (nLen + 1) 0, r.2)
      else if IN_CHARACTERSET pBreaks r.1 ∨ r.1 = 34 ∨ leSpace r.1 then
        some (nLen + 1, storeAt buf1 (nLen + 1) 0, r.2.SeekGet .SEEK_CURRENT (-1))
      else parseWordLoop pBreaks nMaxLen fuel r.2 buf1 (nLen + 1) r.1

/-- The overload `ParseToken (pBreaks, pTokenBuf, nMaxLen, bParseComments)`: the
length returned, the token buffer and the buffer state. -/
def ParseToken (b : CUtlBuffer) (pBreaks : characterset_t) (pTokenBuf : List Nat) (nMaxLen : Int)
    (bParseComments : Bool) : Option (Int × List Nat × CUtlBuffer) :=
  let buf0 := storeAt pTokenBuf 0 0
  match parseSkipLoop bParseComments ((b.m_nMaxPut - b.m_Get).toNat + 2) b with
  | none => none
  | some (false, b1) => some (-1, buf0, b1)
  | some (true, b1) =>
    let r := b1.GetChar
    if r.1 = 0 then some (-1, buf0, r.2)
    else if r.1 = 34 then
      parseQuotedLoop nMaxLen ((r.2.m_nMaxPut - r.2.m_Get).toNat + 2) r.2 buf0 0
    else if IN_CHARACTERSET pBreaks r.1 then
      some (1, storeAt (storeAt buf0 0 r.1) 1 0, r.2)
    else parseWordLoop pBreaks nMaxLen ((r.2.m_nMaxPut - r.2.m_Get).toNat + 2) r.2 buf0 0 r.1

end CUtlBuffer

/-! ### Tokens between delimiters -/

namespace CUtlBuffer

/-- The `while (*pStartingDelim)` loop of the overload `ParseToken (pStartingDelim,
pEndingDelim, pString, nMaxLen)`, run over the characters of the starting
delimiter: the flag is false when the loop leaves through `goto parseFailed`. -/
def parseStartLoop : List Nat → CUtlBuffer → Option (Bool × CUtlBuffer)
  | [], b => some (true, b)
  | nCurrChar :: pStartingDelim, b =>
    if ¬ V_isspace nCurrChar then
      let r := b.GetChar
      if toLowerASCII r.1 ≠ toLowerASCII nCurrChar then some (false, r.2)
      else parseStartLoop pStartingDelim r.2
    else
      match b.EatWhiteSpace with
      | none => none
      | some b1 => parseStartLoop pStartingDelim b1

/-- The `for` loop that drops trailing white space from the copy: the value of
`nCharsToCopy` at the exit. -/
def trimLoop (pString : List Nat) : Nat → Nat
  | 0 => 0
  | n + 1 => if ¬ V_isspace (deref (pString.drop n)) then n + 1 else trimLoop pString n

/-- The overload `ParseToken (pStartingDelim, pEndingDelim, pString, nMaxLen)`:
the answer, the destination string and the buffer state.  A null starting
delimiter is `none`.  The store `pString[nCharsToCopy]` with a negative index,
reached only with `nMaxLen < 1`, lands on index 0 here. -/
def ParseTokenDelim (b : CUtlBuffer) (pStartingDelim : Option (List Nat))
    (pEndingDelim pString : List Nat) (nMaxLen : Int) : Option (Bool × List Nat × CUtlBuffer) :=
  let nEndingDelimLen := V_strlen pEndingDelim
  let nStartGet := b.TellGet
  let parseFailed : CUtlBuffer → List Nat → Option (Bool × List Nat × CUtlBuffer) :=
    fun b1 s => some (false, storeAt s 0 0, b1.SeekGet .SEEK_HEAD nStartGet)
  match b.EatWhiteSpace with
  | none => none
  | some b1 =>
    match parseStartLoop (cstr (pStartingDelim.getD [])) b1 with
    | none => none
    | some (false, b2) => parseFailed b2 pString
    | some (true, b2) =>
      match b2.EatWhiteSpace with
      | none => none
      | some b3 =>
        let nTokenStart := b3.TellGet
        match b3.GetToken pEndingDelim with
        | none => none
        | some (false, b4) => parseFailed b4 pString
        | some (true, b4) =>
          let nCurrentGet := b4.TellGet
          let nCharsToCopy0 := nCurrentGet - nEndingDelimLen - nTokenStart
          let nCharsToCopy := if nCharsToCopy0 ≥ nMaxLen then nMaxLen - 1 else nCharsToCopy0
          if nCharsToCopy > 0 then
            let g := (b4.SeekGet .SEEK_HEAD nTokenStart).Get pString nCharsToCopy
            if ¬ g.1.IsValid then parseFailed g.1 g.2
            else
              some (true, storeAt g.2 (trimLoop g.2 nCharsToCopy.toNat) 0,
                g.1.SeekGet .SEEK_HEAD nCurrentGet)
          else some (true, storeAt pString nCharsToCopy 0, b4.SeekGet .SEEK_HEAD nCurrentGet)

end CUtlBuffer

/-! ### Line-ending conversion -/

/-- Index of the first byte equal to `c`, counted from `i`. -/
def findByte (c : Nat) : List Nat → Nat → Option Nat
  | [], _ => none
  | h :: hs, i => if h = c then some i else findByte c hs (i + 1)

/-- Modelled from the spec: `V_strnchr (pStr, c, n)` of strtools, which is not
part of these sources: the index of the first byte `c` within the first `n`
bytes of the NUL-terminated `pStr`, or `none` for the null pointer. -/
def V_strnchr (pStr : List Nat) (c : Nat) (n : Int) : Option Nat :=
  findByte c ((cstr pStr).take n.toNat) 0

namespace CUtlBuffer

/-- Modelled from the spec: the inline `Purge ()` of the header, which is not
part of these sources: cursors, window, high-water mark and error state go back
to zero and owned storage is released ("outBuf will be cleared"). -/
def Purge (b : CUtlBuffer) : CUtlBuffer :=
  { b with m_Get := 0, m_Put := 0, m_nOffset := 0, m_nMaxPut := 0, m_Error := ⟨false, false⟩
           m_Memory := b.m_Memory.Purge }

def EnsureCapacity (b : CUtlBuffer) (num : Int) : CUtlBuffer :=
  let num1 := num + 1
  if b.m_Memory.IsExternallyAllocated then
    if b.IsGrowable ∧ b.m_Memory.NumAllocated < num1 then
      { b with m_Memory := (b.m_Memory.ConvertToGrowableMemory 0).EnsureCapacity num1 }
    else { b with m_Memory := b.m_Memory.EnsureCapacity (num1 - 1) }
  else { b with m_Memory := b.m_Memory.EnsureCapacity num1 }

/-- The `while (nCurrGet < nInCount)` loop of `ConvertCRLF` over the storage
`pBase` of the source: the output buffer and the two cursor deltas at the exit. -/
def convertCRLFLoop (pBase : List Nat) (nInCount : Int) (bFromCRLF : Bool) (nGet nPut : Int) :
    Nat → CUtlBuffer → Int → Int → Int → Option (CUtlBuffer × Int × Int)
  | 0, _, _, _, _ => none
  | fuel + 1, outBuf, nCurrGet, nGetDelta, nPutDelta =>
    if nCurrGet < nInCount then
      let pCurr := ptrAt pBase nCurrGet
      if bFromCRLF then
        match V_strnistr pCurr [13, 10, 0] (nInCount - nCurrGet) with
        | none => some (outBuf.Put pCurr (nInCount - nCurrGet), nGetDelta, nPutDelta)
        | some nBytes =>
          let nCurrGet1 := nCurrGet + (nBytes : Int) + 2
          convertCRLFLoop pBase nInCount bFromCRLF nGet nPut fuel
            ((outBuf.Put pCurr (nBytes : Int)).PutChar 10) nCurrGet1
            (if nGet ≥ nCurrGet1 - 1 then nGetDelta - 1 else nGetDelta)
            (if nPut ≥ nCurrGet1 - 1 then nPutDelta - 1 else nPutDelta)
      else
        match V_strnchr pCurr 10 (nInCount - nCurrGet) with
        | none => some (outBuf.Put pCurr (nInCount - nCurrGet), nGetDelta, nPutDelta)
        | some nBytes =>
          let nCurrGet1 := nCurrGet + (nBytes : Int) + 1
          convertCRLFLoop pBase nInCount bFromCRLF nGet nPut fuel
            (((outBuf.Put pCurr (nBytes : Int)).PutChar 13).PutChar 10) nCurrGet1
            (if nGet ≥ nCurrGet1 then nGetDelta + 1 else nGetDelta)
            (if nPut ≥ nCurrGet1 then nPutDelta + 1 else nPutDelta)
    else some (outBuf, nGetDelta, nPutDelta)

/-- The answer, the source buffer and the output buffer after `ConvertCRLF (outBuf)`. -/
def ConvertCRLF (b outBuf : CUtlBuffer) : Option (Bool × CUtlBuffer × CUtlBuffer) :=
  if ¬ b.IsText ∨ ¬ outBuf.IsText then some (false, b, outBuf)
  else if b.ContainsCRLF = outBuf.ContainsCRLF then some (false, b, outBuf)
  else
    let nInCount := b.TellMaxPut
    let outBuf1 := outBuf.Purge.EnsureCapacity nInCount
    match convertCRLFLoop b.m_Memory.m_pMemory nInCount b.ContainsCRLF b.TellGet b.TellPut
        (nInCount.toNat + 1) outBuf1 0 0 0 with
    | none => none
    | some (outBuf2, nGetDelta, nPutDelta) =>
      some (true, b, (outBuf2.SeekGet .SEEK_HEAD (b.TellGet + nGetDelta)).SeekPut .SEEK_HEAD
        (b.TellPut + nPutDelta))

end CUtlBuffer

/-! ### Formatted reads -/

/-- Value of a digit character in bases up to 36; 36 for any other byte. -/
def digitValue (c : Nat) : Nat :=
  if 48 ≤ c ∧ c ≤ 57 then c - 48
  else if 97 ≤ c ∧ c ≤ 122 then c - 87
  else if 65 ≤ c ∧ c ≤ 90 then c - 55
  else 36

/-- The run of digits at the head of a string: the value accumulated and the
number of digits read. -/
def scanDigits (nRadix : Nat) : List Nat → Nat → Nat → Nat × Nat
  | [], acc, n => (acc, n)
  | c :: p, acc, n =>
    if digitValue c < nRadix then scanDigits nRadix p (acc * nRadix + digitValue c) (n + 1)
    else (acc, n)

/-- Modelled from the spec: `StringToNumber (pStart, &pEnd, nRadix)` of the
header, which is not part of these sources, after the C library conversion it
wraps: leading white space, an optional sign, for base 16 an optional `0x`, then
digits.  The answer is the value and the number of bytes read, 0 when there is
no digit. -/
def StringToNumber (p : List Nat) (nRadix : Nat) : Int × Nat :=
  let nSpace := (p.takeWhile V_isspace).length
  let p1 := p.drop nSpace
  let nSign := if deref p1 = 45 ∨ deref p1 = 43 then 1 else 0
  let p2 := p1.drop nSign
  let nPrefix :=
    if nRadix = 16 ∧ deref p2 = 48 ∧ (deref (p2.drop 1) = 120 ∨ deref (p2.drop 1) = 88) ∧
        digitValue (deref (p2.drop 2)) < 16 then 2 else 0
  let r := scanDigits nRadix (p2.drop nPrefix) 0 0
  if r.2 = 0 then (0, 0)
  else (if deref p1 = 45 then -(r.1 : Int) else (r.1 : Int), nSpace + nSign + nPrefix + r.2)

/-- Conversion of a value to an integer type of `nBits` bits. -/
def wrapInt (bSigned : Bool) (nBits : Nat) (v : Int) : Int :=
  if bSigned then (v + 2 ^ (nBits - 1)) % 2 ^ nBits - 2 ^ (nBits - 1) else v % 2 ^ nBits

/-- Object a pointer of the argument list of `Scanf` points to. -/
inductive ScanArg where
  | int (v : Int)
  | chr (c : Nat)
  | str (pString : List Nat)
  | real (lexeme : List Nat)
deriving DecidableEq, Repr

/-- The character array behind a `char *` argument. -/
def ScanArg.region : ScanArg → List Nat
  | .str pString => pString
  | _ => []

namespace CUtlBuffer

/-- Modelled from the spec: the template `GetTypeText (value, nRadix)` of the
header, which is not part of these sources, for the integer types: the number
at the cursor is read from the bytes a peek of up to 128 bytes grants, and the
cursor moves past it; the answer is false, with the cursor in place, when no
number was read. -/
def GetTypeText (b : CUtlBuffer) (bSigned : Bool) (nBits nRadix : Nat) : Bool × Int × CUtlBuffer :=
  match b.CheckArbitraryPeekGet 0 128 with
  | (false, _, b1) => (false, 0, b1)
  | (true, nLength, b1) =>
    let r := StringToNumber ((b1.PeekGetPtr 0).take nLength.toNat) nRadix
    if r.2 = 0 then (false, wrapInt bSigned nBits r.1, b1)
    else (true, wrapInt bSigned nBits r.1, { b1 with m_Get := b1.m_Get + (r.2 : Int) })

/-- Modelled from the spec: the template `GetTypeText` for `float` and `double`.
The floating-point conversion of the C library is the parameter `strtodLen`,
the number of bytes it reads; the bytes read stand for the value. -/
def GetTypeTextReal (strtodLen : List Nat → Nat) (b : CUtlBuffer) : Bool × List Nat × CUtlBuffer :=
  match b.CheckArbitraryPeekGet 0 128 with
  | (false, _, b1) => (false, [], b1)
  | (true, nLength, b1) =>
    let p := (b1.PeekGetPtr 0).take nLength.toNat
    let n := min (strtodLen p) p.length
    if n = 0 then (false, [], b1)
    else (true, p.take n, { b1 with m_Get := b1.m_Get + (n : Int) })

/-- What one iteration of the loop of `VaScanf` does: it leaves the function
(`return numScanned`, or `break`), or it goes on with the rest of the format. -/
inductive ScanStep where
  | ret (numScanned : Int) (out : List ScanArg) (b : CUtlBuffer)
  | next (pFmt : List Nat) (b : CUtlBuffer) (list out : List ScanArg) (numScanned : Int)

/-- The body of the `while (char c = *pFmt++)` loop of `VaScanf` for the format
character `c`, with `pFmt` the format after it: `list` holds the objects the
remaining arguments point to, `out` the objects written so far. -/
def vaScanfStep (strtodLen : List Nat → Nat) (c : Nat) (pFmt : List Nat) (b : CUtlBuffer)
    (list out : List ScanArg) (numScanned : Int) : Option ScanStep :=
  if b.m_Get ≥ b.TellMaxPut then some (.ret numScanned out (b.setGetOverflow true))
  else if c = 32 then
    match b.EatWhiteSpace with
    | none => none
    | some b1 => some (.next pFmt b1 list out numScanned)
  else if c = 37 then
    match pFmt with
    | [] => some (.ret numScanned out b)
    | type :: pFmt1 =>
      if type = 99 then
        match b.CheckPeekGet 0 1 with
        | (true, b1) =>
          some (.next pFmt1 { b1 with m_Get := b1.m_Get + 1 } list.tail
            (out ++ [.chr (deref (b1.PeekGetPtr 0))]) (numScanned + 1))
        | (false, b1) => some (.ret numScanned (out ++ [.chr 0]) b1)
      else if type = 104 then
        match pFmt1 with
        | [] => some (.ret numScanned out b)
        | t2 :: pFmt2 =>
          if t2 = 100 ∨ t2 = 105 then
            match b.GetTypeText true 16 10 with
            | (false, v, b1) => some (.ret numScanned (out ++ [.int v]) b1)
            | (true, v, b1) =>
              some (.next pFmt2 b1 list.tail (out ++ [.int v]) (numScanned + 1))
          else if t2 = 117 then
            match b.GetTypeText false 16 10 with
            | (false, v, b1) => some (.ret numScanned (out ++ [.int v]) b1)
            | (true, v, b1) =>
              some (.next pFmt2 b1 list.tail (out ++ [.int v]) (numScanned + 1))
          else some (.ret numScanned out b)
      else if type = 73 then
        match pFmt1 with
        | [] => some (.ret numScanned out b)
        | t2 :: pFmt2 =>
          if t2 ≠ 54 then some (.ret numScanned out b)
          else
            match pFmt2 with
            | [] => some (.ret numScanned out b)
            | t3 :: pFmt3 =>
              if t3 ≠ 52 then some (.ret numScanned out b)
              else
                match pFmt3 with
                | [] => some (.ret numScanned out b)
                | t4 :: pFmt4 =>
                  if t4 = 100 then
                    match b.GetTypeText true 64 10 with
                    | (false, v, b1) => some (.ret numScanned (out ++ [.int v]) b1)
                    | (true, v, b1) =>
                      some (.next pFmt4 b1 list.tail (out ++ [.int v]) (numScanned + 1))
                  else if t4 = 117 then
                    match b.GetTypeText false 64 10 with
                    | (false, v, b1) => some (.ret numScanned (out ++ [.int v]) b1)
                    | (true, v, b1) =>
                      some (.next pFmt4 b1 list.tail (out ++ [.int v]) (numScanned + 1))
                  else some (.ret numScanned out b)
      else if type = 105 ∨ type = 100 then
        match b.GetTypeText true 32 10 with
        | (false, v, b1) => some (.ret numScanned (out ++ [.int v]) b1)
        | (true, v, b1) =>
          some (.next pFmt1 b1 list.tail (out ++ [.int v]) (numScanned + 1))
      else if type = 120 then
        match b.GetTypeText false 32 16 with
        | (false, v, b1) => some (.ret numScanned (out ++ [.int v]) b1)
        | (true, v, b1) =>
          some (.next pFmt1 b1 list.tail (out ++ [.int v]) (numScanned + 1))
      else if type = 117 then
        match b.GetTypeText false 32 10 with
        | (false, v, b1) => some (.ret numScanned (out ++ [.int v]) b1)
        | (true, v, b1) =>
          some (.next pFmt1 b1 list.tail (out ++ [.int v]) (numScanned + 1))
      else if type = 108 then
        match pFmt1 with
        | [] => some (.ret numScanned out b)
        | t2 :: pFmt2 =>
          if t2 = 102 then
            match GetTypeTextReal strtodLen b with
            | (false, v, b1) => some (.ret numScanned (out ++ [.real v]) b1)
            | (true, v, b1) =>
              some (.next (t2 :: pFmt2) b1 list.tail (out ++ [.real v]) (numScanned + 1))
          else if t2 = 108 then
            match pFmt2 with
            | [] => some (.ret numScanned out b)
            | t3 :: pFmt3 =>
              if t3 = 100 then
                match b.GetTypeText true 64 10 with
                | (false, v, b1) => some (.ret numScanned (out ++ [.int v]) b1)
                | (true, v, b1) =>
                  some (.next (t3 :: pFmt3) b1 list.tail (out ++ [.int v])
                    (numScanned + 1))
              else some (.ret numScanned out b)
          else some (.ret numScanned out b)
      else if type = 102 then
        match GetTypeTextReal strtodLen b with
        | (false, v, b1) => some (.ret numScanned (out ++ [.real v]) b1)
        | (true, v, b1) =>
          some (.next pFmt1 b1 list.tail (out ++ [.real v]) (numScanned + 1))
      else if type = 115 then
        match b.GetString (list.headD (.str [])).region 0 with
        | none => none
        | some (b1, s) =>
          some (.next pFmt1 b1 list.tail (out ++ [.str s]) (numScanned + 1))
      else some (.ret numScanned out b)
  else
    match b.CheckPeekGet 0 1 with
    | (false, b1) => some (.ret numScanned out b1)
    | (true, b1) =>
      if c ≠ deref (b1.PeekGetPtr 0) then some (.ret numScanned out b1)
      else some (.next pFmt { b1 with m_Get := b1.m_Get + 1 } list out numScanned)

/-- The `while (char c = *pFmt++)` loop of `VaScanf`, run over the characters of
the format.  Every iteration shortens the format, so a fuel above its length is
never used up. -/
def vaScanfLoop (strtodLen : List Nat → Nat) :
    Nat → List Nat → CUtlBuffer → List ScanArg → List ScanArg → Int →
      Option (Int × List ScanArg × CUtlBuffer)
  | 0, _, _, _, _, _ => none
  | _ + 1, [], b, _, out, numScanned => some (numScanned, out, b)
  | fuel + 1, c :: pFmt, b, list, out, numScanned =>
    match vaScanfStep strtodLen c pFmt b list out numScanned with
    | none => none
    | some (.ret numScanned1 out1 b1) => some (numScanned1, out1, b1)
    | some (.next pFmt1 b1 list1 out1 numScanned1) =>
      vaScanfLoop strtodLen fuel pFmt1 b1 list1 out1 numScanned1

/-- The count returned, the objects written through the arguments, in order, and
the buffer state; `none` when a scan does not end within its fuel. -/
def VaScanf (strtodLen : List Nat → Nat) (b : CUtlBuffer) (pFmt : List Nat) (list : List ScanArg) :
    Option (Int × List ScanArg × CUtlBuffer) :=
  if b.m_Error ≠ ⟨false, false⟩ ∨ ¬ b.IsText then some (0, [], b)
  else vaScanfLoop strtodLen ((cstr pFmt).length + 1) (cstr pFmt) b list [] 0

def Scanf (strtodLen : List Nat → Nat) (b : CUtlBuffer) (pFmt : List Nat) (list : List ScanArg) :
    Option (Int × List ScanArg × CUtlBuffer) :=
  b.VaScanf strtodLen pFmt list

end CUtlBuffer

/-! ## The string splitter (`splitstring.cpp`) -/

/-- Modelled from the spec: `V_stristr (pStr, pSearch)` of strtools, which is not part of
these sources: the index of the first occurrence of `pSearch` in the NUL-terminated `pStr`,
compared without regard to ASCII case, or `none` for the null pointer; an empty `pSearch`
is never found. -/
def V_stristr (pStr pSearch : List Nat) : Option Nat :=
  if cstr pSearch = [] then none else findCI (cstr pSearch) (cstr pStr) 0

/-- The splitter: the duplicate of the source string and, for the vector of `char *` it
derives from, the offset of each element into the duplicate. -/
structure CSplitString where
  m_szBuffer : List Nat
  m_pElements : List Nat
deriving DecidableEq, Repr

namespace CSplitString

/-- The `for` loop of `Construct` over the separators, from separator `i` on; the state is
the pair of `iFirstSeparator` and `pFirstSeparator`, the pointer as an offset from
`pCurPos`, or `none` while `pFirstSeparator` is null. -/
def firstSeparatorLoop (pCurPos : List Nat) :
    List (List Nat) → Nat → Option (Nat × Nat) → Option (Nat × Nat)
  | [], _, first => first
  | pSeparator :: rest, i, first =>
    match V_stristr pCurPos pSeparator with
    | none => firstSeparatorLoop pCurPos rest (i + 1) first
    | some pTest =>
      match first with
      | none => firstSeparatorLoop pCurPos rest (i + 1) (some (i, pTest))
      | some (_, pFirstSeparator) =>
        if pTest < pFirstSeparator then firstSeparatorLoop pCurPos rest (i + 1) (some (i, pTest))
        else firstSeparatorLoop pCurPos rest (i + 1) first

/-- The `while (1)` loop of `Construct`; `pCurPos` is an offset into `pString`. -/
def constructLoop (pString : List Nat) (pSeparators : List (List Nat)) :
    Nat → Nat → CSplitString → Option CSplitString
  | 0, _, _ => none
  | fuel + 1, pCurPos, r =>
    match firstSeparatorLoop (pString.drop pCurPos) pSeparators 0 none with
    | some (iFirstSeparator, pFirstSeparator) =>
      let separatorLen := V_strlen (pSeparators.getD iFirstSeparator [])
      let r1 : CSplitString :=
        if pFirstSeparator > 0 then
          { m_szBuffer := storeAt r.m_szBuffer ((pCurPos + pFirstSeparator : Nat) : Int) 0
            m_pElements := r.m_pElements ++ [pCurPos] }
        else r
      constructLoop pString pSeparators fuel (pCurPos + pFirstSeparator + separatorLen.toNat) r1
    | none =>
      if V_strlen (pString.drop pCurPos) ≠ 0 then
        some { r with m_pElements := r.m_pElements ++ [pCurPos] }
      else some r

/-- `Construct (pString, pSeparators, nSeparators)`: the duplicate holds the
`nOriginalStringLength + 1` bytes of the source string, terminator included. -/
def Construct (pString : List Nat) (pSeparators : List (List Nat)) : Option CSplitString :=
  let nOriginalStringLength := V_strlen pString
  constructLoop pString pSeparators (nOriginalStringLength.toNat + 1) 0
    { m_szBuffer := cstr pString ++ [0], m_pElements := [] }

/-- The strings the elements point to, in order. -/
def Strings (r : CSplitString) : List (List Nat) :=
  r.m_pElements.map (fun p => cstr (r.m_szBuffer.drop p))

end CSplitString

/-! ## Specification vocabulary -/

/-- A writable buffer over owned storage whose put cursor and high-water mark
both sit at the end of the content `c`, stored from index 0. -/
structure WritableAt (b : CUtlBuffer) (c : List Nat) : Prop where
  noPutErr : b.m_Error.PUT_OVERFLOW = false
  writable : b.m_Flags.READ_ONLY = false
  owned : 0 ≤ b.m_Memory.m_nGrowSize
  offset : b.m_nOffset = 0
  put : b.m_Put = (c.length : Int)
  maxPut : b.m_nMaxPut = (c.length : Int)
  content : c <+: b.m_Memory.m_pMemory

/-- What a put-side operation leaves alone. -/
structure PutFrame (b b1 : CUtlBuffer) : Prop where
  get : b1.m_Get = b.m_Get
  error : b1.m_Error = b.m_Error
  flags : b1.m_Flags = b.m_Flags
  tab : b1.m_nTab = b.m_nTab
  getFunc : b1.m_GetOverflowFunc = b.m_GetOverflowFunc
  putFunc : b1.m_PutOverflowFunc = b.m_PutOverflowFunc

/-- A fully materialised buffer: the window starts at 0 and the storage begins
with the `max_put` bytes of content `c`. -/
structure Loaded (b : CUtlBuffer) (c : List Nat) : Prop where
  offset : b.m_nOffset = 0
  maxPut : b.m_nMaxPut = (c.length : Int)
  content : c <+: b.m_Memory.m_pMemory

/-- The position a seek asks for. -/
def seekPos (cur maxPut : Int) (type : SeekType_t) (offset : Int) : Int :=
  match type with
  | .SEEK_HEAD => offset
  | .SEEK_CURRENT => cur + offset
  | .SEEK_TAIL => maxPut - offset

/-- The storage `m2` is `m1` with fresh bytes appended. -/
def CUtlMemory.Extends (m1 m2 : CUtlMemory) : Prop :=
  ∃ k : Nat, m2 = { m1 with m_pMemory := m1.m_pMemory ++ List.replicate k m1.uninit }

/-- Every replacement length of the table is non-negative. -/
def CUtlCharConversion.LengthsOk (cv : CUtlCharConversion) : Prop :=
  ∀ c : Nat, 0 ≤ (cv.m_pReplacements c).m_nLength

/-- The conversion table was built by one of the three constructors. -/
def CUtlCharConversion.Constructed (cv : CUtlCharConversion) : Prop :=
  ∃ (nEscapeChar : Nat) (pDelimiter : List Nat) (pArray : List ConversionArray_t),
    cv = CUtlCharConversion.new nEscapeChar pDelimiter pArray ∨
    cv = CUtlCharConversion.newCString nEscapeChar pDelimiter pArray ∨
    cv = CUtlCharConversion.newNoEsc nEscapeChar pDelimiter pArray

/-- The token `t` occurs in `text` at index `i`, compared without regard to ASCII case. -/
def OccursAt (t text : List Nat) (i : Nat) : Prop :=
  i + t.length ≤ text.length ∧
    ((text.drop i).take t.length).map toLowerASCII = t.map toLowerASCII

/-- The bytes `PutDelimitedString` writes for one character of the source. -/
def encodeChar (cv : CUtlCharConversion) (c : Nat) : List Nat :=
  if cv.GetConversionLength c = 0 then [c]
  else cv.GetEscapeChar :: cv.GetConversionString c

/-- The bytes `PutDelimitedString` writes for a string. -/
def encodeString (cv : CUtlCharConversion) (s : List Nat) : List Nat :=
  cv.GetDelimiter ++ s.flatMap (encodeChar cv) ++ cv.GetDelimiter

/-- The table with the one-byte delimiter `d` encodes the character `c` reversibly:
either `c` has no replacement and is neither the delimiter nor the escape byte, or
the reverse lookup of its replacement string, followed by anything, gives `c` back. -/
def CharOk (cv : CUtlCharConversion) (d c : Nat) : Prop :=
  c ≠ 0 ∧
  ((cv.GetConversionLength c = 0 ∧ c ≠ d ∧ c ≠ cv.GetEscapeChar) ∨
   (0 < cv.GetConversionLength c ∧
    ((cv.GetConversionString c).length : Int) = cv.GetConversionLength c ∧
    0 < cv.MaxConversionLength ∧ cv.GetEscapeChar ≠ d ∧ cv.GetEscapeChar ≠ 0 ∧
    ∀ rest : List Nat,
      cv.FindConversion (cv.GetConversionString c ++ rest) = (c, cv.GetConversionLength c)))

/-- A text buffer ready for reading: fully materialised content `e`, no error
set, default get hook. -/
structure Readable (b : CUtlBuffer) (e : List Nat) : Prop where
  loaded : Loaded b e
  error : b.m_Error = ⟨false, false⟩
  getFunc : b.m_GetOverflowFunc = .GetOverflow
  text : b.m_Flags.TEXT_BUFFER = true

/-- The buffer with its get cursor moved to `p`. -/
def CUtlBuffer.atGet (b : CUtlBuffer) (p : Int) : CUtlBuffer :=
  { b with m_Get := p }

/-- A byte of a plain text input: ASCII, not the double quote, and either white
space or greater than space. -/
@[reducible] def PlainByte (c : Nat) : Prop :=
  c ≠ 34 ∧ c < 128 ∧ (V_isspace c = true ∨ 32 < c)

/-- Tokens of the claim about `ParseToken` with a break set, in the words of the
specification: a token is closed when `cur`, the run read so far, is not empty. -/
def flushRun (cur : List Nat) : List (List Nat) :=
  if cur = [] then [] else [cur]

/-- Tokens in the words of the specification: one token per break-set byte, that
byte alone, and one token per maximal run of bytes greater than space and not in
the break set; `cur` is the run read so far. -/
def specTokensAux (pBreaks : characterset_t) : List Nat → List Nat → List (List Nat)
  | cur, [] => flushRun cur
  | cur, c :: rest =>
    if IN_CHARACTERSET pBreaks c then flushRun cur ++ [c] :: specTokensAux pBreaks [] rest
    else if 32 < c then specTokensAux pBreaks (cur ++ [c]) rest
    else flushRun cur ++ specTokensAux pBreaks [] rest

/-- Tokens of an input in the words of the specification. -/
def specTokens (pBreaks : characterset_t) (input : List Nat) : List (List Nat) :=
  specTokensAux pBreaks [] input

/-- Repeated calls of `ParseToken (pBreaks, buf, nMaxLen, false)` on the same token
buffer, until a call returns -1: the lengths returned with the tokens read. -/
def parseAll (pBreaks : characterset_t) (nMaxLen : Int) :
    Nat → CUtlBuffer → List Nat → Option (List (Int × List Nat) × CUtlBuffer × List Nat)
  | 0, _, _ => none
  | fuel + 1, b, pTokenBuf =>
    match b.ParseToken pBreaks pTokenBuf nMaxLen false with
    | none => none
    | some (n, buf, b1) =>
      if n = -1 then some ([], b1, buf)
      else (parseAll pBreaks nMaxLen fuel b1 buf).map (fun r => ((n, cstr buf) :: r.1, r.2))

/-- The break set `{',', '='}`. -/
def commaEquals : characterset_t :=
  fun c => c == 44 || c == 61

/-- The text `  key = value, next`. -/
def keyValueText : List Nat :=
  [32, 32, 107, 101, 121, 32, 61, 32, 118, 97, 108, 117, 101, 44, 32, 110, 101, 120, 116]

/-- A writable buffer over four bytes of caller memory that cannot grow. -/
def fixedFour : CUtlBuffer :=
  CUtlBuffer.newExternal [205, 205, 205, 205] ⟨false, false, false, false, false⟩ 205

/-- A read-only view over three bytes whose get cursor was moved to 1. -/
def threeBytesAtOne : CUtlBuffer :=
  (CUtlBuffer.newExternal [10, 20, 30] ⟨false, false, false, true, false⟩ 205).SeekGet .SEEK_HEAD 1

/-- A text buffer holding the whole of `text`, read-only. -/
def wholeText (text : List Nat) : CUtlBuffer :=
  CUtlBuffer.newExternal text ⟨true, false, false, true, false⟩ 205

/-- A streaming text buffer over `text` that materialises a window of `w` bytes,
filled from the start of the text. -/
def windowedText (text : List Nat) (w : Nat) : CUtlBuffer :=
  { wholeText text with
    m_Memory := { m_pMemory := text.take w ++ List.replicate (w - text.length) 205,
                  m_nGrowSize := 0, uninit := 205 }
    m_GetOverflowFunc := .StreamGetOverflow text }

/-- The starting delimiter matched against the head of a text, in the words of the
specification: without regard to ASCII case, each white-space byte of the pattern
matching any run of white space; the answer is the text left after the match. -/
def matchStart : List Nat → List Nat → Option (List Nat)
  | [], text => some text
  | p :: ps, text =>
    if V_isspace p then matchStart ps (text.dropWhile V_isspace)
    else
      match text with
      | [] => none
      | x :: rest => if toLowerASCII x = toLowerASCII p then matchStart ps rest else none

/-- A string with its trailing white space removed. -/
def trimTrailing (s : List Nat) : List Nat :=
  (s.reverse.dropWhile V_isspace).reverse

/-- A text with every line feed replaced by carriage return, line feed. -/
def toCRLF : List Nat → List Nat
  | [] => []
  | c :: rest => if c = 10 then 13 :: 10 :: toCRLF rest else c :: toCRLF rest

/-- Number of line feeds of a text. -/
def countLF (s : List Nat) : Nat :=
  s.count 10

/-- An output buffer for a conversion: a writable text buffer over owned storage,
with no indentation pending and the default get hook. -/
structure OutputReady (o : CUtlBuffer) : Prop where
  text : o.m_Flags.TEXT_BUFFER = true
  writable : o.m_Flags.READ_ONLY = false
  owned : 0 ≤ o.m_Memory.m_nGrowSize
  tab : o.m_nTab = 0
  getFunc : o.m_GetOverflowFunc = .GetOverflow

/-- Decimal digits of a number, least significant first, as characters. -/
def digitsRev : Nat → Nat → List Nat
  | 0, _ => []
  | fuel + 1, n => if n < 10 then [48 + n] else (48 + n % 10) :: digitsRev fuel (n / 10)

/-- Decimal rendering of a natural number. -/
def renderNat (n : Nat) : List Nat :=
  (digitsRev (n + 1) n).reverse

/-- Decimal rendering of an integer: a minus sign for a negative value, then the digits. -/
def renderInt (a : Int) : List Nat :=
  if a < 0 then 45 :: renderNat a.natAbs else renderNat a.natAbs

/-- One step of a put-side session: a put of `size` bytes from `pMem`, or a put seek. -/
inductive PutOp where
  | put (pMem : List Nat) (size : Int)
  | seekPut (type : SeekType_t) (offset : Int)

/-- What the operation does to a buffer. -/
def PutOp.run (b : CUtlBuffer) : PutOp → CUtlBuffer
  | .put pMem size => b.Put pMem size
  | .seekPut type offset => b.SeekPut type offset

/-- A session: the operations applied in order. -/
def CUtlBuffer.runOps (b : CUtlBuffer) (ops : List PutOp) : CUtlBuffer :=
  ops.foldl PutOp.run b

/-- The put position the operation asks for, from the put position `p` and the largest
position `hi` reached so far. -/
def PutOp.cursor (p hi : Int) : PutOp → Int
  | .put _ size => p + size
  | .seekPut type offset => seekPos p hi type offset

/-- The operation stays inside the storage model: a put copies a non-negative number of
bytes that its source holds, a seek asks for a non-negative position. -/
def PutOp.InRange (p hi : Int) : PutOp → Prop
  | .put pMem size => 0 ≤ size ∧ size ≤ (pMem.length : Int)
  | .seekPut type offset => 0 ≤ seekPos p hi type offset

/-- The put positions a session asks for, one per operation. -/
def cursors (p hi : Int) : List PutOp → List Int
  | [] => []
  | op :: rest => op.cursor p hi :: cursors (op.cursor p hi) (max hi (op.cursor p hi)) rest

/-- Every operation of the session stays inside the storage model. -/
def OpsInRange (p hi : Int) : List PutOp → Prop
  | [] => True
  | op :: rest => op.InRange p hi ∧ OpsInRange (op.cursor p hi) (max hi (op.cursor p hi)) rest

/-- A writable buffer over owned storage, window base 0, whose put cursor lies between 0
and the high-water mark and whose storage holds a 0 at the high-water mark unless that
mark is 0. -/
structure Terminated (b : CUtlBuffer) : Prop where
  noPutErr : b.m_Error.PUT_OVERFLOW = false
  writable : b.m_Flags.READ_ONLY = false
  owned : 0 ≤ b.m_Memory.m_nGrowSize
  offset : b.m_nOffset = 0
  putLo : 0 ≤ b.m_Put
  putHi : b.m_Put ≤ b.m_nMaxPut
  mark : b.m_nMaxPut = 0 ∨ b.m_Memory.m_pMemory.get? b.m_nMaxPut.toNat = some 0

/-- A session: put `abc`, seek back to position 1, put `x`. -/
def patchSession : List PutOp :=
  [.put [97, 98, 99] 3, .seekPut .SEEK_HEAD 1, .put [120] 1]

/-- A literal separator occurrence at the head of a text: the same bytes. -/
def literalAt (sep r : List Nat) : Bool :=
  sep.isPrefixOf r

/-- The token gathered so far, when it is not empty. -/
def flushToken (acc : List Nat) : List (List Nat) :=
  if acc = [] then [] else [acc]

/-- The substrings of a text between consecutive separator occurrences, left to right, in
the words of the specification; `occurs sep r` tells whether the separator occurs at the
head of `r`.  The text is walked byte by byte: `skip` bytes of a separator are still to be
passed, `acc` is the substring gathered since the last separator; among the separators
that occur at a position the first listed is taken. -/
def splitAux (occurs : List Nat → List Nat → Bool) (seps : List (List Nat)) :
    List Nat → Nat → List Nat → List (List Nat)
  | [], _, acc => flushToken acc
  | _ :: r, skip + 1, acc => splitAux occurs seps r skip acc
  | x :: r, 0, acc =>
    match seps.find? (fun sep => occurs sep (x :: r)) with
    | some sep => flushToken acc ++ splitAux occurs seps r (sep.length - 1) []
    | none => splitAux occurs seps r 0 (acc ++ [x])

/-- The non-empty substrings of `s` between consecutive separator occurrences. -/
def splitOn (occurs : List Nat → List Nat → Bool) (seps : List (List Nat)) (s : List Nat) :
    List (List Nat) :=
  splitAux occurs seps s 0 []

/-- The answer of the separator scan, in the words of the specification: nothing when no
separator is found; otherwise the index `i` of a separator and the position `t` of its
first occurrence, such that no separator occurs earlier and no separator listed before
`i` occurs as early. -/
def IsFirstSeparator (found : List Nat → Option Nat) (seps : List (List Nat)) :
    Option (Nat × Nat) → Prop
  | none => ∀ sep ∈ seps, found sep = none
  | some (i, t) =>
    ∃ sep0, seps.get? i = some sep0 ∧ found sep0 = some t ∧
      ∀ (j : Nat) (sep : List Nat) (u : Nat), seps.get? j = some sep → found sep = some u →
        t ≤ u ∧ (j < i → t < u)

/-- One operation of a session on a buffer: a put, a put seek, a get, an open-ended get
or a get seek. -/
inductive BufOp where
  | put (pMem : List Nat) (size : Int)
  | seekPut (type : SeekType_t) (offset : Int)
  | get (pMem : List Nat) (size : Int)
  | getUpTo (pMem : List Nat) (nSize : Int)
  | seekGet (type : SeekType_t) (offset : Int)

/-- The buffer after the operation. -/
def BufOp.run (b : CUtlBuffer) : BufOp → CUtlBuffer
  | .put pMem size => b.Put pMem size
  | .seekPut type offset => b.SeekPut type offset
  | .get pMem size => (b.Get pMem size).1
  | .getUpTo pMem nSize => (b.GetUpTo pMem nSize).2.1
  | .seekGet type offset => b.SeekGet type offset

/-- The buffer after the operations of a session, applied in order. -/
def CUtlBuffer.runBufOps (b : CUtlBuffer) (ops : List BufOp) : CUtlBuffer :=
  ops.foldl BufOp.run b

/-- The put positions a session reaches, one after each operation. -/
def putsReached (b : CUtlBuffer) : List BufOp → List Int
  | [] => []
  | op :: rest => (op.run b).m_Put :: putsReached (op.run b) rest

/-- The buffer was produced by one of the two constructors. -/
def CUtlBuffer.FromConstructor (b : CUtlBuffer) : Prop :=
  (∃ (growSize initSize : Int) (nFlags : BufferFlags_t) (uninit : Nat),
    b = CUtlBuffer.new growSize initSize nFlags uninit) ∨
  (∃ (pBuffer : List Nat) (nFlags : BufferFlags_t) (uninit : Nat),
    b = CUtlBuffer.newExternal pBuffer nFlags uninit)

/-- The cursor invariant: the put cursor is at or below the high-water mark, and so is the
get cursor whenever GET_OVERFLOW is clear. -/
structure CursorsOk (b : CUtlBuffer) : Prop where
  putLe : b.m_Put ≤ b.m_nMaxPut
  getLe : b.m_Error.GET_OVERFLOW = false → b.m_Get ≤ b.m_nMaxPut

/-- A session: put `abc`, seek the put cursor to 1, read two bytes, seek the get cursor past
the end, put `x`. -/
def mixedSession : List BufOp :=
  [.put [97, 98, 99] 3, .seekPut .SEEK_HEAD 1, .get [7, 7] 2, .seekGet .SEEK_HEAD 9,
    .put [120] 1]

/-- Writing a list of strings in order with `PutString`, each handed over as a
NUL-terminated string. -/
def CUtlBuffer.putStrings (b : CUtlBuffer) : List (List Nat) → Option CUtlBuffer
  | [] => some b
  | s :: ss =>
    match b.PutString (some (s ++ [0])) with
    | none => none
    | some b1 => b1.putStrings ss

/-- Calling `GetString` `k` times with the destination `dst` of capacity `m`; the answer
carries the final buffer and the strings left in the destination, in order. -/
def CUtlBuffer.getStrings (b : CUtlBuffer) (dst : List Nat) (m : Int) :
    Nat → Option (CUtlBuffer × List (List Nat))
  | 0 => some (b, [])
  | k + 1 =>
    match b.GetString dst m with
    | none => none
    | some (b1, out) =>
      match b1.getStrings dst m k with
      | none => none
      | some (b2, outs) => some (b2, cstr out :: outs)

/-- The bytes a list of strings takes when each is followed by a NUL. -/
def terminatedBytes (ss : List (List Nat)) : List Nat :=
  ss.flatMap (fun s => s ++ [0])

/-- The text `a`, two line feeds, `b`. -/
def twoLines : List Nat :=
  [97, 10, 10, 98]

/-- A fresh growable text buffer, flagged for CRLF or not, with a tab depth of 1. -/
def indentedOutput (crlf : Bool) : CUtlBuffer :=
  { CUtlBuffer.new 0 0 ⟨true, false, crlf, false, false⟩ 205 with m_nTab := 1 }

/-- A read-only text view, flagged for CRLF, over eight bytes. -/
def readOnlyOutput : CUtlBuffer :=
  CUtlBuffer.newExternal [1, 2, 3, 4, 5, 6, 7, 8] ⟨true, false, true, true, false⟩ 205

/-- A writable text buffer, flagged for CRLF, over four bytes of caller memory that
cannot grow. -/
def fixedFourText : CUtlBuffer :=
  CUtlBuffer.newExternal [1, 2, 3, 4] ⟨true, false, true, false, false⟩ 205

/-- The round trip of a text: `A` converted into `B`, and what `B` then holds converted
into `C`; the answer is `C` after the second conversion. -/
def crlfRoundTrip (A B C : CUtlBuffer) : Option CUtlBuffer :=
  match A.ConvertCRLF B with
  | none => none
  | some (_, _, B1) =>
    match B1.ConvertCRLF C with
    | none => none
    | some (_, _, C1) => some C1

/-! ## Facts about the allocator -/

namespace CUtlMemory

theorem doubleUntil_ge (fuel : Nat) : ∀ n target : Nat, 0 < n → target ≤ n + fuel →
    target ≤ doubleUntil fuel n target := by
  induction fuel with
  | zero => intro n target _ h; simpa [doubleUntil] using h
  | succ k ih =>
    intro n target hn h
    unfold doubleUntil
    split
    · exact ih (n * 2) target (by omega) (by omega)
    · omega

theorem CalcNewAllocationCount_gt (n g : Nat) : n < CalcNewAllocationCount n g (n + 1) := by
  unfold CalcNewAllocationCount
  split
  · rename_i hg
    have h := Nat.lt_mul_div_succ n (Nat.pos_of_ne_zero hg)
    simp only [Nat.add_sub_cancel]
    rw [Nat.mul_comm, Nat.add_comm]
    exact h
  · have h : n + 1 ≤ doubleUntil (n + 1) (if n = 0 then 32 else n) (n + 1) := by
      apply doubleUntil_ge
      · split <;> omega
      · omega
    omega

theorem Extends_refl (m : CUtlMemory) : Extends m m :=
  ⟨0, by simp⟩

theorem Extends_trans {m1 m2 m3 : CUtlMemory} (h1 : Extends m1 m2) (h2 : Extends m2 m3) :
    Extends m1 m3 := by
  obtain ⟨k1, rfl⟩ := h1
  obtain ⟨k2, rfl⟩ := h2
  exact ⟨k1 + k2, by simp [List.append_assoc]⟩

theorem Grow_extends (m : CUtlMemory) : Extends m m.Grow := by
  unfold Grow
  split
  · exact Extends_refl m
  · exact ⟨_, rfl⟩

theorem Grow_length (m : CUtlMemory) (h : 0 ≤ m.m_nGrowSize) :
    m.m_pMemory.length < m.Grow.m_pMemory.length := by
  have hg := CalcNewAllocationCount_gt m.m_pMemory.length m.m_nGrowSize.toNat
  have hx : m.IsExternallyAllocated = false := by
    simp [IsExternallyAllocated, h]
  unfold Grow
  rw [if_neg (by simp [hx])]
  show m.m_pMemory.length < (m.m_pMemory ++ List.replicate _ m.uninit).length
  rw [List.length_append, List.length_replicate]
  omega

theorem growLoop_extends (fuel : Nat) : ∀ (m : CUtlMemory) (target : Int),
    Extends m (growLoop fuel m target) := by
  induction fuel with
  | zero => intro m _; exact Extends_refl m
  | succ k ih =>
    intro m target
    unfold growLoop
    split
    · exact Extends_trans (Grow_extends m) (ih _ _)
    · exact Extends_refl m

theorem growLoop_length (fuel : Nat) : ∀ (m : CUtlMemory) (target : Int),
    0 ≤ m.m_nGrowSize → target ≤ (m.m_pMemory.length : Int) + fuel →
    target ≤ ((growLoop fuel m target).m_pMemory.length : Int) := by
  induction fuel with
  | zero => intro m target _ h; simpa [growLoop] using h
  | succ k ih =>
    intro m target hg h
    unfold growLoop
    split
    · have h1 := Grow_length m hg
      obtain ⟨j, hj⟩ := Grow_extends m
      apply ih
      · rw [hj]; exact hg
      · push_cast at h; omega
    · rename_i hn
      simp only [NumAllocated] at hn
      omega

end CUtlMemory

/-! ## Facts about byte regions -/

theorem memcpy_full (dst src : List Nat) :
    memcpy dst src (src.length : Int) = src ++ dst.drop src.length := by
  simp [memcpy]

theorem memcpyAt_append (c t src : List Nat) :
    memcpyAt (c ++ t) (c.length : Int) src (src.length : Int) = c ++ src ++ t.drop src.length := by
  simp [memcpyAt, memcpy]

theorem storeAt_append (c t : List Nat) (v : Nat) :
    storeAt (c ++ t) (c.length : Int) v = c ++ t.set 0 v := by
  simp [storeAt, List.set_append]

theorem cstr_append_of_nonzero (a rest : List Nat) (h : ∀ x ∈ a, x ≠ 0) :
    cstr (a ++ rest) = a ++ cstr rest := by
  induction a with
  | nil => rfl
  | cons x xs ih =>
    have hx : x ≠ 0 := h x (List.mem_cons_self _ _)
    have hxs : ∀ y ∈ xs, y ≠ 0 := fun y hy => h y (List.mem_cons_of_mem _ hy)
    simp only [cstr, List.cons_append, List.takeWhile_cons, bne_iff_ne, ne_eq, hx,
      not_false_eq_true, decide_True, if_true, List.cons.injEq, true_and]
    exact ih hxs

theorem cstr_of_nonzero (a : List Nat) (h : ∀ x ∈ a, x ≠ 0) : cstr a = a := by
  have := cstr_append_of_nonzero a [] h
  simpa [cstr] using this

theorem V_strlen_of_nonzero (a : List Nat) (h : ∀ x ∈ a, x ≠ 0) :
    V_strlen a = (a.length : Int) := by
  rw [V_strlen, cstr_of_nonzero a h]

/-! ## Facts about the case-insensitive search -/

theorem ciPrefix_iff (t : List Nat) : ∀ h : List Nat,
    ciPrefix t h = true ↔
      t.length ≤ h.length ∧ (h.take t.length).map toLowerASCII = t.map toLowerASCII := by
  induction t with
  | nil => intro h; simp [ciPrefix]
  | cons p ps ih =>
    intro h
    cases h with
    | nil => simp [ciPrefix]
    | cons x xs =>
      simp only [ciPrefix, Bool.and_eq_true, beq_iff_eq, ih xs, List.length_cons,
        Nat.add_le_add_iff_right, List.take_succ_cons, List.map_cons, List.cons.injEq]
      constructor
      · rintro ⟨h1, h2, h3⟩
        exact ⟨h2, h1.symm, h3⟩
      · rintro ⟨h2, h1, h3⟩
        exact ⟨h1.symm, h2, h3⟩

theorem ciPrefix_drop_iff (t text : List Nat) (i : Nat) (ht : t ≠ []) :
    ciPrefix t (text.drop i) = true ↔ OccursAt t text i := by
  have hpos : 0 < t.length := List.length_pos.mpr ht
  rw [ciPrefix_iff, OccursAt, List.length_drop]
  constructor
  · rintro ⟨h1, h2⟩
    exact ⟨by omega, h2⟩
  · rintro ⟨h1, h2⟩
    exact ⟨by omega, h2⟩

theorem OccursAt_cons_succ (t hs : List Nat) (h : Nat) (i : Nat) :
    OccursAt t (h :: hs) (i + 1) ↔ OccursAt t hs i := by
  simp only [OccursAt, List.length_cons, List.drop_succ_cons]
  constructor
  · rintro ⟨h1, h2⟩
    exact ⟨by omega, h2⟩
  · rintro ⟨h1, h2⟩
    exact ⟨by omega, h2⟩

/-- The search answers the first occurrence, or nothing when there is none. -/
theorem findCI_spec (t : List Nat) (ht : t ≠ []) : ∀ (text : List Nat) (k : Nat),
    (findCI t text k = none ∧ ∀ i, ¬ OccursAt t text i) ∨
    (∃ i, findCI t text k = some (k + i) ∧ OccursAt t text i ∧ ∀ j, j < i → ¬ OccursAt t text j) := by
  have hpos : 0 < t.length := List.length_pos.mpr ht
  intro text
  induction text with
  | nil =>
    intro k
    left
    refine ⟨rfl, ?_⟩
    intro i hi
    have := hi.1
    simp only [List.length_nil] at this
    omega
  | cons h hs ih =>
    intro k
    unfold findCI
    by_cases hc : ciPrefix t (h :: hs) = true
    · right
      refine ⟨0, by rw [if_pos hc]; rfl, ?_, fun j hj => by omega⟩
      have := (ciPrefix_drop_iff t (h :: hs) 0 ht).mp (by simpa using hc)
      exact this
    · rw [if_neg hc]
      have h0 : ¬ OccursAt t (h :: hs) 0 := by
        intro hh
        exact hc ((ciPrefix_drop_iff t (h :: hs) 0 ht).mpr hh)
      rcases ih (k + 1) with ⟨h1, h2⟩ | ⟨i, h1, h2, h3⟩
      · left
        refine ⟨h1, ?_⟩
        intro i
        cases i with
        | zero => exact h0
        | succ i => rw [OccursAt_cons_succ]; exact h2 i
      · right
        refine ⟨i + 1, by rw [h1]; congr 1; omega, (OccursAt_cons_succ t hs h i).mpr h2, ?_⟩
        intro j hj
        cases j with
        | zero => exact h0
        | succ j => rw [OccursAt_cons_succ]; exact h3 j (by omega)

/-! ## Facts about the put side -/

namespace CUtlBuffer

theorem PutFrame_refl (b : CUtlBuffer) : PutFrame b b :=
  ⟨rfl, rfl, rfl, rfl, rfl, rfl⟩

theorem PutFrame_trans {b1 b2 b3 : CUtlBuffer} (h1 : PutFrame b1 b2) (h2 : PutFrame b2 b3) :
    PutFrame b1 b3 :=
  ⟨h2.get.trans h1.get, h2.error.trans h1.error, h2.flags.trans h1.flags,
    h2.tab.trans h1.tab, h2.getFunc.trans h1.getFunc, h2.putFunc.trans h1.putFunc⟩

/-- On owned writable storage the put check succeeds, growing the storage when needed. -/
theorem CheckPut_owned (b : CUtlBuffer) (n : Int)
    (he : b.m_Error.PUT_OVERFLOW = false) (hr : b.m_Flags.READ_ONLY = false)
    (hg : 0 ≤ b.m_Memory.m_nGrowSize) :
    ∃ m1 : CUtlMemory, b.CheckPut n = (true, { b with m_Memory := m1 }) ∧
      CUtlMemory.Extends b.m_Memory m1 ∧
      (b.m_nOffset ≤ b.m_Put → b.m_Put - b.m_nOffset + n ≤ (m1.m_pMemory.length : Int)) := by
  have hx : b.m_Memory.IsExternallyAllocated = false := by
    simp [CUtlMemory.IsExternallyAllocated, hg]
  unfold CheckPut
  rw [if_neg (by simp [he, IsReadOnly, hr])]
  split
  · refine ⟨CUtlMemory.growLoop (b.m_Put - b.m_nOffset + n).toNat b.m_Memory
      (b.m_Put - b.m_nOffset + n), ?_, CUtlMemory.growLoop_extends _ _ _, ?_⟩
    · cases hp : b.m_PutOverflowFunc
      simp [OnPutOverflow, hp, PutOverflow, hx]
    · intro _
      apply CUtlMemory.growLoop_length _ _ _ hg
      omega
  · rename_i hc
    refine ⟨b.m_Memory, rfl, CUtlMemory.Extends_refl _, ?_⟩
    intro _
    simp only [CUtlMemory.NumAllocated, not_or, not_lt] at hc
    exact hc.2

/-- The default put hook leaves the error bits alone. -/
theorem OnPutOverflow_error (b : CUtlBuffer) (n : Int) :
    (b.OnPutOverflow n).2.m_Error = b.m_Error := by
  cases hp : b.m_PutOverflowFunc
  simp only [OnPutOverflow, hp, PutOverflow]
  split <;> rfl

/-- Under the put latch the terminator bookkeeping leaves the error bits alone. -/
theorem AddNullTermination_latched (b : CUtlBuffer) (nPut : Int)
    (h : b.m_Error.PUT_OVERFLOW = true) :
    (b.AddNullTermination nPut).m_Error = b.m_Error := by
  unfold AddNullTermination
  split
  · rw [if_neg (by simp [h])]
  · rfl

/-- Writing the terminator after the put cursor passed the high-water mark. -/
theorem AddNullTermination_owned (b : CUtlBuffer) (d : List Nat)
    (he : b.m_Error.PUT_OVERFLOW = false) (hr : b.m_Flags.READ_ONLY = false)
    (hg : 0 ≤ b.m_Memory.m_nGrowSize) (ho : b.m_nOffset = 0)
    (hp : b.m_Put = (d.length : Int)) (hm : b.m_nMaxPut < (d.length : Int))
    (hd : d <+: b.m_Memory.m_pMemory) :
    ∃ m1 : CUtlMemory,
      b.AddNullTermination (d.length : Int) = { b with m_Memory := m1, m_nMaxPut := (d.length : Int) } ∧
      d <+: m1.m_pMemory ∧ m1.m_nGrowSize = b.m_Memory.m_nGrowSize ∧
      m1.uninit = b.m_Memory.uninit := by
  obtain ⟨m2, hc2, ⟨k2, hk2⟩, _⟩ := CheckPut_owned b 1 he hr hg
  obtain ⟨t, ht⟩ := hd
  obtain ⟨⟨bytes, gs, un⟩, g, p, e, f, tab, mp, off, gf, pf⟩ := b
  simp only at he hr hg ho hp hm ht hc2 hk2
  subst ho hp ht
  unfold AddNullTermination
  rw [if_pos (by simpa using hm)]
  rw [if_pos (by simp [IsReadOnly, hr, he])]
  rw [hc2]
  simp only [sub_zero]
  refine ⟨{ m2 with m_pMemory := storeAt m2.m_pMemory (d.length : Int) 0 }, rfl, ?_, ?_, ?_⟩
  · rw [hk2]
    simp only [List.append_assoc, storeAt_append]
    exact ⟨_, rfl⟩
  · rw [hk2]
  · rw [hk2]

/-- Appending `s` with `Put` to a writable owned buffer holding `c` gives one holding `c ++ s`. -/
theorem Put_writable {b : CUtlBuffer} {c : List Nat} (h : WritableAt b c) (s : List Nat) :
    WritableAt (b.Put s (s.length : Int)) (c ++ s) ∧ PutFrame b (b.Put s (s.length : Int)) := by
  by_cases hs : s = []
  · subst hs
    simp only [Put, List.length_nil, Nat.cast_zero, ne_eq, not_true_eq_false, if_false,
      List.append_nil]
    exact ⟨h, PutFrame_refl b⟩
  · have hpos : 0 < s.length := List.length_pos.mpr hs
    have hlen : (s.length : Int) ≠ 0 := by omega
    obtain ⟨m1, hc1, ⟨k1, hk1⟩, _⟩ :=
      CheckPut_owned b s.length h.noPutErr h.writable h.owned
    obtain ⟨he, hr, hg, ho, hp, hm, ⟨t, ht⟩⟩ := h
    obtain ⟨⟨bytes, gs, un⟩, g, p, e, f, tab, mp, off, gf, pf⟩ := b
    simp only at he hr hg ho hp hm ht hc1 hk1
    subst ho hp hm ht hk1
    unfold Put
    rw [if_pos hlen, hc1]
    simp only [sub_zero, List.append_assoc, memcpyAt_append]
    have hcs : ((c.length : Int) + (s.length : Int)) = ((c ++ s).length : Int) := by
      simp
    rw [hcs]
    obtain ⟨m3, h3, hd3, hg3, _⟩ := AddNullTermination_owned
      ({ m_Memory := { m_pMemory := c ++ (s ++ List.drop s.length (t ++ List.replicate k1 un)),
                       m_nGrowSize := gs, uninit := un },
         m_Get := g, m_Put := ((c ++ s).length : Int), m_Error := e, m_Flags := f, m_nTab := tab,
         m_nMaxPut := (c.length : Int), m_nOffset := 0, m_GetOverflowFunc := gf,
         m_PutOverflowFunc := pf } : CUtlBuffer) (c ++ s) he hr hg rfl rfl
      (by simp only [List.length_append]; push_cast; omega)
      ⟨List.drop s.length (t ++ List.replicate k1 un), by simp only [List.append_assoc]⟩
    rw [h3]
    exact ⟨⟨he, hr, by simpa [hg3] using hg, rfl, rfl, rfl, hd3⟩, ⟨rfl, rfl, rfl, rfl, rfl, rfl⟩⟩

theorem loaded_of_writable {b : CUtlBuffer} {c : List Nat} (h : WritableAt b c) : Loaded b c :=
  ⟨h.offset, h.maxPut, h.content⟩

/-- A freshly constructed owned buffer is writable and empty. -/
theorem new_writable (growSize initSize : Int) (nFlags : BufferFlags_t) (uninit : Nat)
    (hg : 0 ≤ growSize) (hro : nFlags.READ_ONLY = false) :
    WritableAt (new growSize initSize nFlags uninit) [] ∧
      (new growSize initSize nFlags uninit).m_Get = 0 ∧
      (new growSize initSize nFlags uninit).m_Error = ⟨false, false⟩ ∧
      (new growSize initSize nFlags uninit).m_Flags = nFlags ∧
      (new growSize initSize nFlags uninit).m_nTab = 0 ∧
      (new growSize initSize nFlags uninit).m_GetOverflowFunc = .GetOverflow := by
  unfold new
  simp only [IsReadOnly, hro]
  split
  · obtain ⟨m3, h3, hd3, hg3, _⟩ := AddNullTermination_owned
      ({ m_Memory := CUtlMemory.Init growSize initSize uninit, m_Get := 0, m_Put := 0,
         m_Error := ⟨false, false⟩, m_Flags := nFlags, m_nTab := 0, m_nMaxPut := -1, m_nOffset := 0,
         m_GetOverflowFunc := .GetOverflow, m_PutOverflowFunc := .PutOverflow } : CUtlBuffer) []
      rfl hro hg rfl rfl (by simp) (List.nil_prefix)
    simp only [List.length_nil, Nat.cast_zero] at h3
    rw [h3]
    exact ⟨⟨rfl, hro, by simpa [hg3, CUtlMemory.Init] using hg, rfl, rfl, rfl, List.nil_prefix⟩,
      rfl, rfl, rfl, rfl, rfl⟩
  · exact ⟨⟨rfl, hro, hg, rfl, rfl, rfl, List.nil_prefix⟩, rfl, rfl, rfl, rfl, rfl⟩

/-! ## Facts about the get side -/

/-- A get that lies inside the materialised content passes the check and changes nothing. -/
theorem CheckGet_loaded {b : CUtlBuffer} {c : List Nat} (h : Loaded b c) (n : Int)
    (he : b.m_Error.GET_OVERFLOW = false) (h0 : 0 ≤ b.m_Get)
    (hn : b.m_Get + n ≤ (c.length : Int)) : b.CheckGet n = (true, b) := by
  obtain ⟨t, ht⟩ := h.content
  have hlen : (b.m_Memory.m_pMemory.length : Int) = (c.length : Int) + (t.length : Int) := by
    rw [← ht]; simp
  unfold CheckGet
  rw [if_neg (by simp [he])]
  rw [if_neg (by simp only [TellMaxPut, h.maxPut]; omega)]
  rw [if_neg (by simp only [CUtlMemory.NumAllocated, h.offset]; omega)]

/-- A get that passes the high-water mark latches GET_OVERFLOW. -/
theorem CheckGet_overflow (b : CUtlBuffer) (n : Int)
    (he : b.m_Error.GET_OVERFLOW = false) (hn : b.m_nMaxPut < b.m_Get + n) :
    b.CheckGet n = (false, b.setGetOverflow true) := by
  unfold CheckGet
  rw [if_neg (by simp [he])]
  rw [if_pos (by simpa [TellMaxPut] using hn)]

/-- Once GET_OVERFLOW is latched the check fails and changes nothing. -/
theorem CheckGet_latched (b : CUtlBuffer) (n : Int) (he : b.m_Error.GET_OVERFLOW = true) :
    b.CheckGet n = (false, b) := by
  unfold CheckGet
  rw [if_pos he]

theorem setGetOverflow_same (b : CUtlBuffer) (v : Bool) (h : b.m_Error.GET_OVERFLOW = v) :
    b.setGetOverflow v = b := by
  obtain ⟨m, g, p, ⟨pe, ge⟩, f, tab, mp, off, gf, pf⟩ := b
  simp only at h
  subst h
  rfl

/-- With the default hook a get seek only moves the cursor and sets or clears the latch. -/
theorem SeekGet_default (b : CUtlBuffer) (hf : b.m_GetOverflowFunc = .GetOverflow)
    (type : SeekType_t) (offset : Int) :
    b.SeekGet type offset =
      ({ b with m_Get := seekPos b.m_Get b.m_nMaxPut type offset } : CUtlBuffer).setGetOverflow
        (decide (seekPos b.m_Get b.m_nMaxPut type offset > b.m_nMaxPut)) := by
  obtain ⟨m, g, p, ⟨pe, ge⟩, f, tab, mp, off, gf, pf⟩ := b
  simp only at hf
  subst hf
  cases type <;>
  · simp only [SeekGet, seekPos, setGetOverflow, OnGetOverflow, GetOverflow]
    split_ifs <;> simp_all

/-- A get inside the materialised content copies the bytes under the cursor and advances it. -/
theorem Get_loaded {b : CUtlBuffer} {c : List Nat} (h : Loaded b c) (pMem : List Nat) (n : Nat)
    (he : b.m_Error.GET_OVERFLOW = false) (h0 : 0 ≤ b.m_Get)
    (hn : b.m_Get + (n : Int) ≤ (c.length : Int)) :
    b.Get pMem (n : Int) =
      ({ b with m_Get := b.m_Get + (n : Int) }, (c.drop b.m_Get.toNat).take n ++ pMem.drop n) := by
  by_cases hz : n = 0
  · subst hz
    simp [Get]
  · have hpos : (n : Int) > 0 := by omega
    unfold Get
    rw [if_pos hpos, CheckGet_loaded h _ he h0 hn]
    simp only [Prod.mk.injEq, true_and]
    obtain ⟨t, ht⟩ := h.content
    simp only [PeekGetPtr, ptrAt, h.offset, add_zero, sub_zero, memcpy, ← ht, Int.toNat_ofNat]
    have hl : b.m_Get.toNat + n ≤ c.length := by omega
    have h1 : List.take n (List.drop b.m_Get.toNat (c ++ t)) = List.take n (List.drop b.m_Get.toNat c) := by
      rw [List.drop_append_of_le_length (by omega)]
      rw [List.take_append_of_le_length (by simp; omega)]
    rw [h1]
    congr 2
    simp
    omega

end CUtlBuffer

/-! ## Facts about conversion tables -/

namespace CUtlCharConversion

theorem V_strlen_nonneg (p : List Nat) : 0 ≤ V_strlen p := by
  simp [V_strlen]

theorem ctorStep_lengthsOk (cv : CUtlCharConversion) (e : ConversionArray_t)
    (h : LengthsOk cv) : LengthsOk (ctorStep cv e) := by
  intro c
  simp only [ctorStep]
  split
  · exact V_strlen_nonneg _
  · exact h c

theorem foldl_ctorStep (pArray : List ConversionArray_t) : ∀ cv : CUtlCharConversion,
    LengthsOk cv →
    LengthsOk (pArray.foldl ctorStep cv) ∧
    (pArray.foldl ctorStep cv).cls = cv.cls ∧
    (pArray.foldl ctorStep cv).m_nDelimiterLength = cv.m_nDelimiterLength := by
  induction pArray with
  | nil => intro cv h; exact ⟨h, rfl, rfl⟩
  | cons e rest ih =>
    intro cv h
    obtain ⟨h1, h2, h3⟩ := ih (ctorStep cv e) (ctorStep_lengthsOk cv e h)
    exact ⟨h1, h2, h3⟩

theorem new_ok (nEscapeChar : Nat) (pDelimiter : List Nat) (pArray : List ConversionArray_t) :
    LengthsOk (new nEscapeChar pDelimiter pArray) ∧
    (new nEscapeChar pDelimiter pArray).cls = .CUtlCharConversion ∧
    (new nEscapeChar pDelimiter pArray).m_nDelimiterLength = V_strlen pDelimiter := by
  unfold new
  exact foldl_ctorStep pArray _ (fun _ => le_refl _)

theorem findLoop_nonneg (cv : CUtlCharConversion) (h : LengthsOk cv) (p : List Nat) :
    ∀ l : List Nat, 0 ≤ (findLoop cv p l).2 := by
  intro l
  induction l with
  | nil => simp [findLoop]
  | cons c rest ih =>
    unfold findLoop
    split
    · exact h _
    · exact ih

/-- A constructed table has a non-negative delimiter length and reports
non-negative consumed lengths. -/
theorem Constructed.nonneg {cv : CUtlCharConversion} (h : cv.Constructed) :
    0 ≤ cv.GetDelimiterLength ∧ ∀ p : List Nat, 0 ≤ (cv.FindConversion p).2 := by
  obtain ⟨e, d, a, h | h | h⟩ := h
  · obtain ⟨h1, h2, h3⟩ := new_ok e d a
    subst h
    refine ⟨by rw [GetDelimiterLength, h3]; exact V_strlen_nonneg _, ?_⟩
    intro p
    unfold FindConversion
    rw [h2]
    exact findLoop_nonneg _ h1 p _
  · obtain ⟨_, _, h3⟩ := new_ok e d a
    subst h
    refine ⟨by simp only [GetDelimiterLength, newCString, h3]; exact V_strlen_nonneg _, ?_⟩
    intro p
    simp only [FindConversion, newCString]
    split <;> decide
  · obtain ⟨_, _, h3⟩ := new_ok e d a
    subst h
    refine ⟨by simp only [GetDelimiterLength, newNoEsc, h3]; exact V_strlen_nonneg _, ?_⟩
    intro p
    simp [FindConversion, newNoEsc]

end CUtlCharConversion

/-! ## Facts about peeking with the default hook -/

namespace CUtlBuffer

theorem setGetOverflow_set (b : CUtlBuffer) (v : Bool) (h : b.m_Error.GET_OVERFLOW = v) :
    (b.setGetOverflow true).setGetOverflow v = b ∧ (b.setGetOverflow false).setGetOverflow v = b := by
  obtain ⟨m, g, p, ⟨pe, ge⟩, f, tab, mp, off, gf, pf⟩ := b
  simp only at h
  subst h
  exact ⟨rfl, rfl⟩

/-- The three outcomes of the get check under the default hook. -/
theorem CheckGet_default (b : CUtlBuffer) (hf : b.m_GetOverflowFunc = .GetOverflow) (n : Int) :
    (b.CheckGet n = (true, b) ∧ b.m_Error.GET_OVERFLOW = false ∧ b.m_Get + n ≤ b.m_nMaxPut) ∨
    (b.CheckGet n = (false, b) ∧ b.m_Error.GET_OVERFLOW = true) ∨
    (b.CheckGet n = (false, b.setGetOverflow true) ∧ b.m_Error.GET_OVERFLOW = false) := by
  unfold CheckGet
  by_cases he : b.m_Error.GET_OVERFLOW = true
  · rw [if_pos he]
    exact Or.inr (Or.inl ⟨rfl, he⟩)
  · have he2 : b.m_Error.GET_OVERFLOW = false := by simpa using he
    rw [if_neg he]
    by_cases h1 : b.TellMaxPut < b.m_Get + n
    · rw [if_pos h1]
      exact Or.inr (Or.inr ⟨rfl, he2⟩)
    · rw [if_neg h1]
      simp only [TellMaxPut, not_lt] at h1
      have hh : b.OnGetOverflow n = (false, b) := by
        simp only [OnGetOverflow, hf, GetOverflow]
      split
      · rw [hh]
        exact Or.inr (Or.inr ⟨rfl, he2⟩)
      · exact Or.inl ⟨rfl, he2, h1⟩

/-- Under the default hook a peek check never changes the buffer. -/
theorem CheckPeekGet_default (b : CUtlBuffer) (hf : b.m_GetOverflowFunc = .GetOverflow)
    (nOffset nSize : Int) :
    (b.CheckPeekGet nOffset nSize = (true, b) ∧ b.m_Error.GET_OVERFLOW = false ∧
        b.m_Get + nOffset + nSize ≤ b.m_nMaxPut) ∨
    b.CheckPeekGet nOffset nSize = (false, b) := by
  unfold CheckPeekGet
  rcases CheckGet_default b hf (nOffset + nSize) with ⟨h, he, hle⟩ | ⟨h, he⟩ | ⟨h, he⟩
  · left
    rw [if_neg (by simp [he]), h]
    simp only
    rw [setGetOverflow_same b false he]
    exact ⟨rfl, he, by omega⟩
  · right
    rw [if_pos he]
  · right
    rw [if_neg (by simp [he]), h]
    simp only
    rw [(setGetOverflow_set b false he).1]

theorem CheckPeekGet_default_snd (b : CUtlBuffer) (hf : b.m_GetOverflowFunc = .GetOverflow)
    (nOffset nSize : Int) : (b.CheckPeekGet nOffset nSize).2 = b := by
  rcases CheckPeekGet_default b hf nOffset nSize with ⟨h, _⟩ | h <;> rw [h]

/-- Under the default hook the open-ended peek check never changes the buffer; a
success from a non-negative offset with a positive request grants at least one byte. -/
theorem CheckArbitraryPeekGet_default (b : CUtlBuffer) (hf : b.m_GetOverflowFunc = .GetOverflow)
    (nOffset nIncrement : Int) :
    (b.CheckArbitraryPeekGet nOffset nIncrement).2.2 = b ∧
    ((b.CheckArbitraryPeekGet nOffset nIncrement).1 = true → 0 ≤ nOffset → 0 < nIncrement →
      0 < (b.CheckArbitraryPeekGet nOffset nIncrement).2.1 ∧
      b.m_Get + nOffset + (b.CheckArbitraryPeekGet nOffset nIncrement).2.1 ≤ b.m_nMaxPut) := by
  unfold CheckArbitraryPeekGet
  split
  · exact ⟨rfl, fun h => by simp at h⟩
  · rename_i hlt
    simp only [TellGet, TellMaxPut, ge_iff_le, not_le] at hlt
    refine ⟨?_, ?_⟩
    · simp only [CheckPeekGet_default_snd b hf]
    · simp only [CheckPeekGet_default_snd b hf, TellGet, TellMaxPut]
      intro _ h0 hinc
      split_ifs <;> constructor <;> omega

theorem PeekGet_default (b : CUtlBuffer) (hf : b.m_GetOverflowFunc = .GetOverflow)
    (nMaxSize nOffset : Int) : (b.PeekGet nMaxSize nOffset).2 = b := by
  unfold PeekGet
  rcases CheckPeekGet_default b hf nOffset nMaxSize with ⟨h, _⟩ | h <;> rw [h]

theorem PeekStringMatch_default (b : CUtlBuffer) (hf : b.m_GetOverflowFunc = .GetOverflow)
    (nOffset : Int) (pString : List Nat) (nLen : Int) :
    (b.PeekStringMatch nOffset pString nLen).2 = b := by
  unfold PeekStringMatch
  rcases CheckPeekGet_default b hf nOffset nLen with ⟨h, _⟩ | h <;> rw [h]

theorem peekWhiteSpaceLoop_default (b : CUtlBuffer) (hf : b.m_GetOverflowFunc = .GetOverflow)
    (fuel : Nat) : ∀ nOffset : Int, (b.m_nMaxPut - b.m_Get - nOffset).toNat < fuel →
    ∃ r : Int, peekWhiteSpaceLoop fuel b nOffset = some (r, b) ∧ nOffset ≤ r := by
  induction fuel with
  | zero => intro _ h; omega
  | succ k ih =>
    intro nOffset hm
    unfold peekWhiteSpaceLoop
    rcases CheckPeekGet_default b hf nOffset 1 with ⟨h, _, hle⟩ | h
    · rw [h]
      simp only
      split
      · exact ⟨nOffset, rfl, le_refl _⟩
      · obtain ⟨r, hr, hr2⟩ := ih (nOffset + 1) (by omega)
        exact ⟨r, hr, by omega⟩
    · rw [h]
      exact ⟨nOffset, rfl, le_refl _⟩

theorem PeekWhiteSpace_default (b : CUtlBuffer) (hf : b.m_GetOverflowFunc = .GetOverflow)
    (nOffset : Int) :
    ∃ r : Int, b.PeekWhiteSpace nOffset = some (r, b) ∧ (0 ≤ nOffset → 0 ≤ r) := by
  unfold PeekWhiteSpace
  split
  · exact ⟨0, rfl, fun _ => le_refl _⟩
  · obtain ⟨r, hr, hr2⟩ := peekWhiteSpaceLoop_default b hf _ nOffset (Nat.lt_succ_self _)
    exact ⟨r, hr, fun h => by omega⟩

theorem peekStringLengthLoop_default (b : CUtlBuffer) (hf : b.m_GetOverflowFunc = .GetOverflow)
    (nStartingOffset : Int) (fuel : Nat) : ∀ nOffset : Int, 0 ≤ nOffset →
    (b.m_nMaxPut - b.m_Get - nOffset).toNat < fuel →
    ∃ r : Int, peekStringLengthLoop fuel b nStartingOffset nOffset = some (r, b) := by
  induction fuel with
  | zero => intro _ _ h; omega
  | succ k ih =>
    intro nOffset h0 hm
    unfold peekStringLengthLoop
    obtain ⟨hb, hpos⟩ := CheckArbitraryPeekGet_default b hf nOffset 128
    rcases hc : b.CheckArbitraryPeekGet nOffset 128 with ⟨ok, n, b1⟩
    rw [hc] at hb hpos
    simp only at hb hpos
    subst hb
    cases ok with
    | false =>
      simp only
      split <;> exact ⟨_, rfl⟩
    | true =>
      simp only
      obtain ⟨hn, hle⟩ := hpos rfl h0 (by decide)
      split
      · exact ⟨_, rfl⟩
      · exact ih (nOffset + n) (by omega) (by omega)

theorem PeekStringLength_default (b : CUtlBuffer) (hf : b.m_GetOverflowFunc = .GetOverflow) :
    ∃ r : Int, b.PeekStringLength = some (r, b) := by
  unfold PeekStringLength
  split
  · exact ⟨0, rfl⟩
  · split
    · rename_i hx
      split at hx
      · obtain ⟨r, hr, _⟩ := PeekWhiteSpace_default b hf 0
        rw [hr] at hx
        exact absurd hx (by simp)
      · exact absurd hx (by simp)
    · rename_i nOffset b1 hx
      have h : b1 = b ∧ 0 ≤ nOffset := by
        split at hx
        · obtain ⟨r, hr, hr0⟩ := PeekWhiteSpace_default b hf 0
          rw [hr] at hx
          simp only [Option.some.injEq, Prod.mk.injEq] at hx
          exact ⟨hx.2.symm, by have := hr0 (le_refl _); omega⟩
        · simp only [Option.some.injEq, Prod.mk.injEq] at hx
          exact ⟨hx.2.symm, by omega⟩
      obtain ⟨rfl, h0⟩ := h
      exact peekStringLengthLoop_default b1 hf nOffset _ nOffset h0 (Nat.lt_succ_self _)

theorem peekLineLengthLoop_default (b : CUtlBuffer) (hf : b.m_GetOverflowFunc = .GetOverflow)
    (nStartingOffset : Int) (fuel : Nat) : ∀ nOffset : Int, 0 ≤ nOffset →
    (b.m_nMaxPut - b.m_Get - nOffset).toNat < fuel →
    ∃ r : Int, peekLineLengthLoop fuel b nStartingOffset nOffset = some (r, b) := by
  induction fuel with
  | zero => intro _ _ h; omega
  | succ k ih =>
    intro nOffset h0 hm
    unfold peekLineLengthLoop
    obtain ⟨hb, hpos⟩ := CheckArbitraryPeekGet_default b hf nOffset 128
    rcases hc : b.CheckArbitraryPeekGet nOffset 128 with ⟨ok, n, b1⟩
    rw [hc] at hb hpos
    simp only at hb hpos
    subst hb
    cases ok with
    | false =>
      simp only
      split <;> exact ⟨_, rfl⟩
    | true =>
      simp only
      obtain ⟨hn, hle⟩ := hpos rfl h0 (by decide)
      split
      · split <;> exact ⟨_, rfl⟩
      · exact ih (nOffset + n) (by omega) (by omega)

theorem PeekLineLength_default (b : CUtlBuffer) (hf : b.m_GetOverflowFunc = .GetOverflow) :
    ∃ r : Int, b.PeekLineLength = some (r, b) := by
  unfold PeekLineLength
  split
  · exact ⟨0, rfl⟩
  · have h := peekLineLengthLoop_default b hf 0 _ 0 (le_refl _)
      (show (b.m_nMaxPut - b.m_Get - 0).toNat < (b.m_nMaxPut - b.m_Get).toNat + 1 by
        rw [sub_zero]; exact Nat.lt_succ_self _)
    exact h

theorem peekDelimitedLoop_default (b : CUtlBuffer) (hf : b.m_GetOverflowFunc = .GetOverflow)
    (cv : CUtlCharConversion) (hcv : ∀ p : List Nat, 0 ≤ (cv.FindConversion p).2) (fuel : Nat) :
    ∀ nLen nOffset : Int, (b.m_nMaxPut - b.m_Get - nOffset).toNat < fuel →
    ∃ r : Int × Int, peekDelimitedLoop cv fuel b nLen nOffset = some (r, b) := by
  induction fuel with
  | zero => intro _ _ h; omega
  | succ k ih =>
    intro nLen nOffset hm
    unfold peekDelimitedLoop
    have hm1 := PeekStringMatch_default b hf nOffset cv.GetDelimiter cv.GetDelimiterLength
    rcases hc : b.PeekStringMatch nOffset cv.GetDelimiter cv.GetDelimiterLength with ⟨ok, b1⟩
    rw [hc] at hm1
    simp only at hm1
    subst hm1
    cases ok with
    | true => exact ⟨_, rfl⟩
    | false =>
      simp only
      rcases CheckPeekGet_default b1 hf nOffset 1 with ⟨h, _, hle⟩ | h
      · rw [h]
        simp only
        split
        · obtain ⟨hb, _⟩ := CheckArbitraryPeekGet_default b1 hf (nOffset + 1) cv.MaxConversionLength
          rcases hc2 : b1.CheckArbitraryPeekGet (nOffset + 1) cv.MaxConversionLength with ⟨ok2, n2, b3⟩
          rw [hc2] at hb
          simp only at hb
          subst hb
          cases ok2 with
          | false => exact ⟨_, rfl⟩
          | true =>
            simp only
            have := hcv (b3.PeekGetPtr (nOffset + 1))
            exact ih _ _ (by omega)
        · exact ih _ _ (by omega)
      · rw [h]
        exact ⟨_, rfl⟩

theorem PeekDelimitedStringLength_default (b : CUtlBuffer)
    (hf : b.m_GetOverflowFunc = .GetOverflow) (pConv : Option CUtlCharConversion)
    (hcv : ∀ cv, pConv = some cv → cv.Constructed) (bActualSize : Bool) :
    ∃ r : Int, b.PeekDelimitedStringLength pConv bActualSize = some (r, b) := by
  unfold PeekDelimitedStringLength
  cases pConv with
  | none => exact PeekStringLength_default b hf
  | some cv =>
    simp only
    obtain ⟨hd, hfc⟩ := (hcv cv rfl).nonneg
    split
    · exact PeekStringLength_default b hf
    · obtain ⟨r, hr, hr0⟩ := PeekWhiteSpace_default b hf 0
      rw [hr]
      simp only
      have hm1 := PeekStringMatch_default b hf r cv.GetDelimiter cv.GetDelimiterLength
      rcases hc : b.PeekStringMatch r cv.GetDelimiter cv.GetDelimiterLength with ⟨ok, b1⟩
      rw [hc] at hm1
      simp only at hm1
      subst hm1
      cases ok with
      | false => exact ⟨_, rfl⟩
      | true =>
        simp only
        obtain ⟨q, hq⟩ := peekDelimitedLoop_default b1 hf cv hfc
          ((b1.m_nMaxPut - b1.m_Get - r).toNat + 1) 1 (r + cv.GetDelimiterLength) (by omega)
        rw [hq]
        exact ⟨_, rfl⟩

end CUtlBuffer

namespace CUtlBuffer

theorem SeekGet_default_get (b : CUtlBuffer) (hf : b.m_GetOverflowFunc = .GetOverflow)
    (type : SeekType_t) (offset : Int) :
    (b.SeekGet type offset).m_Get = seekPos b.m_Get b.m_nMaxPut type offset := by
  rw [SeekGet_default b hf]
  rfl

/-- A peek check inside the materialised content succeeds and changes nothing. -/
theorem CheckPeekGet_loaded {b : CUtlBuffer} {c : List Nat} (h : Loaded b c) (nOffset n : Int)
    (he : b.m_Error.GET_OVERFLOW = false) (h0 : 0 ≤ b.m_Get)
    (hn : b.m_Get + (nOffset + n) ≤ (c.length : Int)) : b.CheckPeekGet nOffset n = (true, b) := by
  unfold CheckPeekGet
  rw [if_neg (by simp [he]), CheckGet_loaded h _ he h0 hn]
  simp only
  rw [setGetOverflow_same b false he]

/-- The region under the get cursor of a materialised buffer starts with the unread content. -/
theorem PeekGetPtr_loaded {b : CUtlBuffer} {c : List Nat} (h : Loaded b c) (nOffset : Int)
    (_h0 : 0 ≤ b.m_Get + nOffset) (hle : b.m_Get + nOffset ≤ (c.length : Int)) :
    ∃ tail : List Nat, b.PeekGetPtr nOffset = c.drop (b.m_Get + nOffset).toNat ++ tail := by
  obtain ⟨t, ht⟩ := h.content
  refine ⟨t, ?_⟩
  simp only [PeekGetPtr, ptrAt, h.offset, sub_zero, ← ht]
  rw [List.drop_append_of_le_length (by omega)]

end CUtlBuffer

/-! ## Facts about reading a materialised text buffer -/

section ReadableFacts

open CUtlBuffer

theorem Readable.atGet {b : CUtlBuffer} {e : List Nat} (h : Readable b e) (p : Int) :
    Readable (b.atGet p) e :=
  ⟨⟨h.loaded.offset, h.loaded.maxPut, h.loaded.content⟩, h.error, h.getFunc, h.text⟩

@[simp] theorem CUtlBuffer.atGet_get (b : CUtlBuffer) (p : Int) : (b.atGet p).m_Get = p := rfl

@[simp] theorem CUtlBuffer.atGet_put (b : CUtlBuffer) (p : Int) : (b.atGet p).m_Put = b.m_Put := rfl

@[simp] theorem CUtlBuffer.atGet_error (b : CUtlBuffer) (p : Int) : (b.atGet p).m_Error = b.m_Error := rfl

@[simp] theorem CUtlBuffer.atGet_maxPut (b : CUtlBuffer) (p : Int) : (b.atGet p).m_nMaxPut = b.m_nMaxPut := rfl

@[simp] theorem CUtlBuffer.atGet_atGet (b : CUtlBuffer) (p q : Int) : (b.atGet p).atGet q = b.atGet q := rfl

theorem CUtlBuffer.atGet_self (b : CUtlBuffer) : b.atGet b.m_Get = b := rfl

theorem Readable.isValid {b : CUtlBuffer} {e : List Nat} (h : Readable b e) : b.IsValid = true := by
  simp [IsValid, h.error]

theorem Readable.isText {b : CUtlBuffer} {e : List Nat} (h : Readable b e) : b.IsText = true := by
  simp [IsText, h.text]

theorem Readable.getErr {b : CUtlBuffer} {e : List Nat} (h : Readable b e) :
    b.m_Error.GET_OVERFLOW = false := by
  rw [h.error]

/-- The region under the get cursor, when the content splits at the cursor. -/
theorem Readable.ptr {b : CUtlBuffer} {e : List Nat} (h : Readable b e) (pre rest : List Nat)
    (he : e = pre ++ rest) (hg : b.m_Get = (pre.length : Int)) :
    ∃ tail : List Nat, b.PeekGetPtr 0 = rest ++ tail := by
  obtain ⟨t, ht⟩ := h.loaded.content
  refine ⟨t, ?_⟩
  simp only [PeekGetPtr, ptrAt, h.loaded.offset, sub_zero, add_zero, ← ht, hg, he,
    Int.toNat_ofNat, List.append_assoc, List.drop_left]

/-- Reading one character that lies inside the content. -/
theorem Readable.getChar {b : CUtlBuffer} {e : List Nat} (h : Readable b e) (pre post : List Nat)
    (x : Nat) (he : e = pre ++ x :: post) (hg : b.m_Get = (pre.length : Int)) :
    b.GetChar = (x, b.atGet ((pre.length : Int) + 1)) := by
  obtain ⟨tail, hp⟩ := h.ptr pre (x :: post) he hg
  unfold GetChar
  rw [CheckGet_loaded h.loaded 1 h.getErr (by omega)
    (by rw [hg, he]; simp only [List.length_append, List.length_cons]; push_cast; omega)]
  simp only [hp, deref, List.cons_append, List.headD_cons, hg]
  rfl

/-- Reading one character at the end of the content latches GET_OVERFLOW. -/
theorem Readable.getChar_end {b : CUtlBuffer} {e : List Nat} (h : Readable b e)
    (hg : (e.length : Int) ≤ b.m_Get) : b.GetChar = (0, b.setGetOverflow true) := by
  unfold GetChar
  rw [CheckGet_overflow b 1 h.getErr (by rw [h.loaded.maxPut]; omega)]

/-- A relative seek that stays inside the content only moves the cursor. -/
theorem Readable.seekCurrent {b : CUtlBuffer} {e : List Nat} (h : Readable b e) (n : Int)
    (hle : b.m_Get + n ≤ (e.length : Int)) :
    b.SeekGet .SEEK_CURRENT n = b.atGet (b.m_Get + n) := by
  rw [SeekGet_default b h.getFunc]
  have hd : decide (seekPos b.m_Get b.m_nMaxPut .SEEK_CURRENT n > b.m_nMaxPut) = false := by
    simp only [seekPos, decide_eq_false_iff_not, not_lt, gt_iff_lt, h.loaded.maxPut]
    exact hle
  rw [hd]
  rw [setGetOverflow_same _ false (by exact h.getErr)]
  rfl

/-- Matching a one-byte pattern against the byte under the cursor. -/
theorem Readable.peekMatch {b : CUtlBuffer} {e : List Nat} (h : Readable b e) (pre post : List Nat)
    (x d : Nat) (he : e = pre ++ x :: post) (hg : b.m_Get = (pre.length : Int))
    (hx : x ≠ 0) (hd : d ≠ 0) :
    b.PeekStringMatch 0 [d] 1 = (decide (x = d), b) := by
  obtain ⟨tail, hp⟩ := h.ptr pre (x :: post) he hg
  unfold PeekStringMatch
  rw [CheckPeekGet_loaded h.loaded 0 1 h.getErr (by omega)
    (by rw [hg, he]; simp only [List.length_append, List.length_cons]; push_cast; omega)]
  simp only [hp, V_strncmp_eq, cstr, List.cons_append, List.takeWhile_cons, bne_iff_ne, ne_eq, hx,
    not_false_eq_true, decide_True, if_true, hd, List.takeWhile_nil, Int.toNat_one,
    List.take_succ_cons, List.take_zero, Prod.mk.injEq, and_true]
  by_cases hxd : x = d <;> simp [hxd]

/-- The open-ended peek check succeeds while content remains. -/
theorem Readable.checkArbitrary {b : CUtlBuffer} {e : List Nat} (h : Readable b e) (n : Int)
    (hn : 0 < n) (h0 : 0 ≤ b.m_Get) (hlt : b.m_Get < (e.length : Int)) :
    ∃ k : Int, b.CheckArbitraryPeekGet 0 n = (true, k, b) := by
  obtain ⟨hb, hpos⟩ := CheckArbitraryPeekGet_default b h.getFunc 0 n
  have h1 : (b.CheckArbitraryPeekGet 0 n).1 = true := by
    unfold CheckArbitraryPeekGet
    simp only [TellGet, TellMaxPut, add_zero, sub_zero, h.loaded.maxPut,
      CheckPeekGet_default_snd b h.getFunc]
    rw [if_neg (by omega)]
    simp only [decide_eq_true_eq]
    split_ifs <;> omega
  rcases hc : b.CheckArbitraryPeekGet 0 n with ⟨ok, k, b1⟩
  rw [hc] at hb h1
  simp only at hb h1
  subst hb h1
  exact ⟨k, rfl⟩

end ReadableFacts

/-! ## Facts about writing delimited strings -/

section EncodeFacts

open CUtlBuffer

theorem PutTabs_zero (b : CUtlBuffer) (h : b.m_nTab = 0) : b.PutTabs = b := by
  unfold PutTabs
  rw [h]
  split <;> rfl

theorem PutChar_writable {b : CUtlBuffer} {c0 : List Nat} (h : WritableAt b c0)
    (htab : b.m_nTab = 0) (x : Nat) :
    WritableAt (b.PutChar x) (c0 ++ [x]) ∧ PutFrame b (b.PutChar x) := by
  unfold PutChar
  rw [PutTabs_zero b htab, ite_self]
  exact Put_writable h [x]

theorem PutDelimitedCharInternal_writable {b : CUtlBuffer} {c0 : List Nat} (h : WritableAt b c0)
    (htab : b.m_nTab = 0) (cv : CUtlCharConversion) (c : Nat)
    (hc : cv.GetConversionLength c = 0 ∨
      ((cv.GetConversionString c).length : Int) = cv.GetConversionLength c) :
    WritableAt (b.PutDelimitedCharInternal cv c) (c0 ++ encodeChar cv c) ∧
      PutFrame b (b.PutDelimitedCharInternal cv c) := by
  unfold PutDelimitedCharInternal encodeChar
  by_cases hl : cv.GetConversionLength c = 0
  · simp only [hl, if_true]
    exact PutChar_writable h htab c
  · simp only [hl, if_false]
    have hlen : ((cv.GetConversionString c).length : Int) = cv.GetConversionLength c := by
      rcases hc with hc | hc
      · exact absurd hc hl
      · exact hc
    obtain ⟨h1, f1⟩ := PutChar_writable h htab cv.GetEscapeChar
    have h2 := Put_writable h1 (cv.GetConversionString c)
    rw [hlen] at h2
    rw [List.append_assoc] at h2
    exact ⟨h2.1, PutFrame_trans f1 h2.2⟩

theorem putDelimitedLoop_writable (cv : CUtlCharConversion) (s : List Nat) :
    ∀ (b : CUtlBuffer) (c0 : List Nat), WritableAt b c0 → b.m_nTab = 0 →
    (∀ c ∈ s, cv.GetConversionLength c = 0 ∨
      ((cv.GetConversionString c).length : Int) = cv.GetConversionLength c) →
    WritableAt (putDelimitedLoop cv s b) (c0 ++ s.flatMap (encodeChar cv)) ∧
      PutFrame b (putDelimitedLoop cv s b) := by
  induction s with
  | nil =>
    intro b c0 h _ _
    simp only [putDelimitedLoop, List.flatMap_nil, List.append_nil]
    exact ⟨h, PutFrame_refl b⟩
  | cons c rest ih =>
    intro b c0 h htab hs
    obtain ⟨h1, f1⟩ := PutDelimitedCharInternal_writable h htab cv c
      (hs c (List.mem_cons_self _ _))
    obtain ⟨h2, f2⟩ := ih _ _ h1 (f1.tab.trans htab)
      (fun x hx => hs x (List.mem_cons_of_mem _ hx))
    simp only [putDelimitedLoop, List.flatMap_cons]
    rw [← List.append_assoc]
    exact ⟨h2, PutFrame_trans f1 f2⟩

/-- Writing a delimited string to a writable text buffer appends its encoding. -/
theorem PutDelimitedString_writable {b : CUtlBuffer} {c0 : List Nat} (h : WritableAt b c0)
    (htab : b.m_nTab = 0) (htext : b.m_Flags.TEXT_BUFFER = true) (cv : CUtlCharConversion)
    (hd : (cv.GetDelimiter.length : Int) = cv.GetDelimiterLength) (s : List Nat)
    (hs0 : ∀ c ∈ s, c ≠ 0)
    (hs : ∀ c ∈ s, cv.GetConversionLength c = 0 ∨
      ((cv.GetConversionString c).length : Int) = cv.GetConversionLength c) :
    ∃ b1 : CUtlBuffer, b.PutDelimitedString (some cv) (some s) = some b1 ∧
      WritableAt b1 (c0 ++ encodeString cv s) ∧ PutFrame b b1 := by
  unfold PutDelimitedString
  simp only [IsText, htext, not_true_eq_false, if_false, Option.getD_some,
    cstr_of_nonzero s hs0]
  rw [PutTabs_zero b htab, ite_self]
  have p1 := Put_writable h cv.GetDelimiter
  rw [hd] at p1
  obtain ⟨h1, f1⟩ := p1
  obtain ⟨h2, f2⟩ := putDelimitedLoop_writable cv s _ _ h1 (f1.tab.trans htab) hs
  have htab2 := f2.tab.trans (f1.tab.trans htab)
  rw [PutTabs_zero _ htab2, ite_self]
  have p3 := Put_writable h2 cv.GetDelimiter
  rw [hd] at p3
  obtain ⟨h3, f3⟩ := p3
  refine ⟨_, rfl, ?_, PutFrame_trans f1 (PutFrame_trans f2 f3)⟩
  simpa only [encodeString, List.append_assoc] using h3

end EncodeFacts

/-! ## Facts about reading delimited strings -/

section DecodeFacts

open CUtlBuffer

theorem encodeChar_length_pos (cv : CUtlCharConversion) (c : Nat) :
    0 < (encodeChar cv c).length := by
  unfold encodeChar
  split <;> simp

theorem length_le_flatMap_encodeChar (cv : CUtlCharConversion) (s : List Nat) :
    s.length ≤ (s.flatMap (encodeChar cv)).length := by
  induction s with
  | nil => simp
  | cons c rest ih =>
    have := encodeChar_length_pos cv c
    simp only [List.flatMap_cons, List.length_append, List.length_cons]
    omega

/-- White space skipping stops at once on a byte that is not white space. -/
theorem Readable.eatWhiteSpace_stop {b : CUtlBuffer} {e : List Nat} (h : Readable b e)
    (pre post : List Nat) (x : Nat) (he : e = pre ++ x :: post)
    (hg : b.m_Get = (pre.length : Int)) (hx : V_isspace x = false) :
    b.EatWhiteSpace = some b := by
  obtain ⟨tail, hp⟩ := h.ptr pre (x :: post) he hg
  unfold EatWhiteSpace
  rw [if_pos ⟨h.isText, h.isValid⟩]
  unfold eatWhiteSpaceLoop
  rw [CheckGet_loaded h.loaded 1 h.getErr (by omega)
    (by rw [hg, he]; simp only [List.length_append, List.length_cons]; push_cast; omega)]
  simp only [hp, deref, List.cons_append, List.headD_cons, hx, Bool.false_eq_true,
    not_false_eq_true, if_true]

/-- Decoding one encoded character: the delimiter test fails and the character comes back. -/
theorem Readable.decodeChar {b : CUtlBuffer} {e : List Nat} (h : Readable b e)
    (cv : CUtlCharConversion) (d c : Nat) (pre post : List Nat)
    (he : e = pre ++ (encodeChar cv c ++ post)) (hpost : post ≠ [])
    (hg : b.m_Get = (pre.length : Int)) (hd : d ≠ 0) (hc : CharOk cv d c) :
    b.PeekStringMatch 0 [d] 1 = (false, b) ∧
    b.GetDelimitedCharInternal cv =
      (c, b.atGet ((pre.length : Int) + ((encodeChar cv c).length : Int))) := by
  obtain ⟨hc0, hcase⟩ := hc
  have hpl : 0 < post.length := List.length_pos.mpr hpost
  rcases hcase with ⟨hl, hcd, hce⟩ | ⟨hl, hlen, hmax, hed, he0, hfind⟩
  · have henc : encodeChar cv c = [c] := by simp [encodeChar, hl]
    rw [henc] at he ⊢
    simp only [List.singleton_append] at he
    refine ⟨?_, ?_⟩
    · rw [h.peekMatch pre post c d he hg hc0 hd]
      simp [hcd]
    · unfold GetDelimitedCharInternal
      rw [h.getChar pre post c he hg]
      simp only [hce, if_false, List.length_singleton, Nat.cast_one]
  · have hl0 : cv.GetConversionLength c ≠ 0 := by omega
    have henc : encodeChar cv c = cv.GetEscapeChar :: cv.GetConversionString c := by
      simp [encodeChar, hl0]
    rw [henc] at he ⊢
    simp only [List.cons_append] at he
    refine ⟨?_, ?_⟩
    · rw [h.peekMatch pre _ cv.GetEscapeChar d he hg he0 hd]
      simp [hed]
    · unfold GetDelimitedCharInternal
      rw [h.getChar pre _ cv.GetEscapeChar he hg]
      simp only [if_true]
      have h1 : Readable (b.atGet ((pre.length : Int) + 1)) e := h.atGet _
      have hlen_e : (e.length : Int) = (pre.length : Int) + 1 +
          ((cv.GetConversionString c).length : Int) + (post.length : Int) := by
        rw [he]
        simp only [List.length_append, List.length_cons]
        push_cast
        omega
      obtain ⟨k, hk⟩ := h1.checkArbitrary cv.MaxConversionLength hmax
        (by simp only [atGet_get]; omega) (by simp only [atGet_get]; omega)
      rw [hk]
      simp only
      obtain ⟨tail, hp⟩ := h1.ptr (pre ++ [cv.GetEscapeChar]) (cv.GetConversionString c ++ post)
        (by rw [he]; simp) (by simp)
      rw [hp, List.append_assoc, hfind]
      simp only
      rw [h1.seekCurrent _ (by simp only [atGet_get]; omega)]
      simp only [atGet_get, atGet_atGet, List.length_cons, Nat.cast_add, Nat.cast_one, hlen]
      congr 2
      omega

/-- The read loop decodes the rest of an encoded string up to the closing delimiter. -/
theorem getDelimitedLoop_spec (cv : CUtlCharConversion) (d : Nat) (cap : Int)
    (hdel : cv.GetDelimiter = [d]) (hdl : cv.GetDelimiterLength = 1) (hd0 : d ≠ 0)
    (rest : List Nat) :
    ∀ (b : CUtlBuffer) (e pre acc junk : List Nat) (fuel : Nat), Readable b e →
      e = pre ++ (rest.flatMap (encodeChar cv) ++ [d]) → b.m_Get = (pre.length : Int) →
      (∀ c ∈ rest, CharOk cv d c) → rest.length < fuel →
      (acc.length : Int) + (rest.length : Int) < cap → rest.length ≤ junk.length →
      getDelimitedLoop cv cap fuel b (acc ++ junk) (acc.length : Int) =
        some (b.atGet (e.length : Int), acc ++ rest ++ junk.drop rest.length,
          (acc.length : Int) + (rest.length : Int)) := by
  induction rest with
  | nil =>
    intro b e pre acc junk fuel h he hg _ hfuel _ _
    obtain ⟨k, rfl⟩ : ∃ k, fuel = k + 1 := ⟨fuel - 1, by simp at hfuel; omega⟩
    simp only [List.flatMap_nil, List.nil_append] at he
    unfold getDelimitedLoop
    rw [if_neg (by simp [h.isValid]), hdel, hdl, h.peekMatch pre [] d d he hg hd0 hd0]
    simp only [decide_True]
    rw [h.seekCurrent 1 (by rw [hg, he]; simp)]
    simp only [List.append_nil, List.drop_zero, List.length_nil, Nat.cast_zero, add_zero,
      Option.some.injEq, Prod.mk.injEq, and_true]
    rw [hg, he]
    simp
  | cons c rest ih =>
    intro b e pre acc junk fuel h he hg hs hfuel hcap hjunk
    obtain ⟨k, rfl⟩ : ∃ k, fuel = k + 1 := ⟨fuel - 1, by omega⟩
    simp only [List.flatMap_cons, List.append_assoc] at he
    obtain ⟨hm, hdc⟩ := h.decodeChar cv d c pre _ he (by simp) hg hd0
      (hs c (List.mem_cons_self _ _))
    simp only [List.length_cons] at hfuel hcap hjunk
    push_cast at hcap
    obtain ⟨j, junk1, rfl⟩ : ∃ j junk1, junk = j :: junk1 := by
      cases junk with
      | nil => simp at hjunk
      | cons j junk1 => exact ⟨j, junk1, rfl⟩
    unfold getDelimitedLoop
    rw [if_neg (by simp [h.isValid]), hdel, hdl, hm]
    simp only [hdc]
    rw [if_pos (by omega), storeAt_append]
    simp only [List.set_cons_zero]
    have hih := ih (b.atGet ((pre.length : Int) + ((encodeChar cv c).length : Int))) e
      (pre ++ encodeChar cv c) (acc ++ [c]) junk1 k (h.atGet _)
      (by rw [he]; simp only [List.append_assoc])
      (by simp) (fun x hx => hs x (List.mem_cons_of_mem _ hx)) (by omega)
      (by simp only [List.length_append, List.length_singleton]; push_cast; omega)
      (by simp only [List.length_cons] at hjunk; omega)
    simp only [List.append_assoc, List.singleton_append, List.length_append,
      List.length_singleton, Nat.cast_add, Nat.cast_one, atGet_atGet] at hih
    rw [hih]
    simp only [List.length_cons, List.drop_succ_cons, Nat.cast_add, Nat.cast_one,
      List.cons_append, List.append_assoc, Option.some.injEq, Prod.mk.injEq, true_and]
    omega

/-- Reading back an encoded string from the start of a readable buffer. -/
theorem GetDelimitedString_decodes {b : CUtlBuffer} (cv : CUtlCharConversion) (d : Nat)
    (s dst : List Nat) (cap : Int) (h : Readable b (encodeString cv s)) (hg : b.m_Get = 0)
    (hdel : cv.GetDelimiter = [d]) (hdl : cv.GetDelimiterLength = 1) (hd0 : d ≠ 0)
    (hsp : V_isspace d = false) (hs : ∀ c ∈ s, CharOk cv d c)
    (hcap : (s.length : Int) < cap) (hdst : cap ≤ (dst.length : Int)) :
    b.GetDelimitedString (some cv) dst cap =
      some (b.atGet ((encodeString cv s).length : Int), s ++ 0 :: dst.drop (s.length + 1)) := by
  have he : encodeString cv s = [] ++ d :: (s.flatMap (encodeChar cv) ++ [d]) := by
    simp [encodeString, hdel]
  have hlen := length_le_flatMap_encodeChar cv s
  have hel : ((encodeString cv s).length : Int) =
      ((s.flatMap (encodeChar cv)).length : Int) + 2 := by
    rw [he]
    simp only [List.nil_append, List.length_cons, List.length_append, List.length_nil]
    push_cast
    ring
  unfold GetDelimitedString
  simp only [h.isText, h.isValid, not_true_eq_false, if_false]
  rw [if_neg (by omega)]
  rw [h.eatWhiteSpace_stop [] _ d he (by simpa using hg) hsp]
  simp only [hdel, hdl]
  rw [h.peekMatch [] _ d d he (by simpa using hg) hd0 hd0]
  simp only [decide_True]
  rw [h.seekCurrent 1 (by omega)]
  have hloop := getDelimitedLoop_spec cv d cap hdel hdl hd0 s (b.atGet (b.m_Get + 1))
    (encodeString cv s) [d] [] dst
    (((b.atGet (b.m_Get + 1)).m_nMaxPut - (b.atGet (b.m_Get + 1)).m_Get).toNat + 2) (h.atGet _)
    (by rw [he]; simp) (by simp [hg]) hs
    (by simp only [atGet_maxPut, atGet_get, h.loaded.maxPut, hg]; omega)
    (by simpa using hcap) (by omega)
  simp only [List.nil_append, List.length_nil, Nat.cast_zero, zero_add, atGet_atGet] at hloop
  rw [hloop]
  simp only [ge_iff_le]
  rw [if_neg (by omega)]
  have hdrop : ∃ j junk1, dst.drop s.length = j :: junk1 := by
    have : s.length < dst.length := by omega
    cases hx : dst.drop s.length with
    | nil =>
      have := congrArg List.length hx
      simp only [List.length_drop, List.length_nil] at this
      omega
    | cons j junk1 => exact ⟨j, junk1, rfl⟩
  obtain ⟨j, junk1, hj⟩ := hdrop
  have hj2 : dst.drop (s.length + 1) = junk1 := by
    rw [← List.drop_drop, hj]
    rfl
  rw [storeAt_append, hj, hj2]
  rfl

end DecodeFacts

/-! ## Round trip of the delimited-string codec -/

section RoundTrip

open CUtlBuffer

/-- Writing a string to a fresh text buffer and reading it back, for any table with a
one-byte delimiter that encodes every character of the string reversibly. -/
theorem delimited_roundtrip (cv : CUtlCharConversion) (d : Nat) (s dst : List Nat) (cap : Int)
    (growSize initSize : Int) (nFlags : BufferFlags_t) (uninit : Nat)
    (hdel : cv.GetDelimiter = [d]) (hdl : cv.GetDelimiterLength = 1) (hd0 : d ≠ 0)
    (hsp : V_isspace d = false) (hs : ∀ c ∈ s, CharOk cv d c)
    (hg : 0 ≤ growSize) (htext : nFlags.TEXT_BUFFER = true) (hro : nFlags.READ_ONLY = false)
    (hcap : (s.length : Int) < cap) (hdst : cap ≤ (dst.length : Int)) :
    ∃ (b1 b2 : CUtlBuffer) (dst1 : List Nat),
      (CUtlBuffer.new growSize initSize nFlags uninit).PutDelimitedString (some cv) (some s) =
        some b1 ∧
      b1.GetDelimitedString (some cv) dst cap = some (b2, dst1) ∧
      cstr dst1 = s ∧ b2.m_Get = b2.m_Put ∧ b2.m_Error = ⟨false, false⟩ := by
  obtain ⟨hw0, hget0, herr0, hfl0, htab0, hgf0⟩ := new_writable growSize initSize nFlags uninit hg hro
  have hs0 : ∀ c ∈ s, c ≠ 0 := fun c hc => (hs c hc).1
  obtain ⟨b1, hput, hw1, f1⟩ := PutDelimitedString_writable hw0 htab0
    (by rw [hfl0]; exact htext) cv (by rw [hdel, hdl]; rfl) s hs0
    (by
      intro c hc
      rcases (hs c hc).2 with ⟨hl, _⟩ | ⟨_, hlen, _⟩
      · exact Or.inl hl
      · exact Or.inr hlen)
  rw [List.nil_append] at hw1
  have hr1 : Readable b1 (encodeString cv s) :=
    ⟨loaded_of_writable hw1, f1.error.trans herr0, f1.getFunc.trans hgf0,
      by rw [f1.flags, hfl0]; exact htext⟩
  have hdec := GetDelimitedString_decodes cv d s dst cap hr1 (f1.get.trans hget0) hdel hdl hd0 hsp
    hs hcap hdst
  refine ⟨b1, _, _, hput, hdec, ?_, ?_, ?_⟩
  · rw [cstr_append_of_nonzero s _ hs0]
    simp [cstr]
  · simp only [atGet_get, atGet_put, hw1.put]
  · simp only [atGet_error, hr1.error]

/-- The C-string table encodes every non-NUL byte reversibly. -/
theorem cstring_charOk (c : Nat) (h0 : c ≠ 0) (h256 : c < 256) :
    CharOk s_StringCharConversion 34 c := by
  refine ⟨h0, ?_⟩
  by_cases h1 : c = 10
  · subst h1; exact Or.inr ⟨by decide, by decide, by decide, by decide, by decide, fun _ => rfl⟩
  by_cases h2 : c = 9
  · subst h2; exact Or.inr ⟨by decide, by decide, by decide, by decide, by decide, fun _ => rfl⟩
  by_cases h3 : c = 11
  · subst h3; exact Or.inr ⟨by decide, by decide, by decide, by decide, by decide, fun _ => rfl⟩
  by_cases h4 : c = 8
  · subst h4; exact Or.inr ⟨by decide, by decide, by decide, by decide, by decide, fun _ => rfl⟩
  by_cases h5 : c = 13
  · subst h5; exact Or.inr ⟨by decide, by decide, by decide, by decide, by decide, fun _ => rfl⟩
  by_cases h6 : c = 12
  · subst h6; exact Or.inr ⟨by decide, by decide, by decide, by decide, by decide, fun _ => rfl⟩
  by_cases h7 : c = 7
  · subst h7; exact Or.inr ⟨by decide, by decide, by decide, by decide, by decide, fun _ => rfl⟩
  by_cases h8 : c = 92
  · subst h8; exact Or.inr ⟨by decide, by decide, by decide, by decide, by decide, fun _ => rfl⟩
  by_cases h9 : c = 63
  · subst h9; exact Or.inr ⟨by decide, by decide, by decide, by decide, by decide, fun _ => rfl⟩
  by_cases h10 : c = 39
  · subst h10; exact Or.inr ⟨by decide, by decide, by decide, by decide, by decide, fun _ => rfl⟩
  by_cases h11 : c = 34
  · subst h11; exact Or.inr ⟨by decide, by decide, by decide, by decide, by decide, fun _ => rfl⟩
  refine Or.inl ⟨?_, h11, h8⟩
  simp [CUtlCharConversion.GetConversionLength, s_StringCharConversion,
    CUtlCharConversion.newCString, CUtlCharConversion.new, CUtlCharConversion.ctorStep,
    Nat.mod_eq_of_lt h256, h1, h2, h3, h4, h5, h6, h7, h8, h9, h10, h11]

/-- The no-escape table passes every byte through unchanged, so it encodes reversibly
every non-NUL byte other than its delimiter and its escape byte. -/
theorem noesc_charOk (c : Nat) (h0 : c ≠ 0) (hd : c ≠ 34) (he : c ≠ 127) :
    CharOk s_NoEscConversion 34 c := by
  refine ⟨h0, Or.inl ⟨?_, hd, he⟩⟩
  simp only [CUtlCharConversion.GetConversionLength, s_NoEscConversion,
    CUtlCharConversion.newNoEsc, CUtlCharConversion.new, CUtlCharConversion.ctorStep,
    List.foldl]
  split <;> rfl

end RoundTrip

/-! ## Facts about break-set tokens -/

section TokenFacts

open CUtlBuffer

/-- Every list splits into its longest head run satisfying `p` and a rest that is
empty or begins with an element that does not satisfy `p`. -/
theorem split_run (p : Nat → Bool) (l : List Nat) :
    ∃ a r : List Nat, l = a ++ r ∧ (∀ x ∈ a, p x = true) ∧
      (r = [] ∨ ∃ x r1, r = x :: r1 ∧ p x = false) := by
  induction l with
  | nil => exact ⟨[], [], rfl, fun _ h => by simp at h, Or.inl rfl⟩
  | cons y ys ih =>
    by_cases hy : p y = true
    · obtain ⟨a, r, h1, h2, h3⟩ := ih
      refine ⟨y :: a, r, by rw [h1]; rfl, ?_, h3⟩
      intro x hx
      rcases List.mem_cons.mp hx with rfl | hx
      · exact hy
      · exact h2 x hx
    · exact ⟨[], y :: ys, rfl, fun _ h => by simp at h, Or.inr ⟨y, ys, rfl, by simpa using hy⟩⟩

theorem V_isspace_le (x : Nat) (h : V_isspace x = true) : x ≤ 32 ∧ x ≠ 0 ∧ x ≠ 34 := by
  simp only [V_isspace, Bool.or_eq_true, beq_iff_eq] at h
  omega

theorem specTokensAux_space (pBreaks : characterset_t) (ws rest : List Nat)
    (hws : ∀ x ∈ ws, V_isspace x = true ∧ IN_CHARACTERSET pBreaks x = false) :
    specTokensAux pBreaks [] (ws ++ rest) = specTokensAux pBreaks [] rest := by
  induction ws with
  | nil => rfl
  | cons x xs ih =>
    obtain ⟨h1, h2⟩ := hws x (List.mem_cons_self _ _)
    have hle := (V_isspace_le x h1).1
    simp only [List.cons_append, specTokensAux, h2, Bool.false_eq_true, if_false]
    rw [if_neg (by omega)]
    simp only [flushRun, if_true, List.nil_append]
    exact ih (fun y hy => hws y (List.mem_cons_of_mem _ hy))

theorem specTokensAux_word (pBreaks : characterset_t) (w : List Nat) :
    ∀ (cur rest : List Nat), (∀ x ∈ w, IN_CHARACTERSET pBreaks x = false ∧ 32 < x) →
    specTokensAux pBreaks cur (w ++ rest) = specTokensAux pBreaks (cur ++ w) rest := by
  induction w with
  | nil => intro cur rest _; simp
  | cons x xs ih =>
    intro cur rest hw
    obtain ⟨h1, h2⟩ := hw x (List.mem_cons_self _ _)
    have hstep : specTokensAux pBreaks cur (x :: (xs ++ rest)) =
        specTokensAux pBreaks (cur ++ [x]) (xs ++ rest) := by
      simp only [specTokensAux, h1, Bool.false_eq_true, if_false, h2, if_true]
    rw [List.cons_append, hstep,
      ih (cur ++ [x]) rest (fun y hy => hw y (List.mem_cons_of_mem _ hy))]
    simp

/-- A word followed by nothing or by a byte that ends it is the first token. -/
theorem specTokens_word (pBreaks : characterset_t) (w post : List Nat) (hne : w ≠ [])
    (hw : ∀ x ∈ w, IN_CHARACTERSET pBreaks x = false ∧ 32 < x)
    (hpost : post = [] ∨ ∃ x r, post = x :: r ∧ (IN_CHARACTERSET pBreaks x = true ∨ x ≤ 32)) :
    specTokens pBreaks (w ++ post) = w :: specTokens pBreaks post := by
  unfold specTokens
  rw [specTokensAux_word pBreaks w [] post hw, List.nil_append]
  rcases hpost with rfl | ⟨x, r, rfl, hx⟩
  · simp [specTokensAux, flushRun, hne]
  · by_cases hb : IN_CHARACTERSET pBreaks x = true
    · simp [specTokensAux, flushRun, hne, hb]
    · have hx2 : x ≤ 32 := by
        rcases hx with hx | hx
        · exact absurd hx hb
        · exact hx
      have hb2 : IN_CHARACTERSET pBreaks x = false := by simpa using hb
      have hn : ¬ 32 < x := by omega
      simp [specTokensAux, hb2, flushRun, hne, hn]

theorem specTokens_break (pBreaks : characterset_t) (c : Nat) (rest : List Nat)
    (hc : IN_CHARACTERSET pBreaks c = true) :
    specTokens pBreaks (c :: rest) = [c] :: specTokens pBreaks rest := by
  simp [specTokens, specTokensAux, hc, flushRun]

/-- White space skipping over a run of white space. -/
theorem eatWhiteSpaceLoop_run (ws : List Nat) :
    ∀ (b : CUtlBuffer) (e pre post : List Nat) (fuel : Nat), Readable b e →
    e = pre ++ (ws ++ post) → b.m_Get = (pre.length : Int) →
    (∀ x ∈ ws, V_isspace x = true) →
    (post = [] ∨ ∃ x r, post = x :: r ∧ V_isspace x = false) → ws.length < fuel →
    eatWhiteSpaceLoop fuel b =
      some (if post = [] then (b.atGet (e.length : Int)).setGetOverflow true
            else b.atGet ((pre.length : Int) + (ws.length : Int))) := by
  induction ws with
  | nil =>
    intro b e pre post fuel h he hg _ hpost hfuel
    obtain ⟨k, rfl⟩ : ∃ k, fuel = k + 1 := ⟨fuel - 1, by simp at hfuel; omega⟩
    simp only [List.nil_append] at he
    unfold eatWhiteSpaceLoop
    rcases hpost with rfl | ⟨x, r, rfl, hx⟩
    · simp only [List.append_nil] at he
      rw [CheckGet_overflow b 1 h.getErr (by rw [h.loaded.maxPut, hg, he]; omega)]
      simp only [if_true]
      rw [he, ← hg]
      rfl
    · obtain ⟨tail, hp⟩ := h.ptr pre (x :: r) he hg
      rw [CheckGet_loaded h.loaded 1 h.getErr (by omega)
        (by rw [hg, he]; simp only [List.length_append, List.length_cons]; push_cast; omega)]
      simp only [hp, deref, List.cons_append, List.headD_cons, hx, Bool.false_eq_true,
        not_false_eq_true, if_true, List.length_nil, Nat.cast_zero, add_zero, if_false,
        reduceCtorEq]
      rw [← hg]
      rfl
  | cons w ws ih =>
    intro b e pre post fuel h he hg hws hpost hfuel
    obtain ⟨k, rfl⟩ : ∃ k, fuel = k + 1 := ⟨fuel - 1, by omega⟩
    simp only [List.cons_append] at he
    obtain ⟨tail, hp⟩ := h.ptr pre (w :: (ws ++ post)) he hg
    have hw := hws w (List.mem_cons_self _ _)
    unfold eatWhiteSpaceLoop
    rw [CheckGet_loaded h.loaded 1 h.getErr (by omega)
      (by rw [hg, he]; simp only [List.length_append, List.length_cons]; push_cast; omega)]
    simp only [hp, deref, List.cons_append, List.headD_cons, hw, not_true_eq_false, if_false]
    have hih := ih (b.atGet (b.m_Get + 1)) e (pre ++ [w]) post k (h.atGet _)
      (by rw [he]; simp) (by simp [hg])
      (fun x hx => hws x (List.mem_cons_of_mem _ hx)) hpost
      (by simp only [List.length_cons] at hfuel; omega)
    simp only [atGet_atGet, List.length_append, List.length_singleton, Nat.cast_add,
      Nat.cast_one] at hih
    show eatWhiteSpaceLoop k (b.atGet (b.m_Get + 1)) = _
    rw [hih]
    simp only [List.length_cons, Nat.cast_add, Nat.cast_one]
    congr 3
    omega

theorem storeAt_append_at (c t : List Nat) (i : Int) (v : Nat) (hi : i = (c.length : Int)) :
    storeAt (c ++ t) i v = c ++ t.set 0 v := by
  subst hi
  exact storeAt_append c t v

theorem storeAt_length (l : List Nat) (i : Int) (v : Nat) : (storeAt l i v).length = l.length := by
  simp [storeAt]

/-- White space skipping on a readable buffer. -/
theorem Readable.eatWhiteSpace_run {b : CUtlBuffer} {e : List Nat} (h : Readable b e)
    (pre ws post : List Nat) (he : e = pre ++ (ws ++ post)) (hg : b.m_Get = (pre.length : Int))
    (hws : ∀ x ∈ ws, V_isspace x = true)
    (hpost : post = [] ∨ ∃ x r, post = x :: r ∧ V_isspace x = false) :
    b.EatWhiteSpace =
      some (if post = [] then (b.atGet (e.length : Int)).setGetOverflow true
            else b.atGet ((pre.length : Int) + (ws.length : Int))) := by
  unfold EatWhiteSpace
  rw [if_pos ⟨h.isText, h.isValid⟩]
  apply eatWhiteSpaceLoop_run ws b e pre post _ h he hg hws hpost
  rw [h.loaded.maxPut, hg, he]
  simp only [List.length_append]
  push_cast
  omega

/-- On a latched buffer `ParseToken` returns -1 at once. -/
theorem ParseToken_invalid (b : CUtlBuffer) (pBreaks : characterset_t) (buf : List Nat)
    (nMaxLen : Int) (hv : b.IsValid = false) :
    b.ParseToken pBreaks buf nMaxLen false = some (-1, storeAt buf 0 0, b) := by
  unfold ParseToken
  simp only [parseSkipLoop, hv, Bool.false_eq_true, not_false_eq_true, if_true]

/-- The word loop reads the rest of a word and stops before the byte that ends it. -/
theorem parseWordLoop_spec (pBreaks : characterset_t) (nMaxLen : Int) (w : List Nat) :
    ∀ (b : CUtlBuffer) (e pre post acc junk : List Nat) (fuel c : Nat), Readable b e →
    e = pre ++ (w ++ post) → b.m_Get = (pre.length : Int) →
    (∀ x ∈ w, IN_CHARACTERSET pBreaks x = false ∧ x ≠ 34 ∧ leSpace x = false) →
    (post = [] ∨ ∃ x r, post = x :: r ∧
      (IN_CHARACTERSET pBreaks x = true ∨ x = 34 ∨ leSpace x = true)) →
    w.length < fuel → (acc.length : Int) + 1 + (w.length : Int) < nMaxLen →
    w.length + 2 ≤ junk.length →
    parseWordLoop pBreaks nMaxLen fuel b (acc ++ junk) (acc.length : Int) c =
      some ((acc.length : Int) + 1 + (w.length : Int),
        acc ++ c :: w ++ 0 :: junk.drop (w.length + 2),
        if post = [] then (b.atGet (e.length : Int)).setGetOverflow true
        else b.atGet ((pre.length : Int) + (w.length : Int))) := by
  induction w with
  | nil =>
    intro b e pre post acc junk fuel c h he hg _ hpost hfuel hmax hjunk
    obtain ⟨k, rfl⟩ : ∃ k, fuel = k + 1 := ⟨fuel - 1, by simp at hfuel; omega⟩
    obtain ⟨j0, j1, junk1, rfl⟩ : ∃ j0 j1 junk1, junk = j0 :: j1 :: junk1 := by
      match junk, hjunk with
      | j0 :: j1 :: junk1, _ => exact ⟨j0, j1, junk1, rfl⟩
    simp only [List.nil_append, List.length_nil, Nat.cast_zero, add_zero] at he hmax ⊢
    unfold parseWordLoop
    simp only
    rw [if_neg (by omega), storeAt_append, List.set_cons_zero]
    have hs2 : storeAt (acc ++ c :: j1 :: junk1) ((acc.length : Int) + 1) 0 =
        acc ++ c :: 0 :: junk1 := by
      have := storeAt_append_at (acc ++ [c]) (j1 :: junk1) ((acc.length : Int) + 1) 0 (by simp)
      simpa using this
    rcases hpost with rfl | ⟨x, r, rfl, hx⟩
    · simp only [List.append_nil] at he
      rw [h.getChar_end (by rw [hg, he])]
      simp only [IsValid, setGetOverflow, Bool.not_true, Bool.and_false, Bool.false_eq_true,
        not_false_eq_true, if_true]
      rw [hs2]
      simp only [if_true, List.drop_succ_cons, List.drop_zero, Option.some.injEq, Prod.mk.injEq,
        true_and]
      rw [he, ← hg]
      exact ⟨by simp, rfl⟩
    · rw [h.getChar pre r x he hg]
      simp only [(h.atGet _).isValid, not_true_eq_false, if_false]
      rw [if_pos (by
        rcases hx with hx | hx | hx
        · exact Or.inl hx
        · exact Or.inr (Or.inl hx)
        · exact Or.inr (Or.inr hx))]
      rw [(h.atGet _).seekCurrent (-1) (by
        simp only [atGet_get, he, List.length_append, List.length_cons]; push_cast; omega)]
      rw [hs2]
      simp only [atGet_get, atGet_atGet, add_neg_cancel_right, List.drop_succ_cons,
        List.drop_zero, if_false, reduceCtorEq]
      simp
  | cons x w ih =>
    intro b e pre post acc junk fuel c h he hg hw hpost hfuel hmax hjunk
    obtain ⟨k, rfl⟩ : ∃ k, fuel = k + 1 := ⟨fuel - 1, by omega⟩
    obtain ⟨j0, junk1, rfl⟩ : ∃ j0 junk1, junk = j0 :: junk1 := by
      match junk, hjunk with
      | j0 :: junk1, _ => exact ⟨j0, junk1, rfl⟩
    simp only [List.length_cons] at hfuel hmax hjunk
    push_cast at hmax
    simp only [List.cons_append] at he
    obtain ⟨hx1, hx2, hx3⟩ := hw x (List.mem_cons_self _ _)
    unfold parseWordLoop
    simp only
    rw [if_neg (by omega), storeAt_append, List.set_cons_zero]
    rw [h.getChar pre _ x he hg]
    simp only [(h.atGet _).isValid, not_true_eq_false, if_false, hx1, hx2, hx3,
      Bool.false_eq_true, or_self]
    have hih := ih (b.atGet ((pre.length : Int) + 1)) e (pre ++ [x]) post (acc ++ [c]) junk1 k x
      (h.atGet _) (by rw [he]; simp) (by simp)
      (fun y hy => hw y (List.mem_cons_of_mem _ hy)) hpost (by omega)
      (by simp only [List.length_append, List.length_singleton]; push_cast; omega) (by omega)
    simp only [List.append_assoc, List.singleton_append, List.length_append,
      List.length_singleton, Nat.cast_add, Nat.cast_one, atGet_atGet] at hih
    rw [hih]
    simp only [List.length_cons, List.drop_succ_cons, Nat.cast_add, Nat.cast_one,
      List.cons_append, Option.some.injEq, Prod.mk.injEq, and_true, true_and]
    refine ⟨by omega, by simp, ?_⟩
    have harith : (pre.length : Int) + 1 + (w.length : Int) =
        (pre.length : Int) + ((w.length : Int) + 1) := by omega
    rw [harith]

theorem parseSkipLoop_plain (b b1 : CUtlBuffer) (k : Nat) (hv : b.IsValid = true)
    (he : b.EatWhiteSpace = some b1) : parseSkipLoop false (k + 1) b = some (true, b1) := by
  unfold parseSkipLoop
  simp only [hv, not_true_eq_false, if_false, he, Bool.false_eq_true]

theorem setGetOverflow_invalid (b : CUtlBuffer) : (b.setGetOverflow true).IsValid = false := by
  simp [IsValid, setGetOverflow]

/-- The call of `ParseToken` when only white space remains: -1, with the get latch set. -/
theorem Readable.parseToken_end {b : CUtlBuffer} {e : List Nat} (h : Readable b e)
    (pBreaks : characterset_t) (buf : List Nat) (nMaxLen : Int) (pre ws : List Nat)
    (he : e = pre ++ ws) (hg : b.m_Get = (pre.length : Int))
    (hws : ∀ x ∈ ws, V_isspace x = true) :
    b.ParseToken pBreaks buf nMaxLen false =
      some (-1, storeAt buf 0 0, (b.atGet (e.length : Int)).setGetOverflow true) := by
  have hw := h.eatWhiteSpace_run pre ws [] (by simpa using he) hg hws (Or.inl rfl)
  simp only [if_true] at hw
  unfold ParseToken
  simp only
  rw [parseSkipLoop_plain b _ _ h.isValid hw]
  simp only [GetChar]
  rw [CheckGet_latched _ _ (by rfl)]
  simp only [if_true]

/-- The call of `ParseToken` at a break-set byte: that byte alone. -/
theorem Readable.parseToken_break {b : CUtlBuffer} {e : List Nat} (h : Readable b e)
    (pBreaks : characterset_t) (buf : List Nat) (nMaxLen : Int) (pre ws r : List Nat) (c : Nat)
    (he : e = pre ++ (ws ++ c :: r)) (hg : b.m_Get = (pre.length : Int))
    (hws : ∀ x ∈ ws, V_isspace x = true) (hc : V_isspace c = false) (hc0 : c ≠ 0)
    (hc34 : c ≠ 34) (hcb : IN_CHARACTERSET pBreaks c = true) :
    b.ParseToken pBreaks buf nMaxLen false =
      some (1, storeAt (storeAt (storeAt buf 0 0) 0 c) 1 0,
        b.atGet ((pre.length : Int) + (ws.length : Int) + 1)) := by
  have hw := h.eatWhiteSpace_run pre ws (c :: r) he hg hws (Or.inr ⟨c, r, rfl, hc⟩)
  simp only [if_false, reduceCtorEq] at hw
  unfold ParseToken
  simp only
  rw [parseSkipLoop_plain b _ _ h.isValid hw]
  simp only
  rw [(h.atGet _).getChar (pre ++ ws) r c (by rw [he]; simp) (by simp)]
  simp only [hc0, hc34, if_false, hcb, if_true, List.length_append, Nat.cast_add, atGet_atGet]

/-- The call of `ParseToken` at a word: the word, up to the byte that ends it. -/
theorem Readable.parseToken_word {b : CUtlBuffer} {e : List Nat} (h : Readable b e)
    (pBreaks : characterset_t) (buf : List Nat) (nMaxLen : Int) (pre ws w post : List Nat)
    (c : Nat) (he : e = pre ++ (ws ++ c :: (w ++ post))) (hg : b.m_Get = (pre.length : Int))
    (hws : ∀ x ∈ ws, V_isspace x = true) (hc : V_isspace c = false) (hc0 : c ≠ 0)
    (hc34 : c ≠ 34) (hcb : IN_CHARACTERSET pBreaks c = false)
    (hw : ∀ x ∈ w, IN_CHARACTERSET pBreaks x = false ∧ x ≠ 34 ∧ leSpace x = false)
    (hpost : post = [] ∨ ∃ x r, post = x :: r ∧
      (IN_CHARACTERSET pBreaks x = true ∨ x = 34 ∨ leSpace x = true))
    (hmax : (w.length : Int) + 1 < nMaxLen) (hbuf : w.length + 2 ≤ buf.length) :
    b.ParseToken pBreaks buf nMaxLen false =
      some ((w.length : Int) + 1, c :: w ++ 0 :: (storeAt buf 0 0).drop (w.length + 2),
        if post = [] then (b.atGet (e.length : Int)).setGetOverflow true
        else b.atGet ((pre.length : Int) + (ws.length : Int) + 1 + (w.length : Int))) := by
  have hws2 := h.eatWhiteSpace_run pre ws (c :: (w ++ post)) he hg hws (Or.inr ⟨c, _, rfl, hc⟩)
  simp only [if_false, reduceCtorEq] at hws2
  unfold ParseToken
  simp only
  rw [parseSkipLoop_plain b _ _ h.isValid hws2]
  simp only
  rw [(h.atGet _).getChar (pre ++ ws) (w ++ post) c (by rw [he]; simp) (by simp)]
  simp only [hc0, hc34, if_false, hcb, Bool.false_eq_true, atGet_atGet]
  have hl := parseWordLoop_spec pBreaks nMaxLen w
    (b.atGet (((pre ++ ws).length : Int) + 1)) e (pre ++ ws ++ [c]) post [] (storeAt buf 0 0)
    (((b.atGet (((pre ++ ws).length : Int) + 1)).m_nMaxPut -
      (b.atGet (((pre ++ ws).length : Int) + 1)).m_Get).toNat + 2) c (h.atGet _)
    (by rw [he]; simp) (by simp; omega) hw hpost
    (by
      simp only [atGet_maxPut, atGet_get, h.loaded.maxPut, he, List.length_append,
        List.length_cons]
      push_cast
      omega)
    (by simp only [List.length_nil, Nat.cast_zero]; omega)
    (by rw [storeAt_length]; exact hbuf)
  simp only [List.nil_append, List.length_nil, Nat.cast_zero, zero_add, atGet_atGet,
    List.length_append, List.length_singleton, Nat.cast_add, Nat.cast_one] at hl
  simp only [List.length_append, Nat.cast_add]
  rw [hl]
  rw [add_comm (1 : Int)]

theorem cstr_terminated (t rest : List Nat) (h : ∀ x ∈ t, x ≠ 0) :
    cstr (t ++ 0 :: rest) = t := by
  rw [cstr_append_of_nonzero t _ h]
  simp [cstr]

/-- Repeated calls of `ParseToken` read the tokens of the specification, in order, and
then return -1. -/
theorem parseAll_spec (pBreaks : characterset_t) (nMaxLen : Int)
    (hB : ∀ x, V_isspace x = true → IN_CHARACTERSET pBreaks x = false) :
    ∀ (n : Nat) (rest : List Nat), rest.length ≤ n →
    ∀ (b : CUtlBuffer) (e pre buf : List Nat) (fuel : Nat), Readable b e → e = pre ++ rest →
    b.m_Get = (pre.length : Int) → (∀ x ∈ rest, PlainByte x) →
    (∀ t ∈ specTokens pBreaks rest, (t.length : Int) < nMaxLen) →
    2 ≤ buf.length → nMaxLen ≤ (buf.length : Int) → rest.length < fuel →
    ∃ (b1 : CUtlBuffer) (buf1 : List Nat),
      parseAll pBreaks nMaxLen fuel b buf =
        some ((specTokens pBreaks rest).map (fun t => ((t.length : Int), t)), b1, buf1) ∧
      b1.IsValid = false := by
  intro n
  induction n with
  | zero =>
    intro rest hn b e pre buf fuel h he hg _ _ _ _ hfuel
    obtain ⟨k, rfl⟩ : ∃ k, fuel = k + 1 := ⟨fuel - 1, by omega⟩
    have hr : rest = [] := List.length_eq_zero.mp (by omega)
    subst hr
    unfold parseAll
    rw [h.parseToken_end pBreaks buf nMaxLen pre [] he hg (fun _ hx => by simp at hx)]
    exact ⟨_, _, rfl, setGetOverflow_invalid _⟩
  | succ m ih =>
    intro rest hn b e pre buf fuel h he hg hplain hlen hb2 hbm hfuel
    obtain ⟨k, rfl⟩ : ∃ k, fuel = k + 1 := ⟨fuel - 1, by omega⟩
    obtain ⟨ws, post, hsplit, hws, hpost⟩ := split_run V_isspace rest
    have hws2 : ∀ x ∈ ws, V_isspace x = true ∧ IN_CHARACTERSET pBreaks x = false :=
      fun x hx => ⟨hws x hx, hB x (hws x hx)⟩
    have hspec : specTokens pBreaks rest = specTokens pBreaks post := by
      rw [hsplit]
      exact specTokensAux_space pBreaks ws post hws2
    rw [hspec] at hlen ⊢
    rw [hsplit] at he
    rcases hpost with rfl | ⟨c, r, rfl, hc⟩
    · unfold parseAll
      rw [h.parseToken_end pBreaks buf nMaxLen pre ws (by simpa using he) hg hws]
      exact ⟨_, _, rfl, setGetOverflow_invalid _⟩
    · have hcp : PlainByte c := hplain c (by rw [hsplit]; simp)
      obtain ⟨hc34, hc128, hcs⟩ := hcp
      have hc32 : 32 < c := by
        rcases hcs with hcs | hcs
        · rw [hc] at hcs; exact absurd hcs (by simp)
        · exact hcs
      have hc0 : c ≠ 0 := by omega
      have hrl : r.length ≤ m := by
        rw [hsplit] at hn
        simp only [List.length_append, List.length_cons] at hn
        omega
      have hrk : r.length < k := by
        rw [hsplit] at hfuel
        simp only [List.length_append, List.length_cons] at hfuel
        omega
      have hrplain : ∀ x ∈ r, PlainByte x := fun x hx => hplain x (by rw [hsplit]; simp [hx])
      obtain ⟨j0, j1, junk, rfl⟩ : ∃ j0 j1 junk, buf = j0 :: j1 :: junk := by
        match buf, hb2 with
        | j0 :: j1 :: junk, _ => exact ⟨j0, j1, junk, rfl⟩
      by_cases hcb : IN_CHARACTERSET pBreaks c = true
      · rw [specTokens_break pBreaks c r hcb] at hlen ⊢
        obtain ⟨b1, buf1, hrec, hinv⟩ := ih r hrl
          (b.atGet ((pre.length : Int) + (ws.length : Int) + 1)) e (pre ++ ws ++ [c])
          (storeAt (storeAt (storeAt (j0 :: j1 :: junk) 0 0) 0 c) 1 0) k (h.atGet _)
          (by rw [he]; simp) (by simp; omega) hrplain
          (fun t ht => hlen t (List.mem_cons_of_mem _ ht))
          (by simp only [storeAt_length]; exact hb2)
          (by simp only [storeAt_length]; exact hbm) hrk
        unfold parseAll
        rw [h.parseToken_break pBreaks _ nMaxLen pre ws r c he hg hws hc hc0 hc34 hcb]
        simp only [if_false, reduceCtorEq, hrec, Option.map_some', List.map_cons,
          List.length_singleton, Nat.cast_one]
        refine ⟨b1, buf1, ?_, hinv⟩
        have hcs1 : cstr (storeAt (storeAt (storeAt (j0 :: j1 :: junk) 0 0) 0 c) 1 0) = [c] := by
          have : storeAt (storeAt (storeAt (j0 :: j1 :: junk) 0 0) 0 c) 1 0 =
              [c] ++ 0 :: junk := rfl
          rw [this]
          exact cstr_terminated [c] junk (fun x hx => by simp at hx; omega)
        rw [hcs1]
      · have hcb2 : IN_CHARACTERSET pBreaks c = false := by simpa using hcb
        obtain ⟨w, post1, hsplit2, hw, hpost1⟩ :=
          split_run (fun x => !IN_CHARACTERSET pBreaks x && decide (32 < x)) r
        have hw1 : ∀ x ∈ w, IN_CHARACTERSET pBreaks x = false ∧ 32 < x := by
          intro x hx
          have := hw x hx
          simp only [Bool.and_eq_true, Bool.not_eq_true', decide_eq_true_eq] at this
          exact this
        have hw2 : ∀ x ∈ w, IN_CHARACTERSET pBreaks x = false ∧ x ≠ 34 ∧ leSpace x = false := by
          intro x hx
          obtain ⟨h34, h128, _⟩ := hrplain x (by rw [hsplit2]; simp [hx])
          obtain ⟨hxb, hx32⟩ := hw1 x hx
          refine ⟨hxb, h34, ?_⟩
          simp only [leSpace, decide_eq_false_iff_not, not_or, not_le]
          omega
        have hpost2 : post1 = [] ∨ ∃ x r1, post1 = x :: r1 ∧
            (IN_CHARACTERSET pBreaks x = true ∨ x ≤ 32) := by
          rcases hpost1 with hp | ⟨x, r1, hp, hx⟩
          · exact Or.inl hp
          · refine Or.inr ⟨x, r1, hp, ?_⟩
            simp only [Bool.and_eq_false_imp, Bool.not_eq_true', decide_eq_false_iff_not, not_lt]
              at hx
            by_cases hxb : IN_CHARACTERSET pBreaks x = true
            · exact Or.inl hxb
            · exact Or.inr (hx (by simpa using hxb))
        have hpost3 : post1 = [] ∨ ∃ x r1, post1 = x :: r1 ∧
            (IN_CHARACTERSET pBreaks x = true ∨ x = 34 ∨ leSpace x = true) := by
          rcases hpost2 with hp | ⟨x, r1, hp, hx⟩
          · exact Or.inl hp
          · refine Or.inr ⟨x, r1, hp, ?_⟩
            rcases hx with hx | hx
            · exact Or.inl hx
            · exact Or.inr (Or.inr (by simp only [leSpace, decide_eq_true_eq]; omega))
        have hword : specTokens pBreaks (c :: r) = (c :: w) :: specTokens pBreaks post1 := by
          rw [hsplit2]
          exact specTokens_word pBreaks (c :: w) post1 (by simp)
            (by
              intro x hx
              rcases List.mem_cons.mp hx with rfl | hx
              · exact ⟨hcb2, hc32⟩
              · exact hw1 x hx)
            hpost2
        rw [hword] at hlen ⊢
        have hwl : ((c :: w).length : Int) < nMaxLen := hlen _ (List.mem_cons_self _ _)
        simp only [List.length_cons] at hwl
        push_cast at hwl
        have hnz : ∀ x ∈ c :: w, x ≠ 0 := by
          intro x hx
          rcases List.mem_cons.mp hx with rfl | hx
          · exact hc0
          · have := (hw1 x hx).2; omega
        rw [hsplit2] at he
        have hbuflen : w.length + 2 ≤ (j0 :: j1 :: junk).length := by
          have : (w.length : Int) + 2 ≤ ((j0 :: j1 :: junk).length : Int) := by omega
          exact_mod_cast this
        have hcall := h.parseToken_word pBreaks (j0 :: j1 :: junk) nMaxLen pre ws w post1 c he hg
          hws hc hc0 hc34 hcb2 hw2 hpost3 hwl hbuflen
        have hcs2 : cstr (c :: w ++ 0 :: List.drop (w.length + 2) (storeAt (j0 :: j1 :: junk) 0 0)) =
            c :: w := cstr_terminated (c :: w) _ hnz
        have hbl : (c :: w ++ 0 :: List.drop (w.length + 2) (storeAt (j0 :: j1 :: junk) 0 0)).length =
            (j0 :: j1 :: junk).length := by
          simp only [List.length_append, List.length_cons, List.length_drop, storeAt_length]
          simp only [List.length_cons] at hbuflen
          omega
        unfold parseAll
        rw [hcall]
        simp only
        rw [if_neg (by omega), hcs2]
        rcases hpost2 with rfl | ⟨x, r1, rfl, hx⟩
        · simp only [if_true]
          obtain ⟨k1, rfl⟩ : ∃ k1, k = k1 + 1 := ⟨k - 1, by omega⟩
          unfold parseAll
          rw [ParseToken_invalid _ _ _ _ (setGetOverflow_invalid _)]
          simp only [if_true, Option.map_some']
          refine ⟨(b.atGet (e.length : Int)).setGetOverflow true,
            storeAt (c :: w ++ 0 :: List.drop (w.length + 2) (storeAt (j0 :: j1 :: junk) 0 0)) 0 0,
            ?_, setGetOverflow_invalid _⟩
          simp [specTokens, specTokensAux, flushRun]
        · simp only [if_false, reduceCtorEq]
          have hr1l : (x :: r1).length ≤ m := by
            rw [hsplit2] at hrl
            simp only [List.length_append] at hrl
            omega
          obtain ⟨b1, buf1, hrec, hinv⟩ := ih (x :: r1) hr1l
            (b.atGet ((pre.length : Int) + (ws.length : Int) + 1 + (w.length : Int))) e
            (pre ++ ws ++ c :: w)
            (c :: w ++ 0 :: List.drop (w.length + 2) (storeAt (j0 :: j1 :: junk) 0 0)) k (h.atGet _)
            (by rw [he]; simp) (by simp; omega)
            (fun y hy => hrplain y (by rw [hsplit2]; exact List.mem_append_right _ hy))
            (fun t ht => hlen t (List.mem_cons_of_mem _ ht))
            (by rw [hbl]; exact hb2) (by rw [hbl]; exact hbm)
            (by
              rw [hsplit2] at hrk
              simp only [List.length_append] at hrk
              omega)
          rw [hrec]
          refine ⟨b1, buf1, ?_, hinv⟩
          simp only [Option.map_some', List.map_cons, List.length_cons, Nat.cast_add, Nat.cast_one]

end TokenFacts

/-! ## C1: Put / SeekGet / Get round trip -/

/-- C1: on a freshly constructed owned buffer (default hooks, not read-only), `Put (s, len s)`,
then `SeekGet (SEEK_HEAD, 0)`, then `Get (dst, len s)` leaves the first `len s` bytes of `dst`
equal to `s`, with `get_pos = put_pos = max_put = len s` and no error flag set. -/
theorem C1_put_seek_get_roundtrip (s dst : List Nat) (growSize initSize : Int)
    (nFlags : BufferFlags_t) (uninit : Nat)
    (hg : 0 ≤ growSize) (hro : nFlags.READ_ONLY = false) (_hdst : s.length ≤ dst.length) :
    let b1 := (CUtlBuffer.new growSize initSize nFlags uninit).Put s (s.length : Int)
    let b2 := b1.SeekGet .SEEK_HEAD 0
    let r := b2.Get dst (s.length : Int)
    r.2 = s ++ dst.drop s.length ∧ r.1.m_Get = (s.length : Int) ∧ r.1.m_Put = (s.length : Int) ∧
      r.1.m_nMaxPut = (s.length : Int) ∧ r.1.m_Error = ⟨false, false⟩ := by
  obtain ⟨hw0, hget0, herr0, _, _, hgf0⟩ := CUtlBuffer.new_writable growSize initSize nFlags uninit hg hro
  obtain ⟨hw1, hf1⟩ := CUtlBuffer.Put_writable hw0 s
  rw [List.nil_append] at hw1
  have hgf1 := hf1.getFunc.trans hgf0
  have hget1 := hf1.get.trans hget0
  have herr1 := hf1.error.trans herr0
  clear hf1 hw0
  generalize (CUtlBuffer.new growSize initSize nFlags uninit).Put s (s.length : Int) = b1 at *
  show ((b1.SeekGet .SEEK_HEAD 0).Get dst (s.length : Int)).2 = s ++ dst.drop s.length ∧
    ((b1.SeekGet .SEEK_HEAD 0).Get dst (s.length : Int)).1.m_Get = (s.length : Int) ∧
    ((b1.SeekGet .SEEK_HEAD 0).Get dst (s.length : Int)).1.m_Put = (s.length : Int) ∧
    ((b1.SeekGet .SEEK_HEAD 0).Get dst (s.length : Int)).1.m_nMaxPut = (s.length : Int) ∧
    ((b1.SeekGet .SEEK_HEAD 0).Get dst (s.length : Int)).1.m_Error = ⟨false, false⟩
  have hb2 : b1.SeekGet .SEEK_HEAD 0 = b1 := by
    rw [CUtlBuffer.SeekGet_default b1 hgf1]
    have hmp : ¬ (0 > b1.m_nMaxPut) := by rw [hw1.maxPut]; omega
    simp only [seekPos, hmp, decide_False]
    rw [CUtlBuffer.setGetOverflow_same]
    · rw [← hget1]
    · simp only [herr1]
  rw [hb2, CUtlBuffer.Get_loaded (CUtlBuffer.loaded_of_writable hw1) dst s.length (by rw [herr1])
    (by omega) (by rw [hget1]; omega)]
  simp only [hget1, Int.toNat_zero, List.drop_zero, List.take_length, zero_add, true_and]
  exact ⟨hw1.put, hw1.maxPut, herr1⟩

theorem C1_put_seek_get_roundtrip_witness :
    let b1 := (CUtlBuffer.new 0 0 ⟨false, false, false, false, false⟩ 205).Put [72, 0, 255]
      (([72, 0, 255] : List Nat).length : Int)
    let b2 := b1.SeekGet .SEEK_HEAD 0
    let r := b2.Get [1, 2, 3] (([72, 0, 255] : List Nat).length : Int)
    r.2 = [72, 0, 255] ++ ([1, 2, 3] : List Nat).drop ([72, 0, 255] : List Nat).length ∧
      r.1.m_Get = (([72, 0, 255] : List Nat).length : Int) ∧
      r.1.m_Put = (([72, 0, 255] : List Nat).length : Int) ∧
      r.1.m_nMaxPut = (([72, 0, 255] : List Nat).length : Int) ∧ r.1.m_Error = ⟨false, false⟩ :=
  C1_put_seek_get_roundtrip [72, 0, 255] [1, 2, 3] 0 0 ⟨false, false, false, false, false⟩ 205
    (by decide) rfl (by decide)

/-! ## C2: round trip through the C-string table -/

/-- C2: for the C-string conversion table and every NUL-free byte string `s` (the empty string
and strings of escape-table bytes included), on a fresh text-mode buffer
`PutDelimitedString (conv, s)` followed by `GetDelimitedString (conv, dst, cap)` with
`cap > len s` returns, yields `dst = s`, leaves `get_pos = put_pos` and sets no error flag. -/
theorem C2_cstring_roundtrip (s dst : List Nat) (cap : Int) (growSize initSize : Int)
    (nFlags : BufferFlags_t) (uninit : Nat) (hs : ∀ c ∈ s, c ≠ 0 ∧ c < 256)
    (hg : 0 ≤ growSize) (htext : nFlags.TEXT_BUFFER = true) (hro : nFlags.READ_ONLY = false)
    (hcap : (s.length : Int) < cap) (hdst : cap ≤ (dst.length : Int)) :
    ∃ (b1 b2 : CUtlBuffer) (dst1 : List Nat),
      (CUtlBuffer.new growSize initSize nFlags uninit).PutDelimitedString
        (some GetCStringCharConversion) (some s) = some b1 ∧
      b1.GetDelimitedString (some GetCStringCharConversion) dst cap = some (b2, dst1) ∧
      cstr dst1 = s ∧ b2.m_Get = b2.m_Put ∧ b2.m_Error = ⟨false, false⟩ :=
  delimited_roundtrip s_StringCharConversion 34 s dst cap growSize initSize nFlags uninit rfl rfl
    (by decide) rfl (fun c hc => cstring_charOk c (hs c hc).1 (hs c hc).2) hg htext hro hcap hdst

theorem C2_cstring_roundtrip_witness :
    ∃ (b1 b2 : CUtlBuffer) (dst1 : List Nat),
      (CUtlBuffer.new 0 0 ⟨true, false, false, false, false⟩ 205).PutDelimitedString
        (some GetCStringCharConversion) (some [97, 10, 34, 92, 9, 200]) = some b1 ∧
      b1.GetDelimitedString (some GetCStringCharConversion) [1, 1, 1, 1, 1, 1, 1, 1] 8 =
        some (b2, dst1) ∧
      cstr dst1 = [97, 10, 34, 92, 9, 200] ∧ b2.m_Get = b2.m_Put ∧ b2.m_Error = ⟨false, false⟩ :=
  C2_cstring_roundtrip [97, 10, 34, 92, 9, 200] [1, 1, 1, 1, 1, 1, 1, 1] 8 0 0
    ⟨true, false, false, false, false⟩ 205 (by decide) (by decide) rfl rfl (by decide) (by decide)

/-! ## C3: round trip through any table -/

/-- C3, counterexample: with the no-escape table the string `a"b` is written raw, so reading
it back stops at the embedded double quote and yields `a`. -/
theorem C3_counterexample :
    (((CUtlBuffer.new 0 0 ⟨true, false, false, false, false⟩ 205).PutDelimitedString
        (some GetNoEscCharConversion) (some [97, 34, 98])).bind
      (fun b1 => (b1.GetDelimitedString (some GetNoEscCharConversion) [1, 1, 1, 1, 1, 1, 1, 1] 8).map
        (fun r => cstr r.2))) = some [97] ∧
    ([97] : List Nat) ≠ [97, 34, 98] := by
  decide

/-- C3, amended: on a fresh text-mode buffer `GetDelimitedString` applied to the output of
`PutDelimitedString (conv, s)` returns exactly `s` whenever the destination capacity exceeds
`len s`, for the C-string table and every NUL-free `s`, and for the no-escape table and every
NUL-free `s` that holds neither the delimiter `"` nor the escape byte 0x7F. -/
theorem C3_roundtrip_amended (cv : CUtlCharConversion) (s dst : List Nat) (cap : Int)
    (growSize initSize : Int) (nFlags : BufferFlags_t) (uninit : Nat)
    (hcv : (cv = GetCStringCharConversion ∧ ∀ c ∈ s, c < 256) ∨
      (cv = GetNoEscCharConversion ∧ ∀ c ∈ s, c ≠ 34 ∧ c ≠ 127))
    (hs : ∀ c ∈ s, c ≠ 0)
    (hg : 0 ≤ growSize) (htext : nFlags.TEXT_BUFFER = true) (hro : nFlags.READ_ONLY = false)
    (hcap : (s.length : Int) < cap) (hdst : cap ≤ (dst.length : Int)) :
    ∃ (b1 b2 : CUtlBuffer) (dst1 : List Nat),
      (CUtlBuffer.new growSize initSize nFlags uninit).PutDelimitedString (some cv) (some s) =
        some b1 ∧
      b1.GetDelimitedString (some cv) dst cap = some (b2, dst1) ∧ cstr dst1 = s := by
  rcases hcv with ⟨rfl, h256⟩ | ⟨rfl, hne⟩
  · obtain ⟨b1, b2, dst1, h1, h2, h3, _⟩ :=
      delimited_roundtrip s_StringCharConversion 34 s dst cap growSize initSize nFlags uninit
        rfl rfl (by decide) rfl (fun c hc => cstring_charOk c (hs c hc) (h256 c hc))
        hg htext hro hcap hdst
    exact ⟨b1, b2, dst1, h1, h2, h3⟩
  · obtain ⟨b1, b2, dst1, h1, h2, h3, _⟩ :=
      delimited_roundtrip s_NoEscConversion 34 s dst cap growSize initSize nFlags uninit
        rfl rfl (by decide) rfl
        (fun c hc => noesc_charOk c (hs c hc) (hne c hc).1 (hne c hc).2)
        hg htext hro hcap hdst
    exact ⟨b1, b2, dst1, h1, h2, h3⟩

theorem C3_roundtrip_amended_witness :
    ∃ (b1 b2 : CUtlBuffer) (dst1 : List Nat),
      (CUtlBuffer.new 0 0 ⟨true, false, false, false, false⟩ 205).PutDelimitedString
        (some GetNoEscCharConversion) (some [97, 92, 10]) = some b1 ∧
      b1.GetDelimitedString (some GetNoEscCharConversion) [1, 1, 1, 1] 4 = some (b2, dst1) ∧
      cstr dst1 = [97, 92, 10] :=
  C3_roundtrip_amended GetNoEscCharConversion [97, 92, 10] [1, 1, 1, 1] 4 0 0
    ⟨true, false, false, false, false⟩ 205 (Or.inr ⟨rfl, by decide⟩) (by decide) (by decide)
    rfl rfl (by decide) (by decide)

/-! ## C4: the GET_OVERFLOW latch -/

/-- C4: on a buffer with no error set, a `Get` of `n > 0` bytes with `get_pos + n > max_put`
sets the GET_OVERFLOW latch and leaves `get_pos` and the destination unchanged; every
following `Get` is a no-op that copies nothing; a `SeekGet` to a position `p <= max_put`
(whatever the hook) moves the cursor to `p` and clears the latch; and on a fully materialised
buffer with the default hook a `Get` of an in-range size then copies the bytes under the
cursor and advances it. -/
theorem C4_get_overflow_latch (b : CUtlBuffer) (n : Int) (dst : List Nat)
    (herr : b.m_Error = ⟨false, false⟩) (hn : 0 < n) (hov : b.m_nMaxPut < b.m_Get + n) :
    b.Get dst n = (b.setGetOverflow true, dst) ∧
    (∀ (m : Int) (dst1 : List Nat), (b.setGetOverflow true).Get dst1 m = (b.setGetOverflow true, dst1)) ∧
    (∀ (type : SeekType_t) (offset : Int),
      seekPos b.m_Get b.m_nMaxPut type offset ≤ b.m_nMaxPut →
      ((b.setGetOverflow true).SeekGet type offset).m_Get = seekPos b.m_Get b.m_nMaxPut type offset ∧
      ((b.setGetOverflow true).SeekGet type offset).m_Error = ⟨false, false⟩) ∧
    (∀ (c : List Nat) (type : SeekType_t) (offset : Int) (k : Nat) (dst1 : List Nat), Loaded b c →
      b.m_GetOverflowFunc = .GetOverflow →
      0 ≤ seekPos b.m_Get b.m_nMaxPut type offset →
      seekPos b.m_Get b.m_nMaxPut type offset + (k : Int) ≤ b.m_nMaxPut →
      ((b.setGetOverflow true).SeekGet type offset).Get dst1 (k : Int) =
        ({ b with m_Get := seekPos b.m_Get b.m_nMaxPut type offset + (k : Int) },
          (c.drop (seekPos b.m_Get b.m_nMaxPut type offset).toNat).take k ++ dst1.drop k)) := by
  have hge : b.m_Error.GET_OVERFLOW = false := by rw [herr]
  refine ⟨?_, ?_, ?_, ?_⟩
  · unfold CUtlBuffer.Get
    rw [if_pos hn, CUtlBuffer.CheckGet_overflow b n hge hov]
  · intro m dst1
    unfold CUtlBuffer.Get
    split
    · rw [CUtlBuffer.CheckGet_latched _ _ rfl]
    · rfl
  · intro type offset hle
    obtain ⟨mem, g, p, ⟨pe, ge⟩, f, tab, mp, off, gf, pf⟩ := b
    simp only [ErrorFlags_t.mk.injEq] at herr
    obtain ⟨rfl, rfl⟩ := herr
    simp only at hle
    have hle2 : ¬ seekPos g mp type offset > mp := by omega
    cases type <;> cases gf <;>
      simp only [CUtlBuffer.SeekGet, CUtlBuffer.setGetOverflow, CUtlBuffer.OnGetOverflow,
        CUtlBuffer.GetOverflow, CUtlBuffer.StreamGetOverflow, seekPos] at hle2 ⊢ <;>
      rw [if_neg hle2] <;> split <;> exact ⟨rfl, rfl⟩
  · intro c type offset k dst1 hl hf h0 hk
    have hle : seekPos b.m_Get b.m_nMaxPut type offset ≤ b.m_nMaxPut := by omega
    have hseek : (b.setGetOverflow true).SeekGet type offset =
        { b with m_Get := seekPos b.m_Get b.m_nMaxPut type offset } := by
      rw [CUtlBuffer.SeekGet_default (b.setGetOverflow true) hf]
      have hd : decide (seekPos b.m_Get b.m_nMaxPut type offset > b.m_nMaxPut) = false := by
        simp only [decide_eq_false_iff_not, not_lt, ge_iff_le, gt_iff_lt]
        exact hle
      simp only [CUtlBuffer.setGetOverflow] at hd ⊢
      rw [hd]
      obtain ⟨m, g, p, ⟨pe, ge⟩, f, tab, mp, off, gf, pf⟩ := b
      simp only at herr
      simp only [ErrorFlags_t.mk.injEq] at herr
      obtain ⟨_, rfl⟩ := herr
      rfl
    rw [hseek]
    have hl2 : Loaded ({ b with m_Get := seekPos b.m_Get b.m_nMaxPut type offset } : CUtlBuffer) c :=
      ⟨hl.offset, hl.maxPut, hl.content⟩
    rw [CUtlBuffer.Get_loaded hl2 dst1 k hge h0 (by rw [← hl.maxPut]; exact hk)]

theorem C4_get_overflow_latch_witness :
    threeBytesAtOne.Get [0, 0, 0, 0, 0] 5 = (threeBytesAtOne.setGetOverflow true, [0, 0, 0, 0, 0]) ∧
    (∀ (m : Int) (dst1 : List Nat),
      (threeBytesAtOne.setGetOverflow true).Get dst1 m = (threeBytesAtOne.setGetOverflow true, dst1)) ∧
    (∀ (type : SeekType_t) (offset : Int),
      seekPos threeBytesAtOne.m_Get threeBytesAtOne.m_nMaxPut type offset ≤ threeBytesAtOne.m_nMaxPut →
      ((threeBytesAtOne.setGetOverflow true).SeekGet type offset).m_Get =
        seekPos threeBytesAtOne.m_Get threeBytesAtOne.m_nMaxPut type offset ∧
      ((threeBytesAtOne.setGetOverflow true).SeekGet type offset).m_Error = ⟨false, false⟩) ∧
    (∀ (c : List Nat) (type : SeekType_t) (offset : Int) (k : Nat) (dst1 : List Nat),
      Loaded threeBytesAtOne c → threeBytesAtOne.m_GetOverflowFunc = .GetOverflow →
      0 ≤ seekPos threeBytesAtOne.m_Get threeBytesAtOne.m_nMaxPut type offset →
      seekPos threeBytesAtOne.m_Get threeBytesAtOne.m_nMaxPut type offset + (k : Int) ≤
        threeBytesAtOne.m_nMaxPut →
      ((threeBytesAtOne.setGetOverflow true).SeekGet type offset).Get dst1 (k : Int) =
        ({ threeBytesAtOne with
            m_Get := seekPos threeBytesAtOne.m_Get threeBytesAtOne.m_nMaxPut type offset + (k : Int) },
          (c.drop (seekPos threeBytesAtOne.m_Get threeBytesAtOne.m_nMaxPut type offset).toNat).take k ++
            dst1.drop k)) :=
  C4_get_overflow_latch threeBytesAtOne 5 [0, 0, 0, 0, 0] (by decide) (by decide) (by decide)

/-! ## C5: read operations under the latch -/

/-- C5: evaluation at the failing input.  On the three-byte buffer `[10, 20, 30]` with
`get_pos = 1` and GET_OVERFLOW latched by a failed `Get` of 5 bytes, `GetUpTo (dst, 2)` is not
a no-op: it returns 2, copies the bytes 20 and 30 and moves `get_pos` to 3, while `Get`,
`GetString`, `GetLine`, `GetDelimitedString` and `EatWhiteSpace` leave the cursor in place. -/
theorem C5_GetUpTo_reads_under_latch :
    (threeBytesAtOne.Get [0, 0, 0, 0, 0] 5).1.m_Error.GET_OVERFLOW = true ∧
    (threeBytesAtOne.Get [0, 0, 0, 0, 0] 5).1.m_Get = 1 ∧
    (threeBytesAtOne.Get [0, 0, 0, 0, 0] 5).1.m_nMaxPut = 3 ∧
    ((threeBytesAtOne.Get [0, 0, 0, 0, 0] 5).1.GetUpTo [0, 0] 2).1 = 2 ∧
    ((threeBytesAtOne.Get [0, 0, 0, 0, 0] 5).1.GetUpTo [0, 0] 2).2.1.m_Get = 3 ∧
    ((threeBytesAtOne.Get [0, 0, 0, 0, 0] 5).1.GetUpTo [0, 0] 2).2.2 = [20, 30] ∧
    ((threeBytesAtOne.Get [0, 0, 0, 0, 0] 5).1.Get [0, 0] 2) =
      ((threeBytesAtOne.Get [0, 0, 0, 0, 0] 5).1, [0, 0]) ∧
    ((threeBytesAtOne.Get [0, 0, 0, 0, 0] 5).1.GetString [7, 7] 2) =
      some ((threeBytesAtOne.Get [0, 0, 0, 0, 0] 5).1, [0, 7]) ∧
    ((threeBytesAtOne.Get [0, 0, 0, 0, 0] 5).1.GetLine [7, 7] 2) =
      some ((threeBytesAtOne.Get [0, 0, 0, 0, 0] 5).1, [0, 7]) ∧
    ((threeBytesAtOne.Get [0, 0, 0, 0, 0] 5).1.GetDelimitedString (some s_StringCharConversion)
        [7, 7] 2) = some ((threeBytesAtOne.Get [0, 0, 0, 0, 0] 5).1, [0, 7]) ∧
    ((threeBytesAtOne.Get [0, 0, 0, 0, 0] 5).1.EatWhiteSpace) =
      some (threeBytesAtOne.Get [0, 0, 0, 0, 0] 5).1 := by
  decide

/-! ## C6: the PUT_OVERFLOW latch and SeekPut -/

/-- C6, counterexample: on four bytes of fixed caller memory a `Put` of five bytes latches
PUT_OVERFLOW; after `SeekPut (SEEK_HEAD, 0)` the latch is still set and a one-byte `Put`,
which would fit, is not performed. -/
theorem C6_counterexample :
    (fixedFour.Put [1, 2, 3, 4, 5] 5).m_Error.PUT_OVERFLOW = true ∧
    ((fixedFour.Put [1, 2, 3, 4, 5] 5).SeekPut .SEEK_HEAD 0).m_Error.PUT_OVERFLOW = true ∧
    (((fixedFour.Put [1, 2, 3, 4, 5] 5).SeekPut .SEEK_HEAD 0).Put [9] 1) =
      ((fixedFour.Put [1, 2, 3, 4, 5] 5).SeekPut .SEEK_HEAD 0) ∧
    (((fixedFour.Put [1, 2, 3, 4, 5] 5).SeekPut .SEEK_HEAD 0).Put [9] 1).m_Memory.m_pMemory =
      [0, 205, 205, 205] := by
  decide

/-- C6, amended: in every buffer in which PUT_OVERFLOW is latched, `SeekPut` (any origin, any
offset) leaves the latch set, and every following `Put` is a no-op. -/
theorem C6_seek_put_keeps_latch (b : CUtlBuffer) (type : SeekType_t) (offset : Int)
    (h : b.m_Error.PUT_OVERFLOW = true) :
    (b.SeekPut type offset).m_Error.PUT_OVERFLOW = true ∧
    ∀ (pMem : List Nat) (size : Int),
      (b.SeekPut type offset).Put pMem size = b.SeekPut type offset := by
  have key : (b.SeekPut type offset).m_Error.PUT_OVERFLOW = true := by
    unfold CUtlBuffer.SeekPut
    simp only
    rw [CUtlBuffer.AddNullTermination_latched]
    · rw [CUtlBuffer.OnPutOverflow_error]; exact h
    · rw [CUtlBuffer.OnPutOverflow_error]; exact h
  refine ⟨key, ?_⟩
  intro pMem size
  unfold CUtlBuffer.Put
  split
  · unfold CUtlBuffer.CheckPut
    rw [if_pos (Or.inl key)]
  · rfl

theorem C6_seek_put_keeps_latch_witness :
    ((fixedFour.Put [1, 2, 3, 4, 5] 5).SeekPut .SEEK_HEAD 0).m_Error.PUT_OVERFLOW = true ∧
    ∀ (pMem : List Nat) (size : Int),
      ((fixedFour.Put [1, 2, 3, 4, 5] 5).SeekPut .SEEK_HEAD 0).Put pMem size =
        (fixedFour.Put [1, 2, 3, 4, 5] 5).SeekPut .SEEK_HEAD 0 :=
  C6_seek_put_keeps_latch (fixedFour.Put [1, 2, 3, 4, 5] 5) .SEEK_HEAD 0 (by decide)

/-! ## C7: peeks leave the buffer alone -/

/-- C7: with the default overflow hook every peek operation (`PeekGet (maxSize, offset)`,
`CheckPeekGet`, `CheckArbitraryPeekGet`, `PeekStringMatch`, `PeekWhiteSpace`,
`PeekStringLength`, `PeekLineLength`, `PeekDelimitedStringLength`) returns and leaves the
whole buffer state, so `get_pos`, `put_pos`, `max_put` and the error flags, exactly as it was,
whether the peek succeeds or fails. -/
theorem C7_peek_leaves_state (b : CUtlBuffer) (hf : b.m_GetOverflowFunc = .GetOverflow) :
    (∀ nMaxSize nOffset : Int, (b.PeekGet nMaxSize nOffset).2 = b) ∧
    (∀ nOffset nSize : Int, (b.CheckPeekGet nOffset nSize).2 = b) ∧
    (∀ nOffset nIncrement : Int, (b.CheckArbitraryPeekGet nOffset nIncrement).2.2 = b) ∧
    (∀ (nOffset : Int) (pString : List Nat) (nLen : Int),
      (b.PeekStringMatch nOffset pString nLen).2 = b) ∧
    (∀ nOffset : Int, ∃ r : Int, b.PeekWhiteSpace nOffset = some (r, b)) ∧
    (∃ r : Int, b.PeekStringLength = some (r, b)) ∧
    (∃ r : Int, b.PeekLineLength = some (r, b)) ∧
    (∀ (cv : CUtlCharConversion) (bActualSize : Bool), cv.Constructed →
      ∃ r : Int, b.PeekDelimitedStringLength (some cv) bActualSize = some (r, b)) ∧
    (∀ bActualSize : Bool, ∃ r : Int, b.PeekDelimitedStringLength none bActualSize = some (r, b)) := by
  refine ⟨CUtlBuffer.PeekGet_default b hf, CUtlBuffer.CheckPeekGet_default_snd b hf,
    fun o i => (CUtlBuffer.CheckArbitraryPeekGet_default b hf o i).1,
    CUtlBuffer.PeekStringMatch_default b hf, ?_, CUtlBuffer.PeekStringLength_default b hf,
    CUtlBuffer.PeekLineLength_default b hf, ?_, ?_⟩
  · intro nOffset
    obtain ⟨r, hr, _⟩ := CUtlBuffer.PeekWhiteSpace_default b hf nOffset
    exact ⟨r, hr⟩
  · intro cv bActualSize hcv
    exact CUtlBuffer.PeekDelimitedStringLength_default b hf (some cv)
      (fun cv1 h => by cases h; exact hcv) bActualSize
  · intro bActualSize
    exact CUtlBuffer.PeekDelimitedStringLength_default b hf none (fun _ h => by cases h) bActualSize

theorem C7_peek_leaves_state_witness :
    (∀ nMaxSize nOffset : Int, ((wholeText [32, 34, 97, 34]).PeekGet nMaxSize nOffset).2 =
      wholeText [32, 34, 97, 34]) ∧
    (∀ nOffset nSize : Int, ((wholeText [32, 34, 97, 34]).CheckPeekGet nOffset nSize).2 =
      wholeText [32, 34, 97, 34]) ∧
    (∀ nOffset nIncrement : Int,
      ((wholeText [32, 34, 97, 34]).CheckArbitraryPeekGet nOffset nIncrement).2.2 =
        wholeText [32, 34, 97, 34]) ∧
    (∀ (nOffset : Int) (pString : List Nat) (nLen : Int),
      ((wholeText [32, 34, 97, 34]).PeekStringMatch nOffset pString nLen).2 =
        wholeText [32, 34, 97, 34]) ∧
    (∀ nOffset : Int, ∃ r : Int,
      (wholeText [32, 34, 97, 34]).PeekWhiteSpace nOffset = some (r, wholeText [32, 34, 97, 34])) ∧
    (∃ r : Int, (wholeText [32, 34, 97, 34]).PeekStringLength = some (r, wholeText [32, 34, 97, 34])) ∧
    (∃ r : Int, (wholeText [32, 34, 97, 34]).PeekLineLength = some (r, wholeText [32, 34, 97, 34])) ∧
    (∀ (cv : CUtlCharConversion) (bActualSize : Bool), cv.Constructed →
      ∃ r : Int, (wholeText [32, 34, 97, 34]).PeekDelimitedStringLength (some cv) bActualSize =
        some (r, wholeText [32, 34, 97, 34])) ∧
    (∀ bActualSize : Bool, ∃ r : Int,
      (wholeText [32, 34, 97, 34]).PeekDelimitedStringLength none bActualSize =
        some (r, wholeText [32, 34, 97, 34])) :=
  C7_peek_leaves_state (wholeText [32, 34, 97, 34]) rfl

/-! ## C8: GetToken on a fully materialised buffer -/

namespace CUtlBuffer

theorem getTokenLoop_loaded {b : CUtlBuffer} {c : List Nat} (hl : Loaded b c) (t : List Nat)
    (he : b.m_Error.GET_OVERFLOW = false) (h0 : 0 ≤ b.m_Get)
    (ht : t ≠ []) (htz : ∀ x ∈ t, x ≠ 0) (hcz : ∀ x ∈ c.drop b.m_Get.toNat, x ≠ 0)
    (fuel : Nat) (nMaxSize : Int) (hmax : (c.length : Int) - b.m_Get ≤ nMaxSize)
    (hrem : (t.length : Int) ≤ (c.length : Int) - b.m_Get) :
    getTokenLoop t (t.length : Int) (fuel + 1) b nMaxSize ((c.length : Int) - b.m_Get) =
      match findCI t (c.drop b.m_Get.toNat) 0 with
      | some i => some (true, b.SeekGet .SEEK_CURRENT ((i : Int) + (t.length : Int)))
      | none => some (false, b) := by
  have hpos : 0 < t.length := List.length_pos.mpr ht
  unfold getTokenLoop
  rw [if_pos (by omega)]
  have hov : decide ((c.length : Int) - b.m_Get > nMaxSize) = false := by
    simp only [decide_eq_false_iff_not, not_lt, gt_iff_lt]; exact hmax
  simp only [hov, Bool.false_eq_true, if_false, false_and]
  rw [CheckPeekGet_loaded hl 0 _ he h0 (by omega)]
  simp only
  obtain ⟨tail, hp⟩ := PeekGetPtr_loaded hl 0 (by omega) (by omega)
  have hv : V_strnistr (b.PeekGetPtr 0) t ((c.length : Int) - b.m_Get) =
      findCI t (c.drop b.m_Get.toNat) 0 := by
    unfold V_strnistr
    rw [cstr_of_nonzero t htz, if_neg ht, hp, add_zero, cstr_append_of_nonzero _ _ hcz]
    congr 1
    rw [List.take_append_of_le_length (by simp; omega)]
    apply List.take_of_length_le
    simp
    omega
  rw [hv]
  cases findCI t (c.drop b.m_Get.toNat) 0 with
  | none =>
    simp only
    rw [if_pos (by omega)]
  | some i => rfl

end CUtlBuffer

/-- C8: on a fully materialised buffer (window base 0, content inside the storage, default
hook, no error, `0 <= get_pos`) whose unread bytes hold no NUL, and for a non-empty NUL-free
token `t`: `GetToken (t)` returns; it returns true exactly when `t` occurs, compared without
regard to case, in the bytes `[get_pos, max_put)`; on success `get_pos` becomes the index just
past the first occurrence; on failure `get_pos` keeps its value. -/
theorem C8_GetToken_finds_first (b : CUtlBuffer) (c t : List Nat) (hl : Loaded b c)
    (hf : b.m_GetOverflowFunc = .GetOverflow) (herr : b.m_Error = ⟨false, false⟩)
    (h0 : 0 ≤ b.m_Get) (ht : t ≠ []) (htz : ∀ x ∈ t, x ≠ 0)
    (hcz : ∀ x ∈ c.drop b.m_Get.toNat, x ≠ 0) :
    ∃ (found : Bool) (b1 : CUtlBuffer), b.GetToken t = some (found, b1) ∧
      (found = true ↔ ∃ i, OccursAt t (c.drop b.m_Get.toNat) i) ∧
      (found = true → ∃ i, OccursAt t (c.drop b.m_Get.toNat) i ∧
        (∀ j, j < i → ¬ OccursAt t (c.drop b.m_Get.toNat) j) ∧
        b1.m_Get = b.m_Get + (i : Int) + (t.length : Int)) ∧
      (found = false → b1.m_Get = b.m_Get) := by
  have he : b.m_Error.GET_OVERFLOW = false := by rw [herr]
  have hpos : 0 < t.length := List.length_pos.mpr ht
  obtain ⟨tail, htail⟩ := hl.content
  have hsize : b.Size = (c.length : Int) + (tail.length : Int) := by
    simp [CUtlBuffer.Size, CUtlMemory.NumAllocated, ← htail]
  have hfail : ∀ b2 : CUtlBuffer, b2 = b → (∀ i, ¬ OccursAt t (c.drop b.m_Get.toNat) i) →
      ∃ (found : Bool) (b1 : CUtlBuffer),
        some (false, b2.SeekGet .SEEK_HEAD b.m_Get) = some (found, b1) ∧
        (found = true ↔ ∃ i, OccursAt t (c.drop b.m_Get.toNat) i) ∧
        (found = true → ∃ i, OccursAt t (c.drop b.m_Get.toNat) i ∧
          (∀ j, j < i → ¬ OccursAt t (c.drop b.m_Get.toNat) j) ∧
          b1.m_Get = b.m_Get + (i : Int) + (t.length : Int)) ∧
        (found = false → b1.m_Get = b.m_Get) := by
    intro b2 hb2 hno
    subst hb2
    refine ⟨false, _, rfl, ?_, fun h => by simp at h, ?_⟩
    · constructor
      · intro h; simp at h
      · rintro ⟨i, hi⟩; exact absurd hi (hno i)
    · intro _
      rw [CUtlBuffer.SeekGet_default_get _ hf]
      rfl
  unfold CUtlBuffer.GetToken
  simp only [V_strlen_of_nonzero t htz, CUtlBuffer.TellGet, CUtlBuffer.TellMaxPut, hl.offset,
    hl.maxPut, sub_zero]
  by_cases hrem : (t.length : Int) ≤ (c.length : Int) - b.m_Get
  · rw [CUtlBuffer.getTokenLoop_loaded hl t he h0 ht htz hcz _ _ (by split <;> omega) hrem]
    rcases findCI_spec t ht (c.drop b.m_Get.toNat) 0 with ⟨h1, h2⟩ | ⟨i, h1, h2, h3⟩
    · rw [h1]
      exact hfail b rfl h2
    · rw [h1]
      simp only [zero_add]
      refine ⟨true, _, rfl, ?_, ?_, fun h => by simp at h⟩
      · exact ⟨fun _ => ⟨i, h2⟩, fun _ => rfl⟩
      · intro _
        refine ⟨i, h2, h3, ?_⟩
        rw [CUtlBuffer.SeekGet_default_get _ hf]
        simp only [seekPos]
        omega
  · have hno : ∀ i, ¬ OccursAt t (c.drop b.m_Get.toNat) i := by
      intro i hi
      have := hi.1
      rw [List.length_drop] at this
      omega
    have hloop : ∀ nMaxSize : Int,
        CUtlBuffer.getTokenLoop t (t.length : Int) (((c.length : Int) - b.m_Get).toNat + 1) b nMaxSize
          ((c.length : Int) - b.m_Get) = some (false, b) := by
      intro nMaxSize
      unfold CUtlBuffer.getTokenLoop
      rw [if_neg (by omega)]
    rw [hloop]
    exact hfail b rfl hno

theorem C8_GetToken_finds_first_witness :
    ∃ (found : Bool) (b1 : CUtlBuffer),
      (wholeText [120, 70, 111, 79, 102, 111, 111]).GetToken [102, 79, 111] = some (found, b1) ∧
      (found = true ↔ ∃ i, OccursAt [102, 79, 111]
        (([120, 70, 111, 79, 102, 111, 111] : List Nat).drop
          (wholeText [120, 70, 111, 79, 102, 111, 111]).m_Get.toNat) i) ∧
      (found = true → ∃ i, OccursAt [102, 79, 111]
        (([120, 70, 111, 79, 102, 111, 111] : List Nat).drop
          (wholeText [120, 70, 111, 79, 102, 111, 111]).m_Get.toNat) i ∧
        (∀ j, j < i → ¬ OccursAt [102, 79, 111]
          (([120, 70, 111, 79, 102, 111, 111] : List Nat).drop
            (wholeText [120, 70, 111, 79, 102, 111, 111]).m_Get.toNat) j) ∧
        b1.m_Get = (wholeText [120, 70, 111, 79, 102, 111, 111]).m_Get + (i : Int) +
          (([102, 79, 111] : List Nat).length : Int)) ∧
      (found = false → b1.m_Get = (wholeText [120, 70, 111, 79, 102, 111, 111]).m_Get) :=
  C8_GetToken_finds_first (wholeText [120, 70, 111, 79, 102, 111, 111])
    [120, 70, 111, 79, 102, 111, 111] [102, 79, 111]
    ⟨rfl, rfl, List.prefix_refl _⟩ rfl rfl (by decide) (by decide) (by decide) (by decide)

/-! ## C10: ParseToken with a break set -/

/-- C10, counterexample: the input `a`, byte 1, `b` is made of ASCII bytes without double quote
or NUL.  The runs of bytes greater than space are `a` and `b`, but the calls of `ParseToken`
(break set `{',', '='}`, comments disabled) return `a` and then the two-byte token made of
byte 1 and `b`: a control byte that is not white space starts a word. -/
theorem C10_counterexample :
    (parseAll commaEquals 16 4 (wholeText [97, 1, 98]) (List.replicate 16 0)).map (fun r => r.1) =
      some [(1, [97]), (2, [1, 98])] ∧
    specTokens commaEquals [97, 1, 98] = [[97], [98]] := by
  decide

/-- C10, amended: for every text buffer (fully materialised, no error, default hook, cursor at
0) whose input bytes are ASCII, not the double quote, and each either white space or greater
than space, every break set `B` that holds no white-space byte, comments disabled and `max_len`
larger than every word: repeated calls of `ParseToken (B, buf, max_len, false)` return, in input
order, one token per break-set byte (that byte alone, length 1) and one token per maximal run
of bytes greater than space and not in `B`, then return -1, and keep returning -1. -/
theorem C10_parse_tokens_amended (pBreaks : characterset_t) (input buf : List Nat)
    (nMaxLen : Int) (b : CUtlBuffer) (hb : Readable b input) (hg : b.m_Get = 0)
    (hin : ∀ x ∈ input, PlainByte x)
    (hB : ∀ x, V_isspace x = true → IN_CHARACTERSET pBreaks x = false)
    (hlen : ∀ t ∈ specTokens pBreaks input, (t.length : Int) < nMaxLen)
    (hb2 : 2 ≤ buf.length) (hbm : nMaxLen ≤ (buf.length : Int)) :
    ∃ (b1 : CUtlBuffer) (buf1 : List Nat),
      parseAll pBreaks nMaxLen (input.length + 1) b buf =
        some ((specTokens pBreaks input).map (fun t => ((t.length : Int), t)), b1, buf1) ∧
      ∀ buf2 : List Nat,
        b1.ParseToken pBreaks buf2 nMaxLen false = some (-1, storeAt buf2 0 0, b1) := by
  obtain ⟨b1, buf1, h1, h2⟩ := parseAll_spec pBreaks nMaxLen hB input.length input (le_refl _)
    b input [] buf (input.length + 1) hb rfl (by simpa using hg) hin hlen hb2 hbm
    (Nat.lt_succ_self _)
  exact ⟨b1, buf1, h1, fun buf2 => ParseToken_invalid b1 pBreaks buf2 nMaxLen h2⟩

theorem C10_parse_tokens_amended_witness :
    ∃ (b1 : CUtlBuffer) (buf1 : List Nat),
      parseAll commaEquals 16 (keyValueText.length + 1) (wholeText keyValueText)
          (List.replicate 16 0) =
        some ([(3, [107, 101, 121]), (1, [61]), (5, [118, 97, 108, 117, 101]), (1, [44]),
          (4, [110, 101, 120, 116])], b1, buf1) ∧
      ∀ buf2 : List Nat,
        b1.ParseToken commaEquals buf2 16 false = some (-1, storeAt buf2 0 0, b1) :=
  C10_parse_tokens_amended commaEquals keyValueText (List.replicate 16 0) 16
    (wholeText keyValueText) ⟨⟨rfl, rfl, List.prefix_refl _⟩, rfl, rfl, rfl⟩ rfl (by decide)
    (by
      intro x hx
      have hle := (V_isspace_le x hx).1
      have hmod : x % 256 = x := Nat.mod_eq_of_lt (by omega)
      simp only [IN_CHARACTERSET, commaEquals, hmod, Bool.or_eq_false_iff, beq_eq_false_iff_ne,
        ne_eq]
      omega)
    (by decide) (by decide) (by decide)

/-! ## C9: GetToken over a sliding window -/

/-- C9: evaluation at the failing input.  The text `xxxxabc` holds the token `abc` at index 4.
On the buffer holding the whole text `GetToken` succeeds and leaves `get_pos = 7`; on the
streaming buffer with a window of 6 bytes (larger than the token) it fails and leaves
`get_pos = 0`: the match straddling the window boundary is not found. -/
theorem C9_window_misses_straddling_match :
    ((wholeText [120, 120, 120, 120, 97, 98, 99]).GetToken [97, 98, 99]).map
        (fun r => (r.1, r.2.m_Get)) = some (true, 7) ∧
    ((windowedText [120, 120, 120, 120, 97, 98, 99] 6).GetToken [97, 98, 99]).map
        (fun r => (r.1, r.2.m_Get)) = some (false, 0) := by
  decide

/-! ## C19: get seeks -/

/-- C19: with the default get hook, for every buffer state and every offset `o`,
`SeekGet (SEEK_HEAD, o)` sets `get_pos` to `o`, `SeekGet (SEEK_CURRENT, o)` to
`get_pos + o` and `SeekGet (SEEK_TAIL, o)` to `max_put - o`; after the call of any of
the three GET_OVERFLOW is set if and only if the new `get_pos` exceeds `max_put`, and
`put_pos`, `max_put`, PUT_OVERFLOW, the stored bytes, the window, the flags and the
hooks are those before the call. -/
theorem C19_SeekGet_moves_cursor (b : CUtlBuffer) (hf : b.m_GetOverflowFunc = .GetOverflow)
    (o : Int) :
    (b.SeekGet .SEEK_HEAD o).m_Get = o ∧
    (b.SeekGet .SEEK_CURRENT o).m_Get = b.m_Get + o ∧
    (b.SeekGet .SEEK_TAIL o).m_Get = b.m_nMaxPut - o ∧
    ∀ type : SeekType_t,
      ((b.SeekGet type o).m_Error.GET_OVERFLOW = true ↔
        (b.SeekGet type o).m_Get > (b.SeekGet type o).m_nMaxPut) ∧
      (b.SeekGet type o).m_Put = b.m_Put ∧
      (b.SeekGet type o).m_nMaxPut = b.m_nMaxPut ∧
      (b.SeekGet type o).m_Error.PUT_OVERFLOW = b.m_Error.PUT_OVERFLOW ∧
      (b.SeekGet type o).m_Memory = b.m_Memory ∧
      (b.SeekGet type o).m_nOffset = b.m_nOffset ∧
      (b.SeekGet type o).m_Flags = b.m_Flags ∧
      (b.SeekGet type o).m_nTab = b.m_nTab ∧
      (b.SeekGet type o).m_GetOverflowFunc = b.m_GetOverflowFunc ∧
      (b.SeekGet type o).m_PutOverflowFunc = b.m_PutOverflowFunc := by
  refine ⟨?_, ?_, ?_, ?_⟩
  · rw [CUtlBuffer.SeekGet_default b hf]; rfl
  · rw [CUtlBuffer.SeekGet_default b hf]; rfl
  · rw [CUtlBuffer.SeekGet_default b hf]; rfl
  · intro type
    rw [CUtlBuffer.SeekGet_default b hf]
    simp [CUtlBuffer.setGetOverflow]

theorem C19_SeekGet_moves_cursor_witness :
    (threeBytesAtOne.SeekGet .SEEK_HEAD 5).m_Get = 5 ∧
    (threeBytesAtOne.SeekGet .SEEK_CURRENT 5).m_Get = threeBytesAtOne.m_Get + 5 ∧
    (threeBytesAtOne.SeekGet .SEEK_TAIL 5).m_Get = threeBytesAtOne.m_nMaxPut - 5 ∧
    ∀ type : SeekType_t,
      ((threeBytesAtOne.SeekGet type 5).m_Error.GET_OVERFLOW = true ↔
        (threeBytesAtOne.SeekGet type 5).m_Get > (threeBytesAtOne.SeekGet type 5).m_nMaxPut) ∧
      (threeBytesAtOne.SeekGet type 5).m_Put = threeBytesAtOne.m_Put ∧
      (threeBytesAtOne.SeekGet type 5).m_nMaxPut = threeBytesAtOne.m_nMaxPut ∧
      (threeBytesAtOne.SeekGet type 5).m_Error.PUT_OVERFLOW = threeBytesAtOne.m_Error.PUT_OVERFLOW ∧
      (threeBytesAtOne.SeekGet type 5).m_Memory = threeBytesAtOne.m_Memory ∧
      (threeBytesAtOne.SeekGet type 5).m_nOffset = threeBytesAtOne.m_nOffset ∧
      (threeBytesAtOne.SeekGet type 5).m_Flags = threeBytesAtOne.m_Flags ∧
      (threeBytesAtOne.SeekGet type 5).m_nTab = threeBytesAtOne.m_nTab ∧
      (threeBytesAtOne.SeekGet type 5).m_GetOverflowFunc = threeBytesAtOne.m_GetOverflowFunc ∧
      (threeBytesAtOne.SeekGet type 5).m_PutOverflowFunc = threeBytesAtOne.m_PutOverflowFunc :=
  C19_SeekGet_moves_cursor threeBytesAtOne (by decide) 5

/-! ## C18: string reads on an empty buffer -/

/-- C18: on an empty buffer (`max_put = 0`, `get_pos = 0`, no error set), in text or
binary mode and whatever the hooks, `PeekStringLength` returns 0 and leaves the buffer
as it was, and `GetString` returns with the empty string at the head of its destination,
`get_pos` at 0 and GET_OVERFLOW set, nothing else changed. -/
theorem C18_empty_buffer_reads (b : CUtlBuffer) (hmax : b.m_nMaxPut = 0) (hget : b.m_Get = 0)
    (herr : b.m_Error = ⟨false, false⟩) (pString : List Nat) (nMaxChars : Int) :
    b.PeekStringLength = some (0, b) ∧
    b.GetString pString nMaxChars = some (b.setGetOverflow true, storeAt pString 0 0) ∧
    cstr (storeAt pString 0 0) = [] ∧
    (b.setGetOverflow true).m_Get = 0 ∧
    (b.setGetOverflow true).m_Error.GET_OVERFLOW = true := by
  obtain ⟨m, g, p, ⟨pe, ge⟩, f, tab, mp, off, gf, pf⟩ := b
  simp only [ErrorFlags_t.mk.injEq] at hmax hget herr
  obtain ⟨rfl, rfl⟩ := herr
  subst hmax hget
  have hcs : cstr (storeAt pString 0 0) = [] := by
    cases pString with
    | nil => rfl
    | cons x xs => simp [storeAt, cstr]
  have hpk : (CUtlBuffer.mk m 0 p ⟨false, false⟩ f tab 0 off gf pf).PeekStringLength =
      some (0, CUtlBuffer.mk m 0 p ⟨false, false⟩ f tab 0 off gf pf) := by
    cases hft : f.TEXT_BUFFER <;>
    simp [CUtlBuffer.PeekStringLength, CUtlBuffer.IsValid, CUtlBuffer.IsText, hft,
      CUtlBuffer.PeekWhiteSpace, CUtlBuffer.peekWhiteSpaceLoop, CUtlBuffer.CheckPeekGet,
      CUtlBuffer.CheckGet, CUtlBuffer.TellMaxPut, CUtlBuffer.setGetOverflow,
      CUtlBuffer.peekStringLengthLoop, CUtlBuffer.CheckArbitraryPeekGet, CUtlBuffer.TellGet]
  refine ⟨hpk, ?_, hcs, rfl, rfl⟩
  unfold CUtlBuffer.GetString
  rw [hpk]
  cases hft : f.TEXT_BUFFER <;>
  simp [CUtlBuffer.IsValid, CUtlBuffer.IsText, hft, CUtlBuffer.EatWhiteSpace,
    CUtlBuffer.eatWhiteSpaceLoop, CUtlBuffer.CheckGet, CUtlBuffer.TellMaxPut,
    CUtlBuffer.setGetOverflow]

theorem C18_empty_buffer_reads_witness :
    (CUtlBuffer.new 0 0 ⟨true, false, false, false, false⟩ 205).PeekStringLength =
      some (0, CUtlBuffer.new 0 0 ⟨true, false, false, false, false⟩ 205) ∧
    (CUtlBuffer.new 0 0 ⟨true, false, false, false, false⟩ 205).GetString [7, 7] 0 =
      some ((CUtlBuffer.new 0 0 ⟨true, false, false, false, false⟩ 205).setGetOverflow true,
        storeAt [7, 7] 0 0) ∧
    cstr (storeAt [7, 7] 0 0) = [] ∧
    ((CUtlBuffer.new 0 0 ⟨true, false, false, false, false⟩ 205).setGetOverflow true).m_Get = 0 ∧
    ((CUtlBuffer.new 0 0 ⟨true, false, false, false, false⟩ 205).setGetOverflow
      true).m_Error.GET_OVERFLOW = true :=
  C18_empty_buffer_reads (CUtlBuffer.new 0 0 ⟨true, false, false, false, false⟩ 205)
    (by decide) (by decide) (by decide) [7, 7] 0

/-! ## C20: puts into fixed external storage -/

/-- Bytes copied into a region sit at the index asked for and leave the bytes
below it alone. -/
theorem memcpyAt_spec (mem src : List Nat) (i n : Nat) (hn : n ≤ src.length)
    (hfit : i + n ≤ mem.length) :
    (memcpyAt mem (i : Int) src (n : Int)).length = mem.length ∧
    (memcpyAt mem (i : Int) src (n : Int)).take i = mem.take i ∧
    ((memcpyAt mem (i : Int) src (n : Int)).drop i).take n = src.take n := by
  have h1 : (mem.take i).length = i := by simp; omega
  have h2 : (src.take n).length = n := by simp; omega
  simp only [memcpyAt, memcpy, Int.toNat_ofNat, h2]
  refine ⟨?_, ?_, ?_⟩
  · simp; omega
  · rw [List.take_append_of_le_length (by omega), List.take_take]
    simp
  · rw [List.drop_append_of_le_length (by omega)]
    rw [List.drop_eq_nil_of_le (by omega), List.nil_append,
      List.take_append_of_le_length (by omega), List.take_of_length_le (by omega)]

/-- A store at or past an index leaves the bytes below it alone. -/
theorem storeAt_take (mem : List Nat) (i : Int) (v : Nat) (k : Nat) (hk : (k : Int) ≤ i) :
    (storeAt mem i v).take k = mem.take k ∧ (storeAt mem i v).length = mem.length := by
  refine ⟨?_, by simp [storeAt]⟩
  unfold storeAt
  rw [List.set_take, List.set_eq_of_length_le]
  simp
  omega


/-- C20: for a writable buffer over external, non-growable storage of capacity `N` with
no error set, window base 0 and `0 <= put_pos`, and every `n > 0` bytes of source:
when `put_pos + n <= N` the put stores the `n` bytes at `put_pos`, leaves the bytes
below alone, advances `put_pos` by `n`, raises `max_put` to the new `put_pos` when that
is larger, and leaves PUT_OVERFLOW clear, also when `put_pos` reaches `N` and there is no
room for the terminator; when `put_pos + n > N` the put only sets PUT_OVERFLOW: storage,
`put_pos` and `max_put` are those before the call. -/
theorem C20_put_into_fixed_storage (b : CUtlBuffer) (src : List Nat) (n : Nat)
    (hext : b.m_Memory.IsExternallyAllocated = true)
    (hng : b.m_Flags.EXTERNAL_GROWABLE = false) (hw : b.m_Flags.READ_ONLY = false)
    (herr : b.m_Error = ⟨false, false⟩) (hoff : b.m_nOffset = 0) (hput : 0 ≤ b.m_Put)
    (hn : 0 < n) (hsrc : n ≤ src.length) :
    (b.m_Put + (n : Int) ≤ b.Size →
      (b.Put src (n : Int)).m_Put = b.m_Put + (n : Int) ∧
      (b.Put src (n : Int)).m_Error = ⟨false, false⟩ ∧
      (b.Put src (n : Int)).m_nMaxPut = max b.m_nMaxPut (b.m_Put + (n : Int)) ∧
      ((b.Put src (n : Int)).m_Memory.m_pMemory.drop b.m_Put.toNat).take n = src.take n ∧
      (b.Put src (n : Int)).m_Memory.m_pMemory.take b.m_Put.toNat =
        b.m_Memory.m_pMemory.take b.m_Put.toNat ∧
      (b.Put src (n : Int)).Size = b.Size) ∧
    (b.Size < b.m_Put + (n : Int) → b.Put src (n : Int) = b.setPutOverflow true) := by
  obtain ⟨⟨bytes, gs, un⟩, g, p, ⟨pe, ge⟩, f, tab, mp, off, gf, pf⟩ := b
  simp only [ErrorFlags_t.mk.injEq] at hext hng hw herr hoff hput
  obtain ⟨rfl, rfl⟩ := herr
  subst hoff
  cases pf
  obtain ⟨p', rfl⟩ := Int.eq_ofNat_of_zero_le hput
  have hn0 : (n : Int) ≠ 0 := by omega
  have hgs : gs < 0 := by simpa [CUtlMemory.IsExternallyAllocated] using hext
  constructor
  · intro hfit
    simp only [CUtlBuffer.Size, CUtlMemory.NumAllocated] at hfit
    have hfit' : p' + n ≤ bytes.length := by omega
    obtain ⟨hl, ht, hd⟩ := memcpyAt_spec bytes src p' n hsrc hfit'
    have hck : (CUtlBuffer.mk ⟨bytes, gs, un⟩ g (p' : Int) ⟨false, false⟩ f tab mp 0 gf
        .PutOverflow).CheckPut (n : Int) =
        (true, CUtlBuffer.mk ⟨bytes, gs, un⟩ g (p' : Int) ⟨false, false⟩ f tab mp 0 gf
          .PutOverflow) := by
      simp only [CUtlBuffer.CheckPut, CUtlBuffer.IsReadOnly, hw, CUtlMemory.NumAllocated]
      simp
      omega
    simp only [CUtlBuffer.Put, ne_eq, hn0, not_false_eq_true, if_true, hck, sub_zero]
    unfold CUtlBuffer.AddNullTermination
    by_cases hmp : (p' : Int) + (n : Int) > mp
    · simp only [hmp, if_true, CUtlBuffer.IsReadOnly, hw]
      by_cases hroom : (bytes.length : Int) < (p' : Int) + (n : Int) + 1
      · have hck1 : (CUtlBuffer.mk ⟨memcpyAt bytes (p' : Int) src (n : Int), gs, un⟩ g
            ((p' : Int) + (n : Int)) ⟨false, false⟩ f tab mp 0 gf .PutOverflow).CheckPut 1 =
            (false, (CUtlBuffer.mk ⟨memcpyAt bytes (p' : Int) src (n : Int), gs, un⟩ g
            ((p' : Int) + (n : Int)) ⟨false, false⟩ f tab mp 0 gf
              .PutOverflow).setPutOverflow true) := by
          simp only [CUtlBuffer.CheckPut, CUtlBuffer.IsReadOnly, hw, CUtlMemory.NumAllocated,
            CUtlBuffer.OnPutOverflow, CUtlBuffer.PutOverflow, CUtlMemory.IsExternallyAllocated,
            CUtlBuffer.IsGrowable, hng, hl]
          rw [if_neg (by simp), if_pos (Or.inr (by omega))]
          simp [hgs]
        simp only [hck1, CUtlBuffer.setPutOverflow, CUtlBuffer.Size, CUtlMemory.NumAllocated]
        simp only [Bool.false_eq_true, not_false_eq_true, and_self, if_true, Int.toNat_ofNat]
        refine ⟨trivial, trivial, ?_, hd, ht, by rw [hl]⟩
        omega
      · have hck1 : (CUtlBuffer.mk ⟨memcpyAt bytes (p' : Int) src (n : Int), gs, un⟩ g
            ((p' : Int) + (n : Int)) ⟨false, false⟩ f tab mp 0 gf .PutOverflow).CheckPut 1 =
            (true, CUtlBuffer.mk ⟨memcpyAt bytes (p' : Int) src (n : Int), gs, un⟩ g
            ((p' : Int) + (n : Int)) ⟨false, false⟩ f tab mp 0 gf .PutOverflow) := by
          simp only [CUtlBuffer.CheckPut, CUtlBuffer.IsReadOnly, hw, CUtlMemory.NumAllocated, hl]
          simp
          omega
        simp only [hck1, CUtlBuffer.Size, CUtlMemory.NumAllocated]
        simp only [Bool.false_eq_true, not_false_eq_true, and_self, if_true, Int.toNat_ofNat,
          sub_zero]
        obtain ⟨hst, hsl⟩ := storeAt_take (memcpyAt bytes (p' : Int) src (n : Int))
          ((p' : Int) + (n : Int)) 0 (p' + n) (by push_cast; omega)
        refine ⟨trivial, trivial, by omega, ?_, ?_, by rw [hsl, hl]⟩
        · rw [← hd, List.take_drop, List.take_drop, hst]
        · have := congrArg (List.take p') hst
          rw [List.take_take, List.take_take, Nat.min_eq_left (by omega)] at this
          rw [this, ht]
    · simp only [hmp, if_false, CUtlBuffer.Size, CUtlMemory.NumAllocated, Int.toNat_ofNat]
      refine ⟨trivial, trivial, by omega, hd, ht, by rw [hl]⟩
  · intro hover
    simp only [CUtlBuffer.Size, CUtlMemory.NumAllocated] at hover
    simp only [CUtlBuffer.Put, ne_eq, hn0, not_false_eq_true, if_true, CUtlBuffer.CheckPut,
      CUtlBuffer.IsReadOnly, hw, CUtlMemory.NumAllocated, CUtlBuffer.OnPutOverflow,
      CUtlBuffer.PutOverflow, CUtlMemory.IsExternallyAllocated, CUtlBuffer.IsGrowable, hng]
    rw [if_neg (by simp), if_pos (Or.inr (by simpa using hover))]
    simp [hgs]

theorem C20_put_into_fixed_storage_witness :
    (fixedFour.m_Put + ((2 : Nat) : Int) ≤ fixedFour.Size →
      (fixedFour.Put [1, 2] ((2 : Nat) : Int)).m_Put = fixedFour.m_Put + ((2 : Nat) : Int) ∧
      (fixedFour.Put [1, 2] ((2 : Nat) : Int)).m_Error = ⟨false, false⟩ ∧
      (fixedFour.Put [1, 2] ((2 : Nat) : Int)).m_nMaxPut =
        max fixedFour.m_nMaxPut (fixedFour.m_Put + ((2 : Nat) : Int)) ∧
      ((fixedFour.Put [1, 2] ((2 : Nat) : Int)).m_Memory.m_pMemory.drop
        fixedFour.m_Put.toNat).take 2 = [1, 2].take 2 ∧
      (fixedFour.Put [1, 2] ((2 : Nat) : Int)).m_Memory.m_pMemory.take fixedFour.m_Put.toNat =
        fixedFour.m_Memory.m_pMemory.take fixedFour.m_Put.toNat ∧
      (fixedFour.Put [1, 2] ((2 : Nat) : Int)).Size = fixedFour.Size) ∧
    (fixedFour.Size < fixedFour.m_Put + ((2 : Nat) : Int) →
      fixedFour.Put [1, 2] ((2 : Nat) : Int) = fixedFour.setPutOverflow true) :=
  C20_put_into_fixed_storage fixedFour [1, 2] 2 (by decide) (by decide) (by decide) (by decide)
    (by decide) (by decide) (by decide) (by decide)

/-! ## C17: the count returned by Scanf -/

/-- C17: on the text buffer holding three spaces, `Scanf ("%s")` reads the empty string,
latches GET_OVERFLOW and still returns 1: the failed string conversion is counted.  On
the same buffer `Scanf ("%d")` reads nothing and returns 0, as every numeric conversion
does when it fails. -/
theorem C17_failed_string_is_counted (strtodLen : List Nat → Nat) :
    (wholeText [32, 32, 32]).Scanf strtodLen [37, 115, 0] [.str [7, 7, 7]] =
      some (1, [.str [0, 7, 7]], ((wholeText [32, 32, 32]).atGet 3).setGetOverflow true) ∧
    cstr [0, 7, 7] = [] ∧
    (wholeText [32, 32, 32]).Scanf strtodLen [37, 100, 0] [.int 7] =
      some (0, [.int 0], wholeText [32, 32, 32]) := by
  refine ⟨?_, by decide, ?_⟩
  · rfl
  · rfl

/-! ## C15: when ConvertCRLF converts -/

/-- The conversion loop ends within its fuel, whatever the two buffers hold. -/
theorem convertCRLFLoop_total (pBase : List Nat) (nInCount : Int) (bFromCRLF : Bool)
    (nGet nPut : Int) : ∀ (fuel : Nat) (outBuf : CUtlBuffer) (nCurrGet nGetDelta nPutDelta : Int),
    (nInCount - nCurrGet).toNat < fuel →
    ∃ r, CUtlBuffer.convertCRLFLoop pBase nInCount bFromCRLF nGet nPut fuel outBuf nCurrGet
      nGetDelta nPutDelta = some r := by
  intro fuel
  induction fuel with
  | zero => intro _ _ _ _ h; omega
  | succ fuel ih =>
    intro outBuf nCurrGet nGetDelta nPutDelta hfuel
    unfold CUtlBuffer.convertCRLFLoop
    by_cases hlt : nCurrGet < nInCount
    · rw [if_pos hlt]
      cases bFromCRLF with
      | true =>
        simp only [if_true]
        cases V_strnistr (ptrAt pBase nCurrGet) [13, 10, 0] (nInCount - nCurrGet) with
        | none => exact ⟨_, rfl⟩
        | some k => exact ih _ _ _ _ (by omega)
      | false =>
        simp only [Bool.false_eq_true, if_false]
        cases V_strnchr (ptrAt pBase nCurrGet) 10 (nInCount - nCurrGet) with
        | none => exact ⟨_, rfl⟩
        | some k => exact ih _ _ _ _ (by omega)
    · rw [if_neg hlt]
      exact ⟨_, rfl⟩

/-- C15: `ConvertCRLF (outBuf)` returns false with `outBuf` as it was, in every field,
whenever the source or `outBuf` is not a text buffer or both carry the same CONTAINS_CRLF
flag; in every other case it returns, and returns true; and in every case the source
buffer is as it was before the call. -/
theorem C15_ConvertCRLF_answer (b outBuf : CUtlBuffer) :
    ((b.m_Flags.TEXT_BUFFER = false ∨ outBuf.m_Flags.TEXT_BUFFER = false ∨
        b.m_Flags.CONTAINS_CRLF = outBuf.m_Flags.CONTAINS_CRLF) →
      b.ConvertCRLF outBuf = some (false, b, outBuf)) ∧
    (¬ (b.m_Flags.TEXT_BUFFER = false ∨ outBuf.m_Flags.TEXT_BUFFER = false ∨
        b.m_Flags.CONTAINS_CRLF = outBuf.m_Flags.CONTAINS_CRLF) →
      ∃ outBuf1 : CUtlBuffer, b.ConvertCRLF outBuf = some (true, b, outBuf1)) := by
  constructor
  · intro h
    unfold CUtlBuffer.ConvertCRLF
    by_cases ht : ¬ b.IsText = true ∨ ¬ outBuf.IsText = true
    · rw [if_pos ht]
    · rw [if_neg ht]
      have ht1 : b.m_Flags.TEXT_BUFFER = true ∧ outBuf.m_Flags.TEXT_BUFFER = true := by
        simpa [CUtlBuffer.IsText] using ht
      rw [if_pos]
      rcases h with h | h | h
      · simp [ht1.1] at h
      · simp [ht1.2] at h
      · simp [CUtlBuffer.ContainsCRLF, CUtlBuffer.IsText, ht1.1, ht1.2, h]
  · intro h
    have ht1 : b.m_Flags.TEXT_BUFFER = true ∧ outBuf.m_Flags.TEXT_BUFFER = true ∧
        b.m_Flags.CONTAINS_CRLF ≠ outBuf.m_Flags.CONTAINS_CRLF := by
      simpa [not_or] using h
    unfold CUtlBuffer.ConvertCRLF
    rw [if_neg (by simp [CUtlBuffer.IsText, ht1.1, ht1.2.1]),
      if_neg (by simp [CUtlBuffer.ContainsCRLF, CUtlBuffer.IsText, ht1.1, ht1.2.1, ht1.2.2])]
    obtain ⟨⟨o2, gd, pd⟩, hr⟩ := convertCRLFLoop_total b.m_Memory.m_pMemory b.TellMaxPut
      b.ContainsCRLF b.TellGet b.TellPut (b.TellMaxPut.toNat + 1)
      (outBuf.Purge.EnsureCapacity b.TellMaxPut) 0 0 0 (by simp)
    simp only [hr]
    exact ⟨_, rfl⟩

theorem C15_ConvertCRLF_answer_witness :
    ((fixedFour.m_Flags.TEXT_BUFFER = false ∨ (wholeText [97, 10]).m_Flags.TEXT_BUFFER = false ∨
        fixedFour.m_Flags.CONTAINS_CRLF = (wholeText [97, 10]).m_Flags.CONTAINS_CRLF) →
      fixedFour.ConvertCRLF (wholeText [97, 10]) = some (false, fixedFour, wholeText [97, 10])) ∧
    (¬ (fixedFour.m_Flags.TEXT_BUFFER = false ∨ (wholeText [97, 10]).m_Flags.TEXT_BUFFER = false ∨
        fixedFour.m_Flags.CONTAINS_CRLF = (wholeText [97, 10]).m_Flags.CONTAINS_CRLF) →
      ∃ outBuf1 : CUtlBuffer,
        fixedFour.ConvertCRLF (wholeText [97, 10]) = some (true, fixedFour, outBuf1)) :=
  C15_ConvertCRLF_answer fixedFour (wholeText [97, 10])

/-! ## C11: quoted tokens -/

section
open CUtlBuffer

/-- No comment starts at a byte that is not a slash. -/
theorem Readable.eatCPPComment_none {b : CUtlBuffer} {e : List Nat} (h : Readable b e)
    (pre post : List Nat) (x : Nat) (he : e = pre ++ x :: post)
    (hg : b.m_Get = (pre.length : Int)) (hx : x ≠ 47) : b.EatCPPComment = some (false, b) := by
  obtain ⟨tail, hp⟩ := h.ptr pre (x :: post) he hg
  unfold EatCPPComment
  rw [if_pos ⟨h.isText, h.isValid⟩]
  unfold PeekGet
  rcases CheckPeekGet_default b h.getFunc 0 2 with ⟨hc, _⟩ | hc
  · rw [hc]
    simp only
    have hpp : ptrAt b.m_Memory.m_pMemory (b.m_Get + 0 - b.m_nOffset) = b.PeekGetPtr 0 := rfl
    rw [hpp, hp]
    simp [deref, hx]
  · rw [hc]

/-- The loop at the head of `ParseToken` stops at a byte that is neither white space
nor a slash, with or without comment parsing. -/
theorem Readable.parseSkipLoop_stop {b : CUtlBuffer} {e : List Nat} (h : Readable b e)
    (bParseComments : Bool) (k : Nat) (pre ws post : List Nat) (x : Nat)
    (he : e = pre ++ (ws ++ x :: post)) (hg : b.m_Get = (pre.length : Int))
    (hws : ∀ y ∈ ws, V_isspace y = true) (hx : V_isspace x = false) (hx47 : x ≠ 47) :
    parseSkipLoop bParseComments (k + 1) b =
      some (true, b.atGet ((pre.length : Int) + (ws.length : Int))) := by
  have hw := h.eatWhiteSpace_run pre ws (x :: post) he hg hws (Or.inr ⟨x, _, rfl, hx⟩)
  simp only [if_false, reduceCtorEq] at hw
  unfold parseSkipLoop
  simp only [h.isValid, not_true_eq_false, if_false, hw]
  cases bParseComments with
  | false => simp
  | true =>
    simp only [if_true]
    rw [(h.atGet _).eatCPPComment_none (pre ++ ws) post x (by rw [he]; simp) (by simp) hx47]

/-- The quoted-string loop copies the body and stops after the closing quote. -/
theorem parseQuotedLoop_spec (nMaxLen : Int) (body : List Nat) :
    ∀ (b : CUtlBuffer) (e pre post acc junk : List Nat) (fuel : Nat), Readable b e →
    e = pre ++ (body ++ 34 :: post) → b.m_Get = (pre.length : Int) →
    (∀ x ∈ body, x ≠ 34 ∧ x ≠ 0) →
    body.length < fuel → (acc.length : Int) + (body.length : Int) < nMaxLen →
    body.length + 1 ≤ junk.length →
    parseQuotedLoop nMaxLen fuel b (acc ++ junk) (acc.length : Int) =
      some ((acc.length : Int) + (body.length : Int),
        acc ++ body ++ 0 :: junk.drop (body.length + 1),
        b.atGet ((pre.length : Int) + (body.length : Int) + 1)) := by
  induction body with
  | nil =>
    intro b e pre post acc junk fuel h he hg _ hfuel _ hjunk
    obtain ⟨k, rfl⟩ : ∃ k, fuel = k + 1 := ⟨fuel - 1, by simp at hfuel; omega⟩
    obtain ⟨j0, junk1, rfl⟩ : ∃ j0 junk1, junk = j0 :: junk1 := by
      match junk, hjunk with
      | j0 :: junk1, _ => exact ⟨j0, junk1, rfl⟩
    simp only [List.nil_append] at he
    unfold parseQuotedLoop
    simp only [h.isValid, not_true_eq_false, if_false]
    rw [h.getChar pre post 34 he hg]
    simp only [true_or, if_true, storeAt_append, List.set_cons_zero]
    simp
  | cons x body ih =>
    intro b e pre post acc junk fuel h he hg hb hfuel hmax hjunk
    obtain ⟨k, rfl⟩ : ∃ k, fuel = k + 1 := ⟨fuel - 1, by omega⟩
    obtain ⟨j0, junk1, rfl⟩ : ∃ j0 junk1, junk = j0 :: junk1 := by
      match junk, hjunk with
      | j0 :: junk1, _ => exact ⟨j0, junk1, rfl⟩
    simp only [List.length_cons] at hfuel hmax hjunk
    push_cast at hmax
    simp only [List.cons_append] at he
    obtain ⟨hx1, hx2⟩ := hb x (List.mem_cons_self _ _)
    unfold parseQuotedLoop
    simp only [h.isValid, not_true_eq_false, if_false]
    rw [h.getChar pre _ x he hg]
    simp only [hx1, hx2, or_self, if_false]
    rw [if_neg (by omega), storeAt_append, List.set_cons_zero]
    have hih := ih (b.atGet ((pre.length : Int) + 1)) e (pre ++ [x]) post (acc ++ [x]) junk1 k
      (h.atGet _) (by rw [he]; simp) (by simp)
      (fun y hy => hb y (List.mem_cons_of_mem _ hy)) (by omega)
      (by simp only [List.length_append, List.length_singleton]; push_cast; omega) (by omega)
    simp only [List.append_assoc, List.singleton_append, List.length_append,
      List.length_singleton, Nat.cast_add, Nat.cast_one, atGet_atGet] at hih
    rw [hih]
    simp only [List.length_cons, List.drop_succ_cons, Nat.cast_add, Nat.cast_one,
      List.cons_append, Option.some.injEq, Prod.mk.injEq, and_true, true_and]
    refine ⟨by omega, by simp, ?_⟩
    congr 1
    omega

end

/-- C11: for every break set, with or without comment parsing, on a readable text buffer
(fully materialised, no error, default hook) whose unread bytes are white space, a double
quote, a body holding no double quote and no NUL, a closing double quote, and anything
after: `ParseToken` with `nMaxLen` greater than the length of the body, over a token buffer
with room for the body and its terminator, returns the length of the body, leaves the body
unchanged and NUL-terminated at the head of the token buffer, and leaves `get_pos` just
after the closing quote, with no error set. -/
theorem C11_quoted_token_verbatim {b : CUtlBuffer} {e : List Nat} (h : Readable b e)
    (pBreaks : characterset_t) (bParseComments : Bool) (buf : List Nat) (nMaxLen : Int)
    (pre ws body post : List Nat)
    (he : e = pre ++ (ws ++ 34 :: (body ++ 34 :: post))) (hg : b.m_Get = (pre.length : Int))
    (hws : ∀ x ∈ ws, V_isspace x = true) (hbody : ∀ x ∈ body, x ≠ 34 ∧ x ≠ 0)
    (hmax : (body.length : Int) < nMaxLen) (hbuf : body.length + 1 ≤ buf.length) :
    ∃ out : List Nat,
      b.ParseToken pBreaks buf nMaxLen bParseComments =
        some ((body.length : Int), out,
          b.atGet ((pre.length : Int) + (ws.length : Int) + 1 + (body.length : Int) + 1)) ∧
      cstr out = body ∧ out.length = buf.length := by
  refine ⟨body ++ 0 :: (storeAt buf 0 0).drop (body.length + 1), ?_, cstr_terminated _ _
    (fun x hx => (hbody x hx).2), ?_⟩
  · unfold CUtlBuffer.ParseToken
    simp only
    rw [h.parseSkipLoop_stop bParseComments _ pre ws (body ++ 34 :: post) 34 he hg hws
      (by decide) (by decide)]
    simp only
    rw [(h.atGet _).getChar (pre ++ ws) (body ++ 34 :: post) 34 (by rw [he]; simp) (by simp)]
    simp only [if_true, OfNat.ofNat_ne_zero, if_false, CUtlBuffer.atGet_atGet]
    have hl := parseQuotedLoop_spec nMaxLen body
      (b.atGet (((pre ++ ws).length : Int) + 1)) e (pre ++ ws ++ [34]) post [] (storeAt buf 0 0)
      (((b.atGet (((pre ++ ws).length : Int) + 1)).m_nMaxPut -
        (b.atGet (((pre ++ ws).length : Int) + 1)).m_Get).toNat + 2) (h.atGet _)
      (by rw [he]; simp) (by simp; omega) hbody
      (by
        simp only [CUtlBuffer.atGet_maxPut, CUtlBuffer.atGet_get, h.loaded.maxPut, he,
          List.length_append, List.length_cons]
        push_cast
        omega)
      (by simp only [List.length_nil, Nat.cast_zero]; omega)
      (by rw [storeAt_length]; exact hbuf)
    simp only [List.nil_append, List.length_nil, Nat.cast_zero, zero_add,
      CUtlBuffer.atGet_atGet, List.length_append, List.length_singleton, Nat.cast_add,
      Nat.cast_one] at hl
    simp only [List.length_append, Nat.cast_add]
    rw [hl]
  · simp only [List.length_append, List.length_cons, List.length_drop, storeAt_length]
    omega

theorem C11_quoted_token_verbatim_witness :
    ∃ out : List Nat,
      (wholeText [32, 34, 97, 44, 92, 32, 34, 120]).ParseToken commaEquals [7, 7, 7, 7, 7, 7] 6
          true =
        some ((([97, 44, 92, 32] : List Nat).length : Int), out,
          (wholeText [32, 34, 97, 44, 92, 32, 34, 120]).atGet
            (((([] : List Nat).length : Int)) + ((([32] : List Nat).length : Int)) + 1 +
              ((([97, 44, 92, 32] : List Nat).length : Int)) + 1)) ∧
      cstr out = [97, 44, 92, 32] ∧ out.length = ([7, 7, 7, 7, 7, 7] : List Nat).length :=
  C11_quoted_token_verbatim (b := wholeText [32, 34, 97, 44, 92, 32, 34, 120])
    (e := [32, 34, 97, 44, 92, 32, 34, 120])
    ⟨⟨by decide, by decide, by decide⟩, by decide, by decide, by decide⟩
    commaEquals true [7, 7, 7, 7, 7, 7] 6 [] [32] [97, 44, 92, 32] [120]
    (by decide) (by decide) (by decide) (by decide) (by decide) (by decide)

/-! ## C13: a failed parse between delimiters -/

section
open CUtlBuffer

/-- A seek from the head puts the get cursor where it is asked to, whatever the hook. -/
theorem SeekGet_head_get (b : CUtlBuffer) (p : Int) : (b.SeekGet .SEEK_HEAD p).m_Get = p := by
  unfold SeekGet
  simp only
  split
  · rfl
  · split
    · cases hgf : b.m_GetOverflowFunc <;>
        simp [OnGetOverflow, setGetOverflow, hgf, GetOverflow, StreamGetOverflow]
    · rfl

/-- A string whose first byte was set to NUL is empty. -/
theorem cstr_storeAt_zero (s : List Nat) : cstr (storeAt s 0 0) = [] := by
  cases s with
  | nil => rfl
  | cons x xs => simp [storeAt, cstr]

/-- With the default hook a successful peek check lies inside the window and below the
high-water mark. -/
theorem CheckPeekGet_default_window (b : CUtlBuffer) (hf : b.m_GetOverflowFunc = .GetOverflow)
    (nOffset nSize : Int) (h : (b.CheckPeekGet nOffset nSize).1 = true) :
    b.m_nOffset ≤ b.m_Get ∧ b.m_Get + (nOffset + nSize) ≤ b.m_nMaxPut := by
  unfold CheckPeekGet CheckGet at h
  simp only [OnGetOverflow, hf, GetOverflow, TellMaxPut] at h
  split_ifs at h
  simp_all

/-- White space skipping ends within its fuel on every materialised buffer. -/
theorem eatWhiteSpaceLoop_total (c : List Nat) : ∀ (fuel : Nat) (b : CUtlBuffer), Loaded b c →
    b.m_GetOverflowFunc = .GetOverflow → (b.m_nMaxPut - b.m_Get).toNat < fuel →
    ∃ b1, eatWhiteSpaceLoop fuel b = some b1 ∧ Loaded b1 c ∧
      b1.m_GetOverflowFunc = .GetOverflow := by
  intro fuel
  induction fuel with
  | zero => intro _ _ _ h; omega
  | succ fuel ih =>
    intro b hl hf hfuel
    unfold eatWhiteSpaceLoop
    rcases CheckGet_default b hf 1 with ⟨h, _, hle⟩ | ⟨h, _⟩ | ⟨h, _⟩
    · rw [h]
      simp only
      split
      · exact ⟨b, rfl, hl, hf⟩
      · exact ih _ ⟨hl.offset, hl.maxPut, hl.content⟩ hf (by
          show (b.m_nMaxPut - (b.m_Get + 1)).toNat < fuel
          omega)
    · rw [h]
      exact ⟨b, rfl, hl, hf⟩
    · rw [h]
      exact ⟨_, rfl, ⟨hl.offset, hl.maxPut, hl.content⟩, hf⟩

theorem EatWhiteSpace_total {b : CUtlBuffer} {c : List Nat} (hl : Loaded b c)
    (hf : b.m_GetOverflowFunc = .GetOverflow) :
    ∃ b1, b.EatWhiteSpace = some b1 ∧ Loaded b1 c ∧ b1.m_GetOverflowFunc = .GetOverflow := by
  unfold EatWhiteSpace
  split
  · exact eatWhiteSpaceLoop_total c _ b hl hf (by omega)
  · exact ⟨b, rfl, hl, hf⟩

theorem GetChar_keeps {b : CUtlBuffer} {c : List Nat} (hl : Loaded b c)
    (hf : b.m_GetOverflowFunc = .GetOverflow) :
    Loaded b.GetChar.2 c ∧ b.GetChar.2.m_GetOverflowFunc = .GetOverflow := by
  unfold GetChar
  rcases CheckGet_default b hf 1 with ⟨h, _, _⟩ | ⟨h, _⟩ | ⟨h, _⟩ <;> rw [h]
  · exact ⟨⟨hl.offset, hl.maxPut, hl.content⟩, hf⟩
  · exact ⟨hl, hf⟩
  · exact ⟨⟨hl.offset, hl.maxPut, hl.content⟩, hf⟩

/-- The match of the starting delimiter ends on every materialised buffer. -/
theorem parseStartLoop_total (c : List Nat) : ∀ (pat : List Nat) (b : CUtlBuffer), Loaded b c →
    b.m_GetOverflowFunc = .GetOverflow →
    ∃ r b1, parseStartLoop pat b = some (r, b1) ∧ Loaded b1 c ∧
      b1.m_GetOverflowFunc = .GetOverflow := by
  intro pat
  induction pat with
  | nil => intro b hl hf; exact ⟨true, b, rfl, hl, hf⟩
  | cons p ps ih =>
    intro b hl hf
    unfold parseStartLoop
    by_cases hp : V_isspace p = true
    · rw [if_neg (by simp [hp])]
      obtain ⟨b1, h1, hl1, hf1⟩ := EatWhiteSpace_total hl hf
      rw [h1]
      exact ih b1 hl1 hf1
    · rw [if_pos hp]
      simp only
      split
      · exact ⟨false, _, rfl, (GetChar_keeps hl hf).1, (GetChar_keeps hl hf).2⟩
      · exact ih _ (GetChar_keeps hl hf).1 (GetChar_keeps hl hf).2

/-- The search for a non-empty token ends on every materialised buffer. -/
theorem GetToken_total {b : CUtlBuffer} {c : List Nat} (hl : Loaded b c)
    (hf : b.m_GetOverflowFunc = .GetOverflow) (t : List Nat) (ht : cstr t ≠ []) :
    ∃ r, b.GetToken t = some r := by
  have hpos : 0 < V_strlen t := by
    unfold V_strlen
    have := List.length_pos.mpr ht
    omega
  obtain ⟨tail, htail⟩ := hl.content
  have hsize : b.Size = (c.length : Int) + (tail.length : Int) := by
    simp [CUtlBuffer.Size, CUtlMemory.NumAllocated, ← htail]
  have hloop : ∃ r, getTokenLoop t (V_strlen t) ((b.TellMaxPut - b.TellGet).toNat + 1) b
      (if b.Size - (b.TellGet - b.m_nOffset) ≤ V_strlen t then b.Size
        else b.Size - (b.TellGet - b.m_nOffset)) (b.TellMaxPut - b.TellGet) = some r := by
    unfold getTokenLoop
    simp only [TellGet, TellMaxPut, hl.offset, hl.maxPut, sub_zero]
    by_cases hrem : (c.length : Int) - b.m_Get ≥ V_strlen t
    · rw [if_pos hrem]
      by_cases hov : (c.length : Int) - b.m_Get >
          (if b.Size - b.m_Get ≤ V_strlen t then b.Size else b.Size - b.m_Get)
      · simp only [hov, decide_True, if_true, true_and]
        have hw := CheckPeekGet_default_window b hf 0
          (if b.Size - b.m_Get ≤ V_strlen t then b.Size else b.Size - b.m_Get)
        rcases CheckPeekGet_default b hf 0
          (if b.Size - b.m_Get ≤ V_strlen t then b.Size else b.Size - b.m_Get) with ⟨h, _⟩ | h
        · exfalso
          have := hw (by rw [h])
          rw [hl.offset, hl.maxPut] at this
          split at hov <;> split at this <;> omega
        · rw [h]
          exact ⟨_, rfl⟩
      · simp only [hov, decide_False, Bool.false_eq_true, if_false, false_and]
        rcases CheckPeekGet_default b hf 0 ((c.length : Int) - b.m_Get) with ⟨h, _⟩ | h
        · rw [h]
          simp only
          cases V_strnistr (b.PeekGetPtr 0) t ((c.length : Int) - b.m_Get) with
          | none =>
            simp only
            rw [if_pos (by omega)]
            exact ⟨_, rfl⟩
          | some i => exact ⟨_, rfl⟩
        · rw [h]
          exact ⟨_, rfl⟩
    · rw [if_neg hrem]
      exact ⟨_, rfl⟩
  obtain ⟨⟨r, b1⟩, hr⟩ := hloop
  unfold GetToken
  simp only [hr]
  cases r <;> exact ⟨_, rfl⟩

end

/-! ## C12: the token between two delimiters -/

section
open CUtlBuffer

theorem matchStart_nil : ∀ (pat r : List Nat), matchStart pat [] = some r → r = [] := by
  intro pat
  induction pat with
  | nil => intro r h; simpa [matchStart] using h.symm
  | cons p ps ih =>
    intro r h
    unfold matchStart at h
    split at h
    · exact ih r (by simpa using h)
    · simp at h

/-- White space skipping, told by the text left: when bytes other than white space remain,
the cursor stops at the first of them. -/
theorem Readable.eatWhiteSpace_drop {b : CUtlBuffer} {e : List Nat} (h : Readable b e)
    (pre u : List Nat) (he : e = pre ++ u) (hg : b.m_Get = (pre.length : Int))
    (hne : u.dropWhile V_isspace ≠ []) :
    ∃ pre1 : List Nat, e = pre1 ++ u.dropWhile V_isspace ∧
      b.EatWhiteSpace = some (b.atGet (pre1.length : Int)) := by
  have hsplit : u = u.takeWhile V_isspace ++ u.dropWhile V_isspace :=
    (List.takeWhile_append_dropWhile _ _).symm
  have hws : ∀ x ∈ u.takeWhile V_isspace, V_isspace x = true :=
    fun x hx => List.mem_takeWhile_imp hx
  have hpost : u.dropWhile V_isspace = [] ∨
      ∃ x r, u.dropWhile V_isspace = x :: r ∧ V_isspace x = false := by
    right
    cases hd : u.dropWhile V_isspace with
    | nil => exact absurd hd hne
    | cons x r =>
      refine ⟨x, r, rfl, ?_⟩
      have := List.head_dropWhile_not V_isspace u hne
      simpa [hd] using this
  have hrun := h.eatWhiteSpace_run pre (u.takeWhile V_isspace) (u.dropWhile V_isspace)
    (by rw [he]; congr 1) hg hws hpost
  rw [if_neg hne] at hrun
  refine ⟨pre ++ u.takeWhile V_isspace, ?_, ?_⟩
  · rw [he, List.append_assoc, ← hsplit]
  · rw [hrun]
    simp

/-- The loop over the starting delimiter follows the match of the specification. -/
theorem parseStartLoop_spec : ∀ (pat : List Nat) (b : CUtlBuffer) (e pre u u2 : List Nat),
    Readable b e → e = pre ++ u → b.m_Get = (pre.length : Int) →
    matchStart pat u = some u2 → u2 ≠ [] →
    ∃ pre2 : List Nat, e = pre2 ++ u2 ∧
      parseStartLoop pat b = some (true, b.atGet (pre2.length : Int)) := by
  intro pat
  induction pat with
  | nil =>
    intro b e pre u u2 h he hg hm _
    simp only [matchStart, Option.some.injEq] at hm
    subst hm
    exact ⟨pre, he, by rw [← hg]; rfl⟩
  | cons p ps ih =>
    intro b e pre u u2 h he hg hm hne
    unfold matchStart at hm
    unfold parseStartLoop
    by_cases hp : V_isspace p = true
    · rw [if_pos hp] at hm
      rw [if_neg (by simp [hp])]
      have hd : u.dropWhile V_isspace ≠ [] := by
        intro hnil
        rw [hnil] at hm
        exact hne (matchStart_nil ps u2 hm)
      obtain ⟨pre1, he1, hw⟩ := h.eatWhiteSpace_drop pre u he hg hd
      rw [hw]
      obtain ⟨pre2, he2, hl⟩ := ih (b.atGet (pre1.length : Int)) e pre1 _ u2 (h.atGet _) he1
        rfl hm hne
      exact ⟨pre2, he2, by simp only [hl]; rfl⟩
    · rw [if_neg hp] at hm
      rw [if_pos hp]
      cases u with
      | nil => simp at hm
      | cons x r =>
        simp only at hm
        by_cases hx : toLowerASCII x = toLowerASCII p
        · rw [if_pos hx] at hm
          simp only
          rw [h.getChar pre r x he hg]
          simp only [hx, ne_eq, not_true_eq_false, if_false]
          obtain ⟨pre2, he2, hl⟩ := ih (b.atGet ((pre.length : Int) + 1)) e (pre ++ [x]) r u2
            (h.atGet _) (by rw [he]; simp) (by simp) hm hne
          exact ⟨pre2, he2, by rw [hl]; rfl⟩
        · rw [if_neg hx] at hm
          simp at hm

/-- A seek from the head to a place inside the content only moves the cursor. -/
theorem Readable.seekHead {b : CUtlBuffer} {e : List Nat} (h : Readable b e) (p : Int)
    (hle : p ≤ (e.length : Int)) : b.SeekGet .SEEK_HEAD p = b.atGet p := by
  rw [SeekGet_default b h.getFunc]
  have hd : decide (seekPos b.m_Get b.m_nMaxPut .SEEK_HEAD p > b.m_nMaxPut) = false := by
    simp only [seekPos, decide_eq_false_iff_not, not_lt, gt_iff_lt, h.loaded.maxPut]
    exact hle
  rw [hd]
  rw [setGetOverflow_same _ false (by exact h.getErr)]
  rfl

/-- The token search on a readable buffer, told by the first occurrence. -/
theorem Readable.getToken_found {b : CUtlBuffer} {e : List Nat} (h : Readable b e)
    (pre u t : List Nat) (i : Nat) (he : e = pre ++ u) (hg : b.m_Get = (pre.length : Int))
    (hu : ∀ x ∈ u, x ≠ 0) (ht : t ≠ []) (htz : ∀ x ∈ t, x ≠ 0)
    (hocc : OccursAt t u i) (hfirst : ∀ j, j < i → ¬ OccursAt t u j) :
    b.GetToken t = some (true, b.atGet ((pre.length : Int) + (i : Int) + (t.length : Int))) := by
  have hdrop : e.drop b.m_Get.toNat = u := by
    rw [hg, he]
    simp
  have hlen : (e.length : Int) = (pre.length : Int) + (u.length : Int) := by
    rw [he]; simp
  have hfit := hocc.1
  obtain ⟨tail, htail⟩ := h.loaded.content
  have hsize : b.Size = (e.length : Int) + (tail.length : Int) := by
    simp [CUtlBuffer.Size, CUtlMemory.NumAllocated, ← htail]
  unfold GetToken
  simp only [V_strlen_of_nonzero t htz, TellGet, TellMaxPut, h.loaded.offset, h.loaded.maxPut,
    sub_zero]
  rw [getTokenLoop_loaded h.loaded t h.getErr (by omega) ht htz (by rw [hdrop]; exact hu) _ _
    (by split <;> omega) (by omega)]
  rw [hdrop]
  rcases findCI_spec t ht u 0 with ⟨_, h2⟩ | ⟨i1, h1, h2, h3⟩
  · exact absurd hocc (h2 i)
  · have hi : i1 = i := by
      rcases Nat.lt_trichotomy i1 i with hlt | heq | hgt
      · exact absurd h2 (hfirst i1 hlt)
      · exact heq
      · exact absurd hocc (h3 i hgt)
    subst hi
    rw [h1]
    simp only [zero_add]
    rw [h.seekCurrent _ (by omega), hg]
    congr 3
    omega

theorem trimTrailing_snoc (s : List Nat) (x : Nat) :
    trimTrailing (s ++ [x]) = if V_isspace x = true then trimTrailing s else s ++ [x] := by
  unfold trimTrailing
  rw [List.reverse_append, List.reverse_singleton, List.singleton_append, List.dropWhile_cons]
  split
  · rfl
  · simp

/-- The trimming loop finds the length of the copy without its trailing white space. -/
theorem trimLoop_spec (p : List Nat) : ∀ n : Nat, n ≤ p.length →
    p.take (trimLoop p n) = trimTrailing (p.take n) ∧ trimLoop p n ≤ n := by
  intro n
  induction n with
  | zero => intro _; simp [trimLoop, trimTrailing]
  | succ n ih =>
    intro hn
    have hlt : n < p.length := by omega
    have hdrop : p.drop n = p[n] :: p.drop (n + 1) := List.drop_eq_getElem_cons hlt
    have htake : p.take (n + 1) = p.take n ++ [p[n]] := by
      rw [List.take_succ, List.getElem?_eq_getElem hlt]
      rfl
    have hde : deref (p.drop n) = p[n] := by rw [hdrop]; rfl
    unfold trimLoop
    rw [hde]
    by_cases hs : V_isspace p[n] = true
    · rw [if_neg (not_not.mpr hs)]
      obtain ⟨h1, h2⟩ := ih (by omega)
      refine ⟨?_, by omega⟩
      rw [h1, htake, trimTrailing_snoc, if_pos hs]
    · rw [if_pos hs]
      refine ⟨?_, le_refl _⟩
      rw [htake, trimTrailing_snoc, if_neg hs]

theorem trimTrailing_starts (s : List Nat) : trimTrailing s <+: s := by
  unfold trimTrailing
  have h := List.dropWhile_suffix (l := s.reverse) V_isspace
  have := List.reverse_prefix.mpr h
  simpa using this

/-- A terminator stored inside a region leaves the string before it. -/
theorem cstr_storeAt_take (l : List Nat) (k : Nat) (hk : k < l.length)
    (hz : ∀ x ∈ l.take k, x ≠ 0) : cstr (storeAt l (k : Int) 0) = l.take k := by
  have hsplit : l = l.take k ++ l.drop k := (List.take_append_drop k l).symm
  have hd : l.drop k = l[k] :: l.drop (k + 1) := List.drop_eq_getElem_cons hk
  have hlen : (l.take k).length = k := by simp; omega
  have hst := storeAt_append_at (l.take k) (l.drop k) (k : Int) 0 (by rw [hlen])
  rw [← hsplit] at hst
  rw [hst, hd, List.set_cons_zero]
  exact cstr_terminated _ _ hz

end

section
open CUtlBuffer

/-- The copy of the token into the destination, trimmed and terminated. -/
theorem Readable.copyToken {b : CUtlBuffer} {e : List Nat} (h : Readable b e)
    (pre3 u3 pString : List Nat) (n : Nat) (he : e = pre3 ++ u3) (hz : ∀ x ∈ u3, x ≠ 0)
    (hn : n ≤ u3.length) (hbuf : n < pString.length) :
    (b.SeekGet .SEEK_HEAD (pre3.length : Int)).Get pString (n : Int) =
      (b.atGet ((pre3.length : Int) + (n : Int)), u3.take n ++ pString.drop n) ∧
    cstr (storeAt (u3.take n ++ pString.drop n)
      ((trimLoop (u3.take n ++ pString.drop n) n : Nat) : Int) 0) = trimTrailing (u3.take n) := by
  have hlen : (e.length : Int) = (pre3.length : Int) + (u3.length : Int) := by
    rw [he]; simp
  have htl : (u3.take n).length = n := by simp; omega
  constructor
  · rw [h.seekHead _ (by omega)]
    rw [Get_loaded (h.atGet _).loaded pString n (h.atGet _).getErr (by simp)
      (by simp only [atGet_get]; omega)]
    simp only [atGet_get, Int.toNat_ofNat, he, List.drop_left]
    rfl
  · obtain ⟨ht1, ht2⟩ := trimLoop_spec (u3.take n ++ pString.drop n) n (by simp; omega)
    have htk : (u3.take n ++ pString.drop n).take n = u3.take n := by
      rw [List.take_append_of_le_length (by omega), List.take_of_length_le (by omega)]
    rw [htk] at ht1
    rw [cstr_storeAt_take _ _ (by simp; omega) (by
      rw [ht1]
      intro x hx
      have hx1 : x ∈ u3.take n := (trimTrailing_starts _).subset hx
      have hx2 : x ∈ u3 := List.mem_of_mem_take hx1
      exact hz x hx2)]
    exact ht1

end

/-- C12, counterexample: two readable text buffers on which the claim promises true and
`ParseToken` answers false, the cursor back at 0 and the destination emptied.  On `[ ;x`
the starting delimiter `[` matches at the cursor and the ending delimiter ` ;` occurs
right after it, but the white space after the starting delimiter is skipped before the
search, which then meets `;x` only.  On `a`, NUL, `b;` with no starting delimiter the
ending delimiter `;` occurs at index 3, but the search reads a NUL-terminated string and
stops at the NUL. -/
theorem C12_counterexample :
    matchStart (cstr [91]) (([91, 32, 59, 120] : List Nat).dropWhile V_isspace) =
      some [32, 59, 120] ∧
    OccursAt [32, 59] [32, 59, 120] 0 ∧
    ((wholeText [91, 32, 59, 120]).ParseTokenDelim (some [91]) [32, 59] [7, 7, 7, 7] 4).map
        (fun r => (r.1, r.2.1, r.2.2.m_Get)) = some (false, [0, 7, 7, 7], 0) ∧
    matchStart (cstr ((none : Option (List Nat)).getD []))
        (([97, 0, 98, 59] : List Nat).dropWhile V_isspace) = some [97, 0, 98, 59] ∧
    OccursAt [59] [97, 0, 98, 59] 3 ∧
    ((wholeText [97, 0, 98, 59]).ParseTokenDelim none [59] [7, 7, 7, 7] 4).map
        (fun r => (r.1, r.2.1, r.2.2.m_Get)) = some (false, [0, 7, 7, 7], 0) :=
  ⟨by decide, by unfold OccursAt; decide, by decide, by decide, by unfold OccursAt; decide,
    by decide⟩

/-- C12: on a readable text buffer (fully materialised, default hook, no error set) whose
unread bytes are white space, a match of the optional starting delimiter (without regard
to case, each white-space byte of the pattern matching any run of white space), white
space, and a text `rest` without NUL in which the non-empty ending delimiter first occurs
at index `i`: `ParseToken (pStartingDelim, pEndingDelim, pString, nMaxLen)`
with `nMaxLen >= 1`, over a destination of at least `nMaxLen` bytes, returns true and
leaves `get_pos` just past that occurrence.  The destination holds, NUL-terminated, the
first `nMaxLen - 1` of the `i` bytes of `rest` before the ending delimiter with their
trailing white space removed: never more than `nMaxLen - 1` bytes, and all the bytes
between the delimiters, trimmed, when `i < nMaxLen`. -/
theorem C12_token_between_delimiters {b : CUtlBuffer} {e : List Nat} (h : Readable b e)
    (pStartingDelim : Option (List Nat)) (pEndingDelim pString : List Nat) (nMaxLen : Int)
    (pre u u2 : List Nat) (i : Nat)
    (he : e = pre ++ u) (hg : b.m_Get = (pre.length : Int))
    (hEnd : pEndingDelim ≠ []) (hEndz : ∀ x ∈ pEndingDelim, x ≠ 0)
    (hstart : matchStart (cstr (pStartingDelim.getD [])) (u.dropWhile V_isspace) = some u2)
    (hz : ∀ x ∈ u2.dropWhile V_isspace, x ≠ 0)
    (hocc : OccursAt pEndingDelim (u2.dropWhile V_isspace) i)
    (hfirst : ∀ j, j < i → ¬ OccursAt pEndingDelim (u2.dropWhile V_isspace) j)
    (hmax : 1 ≤ nMaxLen) (hbuf : nMaxLen ≤ (pString.length : Int)) :
    ∃ out : List Nat,
      b.ParseTokenDelim pStartingDelim pEndingDelim pString nMaxLen =
        some (true, out,
          b.atGet ((e.length : Int) - ((u2.dropWhile V_isspace).length : Int) + (i : Int) +
            (pEndingDelim.length : Int))) ∧
      cstr out = trimTrailing (((u2.dropWhile V_isspace).take i).take (nMaxLen - 1).toNat) ∧
      ((cstr out).length : Int) ≤ nMaxLen - 1 ∧
      ((i : Int) < nMaxLen → cstr out = trimTrailing ((u2.dropWhile V_isspace).take i)) := by
  have htpos : 0 < pEndingDelim.length := List.length_pos.mpr hEnd
  have hfit := hocc.1
  have hu3 : u2.dropWhile V_isspace ≠ [] := by
    intro hnil
    rw [hnil] at hfit
    simp only [List.length_nil] at hfit
    omega
  have hu2 : u2 ≠ [] := by
    intro hnil
    rw [hnil] at hu3
    simp at hu3
  have hu1 : u.dropWhile V_isspace ≠ [] := by
    intro hnil
    rw [hnil] at hstart
    exact hu2 (matchStart_nil _ u2 hstart)
  obtain ⟨pre1, he1, hw1⟩ := h.eatWhiteSpace_drop pre u he hg hu1
  obtain ⟨pre2, he2, hs2⟩ := parseStartLoop_spec _ (b.atGet (pre1.length : Int)) e pre1 _ u2
    (h.atGet _) he1 rfl hstart hu2
  obtain ⟨pre3, he3, hw3⟩ := (h.atGet (pre2.length : Int)).eatWhiteSpace_drop pre2 u2 he2 rfl hu3
  have htok := (h.atGet (pre3.length : Int)).getToken_found pre3 _ pEndingDelim i he3 rfl
    hz hEnd hEndz hocc hfirst
  have hlen : (e.length : Int) = (pre3.length : Int) + ((u2.dropWhile V_isspace).length : Int) := by
    rw [he3]; simp
  have hpos : (e.length : Int) - ((u2.dropWhile V_isspace).length : Int) + (i : Int) +
      (pEndingDelim.length : Int) = (pre3.length : Int) + (i : Int) + (pEndingDelim.length : Int) := by
    omega
  rw [hpos]
  have hseek : ∀ b1 : CUtlBuffer, Readable b1 e → b1.SeekGet .SEEK_HEAD
      ((pre3.length : Int) + (i : Int) + (pEndingDelim.length : Int)) =
      b1.atGet ((pre3.length : Int) + (i : Int) + (pEndingDelim.length : Int)) :=
    fun b1 h1 => h1.seekHead _ (by omega)
  -- the number of bytes copied
  obtain ⟨n, hn⟩ : ∃ n : Nat, (n : Int) =
      (if (i : Int) ≥ nMaxLen then nMaxLen - 1 else (i : Int)) ∧ n = min i (nMaxLen - 1).toNat := by
    refine ⟨min i (nMaxLen - 1).toNat, ?_, rfl⟩
    split <;> omega
  have htake : ((u2.dropWhile V_isspace).take i).take (nMaxLen - 1).toNat =
      (u2.dropWhile V_isspace).take n := by
    rw [List.take_take, hn.2, Nat.min_comm]
  rw [htake]
  have hunf : b.ParseTokenDelim pStartingDelim pEndingDelim pString nMaxLen =
      if (n : Int) > 0 then
        some (true,
          storeAt ((u2.dropWhile V_isspace).take n ++ pString.drop n)
            ((CUtlBuffer.trimLoop ((u2.dropWhile V_isspace).take n ++ pString.drop n) n : Nat) : Int) 0,
          b.atGet ((pre3.length : Int) + (i : Int) + (pEndingDelim.length : Int)))
      else some (true, storeAt pString (n : Int) 0,
          b.atGet ((pre3.length : Int) + (i : Int) + (pEndingDelim.length : Int))) := by
    unfold CUtlBuffer.ParseTokenDelim
    simp only [hw1, hs2, CUtlBuffer.atGet_atGet, hw3, htok, CUtlBuffer.TellGet,
      CUtlBuffer.atGet_get, V_strlen_of_nonzero pEndingDelim hEndz]
    have harith : (pre3.length : Int) + (i : Int) + (pEndingDelim.length : Int) -
        (pEndingDelim.length : Int) - (pre3.length : Int) = (i : Int) := by omega
    rw [harith, ← hn.1]
    by_cases hn0 : (n : Int) > 0
    · rw [if_pos hn0, if_pos hn0]
      obtain ⟨hc1, _⟩ := (h.atGet ((pre3.length : Int) + (i : Int) +
        (pEndingDelim.length : Int))).copyToken pre3 _ pString n he3 hz (by omega) (by omega)
      simp only [hc1, Int.toNat_ofNat, CUtlBuffer.atGet_atGet]
      rw [if_neg (by simp [(h.atGet _).isValid])]
      rw [hseek _ (h.atGet _)]
      rfl
    · rw [if_neg hn0, if_neg hn0]
      rw [hseek _ (h.atGet _)]
      rfl
  rw [hunf]
  by_cases hn0 : (n : Int) > 0
  · rw [if_pos hn0]
    obtain ⟨_, hc2⟩ := h.copyToken pre3 _ pString n he3 hz (by omega) (by omega)
    refine ⟨_, rfl, hc2, ?_, ?_⟩
    · rw [hc2]
      have := (trimTrailing_starts ((u2.dropWhile V_isspace).take n)).length_le
      simp only [List.length_take] at this
      omega
    · intro hi
      rw [hc2]
      have : n = i := by omega
      rw [this]
  · rw [if_neg hn0]
    have hn00 : n = 0 := by omega
    subst hn00
    refine ⟨_, rfl, ?_, ?_, ?_⟩
    · simp only [Nat.cast_zero, List.take_zero]
      rw [cstr_storeAt_zero]
      rfl
    · simp only [Nat.cast_zero]
      rw [cstr_storeAt_zero]
      simp only [List.length_nil, Nat.cast_zero]
      omega
    · intro hi
      have hi0 : i = 0 := by omega
      simp only [Nat.cast_zero, hi0, List.take_zero]
      rw [cstr_storeAt_zero]
      rfl

theorem C12_token_between_delimiters_witness :
    ∃ out : List Nat,
      (wholeText [32, 91, 32, 97, 98, 32, 32, 59, 120]).ParseTokenDelim (some [91]) [59]
          [7, 7, 7, 7, 7, 7, 7, 7] 8 =
        some (true, out,
          (wholeText [32, 91, 32, 97, 98, 32, 32, 59, 120]).atGet
            ((([32, 91, 32, 97, 98, 32, 32, 59, 120] : List Nat).length : Int) -
              ((([32, 97, 98, 32, 32, 59, 120] : List Nat).dropWhile V_isspace).length : Int) +
              ((4 : Nat) : Int) + (([59] : List Nat).length : Int))) ∧
      cstr out = trimTrailing
        (((([32, 97, 98, 32, 32, 59, 120] : List Nat).dropWhile V_isspace).take 4).take
          ((8 : Int) - 1).toNat) ∧
      ((cstr out).length : Int) ≤ 8 - 1 ∧
      (((4 : Nat) : Int) < 8 → cstr out = trimTrailing
        ((([32, 97, 98, 32, 32, 59, 120] : List Nat).dropWhile V_isspace).take 4)) :=
  C12_token_between_delimiters (b := wholeText [32, 91, 32, 97, 98, 32, 32, 59, 120])
    (e := [32, 91, 32, 97, 98, 32, 32, 59, 120])
    ⟨⟨by decide, by decide, by decide⟩, by decide, by decide, by decide⟩
    (some [91]) [59] [7, 7, 7, 7, 7, 7, 7, 7] 8 [] [32, 91, 32, 97, 98, 32, 32, 59, 120]
    [32, 97, 98, 32, 32, 59, 120] 4 (by decide) (by decide) (by decide) (by decide) (by decide)
    (by decide) ⟨by decide, by decide⟩
    (by unfold OccursAt; decide)
    (by decide) (by decide)

/-! ## C13: the parse that fails -/

section
open CUtlBuffer

theorem toLowerASCII_ne_zero (p : Nat) (hp : p ≠ 0) : toLowerASCII 0 ≠ toLowerASCII p := by
  unfold toLowerASCII
  split <;> split <;> omega

/-- Once the get latch is set the starting delimiter cannot match, unless nothing but
white space is left of it. -/
theorem parseStartLoop_exhausted : ∀ (pat : List Nat) (b : CUtlBuffer),
    b.m_Error.GET_OVERFLOW = true → (∀ p ∈ pat, p ≠ 0) → matchStart pat [] = none →
    ∃ b1, parseStartLoop pat b = some (false, b1) := by
  intro pat
  induction pat with
  | nil => intro b _ _ hm; simp [matchStart] at hm
  | cons p ps ih =>
    intro b he hz hm
    unfold matchStart at hm
    unfold parseStartLoop
    by_cases hp : V_isspace p = true
    · rw [if_pos hp] at hm
      rw [if_neg (by simp [hp])]
      have hw : b.EatWhiteSpace = some b := by
        unfold EatWhiteSpace
        rw [if_neg (by simp [IsValid, he])]
      rw [hw]
      exact ih b he (fun q hq => hz q (List.mem_cons_of_mem _ hq)) (by simpa using hm)
    · rw [if_pos hp]
      have hg : b.GetChar = (0, b) := by
        unfold GetChar
        rw [CheckGet_latched b 1 he]
      simp only [hg]
      rw [if_pos (toLowerASCII_ne_zero p (hz p (List.mem_cons_self _ _)))]
      exact ⟨b, rfl⟩

/-- The loop over the starting delimiter leaves through `parseFailed` when the delimiter
does not match the text at the cursor. -/
theorem parseStartLoop_mismatch : ∀ (pat : List Nat) (b : CUtlBuffer) (e pre u : List Nat),
    Readable b e → e = pre ++ u → b.m_Get = (pre.length : Int) → (∀ p ∈ pat, p ≠ 0) →
    matchStart pat u = none → ∃ b1, parseStartLoop pat b = some (false, b1) := by
  intro pat
  induction pat with
  | nil => intro b e pre u _ _ _ _ hm; simp [matchStart] at hm
  | cons p ps ih =>
    intro b e pre u h he hg hz hm
    have hzs : ∀ q ∈ ps, q ≠ 0 := fun q hq => hz q (List.mem_cons_of_mem _ hq)
    unfold matchStart at hm
    by_cases hp : V_isspace p = true
    · rw [if_pos hp] at hm
      unfold parseStartLoop
      rw [if_neg (by simp [hp])]
      by_cases hd : u.dropWhile V_isspace = []
      · have hrun := h.eatWhiteSpace_run pre (u.takeWhile V_isspace) (u.dropWhile V_isspace)
          (by rw [he, List.takeWhile_append_dropWhile]) hg
          (fun x hx => List.mem_takeWhile_imp hx) (Or.inl hd)
        rw [if_pos hd] at hrun
        rw [hrun]
        rw [hd] at hm
        exact parseStartLoop_exhausted ps _ (by simp [setGetOverflow]) hzs hm
      · obtain ⟨pre1, he1, hw⟩ := h.eatWhiteSpace_drop pre u he hg hd
        rw [hw]
        exact ih (b.atGet (pre1.length : Int)) e pre1 _ (h.atGet _) he1 rfl hzs hm
    · rw [if_neg hp] at hm
      unfold parseStartLoop
      rw [if_pos hp]
      cases u with
      | nil =>
        rw [h.getChar_end (by rw [he, hg]; simp)]
        simp only
        rw [if_pos (toLowerASCII_ne_zero p (hz p (List.mem_cons_self _ _)))]
        exact ⟨_, rfl⟩
      | cons x r =>
        simp only at hm
        rw [h.getChar pre r x he hg]
        simp only
        by_cases hx : toLowerASCII x = toLowerASCII p
        · rw [if_pos hx] at hm
          rw [if_neg (by simp [hx])]
          exact ih (b.atGet ((pre.length : Int) + 1)) e (pre ++ [x]) r (h.atGet _)
            (by rw [he]; simp) (by simp) hzs hm
        · rw [if_pos hx]
          exact ⟨_, rfl⟩

/-- The token search answers false, the cursor back where it was, when the token does not
occur in the unread bytes. -/
theorem GetToken_absent {b : CUtlBuffer} {c : List Nat} (hl : Loaded b c)
    (he : b.m_Error.GET_OVERFLOW = false) (h0 : 0 ≤ b.m_Get) (t : List Nat) (ht : t ≠ [])
    (htz : ∀ x ∈ t, x ≠ 0) (hcz : ∀ x ∈ c.drop b.m_Get.toNat, x ≠ 0)
    (hno : ∀ i, ¬ OccursAt t (c.drop b.m_Get.toNat) i) :
    b.GetToken t = some (false, b.SeekGet .SEEK_HEAD b.m_Get) := by
  have hpos : 0 < t.length := List.length_pos.mpr ht
  obtain ⟨tail, htail⟩ := hl.content
  have hsize : b.Size = (c.length : Int) + (tail.length : Int) := by
    simp [CUtlBuffer.Size, CUtlMemory.NumAllocated, ← htail]
  unfold CUtlBuffer.GetToken
  simp only [V_strlen_of_nonzero t htz, CUtlBuffer.TellGet, CUtlBuffer.TellMaxPut, hl.offset,
    hl.maxPut, sub_zero]
  by_cases hrem : (t.length : Int) ≤ (c.length : Int) - b.m_Get
  · rw [CUtlBuffer.getTokenLoop_loaded hl t he h0 ht htz hcz _ _ (by split <;> omega) hrem]
    rcases findCI_spec t ht (c.drop b.m_Get.toNat) 0 with ⟨h1, _⟩ | ⟨i, _, h2, _⟩
    · rw [h1]
    · exact absurd h2 (hno i)
  · have hloop : ∀ nMaxSize : Int,
        CUtlBuffer.getTokenLoop t (t.length : Int) (((c.length : Int) - b.m_Get).toNat + 1) b nMaxSize
          ((c.length : Int) - b.m_Get) = some (false, b) := by
      intro nMaxSize
      unfold CUtlBuffer.getTokenLoop
      rw [if_neg (by omega)]
    rw [hloop]

/-- A token the search does not find occurs nowhere. -/
theorem not_occurs_of_findCI (t text : List Nat) (ht : t ≠ []) (h : findCI t text 0 = none) :
    ∀ i, ¬ OccursAt t text i := by
  rcases findCI_spec t ht text 0 with ⟨_, h2⟩ | ⟨i, h1, _, _⟩
  · exact h2
  · rw [h] at h1
    simp at h1

/-- C13: for every buffer, whatever its hooks, and every delimiter pair: when
`ParseToken (pStartingDelim, pEndingDelim, pString, nMaxLen)` returns false, `get_pos` has
the value it had before the call and the destination holds the empty string.  The call
does return on every fully materialised buffer with the default hook, for every non-empty
ending delimiter.  And it does return false, with the cursor restored and the destination
emptied, on every readable text buffer (fully materialised, no error, default hook) in
both cases of failure: when the starting delimiter does not match the text after the
leading white space, and when it matches but the non-empty ending delimiter occurs nowhere
in the NUL-free text left after the white space that follows. -/
theorem C13_failed_parse_restores_cursor (b : CUtlBuffer) (pStartingDelim : Option (List Nat))
    (pEndingDelim pString : List Nat) (nMaxLen : Int) :
    (∀ (out : List Nat) (b1 : CUtlBuffer),
      b.ParseTokenDelim pStartingDelim pEndingDelim pString nMaxLen = some (false, out, b1) →
      b1.m_Get = b.m_Get ∧ cstr out = []) ∧
    (∀ c : List Nat, Loaded b c → b.m_GetOverflowFunc = .GetOverflow → cstr pEndingDelim ≠ [] →
      ∃ r, b.ParseTokenDelim pStartingDelim pEndingDelim pString nMaxLen = some r) ∧
    (∀ e pre u : List Nat, Readable b e → e = pre ++ u → b.m_Get = (pre.length : Int) →
      (matchStart (cstr (pStartingDelim.getD [])) (u.dropWhile V_isspace) = none ∨
        ∃ u2 : List Nat,
          matchStart (cstr (pStartingDelim.getD [])) (u.dropWhile V_isspace) = some u2 ∧
          u2.dropWhile V_isspace ≠ [] ∧ (∀ x ∈ u2.dropWhile V_isspace, x ≠ 0) ∧
          pEndingDelim ≠ [] ∧ (∀ x ∈ pEndingDelim, x ≠ 0) ∧
          ∀ i, ¬ OccursAt pEndingDelim (u2.dropWhile V_isspace) i) →
      ∃ b1 : CUtlBuffer,
        b.ParseTokenDelim pStartingDelim pEndingDelim pString nMaxLen =
          some (false, storeAt pString 0 0, b1) ∧
        b1.m_Get = b.m_Get ∧ cstr (storeAt pString 0 0) = []) := by
  refine ⟨?_, ?_, ?_⟩
  · intro out b1 h
    unfold CUtlBuffer.ParseTokenDelim at h
    simp only [CUtlBuffer.TellGet] at h
    cases h1 : b.EatWhiteSpace with
    | none => rw [h1] at h; simp at h
    | some b2 =>
      rw [h1] at h
      simp only at h
      cases h2 : CUtlBuffer.parseStartLoop (cstr (pStartingDelim.getD [])) b2 with
      | none => rw [h2] at h; simp at h
      | some p2 =>
        obtain ⟨r2, b3⟩ := p2
        rw [h2] at h
        cases r2 with
        | false =>
          simp only [Option.some.injEq, Prod.mk.injEq, true_and] at h
          obtain ⟨rfl, rfl⟩ := h
          exact ⟨SeekGet_head_get _ _, cstr_storeAt_zero _⟩
        | true =>
          simp only at h
          cases h3 : b3.EatWhiteSpace with
          | none => rw [h3] at h; simp at h
          | some b4 =>
            rw [h3] at h
            simp only at h
            cases h4 : b4.GetToken pEndingDelim with
            | none => rw [h4] at h; simp at h
            | some p4 =>
              obtain ⟨r4, b5⟩ := p4
              rw [h4] at h
              cases r4 with
              | false =>
                simp only [Option.some.injEq, Prod.mk.injEq, true_and] at h
                obtain ⟨rfl, rfl⟩ := h
                exact ⟨SeekGet_head_get _ _, cstr_storeAt_zero _⟩
              | true =>
                simp only at h
                split_ifs at h <;>
                first
                | (simp only [Option.some.injEq, Prod.mk.injEq, true_and] at h
                   obtain ⟨rfl, rfl⟩ := h
                   exact ⟨SeekGet_head_get _ _, cstr_storeAt_zero _⟩)
                | (simp at h)
  · intro c hl hf ht
    unfold CUtlBuffer.ParseTokenDelim
    obtain ⟨b1, h1, hl1, hf1⟩ := EatWhiteSpace_total hl hf
    obtain ⟨r, b2, h2, hl2, hf2⟩ := parseStartLoop_total c (cstr (pStartingDelim.getD [])) b1 hl1 hf1
    simp only [h1, h2]
    cases r with
    | false => exact ⟨_, rfl⟩
    | true =>
      obtain ⟨b3, h3, hl3, hf3⟩ := EatWhiteSpace_total hl2 hf2
      obtain ⟨⟨r4, b4⟩, h4⟩ := GetToken_total hl3 hf3 pEndingDelim ht
      simp only [h3, h4]
      cases r4 with
      | false => exact ⟨_, rfl⟩
      | true =>
        simp only
        split_ifs <;> exact ⟨_, rfl⟩
  · intro e pre u h he hg hcase
    have hout : cstr (storeAt pString 0 0) = [] := cstr_storeAt_zero _
    have hpz : ∀ p ∈ cstr (pStartingDelim.getD []), p ≠ 0 := by
      intro x hx
      have := List.mem_takeWhile_imp hx
      simpa using this
    unfold CUtlBuffer.ParseTokenDelim
    simp only [CUtlBuffer.TellGet]
    by_cases hd : u.dropWhile V_isspace = []
    · have hrun := h.eatWhiteSpace_run pre (u.takeWhile V_isspace) (u.dropWhile V_isspace)
        (by rw [he, List.takeWhile_append_dropWhile]) hg
        (fun x hx => List.mem_takeWhile_imp hx) (Or.inl hd)
      rw [if_pos hd] at hrun
      rw [hrun]
      rcases hcase with hm | ⟨u2, hm, hne, _⟩
      · rw [hd] at hm
        obtain ⟨b1, hb1⟩ := parseStartLoop_exhausted _
          ((b.atGet (e.length : Int)).setGetOverflow true)
          (by simp [CUtlBuffer.setGetOverflow]) hpz hm
        simp only [hb1]
        exact ⟨_, rfl, SeekGet_head_get _ _, hout⟩
      · rw [hd] at hm
        have hnil := matchStart_nil _ u2 hm
        rw [hnil] at hne
        simp at hne
    · obtain ⟨pre1, he1, hw⟩ := h.eatWhiteSpace_drop pre u he hg hd
      rw [hw]
      rcases hcase with hm | ⟨u2, hm, hne, hz, hEnd, hEndz, hno⟩
      · obtain ⟨b1, hb1⟩ := parseStartLoop_mismatch _ (b.atGet (pre1.length : Int)) e pre1 _
          (h.atGet _) he1 rfl hpz hm
        simp only [hb1]
        exact ⟨_, rfl, SeekGet_head_get _ _, hout⟩
      · have hu2 : u2 ≠ [] := by
          intro hnil
          rw [hnil] at hne
          simp at hne
        obtain ⟨pre2, he2, hs2⟩ := parseStartLoop_spec _ (b.atGet (pre1.length : Int)) e pre1 _
          u2 (h.atGet _) he1 rfl hm hu2
        obtain ⟨pre3, he3, hw3⟩ :=
          (h.atGet (pre2.length : Int)).eatWhiteSpace_drop pre2 u2 he2 rfl hne
        have hdrop : e.drop (b.atGet (pre3.length : Int)).m_Get.toNat =
            u2.dropWhile V_isspace := by
          rw [he3]
          simp
        have htok := GetToken_absent (h.atGet (pre3.length : Int)).loaded
          (h.atGet _).getErr (by simp) pEndingDelim hEnd hEndz
          (by rw [hdrop]; exact hz) (by rw [hdrop]; exact hno)
        simp only [hs2, CUtlBuffer.atGet_atGet, hw3, htok]
        exact ⟨_, rfl, SeekGet_head_get _ _, hout⟩

theorem C13_failed_parse_restores_cursor_witness :
    (∃ b1 : CUtlBuffer,
      ((wholeText [32, 60, 97, 62, 120]).SeekGet .SEEK_HEAD 1).ParseTokenDelim
          (some [60, 98, 62]) [59] [7, 7, 7] 3 = some (false, storeAt [7, 7, 7] 0 0, b1) ∧
      b1.m_Get = ((wholeText [32, 60, 97, 62, 120]).SeekGet .SEEK_HEAD 1).m_Get ∧
      cstr (storeAt [7, 7, 7] 0 0) = []) ∧
    (∃ b1 : CUtlBuffer,
      ((wholeText [32, 60, 97, 62, 120]).SeekGet .SEEK_HEAD 1).ParseTokenDelim
          (some [60, 97, 62]) [59] [7, 7, 7] 3 = some (false, storeAt [7, 7, 7] 0 0, b1) ∧
      b1.m_Get = ((wholeText [32, 60, 97, 62, 120]).SeekGet .SEEK_HEAD 1).m_Get ∧
      cstr (storeAt [7, 7, 7] 0 0) = []) :=
  ⟨(C13_failed_parse_restores_cursor ((wholeText [32, 60, 97, 62, 120]).SeekGet .SEEK_HEAD 1)
      (some [60, 98, 62]) [59] [7, 7, 7] 3).2.2 [32, 60, 97, 62, 120] [32] [60, 97, 62, 120]
      ⟨⟨by decide, by decide, by decide⟩, by decide, by decide, by decide⟩ (by decide)
      (by decide) (Or.inl (by decide)),
    (C13_failed_parse_restores_cursor ((wholeText [32, 60, 97, 62, 120]).SeekGet .SEEK_HEAD 1)
      (some [60, 97, 62]) [59] [7, 7, 7] 3).2.2 [32, 60, 97, 62, 120] [32] [60, 97, 62, 120]
      ⟨⟨by decide, by decide, by decide⟩, by decide, by decide, by decide⟩ (by decide)
      (by decide)
      (Or.inr ⟨[120], by decide, by decide, by decide, by decide, by decide,
        not_occurs_of_findCI [59] [120] (by decide) (by decide)⟩)⟩

end

/-! ## C16: two integers read by Scanf -/

theorem digitsRev_digit : ∀ (fuel n : Nat), ∀ d ∈ digitsRev fuel n, 48 ≤ d ∧ d ≤ 57 := by
  intro fuel
  induction fuel with
  | zero => intro n d hd; simp [digitsRev] at hd
  | succ fuel ih =>
    intro n d hd
    unfold digitsRev at hd
    split at hd
    · simp only [List.mem_singleton] at hd
      omega
    · rcases List.mem_cons.mp hd with rfl | hd
      · omega
      · exact ih _ d hd

theorem digitsRev_value : ∀ (fuel n : Nat), n < fuel →
    (digitsRev fuel n).foldr (fun d acc => acc * 10 + (d - 48)) 0 = n := by
  intro fuel
  induction fuel with
  | zero => intro n h; omega
  | succ fuel ih =>
    intro n h
    unfold digitsRev
    split
    · simp
    · simp only [List.foldr_cons]
      rw [ih (n / 10) (by omega)]
      omega

theorem digitsRev_ne_nil (fuel n : Nat) : digitsRev (fuel + 1) n ≠ [] := by
  unfold digitsRev
  split <;> simp

theorem digitsRev_length_le : ∀ (k fuel n : Nat), n < 10 ^ (k + 1) →
    (digitsRev fuel n).length ≤ k + 1 := by
  intro k
  induction k with
  | zero =>
    intro fuel n h
    cases fuel with
    | zero => simp [digitsRev]
    | succ fuel =>
      unfold digitsRev
      rw [if_pos (by simpa using h)]
      simp
  | succ k ih =>
    intro fuel n h
    cases fuel with
    | zero => simp [digitsRev]
    | succ fuel =>
      unfold digitsRev
      split
      · simp
      · simp only [List.length_cons, Nat.add_le_add_iff_right]
        apply ih
        rw [pow_succ] at h
        omega

theorem digitValue_digit (d : Nat) (h : 48 ≤ d ∧ d ≤ 57) : digitValue d = d - 48 := by
  unfold digitValue
  rw [if_pos h]

/-- The digit scan reads a run of decimal digits and stops at the byte after it. -/
theorem scanDigits_run (post : List Nat)
    (hpost : post = [] ∨ ∃ x r, post = x :: r ∧ ¬ digitValue x < 10) :
    ∀ (ds : List Nat) (acc k : Nat), (∀ d ∈ ds, 48 ≤ d ∧ d ≤ 57) →
    scanDigits 10 (ds ++ post) acc k =
      (ds.foldl (fun a d => a * 10 + (d - 48)) acc, k + ds.length) := by
  intro ds
  induction ds with
  | nil =>
    intro acc k _
    rcases hpost with rfl | ⟨x, r, rfl, hx⟩
    · simp [scanDigits]
    · simp [scanDigits, hx]
  | cons d ds ih =>
    intro acc k hd
    have h1 := hd d (List.mem_cons_self _ _)
    simp only [List.cons_append, scanDigits, digitValue_digit d h1, List.foldl_cons,
      List.length_cons]
    rw [if_pos (by omega)]
    show scanDigits 10 (ds ++ post) _ _ = _
    rw [ih _ _ (fun y hy => hd y (List.mem_cons_of_mem _ hy))]
    congr 1
    omega

theorem renderNat_scan (n : Nat) (post : List Nat)
    (hpost : post = [] ∨ ∃ x r, post = x :: r ∧ ¬ digitValue x < 10) :
    scanDigits 10 (renderNat n ++ post) 0 0 = (n, (renderNat n).length) := by
  rw [scanDigits_run post hpost (renderNat n) 0 0 (by
    intro d hd
    exact digitsRev_digit _ _ d (by simpa [renderNat] using hd))]
  simp only [renderNat, List.foldl_reverse, zero_add, List.length_reverse]
  rw [digitsRev_value _ _ (Nat.lt_succ_self n)]

theorem renderNat_head (n : Nat) :
    ∃ d ds, renderNat n = d :: ds ∧ 48 ≤ d ∧ d ≤ 57 := by
  have hne : renderNat n ≠ [] := by
    simp only [renderNat, ne_eq, List.reverse_eq_nil_iff]
    exact digitsRev_ne_nil n n
  cases hr : renderNat n with
  | nil => exact absurd hr hne
  | cons d ds =>
    refine ⟨d, ds, rfl, ?_⟩
    have : d ∈ renderNat n := by rw [hr]; exact List.mem_cons_self _ _
    exact digitsRev_digit _ _ d (by simpa [renderNat] using this)

/-- Reading back a decimal rendering gives the number and the length of the rendering. -/
theorem StringToNumber_render (a : Int) (post : List Nat)
    (hpost : post = [] ∨ ∃ x r, post = x :: r ∧ ¬ digitValue x < 10) :
    StringToNumber (renderInt a ++ post) 10 = (a, (renderInt a).length) := by
  obtain ⟨d, ds, hr, hd1, hd2⟩ := renderNat_head a.natAbs
  have hscan := renderNat_scan a.natAbs post hpost
  have hdsp : V_isspace d = false := by
    simp only [V_isspace, Bool.or_eq_false_iff, beq_eq_false_iff_ne, ne_eq]
    omega
  have hlen : (renderNat a.natAbs).length ≠ 0 := by rw [hr]; simp
  have h16 : ((10 : Nat) = 16) = False := by decide
  by_cases ha : a < 0
  · have hrend : renderInt a = 45 :: renderNat a.natAbs := by simp [renderInt, ha]
    rw [hrend]
    unfold StringToNumber
    simp only [List.cons_append, List.takeWhile_cons, show V_isspace 45 = false from rfl,
      Bool.false_eq_true, if_false, List.length_nil, List.drop_zero, deref, List.headD_cons,
      true_or, if_true, List.drop_succ_cons, h16, false_and, add_zero, zero_add,
      hscan, hlen, List.length_cons]
    rw [Prod.mk.injEq]
    constructor <;> omega
  · have hrend : renderInt a = renderNat a.natAbs := by simp [renderInt, ha]
    rw [hrend]
    have h45 : deref (renderNat a.natAbs ++ post) ≠ 45 ∧ deref (renderNat a.natAbs ++ post) ≠ 43 := by
      rw [hr]
      simp only [List.cons_append, deref, List.headD_cons, ne_eq]
      omega
    have htw : (renderNat a.natAbs ++ post).takeWhile V_isspace = [] := by
      rw [hr]
      simp [List.takeWhile_cons, hdsp]
    unfold StringToNumber
    simp only [htw, List.length_nil, List.drop_zero, h45.1, h45.2, or_self, if_false,
      h16, false_and, add_zero, zero_add, hscan, hlen]
    rw [Prod.mk.injEq]
    constructor <;> omega

theorem renderInt_length_le (a : Int) (h1 : -2 ^ 31 ≤ a) (h2 : a < 2 ^ 31) :
    (renderInt a).length ≤ 11 := by
  have hn : a.natAbs < 10 ^ (9 + 1) := by
    have : a.natAbs ≤ 2 ^ 31 := by omega
    calc a.natAbs ≤ 2 ^ 31 := this
      _ < 10 ^ (9 + 1) := by norm_num
  have hl := digitsRev_length_le 9 (a.natAbs + 1) a.natAbs hn
  unfold renderInt
  split <;> simp only [renderNat, List.length_cons, List.length_reverse] <;> omega

theorem wrapInt_32 (a : Int) (h1 : -2 ^ 31 ≤ a) (h2 : a < 2 ^ 31) : wrapInt true 32 a = a := by
  unfold wrapInt
  simp only [if_true]
  rw [Int.emod_eq_of_lt (by omega) (by omega)]
  omega

section
open CUtlBuffer

/-- The open-ended peek check on a readable buffer grants the bytes asked for, or the
bytes left when there are fewer. -/
theorem Readable.checkArbitrary_val {b : CUtlBuffer} {e : List Nat} (h : Readable b e) (n : Int)
    (hn : 0 < n) (hlt : b.m_Get < (e.length : Int)) :
    b.CheckArbitraryPeekGet 0 n = (true, min n ((e.length : Int) - b.m_Get), b) := by
  unfold CheckArbitraryPeekGet
  simp only [TellGet, TellMaxPut, add_zero, sub_zero, h.loaded.maxPut,
    CheckPeekGet_default_snd b h.getFunc]
  rw [if_neg (by omega)]
  rw [Prod.mk.injEq, Prod.mk.injEq]
  refine ⟨?_, ?_, rfl⟩
  · simp only [decide_eq_true_eq]
    split_ifs <;> omega
  · split_ifs <;> omega

/-- Reading the decimal rendering of a 32-bit integer under the cursor. -/
theorem Readable.getTypeText_int32 {b : CUtlBuffer} {e : List Nat} (h : Readable b e)
    (pre post : List Nat) (a : Int) (he : e = pre ++ (renderInt a ++ post))
    (hg : b.m_Get = (pre.length : Int))
    (hpost : post = [] ∨ ∃ x r, post = x :: r ∧ ¬ digitValue x < 10)
    (h1 : -2 ^ 31 ≤ a) (h2 : a < 2 ^ 31) :
    b.GetTypeText true 32 10 =
      (true, a, b.atGet ((pre.length : Int) + ((renderInt a).length : Int))) := by
  have hlen11 := renderInt_length_le a h1 h2
  have hApos : 0 < (renderInt a).length := by
    obtain ⟨d, ds, hr, _⟩ := renderNat_head a.natAbs
    unfold renderInt
    split
    · simp
    · rw [hr]; simp
  have helen : (e.length : Int) = (pre.length : Int) + ((renderInt a).length : Int) +
      (post.length : Int) := by
    rw [he]; simp; omega
  obtain ⟨tail, hp⟩ := h.ptr pre (renderInt a ++ post) he hg
  unfold GetTypeText
  rw [h.checkArbitrary_val 128 (by omega) (by omega)]
  simp only [hp]
  obtain ⟨post1, hpost1, htk⟩ : ∃ post1 : List Nat,
      (post1 = [] ∨ ∃ x r, post1 = x :: r ∧ ¬ digitValue x < 10) ∧
      (renderInt a ++ post ++ tail).take (min 128 ((e.length : Int) - b.m_Get)).toNat =
        renderInt a ++ post1 := by
    rcases hpost with rfl | ⟨x, r, rfl, hx⟩
    · refine ⟨[], Or.inl rfl, ?_⟩
      have hk : (min 128 ((e.length : Int) - b.m_Get)).toNat = (renderInt a).length := by
        simp only [List.length_nil, Nat.cast_zero, add_zero] at helen
        rw [hg]
        omega
      rw [hk, List.append_nil, List.take_left']
      rfl
    · have hk : (renderInt a).length + 1 ≤ (min 128 ((e.length : Int) - b.m_Get)).toNat := by
        simp only [List.length_cons, Nat.cast_add, Nat.cast_one] at helen
        rw [hg]
        omega
      obtain ⟨m, hm⟩ : ∃ m, (min 128 ((e.length : Int) - b.m_Get)).toNat =
          (renderInt a).length + (m + 1) :=
        ⟨(min 128 ((e.length : Int) - b.m_Get)).toNat - (renderInt a).length - 1, by omega⟩
      refine ⟨x :: (r ++ tail).take m, Or.inr ⟨x, _, rfl, hx⟩, ?_⟩
      rw [hm, List.append_assoc, List.take_append]
      simp
  rw [htk, StringToNumber_render a post1 hpost1]
  simp only
  rw [if_neg (by omega), wrapInt_32 a h1 h2, hg]
  rfl

/-- A literal of the format that matches the byte under the cursor. -/
theorem Readable.literal {b : CUtlBuffer} {e : List Nat} (h : Readable b e) (pre post : List Nat)
    (x : Nat) (he : e = pre ++ x :: post) (hg : b.m_Get = (pre.length : Int)) :
    b.CheckPeekGet 0 1 = (true, b) ∧ deref (b.PeekGetPtr 0) = x := by
  obtain ⟨tail, hp⟩ := h.ptr pre (x :: post) he hg
  refine ⟨CheckPeekGet_loaded h.loaded 0 1 h.getErr (by omega) ?_, by rw [hp]; rfl⟩
  rw [hg, he]
  simp only [List.length_append, List.length_cons]
  push_cast
  omega

end

section
open CUtlBuffer

/-- One step of the format loop at the conversion `%d`. -/
theorem vaScanfLoop_d (strtodLen : List Nat → Nat) (fuel : Nat) (pFmt : List Nat)
    (b : CUtlBuffer) (list out : List ScanArg) (numScanned : Int)
    (hlt : b.m_Get < b.m_nMaxPut) :
    vaScanfLoop strtodLen (fuel + 1) (37 :: 100 :: pFmt) b list out numScanned =
      match b.GetTypeText true 32 10 with
      | (false, v, b1) => some (numScanned, out ++ [.int v], b1)
      | (true, v, b1) =>
        vaScanfLoop strtodLen fuel pFmt b1 list.tail (out ++ [.int v]) (numScanned + 1) := by
  rw [vaScanfLoop]
  unfold vaScanfStep
  rw [if_neg (by simp only [TellMaxPut]; omega)]
  rw [if_neg (by decide), if_pos rfl]
  simp only
  rw [if_neg (by decide), if_neg (by decide), if_neg (by decide), if_pos (by decide)]
  rcases b.GetTypeText true 32 10 with ⟨r, v, b1⟩
  cases r <;> rfl

/-- One step of the format loop at a literal character. -/
theorem vaScanfLoop_literal (strtodLen : List Nat → Nat) (fuel c : Nat) (pFmt : List Nat)
    (b : CUtlBuffer) (list out : List ScanArg) (numScanned : Int)
    (hlt : b.m_Get < b.m_nMaxPut) (h32 : c ≠ 32) (h37 : c ≠ 37) :
    vaScanfLoop strtodLen (fuel + 1) (c :: pFmt) b list out numScanned =
      match b.CheckPeekGet 0 1 with
      | (false, b1) => some (numScanned, out, b1)
      | (true, b1) =>
        if c ≠ deref (b1.PeekGetPtr 0) then some (numScanned, out, b1)
        else
          vaScanfLoop strtodLen fuel pFmt { b1 with m_Get := b1.m_Get + 1 } list out
            numScanned := by
  rw [vaScanfLoop]
  unfold vaScanfStep
  rw [if_neg (by simp only [TellMaxPut]; omega), if_neg h32, if_neg h37]
  rcases b.CheckPeekGet 0 1 with ⟨r, b1⟩
  cases r
  · rfl
  · simp only
    by_cases hc : c ≠ deref (b1.PeekGetPtr 0)
    · rw [if_pos hc, if_pos hc]
    · rw [if_neg hc, if_neg hc]

end

/-- C16: for all 32-bit signed integers `x` and `y`, on a readable text buffer (fully
materialised, no error, default hook, cursor at 0) whose content is the decimal rendering
of `x`, a comma, and the decimal rendering of `y`, `Scanf ("%d,%d")` returns 2, stores `x`
and `y` in this order, and leaves `get_pos` at the end of the content; on a buffer whose
content has a semicolon in place of the comma it returns 1, stores `x` alone, and leaves
`get_pos` at the semicolon. -/
theorem C16_scanf_two_integers (strtodLen : List Nat → Nat) (x y : Int)
    (b1 b2 : CUtlBuffer) (list : List ScanArg)
    (hx1 : -2 ^ 31 ≤ x) (hx2 : x < 2 ^ 31) (hy1 : -2 ^ 31 ≤ y) (hy2 : y < 2 ^ 31)
    (h1 : Readable b1 (renderInt x ++ 44 :: renderInt y)) (hg1 : b1.m_Get = 0)
    (h2 : Readable b2 (renderInt x ++ 59 :: renderInt y)) (hg2 : b2.m_Get = 0) :
    b1.Scanf strtodLen [37, 100, 44, 37, 100, 0] list =
      some (2, [.int x, .int y],
        b1.atGet (((renderInt x ++ 44 :: renderInt y).length : Nat) : Int)) ∧
    b2.Scanf strtodLen [37, 100, 44, 37, 100, 0] list =
      some (1, [.int x], b2.atGet (((renderInt x).length : Nat) : Int)) ∧
    (renderInt x ++ 59 :: renderInt y).drop (renderInt x).length = 59 :: renderInt y := by
  have hfmt : cstr [37, 100, 44, 37, 100, 0] = [37, 100, 44, 37, 100] := by decide
  have hypos : 0 < (renderInt y).length := by
    obtain ⟨d, ds, hr, _⟩ := renderNat_head y.natAbs
    unfold renderInt
    split
    · simp
    · rw [hr]; simp
  have hstop44 : ∀ r : List Nat, (44 :: r = [] ∨ ∃ z r1, 44 :: r = z :: r1 ∧ ¬ digitValue z < 10) :=
    fun r => Or.inr ⟨44, r, rfl, by decide⟩
  have hstop59 : ∀ r : List Nat, (59 :: r = [] ∨ ∃ z r1, 59 :: r = z :: r1 ∧ ¬ digitValue z < 10) :=
    fun r => Or.inr ⟨59, r, rfl, by decide⟩
  refine ⟨?_, ?_, by simp⟩
  · unfold CUtlBuffer.Scanf CUtlBuffer.VaScanf
    rw [if_neg (by simp [h1.error, h1.isText]), hfmt]
    simp only [List.length_cons, List.length_nil]
    rw [vaScanfLoop_d _ _ _ _ _ _ _ (by
      rw [h1.loaded.maxPut, hg1]; simp only [List.length_append, List.length_cons]; omega)]
    rw [h1.getTypeText_int32 [] (44 :: renderInt y) x rfl (by simpa using hg1) (hstop44 _) hx1 hx2]
    simp only [List.length_nil, Nat.cast_zero, zero_add, List.nil_append]
    rw [vaScanfLoop_literal _ _ _ _ _ _ _ _ (by
      rw [CUtlBuffer.atGet_maxPut, h1.loaded.maxPut, CUtlBuffer.atGet_get]
      simp only [List.length_append, List.length_cons]; push_cast; omega) (by decide) (by decide)]
    obtain ⟨hl1, hl2⟩ := (h1.atGet ((renderInt x).length : Int)).literal (renderInt x)
      (renderInt y) 44 rfl rfl
    rw [hl1]
    simp only [hl2, ne_eq, not_true_eq_false, if_false]
    rw [vaScanfLoop_d _ _ _ _ _ _ _ (by
      show (b1.atGet _).m_Get + 1 < b1.m_nMaxPut
      rw [h1.loaded.maxPut, CUtlBuffer.atGet_get]
      simp only [List.length_append, List.length_cons]; push_cast; omega)]
    have hrd : Readable ({ b1.atGet ((renderInt x).length : Int) with
        m_Get := (b1.atGet ((renderInt x).length : Int)).m_Get + 1 } : CUtlBuffer)
        (renderInt x ++ 44 :: renderInt y) := h1.atGet _
    rw [hrd.getTypeText_int32 (renderInt x ++ [44]) [] y (by simp) (by simp) (Or.inl rfl) hy1 hy2]
    simp only [List.tail_cons, List.length_append, List.length_cons, List.length_nil]
    show some _ = some _
    congr 3
    show CUtlBuffer.atGet _ _ = CUtlBuffer.atGet _ _
    unfold CUtlBuffer.atGet
    simp only [CUtlBuffer.mk.injEq, true_and, and_true]
    push_cast
    omega
  · unfold CUtlBuffer.Scanf CUtlBuffer.VaScanf
    rw [if_neg (by simp [h2.error, h2.isText]), hfmt]
    simp only [List.length_cons, List.length_nil]
    rw [vaScanfLoop_d _ _ _ _ _ _ _ (by
      rw [h2.loaded.maxPut, hg2]; simp only [List.length_append, List.length_cons]; omega)]
    rw [h2.getTypeText_int32 [] (59 :: renderInt y) x rfl (by simpa using hg2) (hstop59 _) hx1 hx2]
    simp only [List.length_nil, Nat.cast_zero, zero_add, List.nil_append]
    rw [vaScanfLoop_literal _ _ _ _ _ _ _ _ (by
      rw [CUtlBuffer.atGet_maxPut, h2.loaded.maxPut, CUtlBuffer.atGet_get]
      simp only [List.length_append, List.length_cons]; push_cast; omega) (by decide) (by decide)]
    obtain ⟨hl1, hl2⟩ := (h2.atGet ((renderInt x).length : Int)).literal (renderInt x)
      (renderInt y) 59 rfl rfl
    rw [hl1]
    simp only [hl2]
    rw [if_pos (by decide)]

theorem C16_scanf_two_integers_witness :
    (wholeText [49, 50, 44, 51, 52]).Scanf (fun _ => 0) [37, 100, 44, 37, 100, 0] [] =
      some (2, [.int 12, .int 34], (wholeText [49, 50, 44, 51, 52]).atGet ((5 : Nat) : Int)) ∧
    (wholeText [49, 50, 59, 51, 52]).Scanf (fun _ => 0) [37, 100, 44, 37, 100, 0] [] =
      some (1, [.int 12], (wholeText [49, 50, 59, 51, 52]).atGet ((2 : Nat) : Int)) ∧
    ([49, 50, 59, 51, 52] : List Nat).drop 2 = [59, 51, 52] :=
  C16_scanf_two_integers (fun _ => 0) 12 34 (wholeText [49, 50, 44, 51, 52])
    (wholeText [49, 50, 59, 51, 52]) [] (by decide) (by decide) (by decide) (by decide)
    ⟨⟨by decide, by decide, by decide⟩, by decide, by decide, by decide⟩ (by decide)
    ⟨⟨by decide, by decide, by decide⟩, by decide, by decide, by decide⟩ (by decide)

/-! ## C14: line-ending conversion, there and back -/

theorem toCRLF_append (x y : List Nat) : toCRLF (x ++ y) = toCRLF x ++ toCRLF y := by
  induction x with
  | nil => rfl
  | cons c x ih =>
    simp only [List.cons_append, toCRLF]
    split <;> simp [ih]

theorem toCRLF_of_noLF (a : List Nat) (h : ∀ x ∈ a, x ≠ 10) : toCRLF a = a := by
  induction a with
  | nil => rfl
  | cons c a ih =>
    simp only [toCRLF]
    rw [if_neg (h c (List.mem_cons_self _ _)), ih (fun x hx => h x (List.mem_cons_of_mem _ hx))]

theorem toCRLF_length (c : List Nat) : (toCRLF c).length = c.length + countLF c := by
  induction c with
  | nil => rfl
  | cons x c ih =>
    simp only [toCRLF, countLF, List.count_cons, List.length_cons] at *
    split
    · rename_i h
      subst h
      simp [ih]
      omega
    · rename_i h
      have : (x == 10) = false := by simpa using h
      simp [ih, this]
      omega

theorem toCRLF_nonzero (c : List Nat) (h : ∀ x ∈ c, x ≠ 0) : ∀ x ∈ toCRLF c, x ≠ 0 := by
  induction c with
  | nil => intro x hx; simp [toCRLF] at hx
  | cons y c ih =>
    intro x hx
    have hy := h y (List.mem_cons_self _ _)
    have ih1 := ih (fun z hz => h z (List.mem_cons_of_mem _ hz))
    simp only [toCRLF] at hx
    split at hx
    · rcases List.mem_cons.mp hx with rfl | hx
      · decide
      · rcases List.mem_cons.mp hx with rfl | hx
        · decide
        · exact ih1 x hx
    · rcases List.mem_cons.mp hx with rfl | hx
      · exact hy
      · exact ih1 x hx

theorem countLF_of_noLF (a : List Nat) (h : ∀ x ∈ a, x ≠ 10) : countLF a = 0 := by
  unfold countLF
  rw [List.count_eq_zero]
  intro hm
  exact h 10 hm rfl

theorem countLF_append (x y : List Nat) : countLF (x ++ y) = countLF x + countLF y := by
  simp [countLF]

/-- Line feeds among the first `m` bytes of a text that starts with a line without line
feed. -/
theorem countLF_take_split (a r : List Nat) (m : Nat) (ha : ∀ x ∈ a, x ≠ 10) :
    countLF ((a ++ 10 :: r).take m) =
      if a.length + 1 ≤ m then 1 + countLF (r.take (m - (a.length + 1))) else 0 := by
  split
  · rename_i h
    obtain ⟨k, rfl⟩ : ∃ k, m = a.length + 1 + k := ⟨m - (a.length + 1), by omega⟩
    have : (a ++ 10 :: r).take (a.length + 1 + k) = a ++ 10 :: r.take k := by
      rw [show a ++ 10 :: r = (a ++ [10]) ++ r by simp,
        show a.length + 1 + k = (a ++ [10]).length + k by simp, List.take_append]
      simp
    rw [this, countLF_append, countLF_of_noLF a ha]
    simp [countLF]
    omega
  · rename_i h
    apply countLF_of_noLF
    intro x hx
    have hle : m ≤ a.length := by omega
    rw [List.take_append_of_le_length hle] at hx
    exact ha x (List.mem_of_mem_take hx)

theorem countLF_take_mono (c : List Nat) (m n : Nat) (h : m ≤ n) :
    countLF (c.take m) ≤ countLF (c.take n) := by
  unfold countLF
  apply List.Sublist.count_le
  exact (List.take_prefix_take_left c h).sublist

theorem countLF_take_le (c : List Nat) (m : Nat) : countLF (c.take m) ≤ countLF c := by
  unfold countLF
  exact List.Sublist.count_le (List.take_sublist m c) 10

theorem findByte_run (c : Nat) (a rest : List Nat) (k : Nat) (ha : ∀ x ∈ a, x ≠ c)
    (hrest : rest = [] ∨ ∃ r, rest = c :: r) :
    findByte c (a ++ rest) k = if rest = [] then none else some (k + a.length) := by
  induction a generalizing k with
  | nil =>
    rcases hrest with rfl | ⟨r, rfl⟩
    · rfl
    · simp [findByte]
  | cons x a ih =>
    simp only [List.cons_append, findByte, List.append_eq]
    rw [if_neg (ha x (List.mem_cons_self _ _)), ih (k + 1) (fun y hy => ha y (List.mem_cons_of_mem _ hy))]
    split
    · rfl
    · simp only [List.length_cons, Option.some.injEq]
      omega

theorem toLowerASCII_eq_ten (y : Nat) : toLowerASCII y = 10 ↔ y = 10 := by
  unfold toLowerASCII
  split <;> omega

/-- No carriage return, line feed pair in a text without line feed. -/
theorem findCI_crlf_none (r : List Nat) (k : Nat) (h : ∀ x ∈ r, x ≠ 10) :
    findCI [13, 10] r k = none := by
  induction r generalizing k with
  | nil => rfl
  | cons x r ih =>
    have hp : ciPrefix [13, 10] (x :: r) = false := by
      cases r with
      | nil => simp [ciPrefix]
      | cons y r1 =>
        have hy : y ≠ 10 := h y (by simp)
        have : toLowerASCII y ≠ 10 := fun he => hy ((toLowerASCII_eq_ten y).mp he)
        simp only [ciPrefix, Bool.and_true, Bool.and_eq_false_imp, beq_iff_eq, beq_eq_false_iff_ne]
        intro _
        exact fun he => this he.symm
    simp only [findCI, hp, Bool.false_eq_true, if_false]
    exact ih (k + 1) (fun y hy => h y (List.mem_cons_of_mem _ hy))

/-- The first carriage return, line feed pair after a line without line feed. -/
theorem findCI_crlf_some (a rest : List Nat) (k : Nat) (h : ∀ x ∈ a, x ≠ 10) :
    findCI [13, 10] (a ++ 13 :: 10 :: rest) k = some (k + a.length) := by
  induction a generalizing k with
  | nil => simp [findCI, ciPrefix, toLowerASCII]
  | cons x a ih =>
    have hp : ciPrefix [13, 10] (x :: (a ++ 13 :: 10 :: rest)) = false := by
      cases a with
      | nil => simp [ciPrefix, toLowerASCII]
      | cons y r1 =>
        have hy : y ≠ 10 := h y (by simp)
        have : toLowerASCII y ≠ 10 := fun he => hy ((toLowerASCII_eq_ten y).mp he)
        simp only [List.cons_append, ciPrefix, Bool.and_true, Bool.and_eq_false_imp, beq_iff_eq,
          beq_eq_false_iff_ne]
        intro _
        exact fun he => this he.symm
    simp only [List.cons_append, findCI, List.append_eq]
    rw [if_neg (by rw [hp]; simp)]
    rw [ih (k + 1) (fun y hy => h y (List.mem_cons_of_mem _ hy))]
    simp only [List.length_cons, Option.some.injEq]
    omega

section
open CUtlBuffer

theorem Put_append_left (b : CUtlBuffer) (s t : List Nat) :
    b.Put (s ++ t) (s.length : Int) = b.Put s (s.length : Int) := by
  have hm : ∀ dst : List Nat, memcpy dst (s ++ t) (s.length : Int) = memcpy dst s (s.length : Int) := by
    intro dst
    simp [memcpy]
  unfold Put
  simp only [memcpyAt, hm]

/-- A purged output buffer with its capacity reserved is writable and empty. -/
theorem purge_writable {o : CUtlBuffer} (h : OutputReady o) (n : Int) :
    WritableAt (o.Purge.EnsureCapacity n) [] ∧ (o.Purge.EnsureCapacity n).m_nTab = 0 ∧
    (o.Purge.EnsureCapacity n).m_Error = ⟨false, false⟩ ∧
    (o.Purge.EnsureCapacity n).m_Flags = o.m_Flags ∧
    (o.Purge.EnsureCapacity n).m_GetOverflowFunc = .GetOverflow := by
  have hgs : ¬ (o.m_Memory.m_nGrowSize < 0) := by have := h.owned; omega
  refine ⟨⟨?_, ?_, ?_, ?_, ?_, ?_, ?_⟩, ?_, ?_, ?_, ?_⟩ <;>
    simp only [EnsureCapacity, Purge, CUtlMemory.Purge, CUtlMemory.EnsureCapacity,
      CUtlMemory.IsExternallyAllocated, hgs, decide_False, Bool.false_eq_true, if_false,
      h.writable, h.tab, h.getFunc, List.length_nil, Nat.cast_zero, List.nil_prefix]
  split_ifs <;> exact h.owned

/-- The conversion loop from line feeds to carriage return, line feed pairs. -/
theorem convertLoop_toCRLF (c tail : List Nat) (hz : ∀ x ∈ c, x ≠ 0) (gN pN : Nat) :
    ∀ (n : Nat) (r pre : List Nat) (out : CUtlBuffer) (gd pd : Int) (fuel : Nat),
    r.length ≤ n → c = pre ++ r → WritableAt out (toCRLF pre) → out.m_nTab = 0 →
    r.length < fuel →
    ∃ out1, convertCRLFLoop (c ++ tail) (c.length : Int) false (gN : Int) (pN : Int) fuel out
        (pre.length : Int) gd pd =
        some (out1, gd + (countLF (r.take (gN - pre.length)) : Int),
          pd + (countLF (r.take (pN - pre.length)) : Int)) ∧
      WritableAt out1 (toCRLF c) ∧ PutFrame out out1 := by
  intro n
  induction n with
  | zero =>
    intro r pre out gd pd fuel hn hc hw _ hfuel
    have hr : r = [] := List.length_eq_zero.mp (by omega)
    subst hr
    simp only [List.append_nil] at hc
    subst hc
    obtain ⟨k, rfl⟩ : ∃ k, fuel = k + 1 := ⟨fuel - 1, by omega⟩
    unfold convertCRLFLoop
    rw [if_neg (by omega)]
    exact ⟨out, by simp [countLF], hw, PutFrame_refl out⟩
  | succ n ih =>
    intro r pre out gd pd fuel hn hc hw htab hfuel
    obtain ⟨k, rfl⟩ : ∃ k, fuel = k + 1 := ⟨fuel - 1, by omega⟩
    have hclen : (c.length : Int) = (pre.length : Int) + (r.length : Int) := by
      rw [hc]; simp
    by_cases hr : r = []
    · subst hr
      simp only [List.append_nil] at hc
      subst hc
      unfold convertCRLFLoop
      rw [if_neg (by omega)]
      exact ⟨out, by simp [countLF], hw, PutFrame_refl out⟩
    · have hrpos : 0 < r.length := List.length_pos.mpr hr
      have hrz : ∀ x ∈ r, x ≠ 0 := fun x hx => hz x (by rw [hc]; exact List.mem_append_right _ hx)
      obtain ⟨a, rest, hsplit, ha, hrest⟩ := split_run (fun x => decide (x ≠ 10)) r
      have ha1 : ∀ x ∈ a, x ≠ 10 := fun x hx => by simpa using ha x hx
      have hrest1 : rest = [] ∨ ∃ r1, rest = 10 :: r1 := by
        rcases hrest with h | ⟨x, r1, h1, h2⟩
        · exact Or.inl h
        · right
          have : x = 10 := by simpa using h2
          exact ⟨r1, by rw [h1, this]⟩
      have hptr : ptrAt (c ++ tail) (pre.length : Int) = r ++ tail := by
        simp [ptrAt, hc]
      have hvs : V_strnchr (r ++ tail) 10 ((c.length : Int) - (pre.length : Int)) =
          if rest = [] then none else some a.length := by
        unfold V_strnchr
        rw [cstr_append_of_nonzero r tail hrz]
        have hk : ((c.length : Int) - (pre.length : Int)).toNat = r.length := by omega
        rw [hk, List.take_left' rfl, hsplit, findByte_run 10 a rest 0 ha1 hrest1]
        simp
      unfold convertCRLFLoop
      rw [if_pos (by omega)]
      simp only [Bool.false_eq_true, if_false, hptr, hvs]
      rcases hrest1 with hre | ⟨r1, hre⟩
      · subst hre
        simp only [List.append_nil] at hsplit
        subst hsplit
        simp only [if_true]
        have hlen : (c.length : Int) - (pre.length : Int) = (r.length : Int) := by omega
        rw [hlen, Put_append_left]
        obtain ⟨hw1, hf1⟩ := Put_writable hw r
        refine ⟨_, ?_, ?_, hf1⟩
        · simp [countLF_of_noLF _ (fun x hx => ha1 x (List.mem_of_mem_take hx))]
        · rw [hc, toCRLF_append, toCRLF_of_noLF r ha1]
          exact hw1
      · subst hre
        rw [if_neg (by simp)]
        simp only
        have hput : out.Put (r ++ tail) (a.length : Int) = out.Put a (a.length : Int) := by
          rw [hsplit, List.append_assoc, Put_append_left]
        rw [hput]
        obtain ⟨hw1, hf1⟩ := Put_writable hw a
        obtain ⟨hw2, hf2⟩ := PutChar_writable hw1 (by rw [hf1.tab]; exact htab) 13
        obtain ⟨hw3, hf3⟩ := PutChar_writable hw2 (by rw [hf2.tab, hf1.tab]; exact htab) 10
        have hcur : (pre.length : Int) + (a.length : Int) + 1 =
            ((pre ++ a ++ [10]).length : Int) := by
          simp only [List.length_append, List.length_singleton]
          push_cast
          ring
        rw [hcur]
        have hrlen : r.length = a.length + (r1.length + 1) := by rw [hsplit]; simp
        obtain ⟨out1, h1, h2, h3⟩ := ih r1 (pre ++ a ++ [10]) _
          (if (gN : Int) ≥ ((pre ++ a ++ [10]).length : Int) then gd + 1 else gd)
          (if (pN : Int) ≥ ((pre ++ a ++ [10]).length : Int) then pd + 1 else pd) k
          (by omega) (by rw [hc, hsplit]; simp)
          (by
            have : toCRLF (pre ++ a ++ [10]) = toCRLF pre ++ a ++ [13] ++ [10] := by
              rw [toCRLF_append, toCRLF_append, toCRLF_of_noLF a ha1]
              simp [toCRLF]
            rw [this]
            exact hw3)
          (by rw [hf3.tab, hf2.tab, hf1.tab]; exact htab) (by omega)
        refine ⟨out1, ?_, h2, PutFrame_trans (PutFrame_trans (PutFrame_trans hf1 hf2) hf3) h3⟩
        rw [h1, hsplit]
        rw [countLF_take_split a r1 _ ha1, countLF_take_split a r1 _ ha1]
        simp only [List.length_append, List.length_singleton, Option.some.injEq, Prod.mk.injEq,
          true_and]
        have e1 : gN - (pre.length + a.length + 1) = gN - pre.length - (a.length + 1) := by omega
        have e2 : pN - (pre.length + a.length + 1) = pN - pre.length - (a.length + 1) := by omega
        rw [e1, e2]
        generalize hcg : countLF (List.take (gN - pre.length - (a.length + 1)) r1) = cg
        generalize hcp : countLF (List.take (pN - pre.length - (a.length + 1)) r1) = cp
        have hcg0 : ¬ (a.length + 1 ≤ gN - pre.length) → cg = 0 := by
          intro h
          have h0 : gN - pre.length - (a.length + 1) = 0 := by omega
          rw [← hcg, h0]
          rfl
        have hcp0 : ¬ (a.length + 1 ≤ pN - pre.length) → cp = 0 := by
          intro h
          have h0 : pN - pre.length - (a.length + 1) = 0 := by omega
          rw [← hcp, h0]
          rfl
        constructor
        · by_cases hg : a.length + 1 ≤ gN - pre.length
          · rw [if_pos hg, if_pos (by omega)]
            push_cast
            omega
          · rw [if_neg hg, if_neg (by omega), hcg0 hg]
        · by_cases hp : a.length + 1 ≤ pN - pre.length
          · rw [if_pos hp, if_pos (by omega)]
            push_cast
            omega
          · rw [if_neg hp, if_neg (by omega), hcp0 hp]

end

section
open CUtlBuffer

/-- The conversion loop from carriage return, line feed pairs to line feeds, run over the
converted form of the text `c`: the cursors `gN` and `pN` are those of `c`. -/
theorem convertLoop_fromCRLF (c tail : List Nat) (hz : ∀ x ∈ c, x ≠ 0) (gN pN : Nat) :
    ∀ (n : Nat) (r pre : List Nat) (out : CUtlBuffer) (gd pd : Int) (fuel : Nat),
    r.length ≤ n → c = pre ++ r → WritableAt out pre → out.m_nTab = 0 → r.length < fuel →
    ∃ out1, convertCRLFLoop (toCRLF c ++ tail) ((toCRLF c).length : Int) true
        ((gN : Int) + (countLF (c.take gN) : Int)) ((pN : Int) + (countLF (c.take pN) : Int))
        fuel out ((toCRLF pre).length : Int) gd pd =
        some (out1, gd - (countLF (r.take (gN - pre.length)) : Int),
          pd - (countLF (r.take (pN - pre.length)) : Int)) ∧
      WritableAt out1 c ∧ PutFrame out out1 := by
  intro n
  induction n with
  | zero =>
    intro r pre out gd pd fuel hn hc hw _ hfuel
    have hr : r = [] := List.length_eq_zero.mp (by omega)
    subst hr
    simp only [List.append_nil] at hc
    subst hc
    obtain ⟨k, rfl⟩ : ∃ k, fuel = k + 1 := ⟨fuel - 1, by omega⟩
    unfold convertCRLFLoop
    rw [if_neg (by omega)]
    exact ⟨out, by simp [countLF], hw, PutFrame_refl out⟩
  | succ n ih =>
    intro r pre out gd pd fuel hn hc hw htab hfuel
    obtain ⟨k, rfl⟩ : ∃ k, fuel = k + 1 := ⟨fuel - 1, by omega⟩
    have hclen : ((toCRLF c).length : Int) =
        ((toCRLF pre).length : Int) + ((toCRLF r).length : Int) := by
      rw [hc, toCRLF_append]; simp
    by_cases hr : r = []
    · subst hr
      simp only [List.append_nil] at hc
      subst hc
      unfold convertCRLFLoop
      rw [if_neg (by omega)]
      exact ⟨out, by simp [countLF], hw, PutFrame_refl out⟩
    · have hrpos : 0 < r.length := List.length_pos.mpr hr
      have hrlen2 := toCRLF_length r
      have hrz : ∀ x ∈ r, x ≠ 0 := fun x hx => hz x (by rw [hc]; exact List.mem_append_right _ hx)
      obtain ⟨a, rest, hsplit, ha, hrest⟩ := split_run (fun x => decide (x ≠ 10)) r
      have ha1 : ∀ x ∈ a, x ≠ 10 := fun x hx => by simpa using ha x hx
      have hrest1 : rest = [] ∨ ∃ r1, rest = 10 :: r1 := by
        rcases hrest with h | ⟨x, r1, h1, h2⟩
        · exact Or.inl h
        · right
          have : x = 10 := by simpa using h2
          exact ⟨r1, by rw [h1, this]⟩
      have hptr : ptrAt (toCRLF c ++ tail) ((toCRLF pre).length : Int) = toCRLF r ++ tail := by
        simp [ptrAt, hc, toCRLF_append]
      have hvs : V_strnistr (toCRLF r ++ tail) [13, 10, 0]
          (((toCRLF c).length : Int) - ((toCRLF pre).length : Int)) =
          findCI [13, 10] (toCRLF r) 0 := by
        unfold V_strnistr
        have hpat : cstr [13, 10, 0] = [13, 10] := by decide
        rw [hpat, if_neg (by simp), cstr_append_of_nonzero _ tail (toCRLF_nonzero r hrz)]
        have hk : (((toCRLF c).length : Int) - ((toCRLF pre).length : Int)).toNat =
            (toCRLF r).length := by omega
        rw [hk, List.take_left' rfl]
      unfold convertCRLFLoop
      rw [if_pos (by omega)]
      simp only [if_true, hptr, hvs]
      rcases hrest1 with hre | ⟨r1, hre⟩
      · subst hre
        simp only [List.append_nil] at hsplit
        subst hsplit
        rw [toCRLF_of_noLF r ha1, findCI_crlf_none r 0 ha1]
        simp only
        have hlen : ((toCRLF c).length : Int) - ((toCRLF pre).length : Int) = (r.length : Int) := by
          rw [toCRLF_of_noLF r ha1] at hclen
          omega
        rw [hlen, Put_append_left]
        obtain ⟨hw1, hf1⟩ := Put_writable hw r
        refine ⟨_, ?_, ?_, hf1⟩
        · simp [countLF_of_noLF _ (fun x hx => ha1 x (List.mem_of_mem_take hx))]
        · rw [hc]
          exact hw1
      · subst hre
        have htr : toCRLF r = a ++ 13 :: 10 :: toCRLF r1 := by
          rw [hsplit, toCRLF_append, toCRLF_of_noLF a ha1]
          simp [toCRLF]
        rw [htr, findCI_crlf_some a (toCRLF r1) 0 ha1]
        simp only [zero_add]
        have hput : out.Put (a ++ 13 :: 10 :: toCRLF r1 ++ tail) (a.length : Int) =
            out.Put a (a.length : Int) := by
          rw [List.append_assoc, Put_append_left]
        rw [hput]
        obtain ⟨hw1, hf1⟩ := Put_writable hw a
        obtain ⟨hw2, hf2⟩ := PutChar_writable hw1 (by rw [hf1.tab]; exact htab) 10
        have hcur : ((toCRLF pre).length : Int) + (a.length : Int) + 2 =
            ((toCRLF (pre ++ a ++ [10])).length : Int) := by
          rw [toCRLF_append, toCRLF_append, toCRLF_of_noLF a ha1]
          simp [toCRLF]
          ring
        rw [hcur]
        have hrlen : r.length = a.length + (r1.length + 1) := by rw [hsplit]; simp
        -- the cursor tests, read on the text `c`
        have hpl := toCRLF_length pre
        have htj : c.take (pre.length + a.length) = pre ++ a := by
          rw [hc, hsplit, ← List.append_assoc, List.take_left' (by simp)]
        have htj1 : c.take (pre.length + a.length + 1) = pre ++ a ++ [10] := by
          rw [hc, hsplit, show pre ++ (a ++ 10 :: r1) = (pre ++ a ++ [10]) ++ r1 by simp,
            List.take_left' (by simp; omega)]
        have h10 : countLF [10] = 1 := rfl
        have hcnt : ∀ q : Nat,
            ((q : Int) + (countLF (c.take q) : Int) ≥
              ((toCRLF (pre ++ a ++ [10])).length : Int) - 1 ↔ pre.length + a.length + 1 ≤ q) := by
          intro q
          constructor
          · intro h
            by_contra hq
            have hle := countLF_take_mono c q (pre.length + a.length) (by omega)
            rw [htj, countLF_append, countLF_of_noLF a ha1] at hle
            omega
          · intro h
            have hle := countLF_take_mono c (pre.length + a.length + 1) q h
            rw [htj1, countLF_append, countLF_append, countLF_of_noLF a ha1, h10] at hle
            omega
        obtain ⟨out1, h1, h2, h3⟩ := ih r1 (pre ++ a ++ [10]) _
          (if (gN : Int) + (countLF (c.take gN) : Int) ≥
            ((toCRLF (pre ++ a ++ [10])).length : Int) - 1 then gd - 1 else gd)
          (if (pN : Int) + (countLF (c.take pN) : Int) ≥
            ((toCRLF (pre ++ a ++ [10])).length : Int) - 1 then pd - 1 else pd) k
          (by omega) (by rw [hc, hsplit]; simp)
          (by simpa using hw2)
          (by rw [hf2.tab, hf1.tab]; exact htab) (by omega)
        refine ⟨out1, ?_, h2, PutFrame_trans (PutFrame_trans hf1 hf2) h3⟩
        rw [h1, hsplit]
        rw [countLF_take_split a r1 _ ha1, countLF_take_split a r1 _ ha1]
        simp only [List.length_append, List.length_singleton, Option.some.injEq, Prod.mk.injEq,
          true_and]
        have e1 : gN - (pre.length + a.length + 1) = gN - pre.length - (a.length + 1) := by omega
        have e2 : pN - (pre.length + a.length + 1) = pN - pre.length - (a.length + 1) := by omega
        rw [e1, e2]
        generalize hcg : countLF (List.take (gN - pre.length - (a.length + 1)) r1) = cg
        generalize hcp : countLF (List.take (pN - pre.length - (a.length + 1)) r1) = cp
        have hcg0 : ¬ (a.length + 1 ≤ gN - pre.length) → cg = 0 := by
          intro h
          have h0 : gN - pre.length - (a.length + 1) = 0 := by omega
          rw [← hcg, h0]
          rfl
        have hcp0 : ¬ (a.length + 1 ≤ pN - pre.length) → cp = 0 := by
          intro h
          have h0 : pN - pre.length - (a.length + 1) = 0 := by omega
          rw [← hcp, h0]
          rfl
        constructor
        · by_cases hg : a.length + 1 ≤ gN - pre.length
          · rw [if_pos hg, if_pos ((hcnt gN).mpr (by omega))]
            push_cast
            omega
          · rw [if_neg hg, if_neg (fun h => hg (by have := (hcnt gN).mp h; omega)), hcg0 hg]
        · by_cases hp : a.length + 1 ≤ pN - pre.length
          · rw [if_pos hp, if_pos ((hcnt pN).mpr (by omega))]
            push_cast
            omega
          · rw [if_neg hp, if_neg (fun h => hp (by have := (hcnt pN).mp h; omega)), hcp0 hp]

end

section
open CUtlBuffer

theorem growLoop_noop (fuel : Nat) (m : CUtlMemory) (target : Int)
    (h : target ≤ m.NumAllocated) : CUtlMemory.growLoop fuel m target = m := by
  cases fuel with
  | zero => rfl
  | succ k =>
    unfold CUtlMemory.growLoop
    rw [if_neg (by omega)]

/-- The two seeks that end a conversion place the cursors and change nothing else. -/
theorem convert_finish {o : CUtlBuffer} {content : List Nat} (hw : WritableAt o content)
    (herr : o.m_Error = ⟨false, false⟩) (hf : o.m_GetOverflowFunc = .GetOverflow)
    (g p : Nat) (hg : g ≤ content.length) (hp : p ≤ content.length) :
    Loaded ((o.SeekGet .SEEK_HEAD (g : Int)).SeekPut .SEEK_HEAD (p : Int)) content ∧
    ((o.SeekGet .SEEK_HEAD (g : Int)).SeekPut .SEEK_HEAD (p : Int)).m_Get = (g : Int) ∧
    ((o.SeekGet .SEEK_HEAD (g : Int)).SeekPut .SEEK_HEAD (p : Int)).m_Put = (p : Int) ∧
    ((o.SeekGet .SEEK_HEAD (g : Int)).SeekPut .SEEK_HEAD (p : Int)).m_Flags = o.m_Flags := by
  have hsg : o.SeekGet .SEEK_HEAD (g : Int) = { o with m_Get := (g : Int) } := by
    rw [SeekGet_default o hf]
    have hd : decide (seekPos o.m_Get o.m_nMaxPut .SEEK_HEAD (g : Int) > o.m_nMaxPut) = false := by
      simp only [seekPos, decide_eq_false_iff_not, not_lt, gt_iff_lt, hw.maxPut]
      omega
    rw [hd]
    exact setGetOverflow_same _ false (by rw [herr])
  obtain ⟨tail, htail⟩ := hw.content
  have hgs : ¬ (o.m_Memory.m_nGrowSize < 0) := by have := hw.owned; omega
  have hsp : ({ o with m_Get := (g : Int) } : CUtlBuffer).SeekPut .SEEK_HEAD (p : Int) =
      { o with m_Get := (g : Int), m_Put := (p : Int) } := by
    unfold SeekPut
    cases hpf : o.m_PutOverflowFunc
    simp only [OnPutOverflow, hpf, PutOverflow, CUtlMemory.IsExternallyAllocated, hgs,
      decide_False, Bool.false_eq_true, false_and, if_false]
    rw [growLoop_noop _ _ _ (by
      simp only [CUtlMemory.NumAllocated, hw.put, hw.offset, ← htail, List.length_append]
      push_cast
      omega)]
    unfold AddNullTermination
    rw [if_neg (by simp only [hw.maxPut]; omega)]
  rw [hsg, hsp]
  exact ⟨⟨hw.offset, hw.maxPut, hw.content⟩, rfl, rfl, rfl⟩

/-- Conversion of a text with line feeds into an empty output buffer that asks for
carriage return, line feed pairs. -/
theorem ConvertCRLF_toCRLF {A B : CUtlBuffer} {c : List Nat} (hA : Loaded A c)
    (hText : A.m_Flags.TEXT_BUFFER = true) (hLF : A.m_Flags.CONTAINS_CRLF = false)
    (hz : ∀ x ∈ c, x ≠ 0) (gN pN : Nat) (hg : A.m_Get = (gN : Int)) (hp : A.m_Put = (pN : Int))
    (hgle : gN ≤ c.length) (hple : pN ≤ c.length)
    (hB : OutputReady B) (hBc : B.m_Flags.CONTAINS_CRLF = true) :
    ∃ B1, A.ConvertCRLF B = some (true, A, B1) ∧ Loaded B1 (toCRLF c) ∧
      B1.m_Get = ((gN + countLF (c.take gN) : Nat) : Int) ∧
      B1.m_Put = ((pN + countLF (c.take pN) : Nat) : Int) ∧ B1.m_Flags = B.m_Flags := by
  obtain ⟨tail, htail⟩ := hA.content
  obtain ⟨hw0, htab0, herr0, hfl0, hgf0⟩ := purge_writable hB A.TellMaxPut
  obtain ⟨out1, h1, h2, h3⟩ := convertLoop_toCRLF c tail hz gN pN c.length c []
    (B.Purge.EnsureCapacity A.TellMaxPut) 0 0 (c.length + 1) (le_refl _) rfl
    (by simpa [toCRLF] using hw0) htab0 (Nat.lt_succ_self _)
  have hfin := convert_finish h2 (by rw [h3.error, herr0]) (by rw [h3.getFunc, hgf0])
    (gN + countLF (c.take gN)) (pN + countLF (c.take pN))
    (by rw [toCRLF_length]; have := countLF_take_le c gN; omega)
    (by rw [toCRLF_length]; have := countLF_take_le c pN; omega)
  unfold ConvertCRLF
  rw [if_neg (by simp [IsText, hText, hB.text]),
    if_neg (by simp [ContainsCRLF, IsText, hText, hB.text, hLF, hBc])]
  have hcc : A.ContainsCRLF = false := by simp [ContainsCRLF, hLF]
  simp only [TellMaxPut, TellGet, TellPut, hA.maxPut, ← htail, hcc, hg, hp, Int.toNat_ofNat]
  simp only [TellMaxPut, hA.maxPut, List.length_nil, Nat.cast_zero, Nat.sub_zero, zero_add] at h1
  rw [h1]
  simp only
  refine ⟨_, rfl, ?_, ?_, ?_, ?_⟩
  · simpa using hfin.1
  · simpa using hfin.2.1
  · simpa using hfin.2.2.1
  · have := hfin.2.2.2
    simp only [Nat.cast_add] at this
    rw [this, h3.flags, hfl0]

/-- Conversion of the converted form of a text back into an empty output buffer that
asks for line feeds. -/
theorem ConvertCRLF_fromCRLF {S C : CUtlBuffer} {c : List Nat} (hS : Loaded S (toCRLF c))
    (hText : S.m_Flags.TEXT_BUFFER = true) (hCR : S.m_Flags.CONTAINS_CRLF = true)
    (hz : ∀ x ∈ c, x ≠ 0) (gN pN : Nat)
    (hg : S.m_Get = ((gN + countLF (c.take gN) : Nat) : Int))
    (hp : S.m_Put = ((pN + countLF (c.take pN) : Nat) : Int))
    (hgle : gN ≤ c.length) (hple : pN ≤ c.length)
    (hC : OutputReady C) (hCc : C.m_Flags.CONTAINS_CRLF = false) :
    ∃ C1, S.ConvertCRLF C = some (true, S, C1) ∧ Loaded C1 c ∧
      C1.m_Get = (gN : Int) ∧ C1.m_Put = (pN : Int) ∧ C1.m_Flags = C.m_Flags := by
  obtain ⟨tail, htail⟩ := hS.content
  obtain ⟨hw0, htab0, herr0, hfl0, hgf0⟩ := purge_writable hC S.TellMaxPut
  obtain ⟨out1, h1, h2, h3⟩ := convertLoop_fromCRLF c tail hz gN pN c.length c []
    (C.Purge.EnsureCapacity S.TellMaxPut) 0 0 ((toCRLF c).length + 1) (le_refl _) rfl
    hw0 htab0 (by rw [toCRLF_length]; omega)
  have hfin := convert_finish h2 (by rw [h3.error, herr0]) (by rw [h3.getFunc, hgf0])
    gN pN hgle hple
  unfold ConvertCRLF
  rw [if_neg (by simp [IsText, hText, hC.text]),
    if_neg (by simp [ContainsCRLF, IsText, hText, hC.text, hCR, hCc])]
  have hcc : S.ContainsCRLF = true := by simp [ContainsCRLF, IsText, hText, hCR]
  simp only [TellMaxPut, TellGet, TellPut, hS.maxPut, ← htail, hcc, hg, hp, Int.toNat_ofNat]
  simp only [TellMaxPut, hS.maxPut, List.length_nil, Nat.cast_zero, Nat.sub_zero, zero_add,
    toCRLF] at h1
  push_cast
  rw [h1]
  simp only
  refine ⟨_, rfl, ?_, ?_, ?_, ?_⟩
  · have := hfin.1
    convert this using 3 <;> omega
  · have := hfin.2.1
    rw [← this]
    congr 3 <;> omega
  · have := hfin.2.2.1
    rw [← this]
    congr 3 <;> omega
  · have := hfin.2.2.2
    rw [← h3.flags.trans hfl0, ← this]
    congr 3 <;> omega

end

/-- C14, counterexample: the text `a`, two line feeds, `b` in a text buffer of the line
feed convention does not come back from the round trip when an output buffer is not a
fresh one.  Through a CRLF-flagged `B` with tab depth 1, and also through a fresh `B` into
a `C` with tab depth 1, `C` ends with the five bytes `a`, LF, TAB, LF, `b`: `PutChar`
indents after a line feed.  Through a read-only `B` nothing is written, both conversions
answer all the same, and `C` ends with the six bytes `B` held before. -/
theorem C14_counterexample :
    (crlfRoundTrip (wholeText twoLines) (indentedOutput true)
        (CUtlBuffer.new 0 0 ⟨true, false, false, false, false⟩ 205)).map
        (fun c => (c.m_nMaxPut, c.m_Memory.m_pMemory.take 5)) =
      some (5, [97, 10, 9, 10, 98]) ∧
    (crlfRoundTrip (wholeText twoLines) (CUtlBuffer.new 0 0 ⟨true, false, true, false, false⟩ 205)
        (indentedOutput false)).map (fun c => (c.m_nMaxPut, c.m_Memory.m_pMemory.take 5)) =
      some (5, [97, 10, 9, 10, 98]) ∧
    (crlfRoundTrip (wholeText twoLines) readOnlyOutput
        (CUtlBuffer.new 0 0 ⟨true, false, false, false, false⟩ 205)).map
        (fun c => (c.m_nMaxPut, c.m_Memory.m_pMemory.take 6)) =
      some (6, [1, 2, 3, 4, 5, 6]) :=
  ⟨by decide, by decide, by decide⟩

/-- C14: for every text buffer `A` in the line-feed convention (window base 0, content `c`
of `max_put` bytes without NUL, cursors `0 <= get_pos <= max_put` and
`0 <= put_pos <= max_put`), every output buffer `B` flagged CONTAINS_CRLF and every output
buffer `C` not so flagged, both writable text buffers over owned storage with no indentation
pending and the default get hook: `A.ConvertCRLF (B)` returns true, `B.ConvertCRLF (C)`
on the buffer it produced returns true, and `C` then holds `max_put` bytes equal to those
of `A`, with `get_pos` and `put_pos` those of `A`. -/
theorem C14_crlf_round_trip {A B C : CUtlBuffer} {c : List Nat} (hA : Loaded A c)
    (hText : A.m_Flags.TEXT_BUFFER = true) (hLF : A.m_Flags.CONTAINS_CRLF = false)
    (hz : ∀ x ∈ c, x ≠ 0) (hg0 : 0 ≤ A.m_Get) (hg1 : A.m_Get ≤ A.m_nMaxPut)
    (hp0 : 0 ≤ A.m_Put) (hp1 : A.m_Put ≤ A.m_nMaxPut)
    (hB : OutputReady B) (hBc : B.m_Flags.CONTAINS_CRLF = true)
    (hC : OutputReady C) (hCc : C.m_Flags.CONTAINS_CRLF = false) :
    ∃ B1 C1 : CUtlBuffer,
      A.ConvertCRLF B = some (true, A, B1) ∧ B1.ConvertCRLF C = some (true, B1, C1) ∧
      C1.m_nMaxPut = A.m_nMaxPut ∧
      C1.m_Memory.m_pMemory.take A.m_nMaxPut.toNat = A.m_Memory.m_pMemory.take A.m_nMaxPut.toNat ∧
      C1.m_Memory.m_pMemory.take A.m_nMaxPut.toNat = c ∧
      C1.m_Get = A.m_Get ∧ C1.m_Put = A.m_Put := by
  obtain ⟨gN, hg⟩ := Int.eq_ofNat_of_zero_le hg0
  obtain ⟨pN, hp⟩ := Int.eq_ofNat_of_zero_le hp0
  have hgle : gN ≤ c.length := by have := hA.maxPut; omega
  have hple : pN ≤ c.length := by have := hA.maxPut; omega
  obtain ⟨B1, hb1, hb2, hb3, hb4, hb5⟩ :=
    ConvertCRLF_toCRLF hA hText hLF hz gN pN hg hp hgle hple hB hBc
  obtain ⟨C1, hc1, hc2, hc3, hc4, _⟩ :=
    ConvertCRLF_fromCRLF hb2 (by rw [hb5]; exact hB.text) (by rw [hb5]; exact hBc) hz gN pN
      hb3 hb4 hgle hple hC hCc
  obtain ⟨t1, ht1⟩ := hc2.content
  obtain ⟨t2, ht2⟩ := hA.content
  have hk : A.m_nMaxPut.toNat = c.length := by rw [hA.maxPut]; simp
  refine ⟨B1, C1, hb1, hc1, by rw [hc2.maxPut, hA.maxPut], ?_, ?_, by rw [hc3, hg],
    by rw [hc4, hp]⟩
  · rw [hk, ← ht1, ← ht2, List.take_left' rfl, List.take_left' rfl]
  · rw [hk, ← ht1, List.take_left' rfl]

theorem C14_crlf_round_trip_witness :
    ∃ B1 C1 : CUtlBuffer,
      ((wholeText [97, 10, 10, 98]).SeekGet .SEEK_HEAD 2).ConvertCRLF
          (CUtlBuffer.new 0 0 ⟨true, false, true, false, false⟩ 205) =
        some (true, (wholeText [97, 10, 10, 98]).SeekGet .SEEK_HEAD 2, B1) ∧
      B1.ConvertCRLF (CUtlBuffer.new 0 0 ⟨true, false, false, false, false⟩ 205) =
        some (true, B1, C1) ∧
      C1.m_nMaxPut = ((wholeText [97, 10, 10, 98]).SeekGet .SEEK_HEAD 2).m_nMaxPut ∧
      C1.m_Memory.m_pMemory.take
          ((wholeText [97, 10, 10, 98]).SeekGet .SEEK_HEAD 2).m_nMaxPut.toNat =
        ((wholeText [97, 10, 10, 98]).SeekGet .SEEK_HEAD 2).m_Memory.m_pMemory.take
          ((wholeText [97, 10, 10, 98]).SeekGet .SEEK_HEAD 2).m_nMaxPut.toNat ∧
      C1.m_Memory.m_pMemory.take
          ((wholeText [97, 10, 10, 98]).SeekGet .SEEK_HEAD 2).m_nMaxPut.toNat = [97, 10, 10, 98] ∧
      C1.m_Get = ((wholeText [97, 10, 10, 98]).SeekGet .SEEK_HEAD 2).m_Get ∧
      C1.m_Put = ((wholeText [97, 10, 10, 98]).SeekGet .SEEK_HEAD 2).m_Put :=
  C14_crlf_round_trip (A := (wholeText [97, 10, 10, 98]).SeekGet .SEEK_HEAD 2)
    (B := CUtlBuffer.new 0 0 ⟨true, false, true, false, false⟩ 205)
    (C := CUtlBuffer.new 0 0 ⟨true, false, false, false, false⟩ 205) (c := [97, 10, 10, 98])
    ⟨by decide, by decide, by decide⟩ (by decide) (by decide) (by decide) (by decide)
    (by decide) (by decide) (by decide)
    ⟨by decide, by decide, by decide, by decide, by decide⟩ (by decide)
    ⟨by decide, by decide, by decide, by decide, by decide⟩ (by decide)

/-! ## C21: the read-only view -/

/-- C21: for every memory block `m` of `n` bytes (`n >= 1` included) and every flag set with READ_ONLY, the
buffer constructed over `m` starts with `get_pos = 0` and `put_pos = max_put = n`, and
`Get (dst, n)` copies exactly `m` over the head of `dst`, moving `get_pos` to `n` and setting
no error; and on every read-only buffer, whatever its state, `Put (src, k)` changes
nothing: the buffer after the call is the buffer before it. -/
theorem C21_read_only_view (m dst : List Nat) (nFlags : BufferFlags_t) (uninit : Nat)
    (hro : nFlags.READ_ONLY = true) :
    (CUtlBuffer.newExternal m nFlags uninit).m_Get = 0 ∧
    (CUtlBuffer.newExternal m nFlags uninit).m_Put = (m.length : Int) ∧
    (CUtlBuffer.newExternal m nFlags uninit).m_nMaxPut = (m.length : Int) ∧
    (CUtlBuffer.newExternal m nFlags uninit).m_Error = ⟨false, false⟩ ∧
    (CUtlBuffer.newExternal m nFlags uninit).m_Memory.m_pMemory = m ∧
    ((CUtlBuffer.newExternal m nFlags uninit).Get dst (m.length : Int)).2 =
      m ++ dst.drop m.length ∧
    ((CUtlBuffer.newExternal m nFlags uninit).Get dst (m.length : Int)).1.m_Get =
      (m.length : Int) ∧
    ((CUtlBuffer.newExternal m nFlags uninit).Get dst (m.length : Int)).1.m_Error =
      ⟨false, false⟩ ∧
    ∀ (b : CUtlBuffer) (src : List Nat) (k : Int), b.m_Flags.READ_ONLY = true →
      b.Put src k = b := by
  have hnew : CUtlBuffer.newExternal m nFlags uninit =
      { m_Memory := CUtlMemory.SetExternalBuffer m uninit, m_Get := 0, m_Put := (m.length : Int)
        m_Error := ⟨false, false⟩, m_Flags := nFlags, m_nTab := 0, m_nMaxPut := (m.length : Int)
        m_nOffset := 0, m_GetOverflowFunc := .GetOverflow, m_PutOverflowFunc := .PutOverflow } := by
    simp [CUtlBuffer.newExternal, CUtlBuffer.IsReadOnly, hro]
  have hl : Loaded (CUtlBuffer.newExternal m nFlags uninit) m := by
    rw [hnew]
    exact ⟨rfl, rfl, List.prefix_refl _⟩
  have hget := CUtlBuffer.Get_loaded hl dst m.length (by rw [hnew]) (by rw [hnew])
    (by rw [hnew]; simp)
  refine ⟨by rw [hnew], by rw [hnew], by rw [hnew], by rw [hnew], by rw [hnew]; rfl, ?_, ?_, ?_, ?_⟩
  · rw [hget]
    simp [hnew]
  · rw [hget]
    simp [hnew]
  · rw [hget]
    simp [hnew]
  · intro b src k hb
    unfold CUtlBuffer.Put
    split
    · simp [CUtlBuffer.CheckPut, CUtlBuffer.IsReadOnly, hb]
    · rfl

theorem C21_read_only_view_witness :
    (CUtlBuffer.newExternal [10, 20, 30] ⟨false, false, false, true, false⟩ 205).m_Get = 0 ∧
    (CUtlBuffer.newExternal [10, 20, 30] ⟨false, false, false, true, false⟩ 205).m_Put =
      (([10, 20, 30] : List Nat).length : Int) ∧
    (CUtlBuffer.newExternal [10, 20, 30] ⟨false, false, false, true, false⟩ 205).m_nMaxPut =
      (([10, 20, 30] : List Nat).length : Int) ∧
    (CUtlBuffer.newExternal [10, 20, 30] ⟨false, false, false, true, false⟩ 205).m_Error =
      ⟨false, false⟩ ∧
    (CUtlBuffer.newExternal [10, 20, 30] ⟨false, false, false, true, false⟩
      205).m_Memory.m_pMemory = [10, 20, 30] ∧
    ((CUtlBuffer.newExternal [10, 20, 30] ⟨false, false, false, true, false⟩ 205).Get [7, 7, 7, 7]
      (([10, 20, 30] : List Nat).length : Int)).2 =
      [10, 20, 30] ++ ([7, 7, 7, 7] : List Nat).drop ([10, 20, 30] : List Nat).length ∧
    ((CUtlBuffer.newExternal [10, 20, 30] ⟨false, false, false, true, false⟩ 205).Get [7, 7, 7, 7]
      (([10, 20, 30] : List Nat).length : Int)).1.m_Get =
      (([10, 20, 30] : List Nat).length : Int) ∧
    ((CUtlBuffer.newExternal [10, 20, 30] ⟨false, false, false, true, false⟩ 205).Get [7, 7, 7, 7]
      (([10, 20, 30] : List Nat).length : Int)).1.m_Error = ⟨false, false⟩ ∧
    ∀ (b : CUtlBuffer) (src : List Nat) (k : Int), b.m_Flags.READ_ONLY = true →
      b.Put src k = b :=
  C21_read_only_view [10, 20, 30] [7, 7, 7, 7] ⟨false, false, false, true, false⟩ 205
    (by decide)

/-! ## C22: GetUpTo on a fully materialised buffer -/

/-- C22: for every fully materialised buffer (window base 0, content `c` of `max_put` bytes
inside the storage, GET_OVERFLOW clear, `0 <= get_pos`), whatever its hooks, and every
`n >= 1`: if `get_pos < max_put` then `GetUpTo (dst, n)` returns
`r = min (n, max_put - get_pos)`, copies the `r` bytes at `[get_pos, get_pos + r)` over the
head of `dst` and advances `get_pos` by `r`, changing nothing else; if `get_pos >= max_put`
it returns 0 and changes neither the buffer nor `dst`. -/
theorem C22_GetUpTo_reads_what_is_there (b : CUtlBuffer) (c dst : List Nat) (n : Int)
    (hl : Loaded b c) (herr : b.m_Error.GET_OVERFLOW = false) (h0 : 0 ≤ b.m_Get) (hn : 1 ≤ n) :
    (b.m_Get < b.m_nMaxPut →
      b.GetUpTo dst n =
        (min n (b.m_nMaxPut - b.m_Get),
          { b with m_Get := b.m_Get + min n (b.m_nMaxPut - b.m_Get) },
          (c.drop b.m_Get.toNat).take (min n (b.m_nMaxPut - b.m_Get)).toNat ++
            dst.drop (min n (b.m_nMaxPut - b.m_Get)).toNat) ∧
      ((c.drop b.m_Get.toNat).take (min n (b.m_nMaxPut - b.m_Get)).toNat).length =
        (min n (b.m_nMaxPut - b.m_Get)).toNat) ∧
    (b.m_nMaxPut ≤ b.m_Get → b.GetUpTo dst n = (0, b, dst)) := by
  constructor
  · intro hlt
    have hmp := hl.maxPut
    obtain ⟨r, hr⟩ : ∃ r : Nat, min n (b.m_nMaxPut - b.m_Get) = (r : Int) :=
      Int.eq_ofNat_of_zero_le (by omega)
    have hca : b.CheckArbitraryPeekGet 0 n = (true, (r : Int), b) := by
      unfold CUtlBuffer.CheckArbitraryPeekGet
      simp only [CUtlBuffer.TellGet, CUtlBuffer.TellMaxPut, add_zero, sub_zero]
      rw [if_neg (by omega)]
      have hck : ∀ k : Int, b.m_Get + k ≤ b.m_nMaxPut → b.CheckPeekGet 0 k = (true, b) :=
        fun k hk => CUtlBuffer.CheckPeekGet_loaded hl 0 k herr h0 (by omega)
      by_cases hbig : b.m_Get + n > b.m_nMaxPut
      · rw [if_pos hbig, hck _ (by omega)]
        simp only [Prod.mk.injEq, decide_eq_true_eq, and_true]
        constructor
        · split <;> omega
        · split <;> omega
      · rw [if_neg hbig, hck _ (by omega)]
        simp only [Prod.mk.injEq, decide_eq_true_eq, and_true]
        constructor
        · split <;> omega
        · split <;> omega
    obtain ⟨tail, hp⟩ := CUtlBuffer.PeekGetPtr_loaded hl 0 (by omega) (by omega)
    have hlen : ((c.drop b.m_Get.toNat).take r).length = r := by
      simp only [List.length_take, List.length_drop]
      omega
    unfold CUtlBuffer.GetUpTo
    rw [hca, hr]
    simp only [Int.toNat_ofNat, hp, add_zero, memcpy]
    rw [List.take_append_of_le_length (by simp only [List.length_drop]; omega), hlen]
    exact ⟨rfl, rfl⟩
  · intro hge
    unfold CUtlBuffer.GetUpTo CUtlBuffer.CheckArbitraryPeekGet
    simp only [CUtlBuffer.TellGet, CUtlBuffer.TellMaxPut, add_zero]
    rw [if_pos (by omega)]

theorem C22_GetUpTo_reads_what_is_there_witness :
    (threeBytesAtOne.m_Get < threeBytesAtOne.m_nMaxPut →
      threeBytesAtOne.GetUpTo [7, 7, 7, 7] 5 =
        (min 5 (threeBytesAtOne.m_nMaxPut - threeBytesAtOne.m_Get),
          { threeBytesAtOne with
            m_Get := threeBytesAtOne.m_Get + min 5 (threeBytesAtOne.m_nMaxPut - threeBytesAtOne.m_Get) },
          (([10, 20, 30] : List Nat).drop threeBytesAtOne.m_Get.toNat).take
              (min 5 (threeBytesAtOne.m_nMaxPut - threeBytesAtOne.m_Get)).toNat ++
            ([7, 7, 7, 7] : List Nat).drop
              (min 5 (threeBytesAtOne.m_nMaxPut - threeBytesAtOne.m_Get)).toNat) ∧
      ((([10, 20, 30] : List Nat).drop threeBytesAtOne.m_Get.toNat).take
          (min 5 (threeBytesAtOne.m_nMaxPut - threeBytesAtOne.m_Get)).toNat).length =
        (min 5 (threeBytesAtOne.m_nMaxPut - threeBytesAtOne.m_Get)).toNat) ∧
    (threeBytesAtOne.m_nMaxPut ≤ threeBytesAtOne.m_Get →
      threeBytesAtOne.GetUpTo [7, 7, 7, 7] 5 = (0, threeBytesAtOne, [7, 7, 7, 7])) :=
  C22_GetUpTo_reads_what_is_there threeBytesAtOne [10, 20, 30] [7, 7, 7, 7] 5
    ⟨by decide, by decide, by decide⟩ (by decide) (by decide) (by decide)

/-! ## C23: GetLine when the line is truncated -/

/-- C23: evaluation at the failing input.  The LF text `abcdef\ncd` has its first newline at
index 6.  With room for the line (`nMaxChars = 8`) `GetLine` stores the line with its
newline and leaves `get_pos = 7`, just past the newline.  With `nMaxChars = 4` it stores
`abc` and leaves `get_pos = 6`, on the newline itself, with no error set; the sibling
`GetString` truncating `abcdef cd` to 4 bytes leaves `get_pos = 6`, the end of what
it was to consume. -/
theorem C23_truncated_line_stops_short :
    ((wholeText [97, 98, 99, 100, 101, 102, 10, 99, 100]).GetLine [7, 7, 7, 7, 7, 7, 7, 7] 8).map
        (fun r => (r.1.m_Get, r.1.m_Error, r.2)) =
      some (7, ⟨false, false⟩, [97, 98, 99, 100, 101, 102, 10, 0]) ∧
    ((wholeText [97, 98, 99, 100, 101, 102, 10, 99, 100]).GetLine [7, 7, 7, 7, 7, 7, 7, 7] 4).map
        (fun r => (r.1.m_Get, r.1.m_Error, r.2)) =
      some (6, ⟨false, false⟩, [97, 98, 99, 0, 7, 7, 7, 7]) ∧
    ((wholeText [97, 98, 99, 100, 101, 102, 32, 99, 100]).GetString [7, 7, 7, 7, 7, 7, 7, 7] 4).map
        (fun r => (r.1.m_Get, r.1.m_Error, r.2)) =
      some (6, ⟨false, false⟩, [97, 98, 99, 0, 7, 7, 7, 7]) := by
  decide

/-! ## C27: where Scanf continues after a conversion -/

/-- C27: evaluation at the failing input.  On the text `12,34` the format `%lld,%lld`
converts 12 and then stops with the count 1 and `get_pos = 2`: the final `d` of the first
specifier is still in the format and is matched against the comma.  The format
`%I64d,%I64d` on the same text returns 2 and stores 12 and 34.  On the text `12d,34`
the format `%lld,%lld` stores 12 and 34: the letter is read as a literal. -/
theorem C27_lld_rereads_its_letter (strtodLen : List Nat → Nat) :
    (wholeText [49, 50, 44, 51, 52]).Scanf strtodLen
        [37, 108, 108, 100, 44, 37, 108, 108, 100, 0] [.int 7, .int 7] =
      some (1, [.int 12], (wholeText [49, 50, 44, 51, 52]).atGet 2) ∧
    (wholeText [49, 50, 44, 51, 52]).Scanf strtodLen
        [37, 73, 54, 52, 100, 44, 37, 73, 54, 52, 100, 0] [.int 7, .int 7] =
      some (2, [.int 12, .int 34], (wholeText [49, 50, 44, 51, 52]).atGet 5) ∧
    ((wholeText [49, 50, 100, 44, 51, 52]).Scanf strtodLen
        [37, 108, 108, 100, 44, 37, 108, 108, 100, 0] [.int 7, .int 7]).map
        (fun r => (r.1, r.2.1, r.2.2.m_Get)) =
      some (2, [.int 12, .int 34], 6) := by
  refine ⟨?_, ?_, ?_⟩
  · rfl
  · rfl
  · rfl

/-! ## C29: the reverse lookup of a conversion table -/

/-- C29: evaluation at the failing input.  The table with escape `\`, delimiter `"` and the
entries (10, `n`), (9, `t`) has replacement strings that are not prefixes of one another, and
its forward lookup of 10 is `n`.  Its reverse lookup answers (10, 1) on the string `n`
alone but (0, 0) on `n` followed by `x`: it compares the whole string.  The C-string
table answers (10, 1) on `nx`.  The no-escape table reports length 0 on every input. -/
theorem C29_reverse_lookup_compares_whole_string :
    (CUtlCharConversion.new 92 [34] [⟨10, [110]⟩, ⟨9, [116]⟩]).GetConversionString 10 = [110] ∧
    (CUtlCharConversion.new 92 [34] [⟨10, [110]⟩, ⟨9, [116]⟩]).FindConversion [110] = (10, 1) ∧
    (CUtlCharConversion.new 92 [34] [⟨10, [110]⟩, ⟨9, [116]⟩]).FindConversion ([110] ++ [120]) =
      (0, 0) ∧
    GetCStringCharConversion.FindConversion ([110] ++ [120]) = (10, 1) ∧
    ∀ p : List Nat, GetNoEscCharConversion.FindConversion p = (0, 0) := by
  refine ⟨by decide, by decide, by decide, by decide, fun p => rfl⟩

/-! ## C26: cursors after a conversion to carriage return, line feed pairs -/

/-- The two seeks that end a conversion place the cursors wherever the get cursor is asked
to go; past the content the get seek only latches the get error besides. -/
theorem convert_finish_far {o : CUtlBuffer} {content : List Nat} (hw : WritableAt o content)
    (herr : o.m_Error = ⟨false, false⟩) (hf : o.m_GetOverflowFunc = .GetOverflow)
    (g p : Nat) (hp : p ≤ content.length) :
    Loaded ((o.SeekGet .SEEK_HEAD (g : Int)).SeekPut .SEEK_HEAD (p : Int)) content ∧
    ((o.SeekGet .SEEK_HEAD (g : Int)).SeekPut .SEEK_HEAD (p : Int)).m_Get = (g : Int) ∧
    ((o.SeekGet .SEEK_HEAD (g : Int)).SeekPut .SEEK_HEAD (p : Int)).m_Put = (p : Int) ∧
    ((o.SeekGet .SEEK_HEAD (g : Int)).SeekPut .SEEK_HEAD (p : Int)).m_Flags = o.m_Flags := by
  by_cases hg : g ≤ content.length
  · exact convert_finish hw herr hf g p hg hp
  · have hsg : o.SeekGet .SEEK_HEAD (g : Int) =
        ({ o with m_Get := (g : Int) } : CUtlBuffer).setGetOverflow true := by
      rw [CUtlBuffer.SeekGet_default o hf]
      have hd : decide (seekPos o.m_Get o.m_nMaxPut .SEEK_HEAD (g : Int) > o.m_nMaxPut) = true := by
        simp only [seekPos, decide_eq_true_eq, gt_iff_lt, hw.maxPut]
        omega
      rw [hd]
      rfl
    obtain ⟨tail, htail⟩ := hw.content
    have hgs : ¬ (o.m_Memory.m_nGrowSize < 0) := by have := hw.owned; omega
    have hsp : (({ o with m_Get := (g : Int) } : CUtlBuffer).setGetOverflow true).SeekPut
        .SEEK_HEAD (p : Int) =
        ({ o with m_Get := (g : Int), m_Put := (p : Int) } : CUtlBuffer).setGetOverflow true := by
      unfold CUtlBuffer.SeekPut
      cases hpf : o.m_PutOverflowFunc
      simp only [CUtlBuffer.OnPutOverflow, CUtlBuffer.setGetOverflow, hpf, CUtlBuffer.PutOverflow,
        CUtlMemory.IsExternallyAllocated, hgs, decide_False, Bool.false_eq_true, false_and,
        if_false]
      rw [growLoop_noop _ _ _ (by
        simp only [CUtlMemory.NumAllocated, hw.put, hw.offset, ← htail, List.length_append]
        push_cast
        omega)]
      unfold CUtlBuffer.AddNullTermination
      rw [if_neg (by simp only [hw.maxPut]; omega)]
    rw [hsg, hsp]
    exact ⟨⟨hw.offset, hw.maxPut, hw.content⟩, rfl, rfl, rfl⟩

/-- C26, counterexample: the text `a`, two line feeds, `b` converted into a CRLF-flagged
text buffer that is not a fresh one.  With tab depth 1 the output holds seven bytes, `a`,
CR, LF, TAB, CR, LF, `b`, not the six of the text with CR before each line feed: `PutChar`
indents after a line feed.  A read-only output keeps its bytes and a writable output over
four fixed bytes holds `a`, CR, LF, CR and the put latch; `ConvertCRLF` answers true in
all three cases. -/
theorem C26_counterexample :
    toCRLF twoLines = [97, 13, 10, 13, 10, 98] ∧
    ((wholeText twoLines).ConvertCRLF (indentedOutput true)).map
        (fun r => (r.1, r.2.2.m_nMaxPut, r.2.2.m_Memory.m_pMemory.take 7)) =
      some (true, 7, [97, 13, 10, 9, 13, 10, 98]) ∧
    ((wholeText twoLines).ConvertCRLF readOnlyOutput).map
        (fun r => (r.1, r.2.2.m_nMaxPut, r.2.2.m_Memory.m_pMemory.take 6)) =
      some (true, 6, [1, 2, 3, 4, 5, 6]) ∧
    ((wholeText twoLines).ConvertCRLF fixedFourText).map
        (fun r => (r.1, r.2.2.m_Error.PUT_OVERFLOW, r.2.2.m_Memory.m_pMemory)) =
      some (true, true, [97, 13, 10, 13]) :=
  ⟨by decide, by decide, by decide, by decide⟩

/-- C26: for every text buffer of the line feed convention that holds its whole content `c`
from index 0 (window base 0), `c` free of NUL, with `0 <= get_pos` and
`0 <= put_pos <= max_put`, and every output buffer that is a writable text buffer over
owned storage flagged for carriage return, line feed pairs (no indentation pending, default
get hook): `ConvertCRLF` answers true, keeps the source, and the output then holds exactly
`c` with every line feed replaced by carriage return, line feed, which is `n + k` bytes
for `n` content bytes of which `k` are line feeds; the output get (resp. put) cursor is the
source get (resp. put) cursor plus the number of line feeds at source indices strictly below
that cursor. -/
theorem C26_toCRLF_shifts_cursors (A B : CUtlBuffer) (c : List Nat) (hA : Loaded A c)
    (hText : A.m_Flags.TEXT_BUFFER = true) (hLF : A.m_Flags.CONTAINS_CRLF = false)
    (hz : ∀ x ∈ c, x ≠ 0) (hg0 : 0 ≤ A.m_Get) (hp0 : 0 ≤ A.m_Put) (hpm : A.m_Put ≤ A.m_nMaxPut)
    (hB : OutputReady B) (hBc : B.m_Flags.CONTAINS_CRLF = true) :
    ∃ B1, A.ConvertCRLF B = some (true, A, B1) ∧ Loaded B1 (toCRLF c) ∧
      (toCRLF c).length = c.length + countLF c ∧
      B1.m_nMaxPut = ((c.length + countLF c : Nat) : Int) ∧
      B1.m_Get = A.m_Get + (countLF (c.take A.m_Get.toNat) : Int) ∧
      B1.m_Put = A.m_Put + (countLF (c.take A.m_Put.toNat) : Int) ∧
      B1.m_Flags = B.m_Flags := by
  obtain ⟨gN, hg⟩ := Int.eq_ofNat_of_zero_le hg0
  obtain ⟨pN, hp⟩ := Int.eq_ofNat_of_zero_le hp0
  have hple : pN ≤ c.length := by have := hA.maxPut; omega
  obtain ⟨tail, htail⟩ := hA.content
  obtain ⟨hw0, htab0, herr0, hfl0, hgf0⟩ := purge_writable hB A.TellMaxPut
  obtain ⟨out1, h1, h2, h3⟩ := convertLoop_toCRLF c tail hz gN pN c.length c []
    (B.Purge.EnsureCapacity A.TellMaxPut) 0 0 (c.length + 1) (le_refl _) rfl
    (by simpa [toCRLF] using hw0) htab0 (Nat.lt_succ_self _)
  have hfin := convert_finish_far h2 (by rw [h3.error, herr0]) (by rw [h3.getFunc, hgf0])
    (gN + countLF (c.take gN)) (pN + countLF (c.take pN))
    (by rw [toCRLF_length]; have := countLF_take_le c pN; omega)
  unfold CUtlBuffer.ConvertCRLF
  rw [if_neg (by simp [CUtlBuffer.IsText, hText, hB.text]),
    if_neg (by simp [CUtlBuffer.ContainsCRLF, CUtlBuffer.IsText, hText, hB.text, hLF, hBc])]
  have hcc : A.ContainsCRLF = false := by simp [CUtlBuffer.ContainsCRLF, hLF]
  simp only [CUtlBuffer.TellMaxPut, CUtlBuffer.TellGet, CUtlBuffer.TellPut, hA.maxPut, ← htail,
    hcc, hg, hp, Int.toNat_ofNat]
  simp only [CUtlBuffer.TellMaxPut, hA.maxPut, List.length_nil, Nat.cast_zero, Nat.sub_zero,
    zero_add] at h1
  rw [h1]
  simp only
  refine ⟨_, rfl, ?_, toCRLF_length c, ?_, ?_, ?_, ?_⟩
  · simpa using hfin.1
  · have hl : Loaded _ (toCRLF c) := hfin.1
    have := hl.maxPut
    rw [toCRLF_length] at this
    simpa using this
  · simpa using hfin.2.1
  · simpa using hfin.2.2.1
  · have := hfin.2.2.2
    simp only [Nat.cast_add] at this
    rw [this, h3.flags, hfl0]

theorem C26_toCRLF_shifts_cursors_witness :
    ∃ B1, ((wholeText [97, 10, 10, 98]).SeekGet .SEEK_HEAD 2).ConvertCRLF
          (CUtlBuffer.new 0 0 ⟨true, false, true, false, false⟩ 205) =
        some (true, (wholeText [97, 10, 10, 98]).SeekGet .SEEK_HEAD 2, B1) ∧
      Loaded B1 (toCRLF [97, 10, 10, 98]) ∧
      (toCRLF [97, 10, 10, 98]).length =
        ([97, 10, 10, 98] : List Nat).length + countLF [97, 10, 10, 98] ∧
      B1.m_nMaxPut = ((([97, 10, 10, 98] : List Nat).length + countLF [97, 10, 10, 98] : Nat) : Int) ∧
      B1.m_Get = ((wholeText [97, 10, 10, 98]).SeekGet .SEEK_HEAD 2).m_Get +
        (countLF (([97, 10, 10, 98] : List Nat).take
          ((wholeText [97, 10, 10, 98]).SeekGet .SEEK_HEAD 2).m_Get.toNat) : Int) ∧
      B1.m_Put = ((wholeText [97, 10, 10, 98]).SeekGet .SEEK_HEAD 2).m_Put +
        (countLF (([97, 10, 10, 98] : List Nat).take
          ((wholeText [97, 10, 10, 98]).SeekGet .SEEK_HEAD 2).m_Put.toNat) : Int) ∧
      B1.m_Flags = (CUtlBuffer.new 0 0 ⟨true, false, true, false, false⟩ 205).m_Flags :=
  C26_toCRLF_shifts_cursors ((wholeText [97, 10, 10, 98]).SeekGet .SEEK_HEAD 2)
    (CUtlBuffer.new 0 0 ⟨true, false, true, false, false⟩ 205) [97, 10, 10, 98]
    ⟨by decide, by decide, by decide⟩ (by decide) (by decide) (by decide) (by decide)
    (by decide) (by decide)
    ⟨by decide, by decide, by decide, by decide, by decide⟩ (by decide)

/-! ## C28: the length of the string to come -/

/-- A peek check that would pass the high-water mark fails and changes nothing. -/
theorem CheckPeekGet_past (b : CUtlBuffer) (nOffset n : Int)
    (he : b.m_Error.GET_OVERFLOW = false) (hn : b.m_nMaxPut < b.m_Get + (nOffset + n)) :
    b.CheckPeekGet nOffset n = (false, b) := by
  unfold CUtlBuffer.CheckPeekGet
  rw [if_neg (by simp [he]), CUtlBuffer.CheckGet_overflow b _ he hn]
  simp only
  rw [(CUtlBuffer.setGetOverflow_set b false he).1]

/-- The open-ended peek check at any offset of a materialised buffer grants the bytes
asked for, or the bytes left when there are fewer, and changes nothing. -/
theorem CheckArbitraryPeekGet_loaded {b : CUtlBuffer} {c : List Nat} (h : Loaded b c)
    (he : b.m_Error.GET_OVERFLOW = false) (h0 : 0 ≤ b.m_Get) (nOffset n : Int) (hn : 0 < n)
    (hoff : 0 ≤ nOffset) (hlt : b.m_Get + nOffset < (c.length : Int)) :
    b.CheckArbitraryPeekGet nOffset n =
      (true, min n ((c.length : Int) - b.m_Get - nOffset), b) := by
  unfold CUtlBuffer.CheckArbitraryPeekGet
  simp only [CUtlBuffer.TellGet, CUtlBuffer.TellMaxPut, h.maxPut]
  rw [if_neg (by omega)]
  have hck : ∀ k : Int, b.m_Get + (nOffset + k) ≤ (c.length : Int) →
      b.CheckPeekGet nOffset k = (true, b) :=
    fun k hk => CUtlBuffer.CheckPeekGet_loaded h nOffset k he h0 hk
  by_cases hbig : b.m_Get + nOffset + n > (c.length : Int)
  · rw [if_pos hbig, hck _ (by omega)]
    simp only [h.maxPut, Prod.mk.injEq, decide_eq_true_eq, and_true]
    constructor
    · split <;> omega
    · split <;> omega
  · rw [if_neg hbig, hck _ (by omega)]
    simp only [h.maxPut, Prod.mk.injEq, decide_eq_true_eq, and_true]
    constructor
    · split <;> omega
    · split <;> omega

/-- The open-ended peek check at or past the high-water mark fails and changes nothing. -/
theorem CheckArbitraryPeekGet_past (b : CUtlBuffer) (nOffset n : Int)
    (hge : b.m_nMaxPut ≤ b.m_Get + nOffset) :
    b.CheckArbitraryPeekGet nOffset n = (false, 0, b) := by
  unfold CUtlBuffer.CheckArbitraryPeekGet
  simp only [CUtlBuffer.TellGet, CUtlBuffer.TellMaxPut]
  rw [if_pos (by omega)]

/-- The inner scan of a length peek over `n` bytes of a region: the index of the first
stopping byte when one lies among them. -/
theorem scanFor_spec (stop : Nat → Bool) (tail : List Nat) : ∀ (n : Nat) (r : List Nat) (i0 : Nat),
    n ≤ r.length →
    CUtlBuffer.scanFor stop n (r ++ tail) i0 =
      if (r.takeWhile (fun x => !stop x)).length < n
      then some (i0 + (r.takeWhile (fun x => !stop x)).length) else none := by
  intro n
  induction n with
  | zero =>
    intro r i0 _
    simp [CUtlBuffer.scanFor]
  | succ n ih =>
    intro r i0 hn
    cases r with
    | nil => simp at hn
    | cons x r =>
      simp only [List.length_cons, Nat.add_le_add_iff_right] at hn
      unfold CUtlBuffer.scanFor
      simp only [List.cons_append, deref, List.headD_cons, List.drop_succ_cons, List.drop_zero]
      by_cases hx : stop x = true
      · rw [if_pos hx]
        simp [List.takeWhile, hx]
      · rw [if_neg hx, ih r (i0 + 1) hn]
        have hx2 : stop x = false := by simpa using hx
        simp only [List.takeWhile, hx2, Bool.not_false, List.length_cons,
          Nat.add_lt_add_iff_right]
        split
        · congr 1
          omega
        · rfl

/-- A run of at least `n` accepted bytes continues after its first `n` bytes. -/
theorem takeWhile_length_drop (p : Nat → Bool) : ∀ (n : Nat) (r : List Nat),
    n ≤ (r.takeWhile p).length →
    (r.takeWhile p).length = n + ((r.drop n).takeWhile p).length := by
  intro n
  induction n with
  | zero => intro r _; simp
  | succ n ih =>
    intro r hn
    cases r with
    | nil => simp at hn
    | cons x r =>
      by_cases hx : p x = true
      · simp only [List.takeWhile, hx, List.length_cons, Nat.add_le_add_iff_right] at hn
        simp only [List.takeWhile, hx, List.length_cons, List.drop_succ_cons]
        rw [ih r hn]
        omega
      · have hx2 : p x = false := by simpa using hx
        simp [List.takeWhile, hx2] at hn

/-- The white-space peek of a materialised buffer counts the white space under the offset. -/
theorem peekWhiteSpaceLoop_loaded {b : CUtlBuffer} {c : List Nat} (h : Loaded b c)
    (he : b.m_Error.GET_OVERFLOW = false) (g : Nat) (hg : b.m_Get = (g : Int)) :
    ∀ (fuel k : Nat), (c.drop (g + k)).length < fuel →
    CUtlBuffer.peekWhiteSpaceLoop fuel b (k : Int) =
      some (((k + ((c.drop (g + k)).takeWhile V_isspace).length : Nat) : Int), b) := by
  intro fuel
  induction fuel with
  | zero => intro k hk; omega
  | succ fuel ih =>
    intro k hk
    unfold CUtlBuffer.peekWhiteSpaceLoop
    by_cases hin : g + k < c.length
    · rw [CUtlBuffer.CheckPeekGet_loaded h _ _ he (by omega) (by omega)]
      simp only
      obtain ⟨tail, hp⟩ := CUtlBuffer.PeekGetPtr_loaded h (k : Int) (by omega) (by omega)
      have hidx : (b.m_Get + (k : Int)).toNat = g + k := by omega
      rw [hp, hidx]
      obtain ⟨x, r, hd⟩ : ∃ x r, c.drop (g + k) = x :: r := by
        cases hd : c.drop (g + k) with
        | nil =>
          have := congrArg List.length hd
          simp only [List.length_drop, List.length_nil] at this
          omega
        | cons x r => exact ⟨x, r, rfl⟩
      have hd1 : c.drop (g + (k + 1)) = r := by
        have := congrArg (List.drop 1) hd
        rw [List.drop_drop] at this
        simp only [List.drop_succ_cons, List.drop_zero] at this
        rw [← this]
        congr 1
      rw [hd]
      simp only [List.cons_append, deref, List.headD_cons]
      by_cases hs : V_isspace x = true
      · rw [if_neg (not_not.mpr hs)]
        have := ih (k + 1) (by
          rw [hd] at hk
          simp only [List.length_cons] at hk
          rw [hd1]
          omega)
        rw [show ((k : Int) + 1) = ((k + 1 : Nat) : Int) by push_cast; rfl, this, hd1]
        simp only [List.takeWhile, hs, List.length_cons]
        congr 2
        push_cast
        omega
      · rw [if_pos hs]
        have hs2 : V_isspace x = false := by simpa using hs
        simp [List.takeWhile, hs2]
    · rw [CheckPeekGet_past b _ _ he (by have := h.maxPut; omega)]
      simp only
      rw [List.drop_eq_nil_of_le (by omega)]
      simp

/-- The string-length loop of a materialised buffer: one more than the bytes scanned so
far plus the run of bytes under the offset that do not stop the scan, or 0 when the
scan starts with nothing left and nothing scanned. -/
theorem peekStringLengthLoop_loaded {b : CUtlBuffer} {c : List Nat} (h : Loaded b c)
    (he : b.m_Error.GET_OVERFLOW = false) (g : Nat) (hg : b.m_Get = (g : Int)) (s : Nat)
    (stop : Nat → Bool)
    (hstop : (if ¬ b.IsText then (fun c => c == 0) else fun c => V_isspace c || c == 0) = stop) :
    ∀ (fuel k : Nat), s ≤ k → (c.drop (g + k)).length < fuel →
    CUtlBuffer.peekStringLengthLoop fuel b (s : Int) (k : Int) =
      some ((if c.drop (g + k) = [] ∧ k = s then 0
        else (((k - s) + ((c.drop (g + k)).takeWhile (fun x => !stop x)).length + 1 : Nat) :
          Int)), b) := by
  intro fuel
  induction fuel with
  | zero => intro k _ hk; omega
  | succ fuel ih =>
    intro k hsk hk
    unfold CUtlBuffer.peekStringLengthLoop
    by_cases hin : g + k < c.length
    · rw [CheckArbitraryPeekGet_loaded h he (by omega) _ _ (by decide) (by omega) (by omega)]
      simp only [hstop]
      obtain ⟨tail, hp⟩ := CUtlBuffer.PeekGetPtr_loaded h (k : Int) (by omega) (by omega)
      have hidx : (b.m_Get + (k : Int)).toNat = g + k := by omega
      rw [hp, hidx]
      have hne : c.drop (g + k) ≠ [] := by
        intro hnil
        have := congrArg List.length hnil
        simp only [List.length_drop, List.length_nil] at this
        omega
      obtain ⟨n, hn⟩ : ∃ n : Nat, min (128 : Int) ((c.length : Int) - b.m_Get - (k : Int)) = (n : Int) :=
        Int.eq_ofNat_of_zero_le (by omega)
      have hnle : n ≤ (c.drop (g + k)).length := by
        simp only [List.length_drop]
        omega
      have hnpos : 0 < n := by omega
      rw [hn, Int.toNat_ofNat, scanFor_spec _ tail n _ 0 hnle]
      by_cases hfound : ((c.drop (g + k)).takeWhile (fun x => !stop x)).length < n
      · rw [if_pos hfound]
        simp only [zero_add, Option.some.injEq, Prod.mk.injEq, and_true]
        rw [if_neg (fun hc => hne hc.1)]
        push_cast
        omega
      · have hnot := hfound
        rw [if_neg hfound]
        simp only
        have hrun := takeWhile_length_drop _ n _ (Nat.le_of_not_lt hnot)
        have hdd : (c.drop (g + k)).drop n = c.drop (g + (k + n)) := by
          rw [List.drop_drop]
          congr 1
          omega
        rw [hdd] at hrun
        have := ih (k + n) (by omega) (by
          simp only [List.length_drop] at hk ⊢
          omega)
        rw [show ((k : Int) + (n : Int)) = ((k + n : Nat) : Int) by push_cast; rfl, this]
        simp only [Option.some.injEq, Prod.mk.injEq, and_true]
        rw [if_neg (fun hc => by omega), if_neg (fun hc => hne hc.1), hrun]
        push_cast
        omega
    · rw [CheckArbitraryPeekGet_past b _ _ (by have := h.maxPut; omega)]
      simp only
      rw [List.drop_eq_nil_of_le (by omega)]
      by_cases hks : k = s
      · subst hks
        simp
      · rw [if_neg (by exact_mod_cast hks), if_neg (fun hc => hks hc.2)]
        simp only [List.takeWhile_nil, List.length_nil, add_zero, Option.some.injEq,
          Prod.mk.injEq, and_true]
        push_cast
        omega

/-- Dropping the accepted run of a list leaves what `dropWhile` leaves. -/
theorem drop_takeWhile_length (p : Nat → Bool) : ∀ l : List Nat,
    l.drop (l.takeWhile p).length = l.dropWhile p := by
  intro l
  induction l with
  | nil => rfl
  | cons x l ih =>
    by_cases hx : p x = true
    · simp only [List.takeWhile, List.dropWhile, hx, List.length_cons, List.drop_succ_cons]
      exact ih
    · have hx2 : p x = false := by simpa using hx
      simp [List.takeWhile, List.dropWhile, hx2]

/-- The length of the string to come on a materialised buffer with no error set: one more
than the run of bytes that do not end a string, after the leading white space in text
mode, or 0 when nothing is left. -/
theorem PeekStringLength_loaded (b : CUtlBuffer) (c : List Nat) (hl : Loaded b c)
    (herr : b.m_Error = ⟨false, false⟩) (h0 : 0 ≤ b.m_Get) :
    (b.IsText = true →
      b.PeekStringLength =
        some ((if (c.drop b.m_Get.toNat).dropWhile V_isspace = [] then 0
          else 1 + ((((c.drop b.m_Get.toNat).dropWhile V_isspace).takeWhile
            (fun x => !(V_isspace x || x == 0))).length : Int)), b)) ∧
    (b.IsText = false →
      b.PeekStringLength =
        some ((if b.m_nMaxPut ≤ b.m_Get then 0
          else 1 + (((c.drop b.m_Get.toNat).takeWhile (fun x => !(x == 0))).length : Int)), b)) := by
  obtain ⟨g, hg⟩ := Int.eq_ofNat_of_zero_le h0
  have he : b.m_Error.GET_OVERFLOW = false := by rw [herr]
  have hv : b.IsValid = true := by simp [CUtlBuffer.IsValid, herr]
  have hgn : b.m_Get.toNat = g := by omega
  rw [hgn]
  constructor
  · intro ht
    unfold CUtlBuffer.PeekStringLength
    rw [if_neg (by simp [hv]), if_pos ht]
    unfold CUtlBuffer.PeekWhiteSpace
    rw [if_neg (by simp [hv, ht])]
    have hws := peekWhiteSpaceLoop_loaded hl he g hg ((b.m_nMaxPut - b.m_Get - 0).toNat + 1) 0
      (by
        simp only [List.length_drop, add_zero]
        have := hl.maxPut
        omega)
    simp only [Nat.cast_zero, add_zero, zero_add] at hws
    rw [hws]
    simp only
    generalize hw : ((c.drop g).takeWhile V_isspace).length = w
    have hdw : c.drop (g + w) = (c.drop g).dropWhile V_isspace := by
      rw [← drop_takeWhile_length V_isspace (c.drop g), hw, List.drop_drop]
    have hloop := peekStringLengthLoop_loaded hl he g hg w (fun c => V_isspace c || c == 0)
      (by simp [ht]) ((b.m_nMaxPut - b.m_Get - (w : Int)).toNat + 1) w (le_refl _)
      (by
        simp only [List.length_drop]
        have := hl.maxPut
        omega)
    rw [hloop, hdw]
    simp only [and_true, Nat.sub_self, zero_add, Option.some.injEq, Prod.mk.injEq]
    split
    · rfl
    · push_cast
      omega
  · intro ht
    unfold CUtlBuffer.PeekStringLength
    rw [if_neg (by simp [hv]), if_neg (by simp [ht])]
    simp only
    have hloop := peekStringLengthLoop_loaded hl he g hg 0 (fun c => c == 0)
      (by simp [ht]) ((b.m_nMaxPut - b.m_Get - 0).toNat + 1) 0 (le_refl _)
      (by
        simp only [List.length_drop, add_zero]
        have := hl.maxPut
        omega)
    simp only [Nat.cast_zero, add_zero] at hloop
    rw [hloop]
    simp only [and_true, Nat.sub_self, zero_add, Option.some.injEq, Prod.mk.injEq]
    have hiff : c.drop g = [] ↔ b.m_nMaxPut ≤ b.m_Get := by
      rw [List.drop_eq_nil_iff, hl.maxPut]
      omega
    by_cases hnil : c.drop g = []
    · rw [if_pos hnil, if_pos (hiff.mp hnil)]
    · rw [if_neg hnil, if_neg (fun hc => hnil (hiff.mpr hc))]
      push_cast
      omega

/-- C28: for every fully materialised buffer (window base 0, content `c` of `max_put` bytes
inside the storage, `0 <= get_pos`) with no error set, whatever its hooks, `PeekStringLength`
returns and leaves the buffer as it was.  In text mode the answer is 0 when nothing is left
of the unread content once its leading white space is dropped, and otherwise 1 + the number
of bytes from the first byte that is not white space up to, not including, the next white
space byte, NUL byte or the end of the content.  In binary mode the answer is 0 when
`get_pos >= max_put` and otherwise 1 + the number of unread bytes before the first NUL byte
or the end of the content.  The content may be of any length, shorter or longer than the
128 bytes the loop looks at in one step. -/
theorem C28_PeekStringLength_counts (b : CUtlBuffer) (c : List Nat) (hl : Loaded b c)
    (herr : b.m_Error = ⟨false, false⟩) (h0 : 0 ≤ b.m_Get) :
    (b.IsText = true →
      b.PeekStringLength =
        some ((if (c.drop b.m_Get.toNat).dropWhile V_isspace = [] then 0
          else 1 + ((((c.drop b.m_Get.toNat).dropWhile V_isspace).takeWhile
            (fun x => !(V_isspace x || x == 0))).length : Int)), b)) ∧
    (b.IsText = false →
      b.PeekStringLength =
        some ((if b.m_nMaxPut ≤ b.m_Get then 0
          else 1 + (((c.drop b.m_Get.toNat).takeWhile (fun x => !(x == 0))).length : Int)), b)) :=
  PeekStringLength_loaded b c hl herr h0

theorem C28_PeekStringLength_counts_witness :
    ((wholeText keyValueText).IsText = true →
      (wholeText keyValueText).PeekStringLength =
        some ((if (keyValueText.drop (wholeText keyValueText).m_Get.toNat).dropWhile V_isspace = []
          then 0
          else 1 + ((((keyValueText.drop (wholeText keyValueText).m_Get.toNat).dropWhile
            V_isspace).takeWhile (fun x => !(V_isspace x || x == 0))).length : Int)),
          wholeText keyValueText)) ∧
    ((wholeText keyValueText).IsText = false →
      (wholeText keyValueText).PeekStringLength =
        some ((if (wholeText keyValueText).m_nMaxPut ≤ (wholeText keyValueText).m_Get then 0
          else 1 + (((keyValueText.drop (wholeText keyValueText).m_Get.toNat).takeWhile
            (fun x => !(x == 0))).length : Int)), wholeText keyValueText)) :=
  C28_PeekStringLength_counts (wholeText keyValueText) keyValueText
    ⟨by decide, by decide, by decide⟩ (by decide) (by decide)

/-! ## C30: the length of the delimited string to come -/

/-- Matching a one-byte pattern against the byte at an offset from the start of a
materialised buffer. -/
theorem peekMatch_at {b : CUtlBuffer} {e : List Nat} (h : Loaded b e)
    (herr : b.m_Error.GET_OVERFLOW = false) (hg : b.m_Get = 0) (pre post : List Nat) (x d : Nat)
    (he : e = pre ++ x :: post) (hx : x ≠ 0) (hd : d ≠ 0) :
    b.PeekStringMatch (pre.length : Int) [d] 1 = (decide (x = d), b) := by
  obtain ⟨tail, hp⟩ := CUtlBuffer.PeekGetPtr_loaded h (pre.length : Int) (by omega)
    (by rw [hg, he]; simp only [List.length_append, List.length_cons]; push_cast; omega)
  have hidx : (b.m_Get + (pre.length : Int)).toNat = pre.length := by omega
  rw [hidx, he, List.drop_left] at hp
  unfold CUtlBuffer.PeekStringMatch
  rw [CUtlBuffer.CheckPeekGet_loaded h _ 1 herr (by omega)
    (by rw [hg, he]; simp only [List.length_append, List.length_cons]; push_cast; omega)]
  simp only [hp, V_strncmp_eq, cstr, List.cons_append, List.takeWhile_cons, bne_iff_ne, ne_eq, hx,
    not_false_eq_true, decide_True, if_true, hd, List.takeWhile_nil, Int.toNat_one,
    List.take_succ_cons, List.take_zero, Prod.mk.injEq, and_true]
  by_cases hxd : x = d <;> simp [hxd]

/-- The peek loop walks over the rest of an encoded string up to the closing delimiter,
counting one per encoded character and moving the offset over its bytes. -/
theorem peekDelimitedLoop_spec (cv : CUtlCharConversion) (d : Nat)
    (hdel : cv.GetDelimiter = [d]) (hdl : cv.GetDelimiterLength = 1) (hd0 : d ≠ 0)
    (b : CUtlBuffer) (e : List Nat) (h : Loaded b e) (herr : b.m_Error.GET_OVERFLOW = false)
    (hg : b.m_Get = 0) (rest : List Nat) :
    ∀ (pre : List Nat) (nLen : Int) (fuel : Nat),
      e = pre ++ (rest.flatMap (encodeChar cv) ++ [d]) →
      (∀ c ∈ rest, CharOk cv d c) → rest.length < fuel →
      CUtlBuffer.peekDelimitedLoop cv fuel b nLen (pre.length : Int) =
        some ((nLen + (rest.length : Int),
          (pre.length : Int) + ((rest.flatMap (encodeChar cv)).length : Int)), b) := by
  induction rest with
  | nil =>
    intro pre nLen fuel he _ hfuel
    obtain ⟨k, rfl⟩ : ∃ k, fuel = k + 1 := ⟨fuel - 1, by simp at hfuel; omega⟩
    simp only [List.flatMap_nil, List.nil_append] at he
    unfold CUtlBuffer.peekDelimitedLoop
    rw [hdel, hdl, peekMatch_at h herr hg pre [] d d he hd0 hd0]
    simp
  | cons c rest ih =>
    intro pre nLen fuel he hs hfuel
    obtain ⟨k, rfl⟩ : ∃ k, fuel = k + 1 := ⟨fuel - 1, by omega⟩
    simp only [List.flatMap_cons, List.append_assoc] at he
    simp only [List.length_cons] at hfuel
    obtain ⟨hc0, hcase⟩ := hs c (List.mem_cons_self _ _)
    have hrest : ∀ x ∈ rest, CharOk cv d x := fun x hx => hs x (List.mem_cons_of_mem _ hx)
    unfold CUtlBuffer.peekDelimitedLoop
    rw [hdel, hdl]
    rcases hcase with ⟨hl, hcd, hce⟩ | ⟨hl, hlen, hmax, hed, he0, hfind⟩
    · have henc : encodeChar cv c = [c] := by simp [encodeChar, hl]
      rw [henc] at he
      simp only [List.singleton_append] at he
      rw [peekMatch_at h herr hg pre _ c d he hc0 hd0]
      simp only [hcd, decide_False]
      rw [CUtlBuffer.CheckPeekGet_loaded h _ 1 herr (by omega)
        (by rw [hg, he]; simp only [List.length_append, List.length_cons]; push_cast; omega)]
      simp only
      obtain ⟨tail, hp⟩ := CUtlBuffer.PeekGetPtr_loaded h (pre.length : Int) (by omega)
        (by rw [hg, he]; simp only [List.length_append, List.length_cons]; push_cast; omega)
      have hidx : (b.m_Get + (pre.length : Int)).toNat = pre.length := by omega
      rw [hidx, he, List.drop_left] at hp
      rw [hp]
      simp only [List.cons_append, deref, List.headD_cons]
      rw [if_neg hce]
      have hih := ih (pre ++ [c]) (nLen + 1) k (by rw [he]; simp) hrest (by omega)
      simp only [List.length_append, List.length_singleton, Nat.cast_add, Nat.cast_one] at hih
      rw [hih]
      simp only [List.flatMap_cons, henc, List.length_append, List.length_singleton,
        List.length_cons, List.length_nil, Nat.cast_add, Nat.cast_one, Nat.cast_zero,
        Option.some.injEq, Prod.mk.injEq, and_true]
      constructor <;> omega
    · have hl0 : cv.GetConversionLength c ≠ 0 := by omega
      have henc : encodeChar cv c = cv.GetEscapeChar :: cv.GetConversionString c := by
        simp [encodeChar, hl0]
      rw [henc] at he
      simp only [List.cons_append, List.append_assoc] at he
      rw [peekMatch_at h herr hg pre _ cv.GetEscapeChar d he he0 hd0]
      simp only [hed, decide_False]
      rw [CUtlBuffer.CheckPeekGet_loaded h _ 1 herr (by omega)
        (by rw [hg, he]; simp only [List.length_append, List.length_cons]; push_cast; omega)]
      simp only
      obtain ⟨tail, hp⟩ := CUtlBuffer.PeekGetPtr_loaded h (pre.length : Int) (by omega)
        (by rw [hg, he]; simp only [List.length_append, List.length_cons]; push_cast; omega)
      have hidx : (b.m_Get + (pre.length : Int)).toNat = pre.length := by omega
      rw [hidx, he, List.drop_left] at hp
      rw [hp]
      simp only [List.cons_append, deref, List.headD_cons, if_true]
      have hlen_e : (e.length : Int) = (pre.length : Int) + 1 +
          ((cv.GetConversionString c).length : Int) +
          (((rest.flatMap (encodeChar cv)).length : Int) + 1) := by
        rw [he]
        simp only [List.length_append, List.length_cons, List.length_nil]
        push_cast
        omega
      rw [CheckArbitraryPeekGet_loaded h herr (by omega) _ _ hmax (by omega) (by omega)]
      simp only
      obtain ⟨tail2, hp2⟩ := CUtlBuffer.PeekGetPtr_loaded h ((pre.length : Int) + 1) (by omega)
        (by omega)
      have hidx2 : (b.m_Get + ((pre.length : Int) + 1)).toNat = (pre ++ [cv.GetEscapeChar]).length := by
        simp only [List.length_append, List.length_singleton]
        omega
      have he2 : e = (pre ++ [cv.GetEscapeChar]) ++
          (cv.GetConversionString c ++ (rest.flatMap (encodeChar cv) ++ [d])) := by
        rw [he]
        simp
      rw [hidx2] at hp2
      rw [he2, List.drop_left] at hp2
      rw [hp2, List.append_assoc, hfind]
      simp only
      have hih := ih (pre ++ cv.GetEscapeChar :: cv.GetConversionString c) (nLen + 1) k
        (by rw [he]; simp) hrest (by omega)
      simp only [List.length_append, List.length_cons, Nat.cast_add, Nat.cast_one] at hih
      rw [show (pre.length : Int) + 1 + cv.GetConversionLength c =
        (pre.length : Int) + (((cv.GetConversionString c).length : Int) + 1) by omega, hih]
      simp only [List.flatMap_cons, henc, List.length_append, List.length_cons, Nat.cast_add,
        Nat.cast_one, Option.some.injEq, Prod.mk.injEq, and_true]
      constructor <;> omega

/-- The two length peeks over an encoded string at the start of a readable buffer: the
decoded length plus one, and the encoded span plus one. -/
theorem PeekDelimitedStringLength_encoded {b : CUtlBuffer} (cv : CUtlCharConversion) (d : Nat)
    (s : List Nat) (h : Readable b (encodeString cv s)) (hg : b.m_Get = 0)
    (hdel : cv.GetDelimiter = [d]) (hdl : cv.GetDelimiterLength = 1) (hd0 : d ≠ 0)
    (hsp : V_isspace d = false) (hs : ∀ c ∈ s, CharOk cv d c) (bActualSize : Bool) :
    b.PeekDelimitedStringLength (some cv) bActualSize =
      some (if bActualSize then (s.length : Int) + 1
        else ((encodeString cv s).length : Int) + 1, b) := by
  have he : encodeString cv s = [] ++ d :: (s.flatMap (encodeChar cv) ++ [d]) := by
    simp [encodeString, hdel]
  have hlen := length_le_flatMap_encodeChar cv s
  have hel : ((encodeString cv s).length : Int) =
      ((s.flatMap (encodeChar cv)).length : Int) + 2 := by
    rw [he]
    simp only [List.nil_append, List.length_cons, List.length_append, List.length_nil]
    push_cast
    ring
  unfold CUtlBuffer.PeekDelimitedStringLength
  simp only [h.isText, not_true_eq_false, if_false]
  unfold CUtlBuffer.PeekWhiteSpace
  rw [if_neg (by simp [h.isText, h.isValid])]
  have hws := peekWhiteSpaceLoop_loaded h.loaded h.getErr 0 (by simpa using hg)
    ((b.m_nMaxPut - b.m_Get - 0).toNat + 1) 0
    (by
      simp only [List.length_drop, add_zero]
      have := h.loaded.maxPut
      omega)
  have htw : ((encodeString cv s).takeWhile V_isspace).length = 0 := by
    rw [he]
    simp [List.takeWhile, hsp]
  simp only [Nat.cast_zero, add_zero, List.drop_zero, htw] at hws
  rw [hws]
  simp only [hdel, hdl]
  have hm := peekMatch_at h.loaded h.getErr hg [] _ d d he hd0 hd0
  simp only [List.length_nil, Nat.cast_zero, decide_True] at hm
  rw [hm]
  simp only
  have hloop := peekDelimitedLoop_spec cv d hdel hdl hd0 b _ h.loaded h.getErr hg s [d] 1
    ((b.m_nMaxPut - b.m_Get - 0).toNat + 1) (by simpa using he) hs
    (by
      have := h.loaded.maxPut
      omega)
  simp only [List.length_singleton, Nat.cast_one] at hloop
  rw [zero_add, hloop]
  simp only [Option.some.injEq, Prod.mk.injEq, and_true]
  cases bActualSize with
  | true => simp only [if_true]; omega
  | false => simp only [Bool.false_eq_true, if_false]; omega

/-- C30: for the C-string conversion table and every NUL-free byte string `s`, on a fresh
text-mode buffer `PutDelimitedString (conv, s)` returns a buffer with `get_pos = 0` on which
`PeekDelimitedStringLength (conv, true)` returns `len s + 1` and
`PeekDelimitedStringLength (conv, false)` returns `put_pos + 1`, both leaving the buffer as
it was; and `GetDelimitedString` with room for `s` then decodes `len s` characters and
moves `get_pos` by `put_pos` bytes, so the two answers are 1 + the number of characters
decoded and 1 + the number of bytes consumed. -/
theorem C30_peek_delimited_lengths (s : List Nat) (growSize initSize : Int)
    (nFlags : BufferFlags_t) (uninit : Nat) (hs : ∀ c ∈ s, c ≠ 0 ∧ c < 256)
    (hg : 0 ≤ growSize) (htext : nFlags.TEXT_BUFFER = true) (hro : nFlags.READ_ONLY = false) :
    ∃ b1 : CUtlBuffer,
      (CUtlBuffer.new growSize initSize nFlags uninit).PutDelimitedString
        (some GetCStringCharConversion) (some s) = some b1 ∧
      b1.m_Get = 0 ∧
      b1.PeekDelimitedStringLength (some GetCStringCharConversion) true =
        some ((s.length : Int) + 1, b1) ∧
      b1.PeekDelimitedStringLength (some GetCStringCharConversion) false =
        some (b1.m_Put + 1, b1) ∧
      ∀ (dst : List Nat) (cap : Int), (s.length : Int) < cap → cap ≤ (dst.length : Int) →
        ∃ (b2 : CUtlBuffer) (dst1 : List Nat),
          b1.GetDelimitedString (some GetCStringCharConversion) dst cap = some (b2, dst1) ∧
          cstr dst1 = s ∧
          ((cstr dst1).length : Int) + 1 = (s.length : Int) + 1 ∧
          (b2.m_Get - b1.m_Get) + 1 = b1.m_Put + 1 := by
  have hok : ∀ c ∈ s, CharOk s_StringCharConversion 34 c :=
    fun c hc => cstring_charOk c (hs c hc).1 (hs c hc).2
  obtain ⟨hw0, hget0, herr0, hfl0, htab0, hgf0⟩ :=
    CUtlBuffer.new_writable growSize initSize nFlags uninit hg hro
  have hs0 : ∀ c ∈ s, c ≠ 0 := fun c hc => (hs c hc).1
  obtain ⟨b1, hput, hw1, f1⟩ := PutDelimitedString_writable hw0 htab0
    (by rw [hfl0]; exact htext) s_StringCharConversion rfl s hs0
    (by
      intro c hc
      rcases (hok c hc).2 with ⟨hl, _⟩ | ⟨_, hlen, _⟩
      · exact Or.inl hl
      · exact Or.inr hlen)
  rw [List.nil_append] at hw1
  have hr1 : Readable b1 (encodeString s_StringCharConversion s) :=
    ⟨CUtlBuffer.loaded_of_writable hw1, f1.error.trans herr0, f1.getFunc.trans hgf0,
      by rw [f1.flags, hfl0]; exact htext⟩
  have hg1 : b1.m_Get = 0 := f1.get.trans hget0
  have hpk := fun a => PeekDelimitedStringLength_encoded s_StringCharConversion 34 s hr1 hg1
    rfl rfl (by decide) rfl hok a
  refine ⟨b1, hput, hg1, ?_, ?_, ?_⟩
  · exact hpk true
  · rw [show GetCStringCharConversion = s_StringCharConversion from rfl, hpk false, hw1.put]
    rfl
  · intro dst cap hcap hdst
    have hdec := GetDelimitedString_decodes s_StringCharConversion 34 s dst cap hr1 hg1 rfl rfl
      (by decide) rfl hok hcap hdst
    have hc : cstr (s ++ 0 :: dst.drop (s.length + 1)) = s := by
      rw [cstr_append_of_nonzero s _ hs0]
      simp [cstr]
    refine ⟨_, _, hdec, hc, by rw [hc], ?_⟩
    simp only [CUtlBuffer.atGet_get, hg1, hw1.put, sub_zero]

theorem C30_peek_delimited_lengths_witness :
    ∃ b1 : CUtlBuffer,
      (CUtlBuffer.new 0 0 ⟨true, false, false, false, false⟩ 205).PutDelimitedString
        (some GetCStringCharConversion) (some [97, 10, 34, 92, 9, 200]) = some b1 ∧
      b1.m_Get = 0 ∧
      b1.PeekDelimitedStringLength (some GetCStringCharConversion) true =
        some ((([97, 10, 34, 92, 9, 200] : List Nat).length : Int) + 1, b1) ∧
      b1.PeekDelimitedStringLength (some GetCStringCharConversion) false =
        some (b1.m_Put + 1, b1) ∧
      ∀ (dst : List Nat) (cap : Int),
        (([97, 10, 34, 92, 9, 200] : List Nat).length : Int) < cap → cap ≤ (dst.length : Int) →
        ∃ (b2 : CUtlBuffer) (dst1 : List Nat),
          b1.GetDelimitedString (some GetCStringCharConversion) dst cap = some (b2, dst1) ∧
          cstr dst1 = [97, 10, 34, 92, 9, 200] ∧
          ((cstr dst1).length : Int) + 1 = (([97, 10, 34, 92, 9, 200] : List Nat).length : Int) + 1 ∧
          (b2.m_Get - b1.m_Get) + 1 = b1.m_Put + 1 :=
  C30_peek_delimited_lengths [97, 10, 34, 92, 9, 200] 0 0 ⟨true, false, false, false, false⟩ 205
    (by decide) (by decide) rfl rfl

/-! ## C25: the terminator after the high-water mark -/

/-- Bytes copied into a region leave the bytes after them alone. -/
theorem memcpyAt_drop_after (mem src : List Nat) (i n : Nat) (hn : n ≤ src.length)
    (hfit : i + n ≤ mem.length) (j : Nat) (hj : i + n ≤ j) :
    (memcpyAt mem (i : Int) src (n : Int)).drop j = mem.drop j := by
  have h1 : (mem.take i).length = i := by simp; omega
  have h2 : (src.take n).length = n := by simp; omega
  simp only [memcpyAt, memcpy, Int.toNat_ofNat, h2]
  rw [List.drop_append_eq_append_drop, List.drop_eq_nil_of_le (by omega), List.nil_append, h1,
    List.drop_append_eq_append_drop, List.drop_eq_nil_of_le (by omega), List.nil_append, h2,
    List.drop_drop, List.drop_drop]
  congr 1
  omega

theorem get?_of_drop_eq (l1 l2 : List Nat) (j : Nat) (h : l1.drop j = l2.drop j) :
    l1.get? j = l2.get? j := by
  have := congrArg List.head? h
  simpa [List.head?_drop] using this

theorem get?_storeAt (mem : List Nat) (i : Nat) (h : i < mem.length) :
    (storeAt mem (i : Int) 0).get? i = some 0 := by
  simp [storeAt, h]

/-- The terminator bookkeeping on owned writable storage: nothing happens at or below the
high-water mark; above it the storage is grown as needed, a 0 is stored under the put
cursor and the mark moves there. -/
theorem AddNullTermination_mark (b : CUtlBuffer) (he : b.m_Error.PUT_OVERFLOW = false)
    (hr : b.m_Flags.READ_ONLY = false) (hg : 0 ≤ b.m_Memory.m_nGrowSize) (ho : b.m_nOffset = 0)
    (hp0 : 0 ≤ b.m_Put) :
    (b.m_Put ≤ b.m_nMaxPut → b.AddNullTermination b.m_Put = b) ∧
    (b.m_nMaxPut < b.m_Put →
      ∃ m1 : CUtlMemory,
        b.AddNullTermination b.m_Put = { b with m_Memory := m1, m_nMaxPut := b.m_Put } ∧
        m1.m_nGrowSize = b.m_Memory.m_nGrowSize ∧ m1.m_pMemory.get? b.m_Put.toNat = some 0) := by
  constructor
  · intro h
    unfold CUtlBuffer.AddNullTermination
    rw [if_neg (by omega)]
  · intro h
    obtain ⟨m2, hc2, ⟨k2, hk2⟩, hlen⟩ := CUtlBuffer.CheckPut_owned b 1 he hr hg
    have hlen2 := hlen (by omega)
    obtain ⟨p, hp⟩ := Int.eq_ofNat_of_zero_le hp0
    obtain ⟨⟨bytes, gs, un⟩, g, put, e, f, tab, mp, off, gf, pf⟩ := b
    simp only at he hr hg ho hp h hc2 hk2 hlen2
    subst ho hp
    unfold CUtlBuffer.AddNullTermination
    rw [if_pos (by simpa using h)]
    rw [if_pos (by simp [CUtlBuffer.IsReadOnly, hr, he])]
    rw [hc2]
    simp only [sub_zero]
    refine ⟨{ m2 with m_pMemory := storeAt m2.m_pMemory (p : Int) 0 }, rfl, ?_, ?_⟩
    · rw [hk2]
    · simp only [Int.toNat_ofNat]
      exact get?_storeAt _ _ (by omega)

/-- A put of bytes its source holds keeps a terminated buffer terminated, advances the put
cursor by the size, raises the high-water mark to the new cursor when that is larger, and
when it ends at or below the mark leaves the bytes from the mark on alone. -/
theorem Put_terminated {b : CUtlBuffer} (h : Terminated b) (src : List Nat) (size : Int)
    (h0 : 0 ≤ size) (hs : size ≤ (src.length : Int)) :
    Terminated (b.Put src size) ∧ (b.Put src size).m_Put = b.m_Put + size ∧
    (b.Put src size).m_nMaxPut = max b.m_nMaxPut (b.m_Put + size) ∧
    (b.m_Put + size ≤ b.m_nMaxPut →
      (b.Put src size).m_Memory.m_pMemory.drop b.m_nMaxPut.toNat =
        b.m_Memory.m_pMemory.drop b.m_nMaxPut.toNat) := by
  by_cases hz : size = 0
  · subst hz
    have hput : b.Put src 0 = b := by simp [CUtlBuffer.Put]
    rw [hput]
    refine ⟨h, by omega, ?_, fun _ => rfl⟩
    rw [add_zero, max_eq_left h.putHi]
  · obtain ⟨n, hn⟩ := Int.eq_ofNat_of_zero_le h0
    obtain ⟨p, hp⟩ := Int.eq_ofNat_of_zero_le h.putLo
    obtain ⟨m1, hc1, ⟨k1, hk1⟩, hlen⟩ := CUtlBuffer.CheckPut_owned b size h.noPutErr h.writable h.owned
    have hlen1 := hlen (by rw [h.offset]; exact h.putLo)
    obtain ⟨he, hr, hg, ho, hp0, hph, hmark⟩ := h
    obtain ⟨⟨bytes, gs, un⟩, g, put, e, f, tab, mp, off, gf, pf⟩ := b
    simp only at he hr hg ho hp0 hph hmark hc1 hk1 hlen1 hp
    subst ho hp hn hk1
    simp only [sub_zero, List.length_append, List.length_replicate] at hlen1
    by_cases hin : (p : Int) + (n : Int) ≤ mp
    · have hmp0 : mp ≠ 0 := by omega
      have hget : bytes.get? mp.toNat = some 0 := by
        rcases hmark with h1 | h1
        · exact absurd h1 hmp0
        · exact h1
      have hlt : mp.toNat < bytes.length := by
        rw [List.get?_eq_some] at hget
        exact hget.1
      have hck : (CUtlBuffer.mk ⟨bytes, gs, un⟩ g (p : Int) e f tab mp 0 gf pf).CheckPut (n : Int) =
          (true, CUtlBuffer.mk ⟨bytes, gs, un⟩ g (p : Int) e f tab mp 0 gf pf) := by
        unfold CUtlBuffer.CheckPut
        rw [if_neg (by simp [he, CUtlBuffer.IsReadOnly, hr])]
        rw [if_neg (by simp only [CUtlMemory.NumAllocated, sub_zero]; omega)]
      unfold CUtlBuffer.Put
      rw [if_pos hz, hck]
      simp only [sub_zero]
      have hadd := (AddNullTermination_mark
        (CUtlBuffer.mk ⟨memcpyAt bytes (p : Int) src (n : Int), gs, un⟩ g ((p : Int) + (n : Int)) e f
          tab mp 0 gf pf) he hr hg rfl (by simp only; omega)).1 hin
      simp only at hadd
      rw [hadd]
      have hdrop := memcpyAt_drop_after bytes src p n (by omega) (by omega) mp.toNat (by omega)
      refine ⟨⟨he, hr, hg, rfl, by simp only; omega, hin, Or.inr ?_⟩, rfl, ?_, fun _ => hdrop⟩
      · simp only
        rw [get?_of_drop_eq _ _ _ hdrop]
        exact hget
      · simp only
        rw [max_eq_left hin]
    · unfold CUtlBuffer.Put
      rw [if_pos hz, hc1]
      simp only [sub_zero]
      obtain ⟨m3, h3, hg3, hz3⟩ := (AddNullTermination_mark
        (CUtlBuffer.mk ⟨memcpyAt (bytes ++ List.replicate k1 un) (p : Int) src (n : Int), gs, un⟩ g
          ((p : Int) + (n : Int)) e f tab mp 0 gf pf) he hr hg rfl (by simp only; omega)).2
        (by simp only; omega)
      simp only at h3 hg3 hz3
      rw [h3]
      refine ⟨⟨he, hr, by simpa [hg3] using hg, rfl, by simp only; omega, le_refl _,
        Or.inr hz3⟩, rfl, ?_, fun hc => absurd hc hin⟩
      simp only
      rw [max_eq_right (by omega)]

/-- A put seek in terms of the position it asks for. -/
theorem SeekPut_seekPos (b : CUtlBuffer) (type : SeekType_t) (offset : Int) :
    b.SeekPut type offset =
      ({ (b.OnPutOverflow (-(seekPos b.m_Put b.m_nMaxPut type offset) - 1)).2 with
          m_Put := seekPos b.m_Put b.m_nMaxPut type offset } : CUtlBuffer).AddNullTermination
        (seekPos b.m_Put b.m_nMaxPut type offset) := by
  cases type <;> rfl

/-- A put seek to a non-negative position keeps a terminated buffer terminated, places the
put cursor there and raises the high-water mark to it when that is larger. -/
theorem SeekPut_terminated {b : CUtlBuffer} (h : Terminated b) (type : SeekType_t) (offset : Int)
    (h0 : 0 ≤ seekPos b.m_Put b.m_nMaxPut type offset) :
    Terminated (b.SeekPut type offset) ∧
    (b.SeekPut type offset).m_Put = seekPos b.m_Put b.m_nMaxPut type offset ∧
    (b.SeekPut type offset).m_nMaxPut =
      max b.m_nMaxPut (seekPos b.m_Put b.m_nMaxPut type offset) := by
  obtain ⟨he, hr, hg, ho, hp0, hph, hmark⟩ := h
  obtain ⟨⟨bytes, gs, un⟩, g, put, e, f, tab, mp, off, gf, pf⟩ := b
  simp only at he hr hg ho hp0 hph hmark h0
  subst ho
  have hgs : ¬ (gs < 0) := by omega
  rw [SeekPut_seekPos]
  simp only
  generalize seekPos put mp type offset = q at h0 ⊢
  cases pf
  simp only [CUtlBuffer.OnPutOverflow, CUtlBuffer.PutOverflow, CUtlMemory.IsExternallyAllocated,
    hgs, decide_False, Bool.false_eq_true, false_and, if_false, sub_zero]
  obtain ⟨k, hk⟩ := CUtlMemory.growLoop_extends (put + (-q - 1)).toNat ⟨bytes, gs, un⟩
    (put + (-q - 1))
  rw [hk]
  simp only
  have hmark2 : mp = 0 ∨ (bytes ++ List.replicate k un).get? mp.toNat = some 0 := by
    rcases hmark with h1 | h1
    · exact Or.inl h1
    · right
      have hlt : mp.toNat < bytes.length := by
        rw [List.get?_eq_some] at h1
        exact h1.1
      rw [List.get?_eq_getElem?] at h1 ⊢
      rw [List.getElem?_append_left hlt]
      exact h1
  by_cases hin : q ≤ mp
  · have hadd := (AddNullTermination_mark
      (CUtlBuffer.mk ⟨bytes ++ List.replicate k un, gs, un⟩ g q e f tab mp 0 gf
        .PutOverflow) he hr hg rfl h0).1 hin
    simp only at hadd
    rw [hadd]
    refine ⟨⟨he, hr, hg, rfl, h0, hin, hmark2⟩, rfl, ?_⟩
    simp only
    rw [max_eq_left hin]
  · obtain ⟨m3, h3, hg3, hz3⟩ := (AddNullTermination_mark
      (CUtlBuffer.mk ⟨bytes ++ List.replicate k un, gs, un⟩ g q e f tab mp 0 gf
        .PutOverflow) he hr hg rfl h0).2 (by simp only; omega)
    simp only at h3 hg3 hz3
    rw [h3]
    refine ⟨⟨he, hr, by simpa [hg3] using hg, rfl, h0, le_refl _, Or.inr hz3⟩, rfl, ?_⟩
    simp only
    rw [max_eq_right (by omega)]

/-- A freshly constructed owned writable buffer is terminated, with its put cursor and
high-water mark at 0. -/
theorem new_terminated (growSize initSize : Int) (nFlags : BufferFlags_t) (uninit : Nat)
    (hg : 0 ≤ growSize) (hro : nFlags.READ_ONLY = false) :
    Terminated (CUtlBuffer.new growSize initSize nFlags uninit) ∧
    (CUtlBuffer.new growSize initSize nFlags uninit).m_Put = 0 ∧
    (CUtlBuffer.new growSize initSize nFlags uninit).m_nMaxPut = 0 := by
  unfold CUtlBuffer.new
  simp only [CUtlBuffer.IsReadOnly, hro]
  split
  · obtain ⟨m3, h3, hg3, hz3⟩ := (AddNullTermination_mark
      ({ m_Memory := CUtlMemory.Init growSize initSize uninit, m_Get := 0, m_Put := 0,
         m_Error := ⟨false, false⟩, m_Flags := nFlags, m_nTab := 0, m_nMaxPut := -1, m_nOffset := 0,
         m_GetOverflowFunc := .GetOverflow, m_PutOverflowFunc := .PutOverflow } : CUtlBuffer)
      rfl hro hg rfl (le_refl _)).2 (by show (-1 : Int) < 0; omega)
    simp only at h3 hg3 hz3
    rw [h3]
    exact ⟨⟨rfl, hro, by simpa [hg3, CUtlMemory.Init] using hg, rfl, le_refl _, le_refl _,
      Or.inl rfl⟩, rfl, rfl⟩
  · exact ⟨⟨rfl, hro, hg, rfl, le_refl _, le_refl _, Or.inl rfl⟩, rfl, rfl⟩

/-- A session whose operations stay inside the storage model keeps a terminated buffer
terminated and leaves the high-water mark at the largest position asked for. -/
theorem runOps_terminated : ∀ (ops : List PutOp) (b : CUtlBuffer), Terminated b →
    OpsInRange b.m_Put b.m_nMaxPut ops →
    Terminated (b.runOps ops) ∧
    (b.runOps ops).m_nMaxPut = (cursors b.m_Put b.m_nMaxPut ops).foldl max b.m_nMaxPut := by
  intro ops
  induction ops with
  | nil => intro b h _; exact ⟨h, rfl⟩
  | cons op rest ih =>
    intro b h hops
    obtain ⟨hop, hrest⟩ := hops
    have hstep : Terminated (op.run b) ∧ (op.run b).m_Put = op.cursor b.m_Put b.m_nMaxPut ∧
        (op.run b).m_nMaxPut = max b.m_nMaxPut (op.cursor b.m_Put b.m_nMaxPut) := by
      cases op with
      | put pMem size =>
        obtain ⟨h1, h2, h3, _⟩ := Put_terminated h pMem size hop.1 hop.2
        exact ⟨h1, h2, h3⟩
      | seekPut type offset => exact SeekPut_terminated h type offset hop
    obtain ⟨h1, h2, h3⟩ := hstep
    have := ih (op.run b) h1 (by rw [h2, h3]; exact hrest)
    rw [h2, h3] at this
    exact this

/-- C25: for every buffer freshly constructed over owned storage and writable, and every
sequence of `Put` and `SeekPut` operations that stays inside the storage model (each put
copies a non-negative number of bytes its source holds, each seek asks for a non-negative
position): after the sequence PUT_OVERFLOW is clear, `max_put` is the largest put position
the sequence asked for, and when `max_put > 0` the storage byte at index
`max_put - window_base` is 0, a byte not counted in `max_put`; and a further `Put` that
ends at or before `max_put` leaves every storage byte from index `max_put - window_base` on,
and `max_put` itself, as they were. -/
theorem C25_terminator_after_high_water (growSize initSize : Int) (nFlags : BufferFlags_t)
    (uninit : Nat) (ops : List PutOp) (hg : 0 ≤ growSize) (hro : nFlags.READ_ONLY = false)
    (hops : OpsInRange 0 0 ops) :
    ((CUtlBuffer.new growSize initSize nFlags uninit).runOps ops).m_Error.PUT_OVERFLOW = false ∧
    ((CUtlBuffer.new growSize initSize nFlags uninit).runOps ops).TellMaxPut =
      (cursors 0 0 ops).foldl max 0 ∧
    (0 < ((CUtlBuffer.new growSize initSize nFlags uninit).runOps ops).m_nMaxPut →
      ((CUtlBuffer.new growSize initSize nFlags uninit).runOps ops).m_Memory.m_pMemory.get?
          (((CUtlBuffer.new growSize initSize nFlags uninit).runOps ops).m_nMaxPut -
            ((CUtlBuffer.new growSize initSize nFlags uninit).runOps ops).m_nOffset).toNat =
        some 0) ∧
    ∀ (src : List Nat) (size : Int), 0 ≤ size → size ≤ (src.length : Int) →
      ((CUtlBuffer.new growSize initSize nFlags uninit).runOps ops).m_Put + size ≤
        ((CUtlBuffer.new growSize initSize nFlags uninit).runOps ops).m_nMaxPut →
      ((((CUtlBuffer.new growSize initSize nFlags uninit).runOps ops).Put src
          size).m_Memory.m_pMemory.drop
          (((CUtlBuffer.new growSize initSize nFlags uninit).runOps ops).m_nMaxPut -
            ((CUtlBuffer.new growSize initSize nFlags uninit).runOps ops).m_nOffset).toNat =
        ((CUtlBuffer.new growSize initSize nFlags uninit).runOps ops).m_Memory.m_pMemory.drop
          (((CUtlBuffer.new growSize initSize nFlags uninit).runOps ops).m_nMaxPut -
            ((CUtlBuffer.new growSize initSize nFlags uninit).runOps ops).m_nOffset).toNat) ∧
      (((CUtlBuffer.new growSize initSize nFlags uninit).runOps ops).Put src size).m_nMaxPut =
        ((CUtlBuffer.new growSize initSize nFlags uninit).runOps ops).m_nMaxPut ∧
      (((CUtlBuffer.new growSize initSize nFlags uninit).runOps ops).Put src
        size).m_Error.PUT_OVERFLOW = false := by
  obtain ⟨h0, hp0, hm0⟩ := new_terminated growSize initSize nFlags uninit hg hro
  obtain ⟨ht, hmax⟩ := runOps_terminated ops _ h0 (by rw [hp0, hm0]; exact hops)
  rw [hp0, hm0] at hmax
  generalize (CUtlBuffer.new growSize initSize nFlags uninit).runOps ops = b at ht hmax ⊢
  refine ⟨ht.noPutErr, hmax, ?_, ?_⟩
  · intro hpos
    rw [ht.offset, sub_zero]
    rcases ht.mark with h1 | h1
    · omega
    · exact h1
  · intro src size hs0 hs1 hin
    obtain ⟨h1, _, h3, h4⟩ := Put_terminated ht src size hs0 hs1
    rw [ht.offset, sub_zero]
    refine ⟨h4 hin, ?_, h1.noPutErr⟩
    rw [h3, max_eq_left hin]

theorem C25_terminator_after_high_water_witness :
    ((CUtlBuffer.new 0 0 ⟨false, false, false, false, false⟩ 205).runOps patchSession).m_Error.PUT_OVERFLOW = false ∧
    ((CUtlBuffer.new 0 0 ⟨false, false, false, false, false⟩ 205).runOps patchSession).TellMaxPut =
      (cursors 0 0 patchSession).foldl max 0 ∧
    (0 < ((CUtlBuffer.new 0 0 ⟨false, false, false, false, false⟩ 205).runOps patchSession).m_nMaxPut →
      ((CUtlBuffer.new 0 0 ⟨false, false, false, false, false⟩ 205).runOps patchSession).m_Memory.m_pMemory.get?
          (((CUtlBuffer.new 0 0 ⟨false, false, false, false, false⟩ 205).runOps patchSession).m_nMaxPut -
            ((CUtlBuffer.new 0 0 ⟨false, false, false, false, false⟩ 205).runOps patchSession).m_nOffset).toNat =
        some 0) ∧
    ∀ (src : List Nat) (size : Int), 0 ≤ size → size ≤ (src.length : Int) →
      ((CUtlBuffer.new 0 0 ⟨false, false, false, false, false⟩ 205).runOps patchSession).m_Put + size ≤
        ((CUtlBuffer.new 0 0 ⟨false, false, false, false, false⟩ 205).runOps patchSession).m_nMaxPut →
      ((((CUtlBuffer.new 0 0 ⟨false, false, false, false, false⟩ 205).runOps patchSession).Put src
          size).m_Memory.m_pMemory.drop
          (((CUtlBuffer.new 0 0 ⟨false, false, false, false, false⟩ 205).runOps patchSession).m_nMaxPut -
            ((CUtlBuffer.new 0 0 ⟨false, false, false, false, false⟩ 205).runOps patchSession).m_nOffset).toNat =
        ((CUtlBuffer.new 0 0 ⟨false, false, false, false, false⟩ 205).runOps patchSession).m_Memory.m_pMemory.drop
          (((CUtlBuffer.new 0 0 ⟨false, false, false, false, false⟩ 205).runOps patchSession).m_nMaxPut -
            ((CUtlBuffer.new 0 0 ⟨false, false, false, false, false⟩ 205).runOps patchSession).m_nOffset).toNat) ∧
      (((CUtlBuffer.new 0 0 ⟨false, false, false, false, false⟩ 205).runOps patchSession).Put src size).m_nMaxPut =
        ((CUtlBuffer.new 0 0 ⟨false, false, false, false, false⟩ 205).runOps patchSession).m_nMaxPut ∧
      (((CUtlBuffer.new 0 0 ⟨false, false, false, false, false⟩ 205).runOps patchSession).Put src
        size).m_Error.PUT_OVERFLOW = false :=
  C25_terminator_after_high_water 0 0 ⟨false, false, false, false, false⟩ 205 patchSession
    (by decide) rfl (by simp [patchSession, OpsInRange, PutOp.InRange, PutOp.cursor, seekPos])

/-! ## C24: the string splitter -/

/-- The string at an offset inside a NUL-terminated string is the rest of that string. -/
theorem cstr_drop : ∀ (p : List Nat) (k : Nat), k ≤ (cstr p).length →
    cstr (p.drop k) = (cstr p).drop k := by
  intro p
  induction p with
  | nil => intro k _; simp [cstr]
  | cons x p ih =>
    intro k hk
    cases k with
    | zero => rfl
    | succ k =>
      by_cases hx : x = 0
      · subst hx
        simp [cstr] at hk
      · have hc : cstr (x :: p) = x :: cstr p := by
          simp [cstr, List.takeWhile_cons, hx]
        rw [hc] at hk ⊢
        simp only [List.length_cons, Nat.add_le_add_iff_right] at hk
        simp only [List.drop_succ_cons]
        exact ih k hk

theorem cstr_nonzero (p : List Nat) : ∀ x ∈ cstr p, x ≠ 0 := by
  intro x hx
  have := List.mem_takeWhile_imp hx
  simpa using this

/-- The case-insensitive search answers the first position at which the pattern matches. -/
theorem findCI_first (t : List Nat) (ht : t ≠ []) (text : List Nat) :
    (findCI t text 0 = none ∧ ∀ j, ciPrefix t (text.drop j) = false) ∨
    (∃ i, findCI t text 0 = some i ∧ ciPrefix t (text.drop i) = true ∧
      i + t.length ≤ text.length ∧ ∀ j, j < i → ciPrefix t (text.drop j) = false) := by
  rcases findCI_spec t ht text 0 with ⟨h1, h2⟩ | ⟨i, h1, h2, h3⟩
  · left
    refine ⟨h1, fun j => ?_⟩
    cases hc : ciPrefix t (text.drop j) with
    | false => rfl
    | true => exact absurd ((ciPrefix_drop_iff t text j ht).mp hc) (h2 j)
  · right
    refine ⟨i, by simpa using h1, (ciPrefix_drop_iff t text i ht).mpr h2, h2.1, fun j hj => ?_⟩
    cases hc : ciPrefix t (text.drop j) with
    | false => rfl
    | true => exact absurd ((ciPrefix_drop_iff t text j ht).mp hc) (h3 j hj)

/-- The first element of a list that satisfies a test, found by its index. -/
theorem find?_of_first {α : Type} (p : α → Bool) : ∀ (l : List α) (i : Nat) (x : α),
    l.get? i = some x → p x = true → (∀ j y, j < i → l.get? j = some y → p y = false) →
    l.find? p = some x := by
  intro l
  induction l with
  | nil => intro i x h; simp at h
  | cons a l ih =>
    intro i x hget hp hbefore
    cases i with
    | zero =>
      simp only [List.get?_cons_zero, Option.some.injEq] at hget
      subst hget
      simp [List.find?, hp]
    | succ i =>
      have ha : p a = false := hbefore 0 a (by omega) rfl
      simp only [List.find?, ha]
      exact ih i x (by simpa using hget) hp
        (fun j y hj hy => hbefore (j + 1) y (by omega) (by simpa using hy))

/-- Passing the bytes of a separator. -/
theorem splitAux_skip (occurs : List Nat → List Nat → Bool) (seps : List (List Nat)) :
    ∀ (k : Nat) (r acc : List Nat),
    splitAux occurs seps r k acc = splitAux occurs seps (r.drop k) 0 acc := by
  intro k
  induction k with
  | zero => intro r acc; rfl
  | succ k ih =>
    intro r acc
    cases r with
    | nil => simp [splitAux]
    | cons x r =>
      simp only [splitAux, List.drop_succ_cons]
      exact ih r acc

/-- Walking over bytes at which no separator occurs gathers them. -/
theorem splitAux_walk (occurs : List Nat → List Nat → Bool) (seps : List (List Nat)) :
    ∀ (t : Nat) (r acc : List Nat), t ≤ r.length →
    (∀ j, j < t → seps.find? (fun sep => occurs sep (r.drop j)) = none) →
    splitAux occurs seps r 0 acc = splitAux occurs seps (r.drop t) 0 (acc ++ r.take t) := by
  intro t
  induction t with
  | zero => intro r acc _ _; simp
  | succ t ih =>
    intro r acc ht hno
    cases r with
    | nil => simp at ht
    | cons x r =>
      have h0 := hno 0 (by omega)
      simp only [List.drop_zero] at h0
      simp only [List.length_cons, Nat.add_le_add_iff_right] at ht
      rw [splitAux]
      simp only [h0, List.drop_succ_cons, List.take_succ_cons]
      rw [ih r (acc ++ [x]) ht (fun j hj => by
        have := hno (j + 1) (by omega)
        simpa using this)]
      simp

/-- Cutting at a separator occurrence. -/
theorem splitAux_cut (occurs : List Nat → List Nat → Bool) (seps : List (List Nat))
    (r acc sep : List Nat) (hr : r ≠ []) (hs : sep ≠ [])
    (hfind : seps.find? (fun s => occurs s r) = some sep) :
    splitAux occurs seps r 0 acc =
      flushToken acc ++ splitAux occurs seps (r.drop sep.length) 0 [] := by
  cases r with
  | nil => exact absurd rfl hr
  | cons x r =>
    rw [splitAux]
    simp only [hfind]
    rw [splitAux_skip]
    have hpos : 0 < sep.length := List.length_pos.mpr hs
    obtain ⟨n, hn⟩ : ∃ n, sep.length = n + 1 := ⟨sep.length - 1, by omega⟩
    rw [hn]
    simp

/-- When no separator occurs anywhere the rest of the text is one token. -/
theorem splitAux_end (occurs : List Nat → List Nat → Bool) (seps : List (List Nat))
    (r acc : List Nat)
    (hno : ∀ j, seps.find? (fun sep => occurs sep (r.drop j)) = none) :
    splitAux occurs seps r 0 acc = flushToken (acc ++ r) := by
  rw [splitAux_walk occurs seps r.length r acc (le_refl _) (fun j _ => hno j)]
  simp [splitAux]

/-- The separator scan keeps the earliest occurrence, and among equals the first listed. -/
theorem firstSeparatorLoop_spec (pCurPos : List Nat) :
    ∀ (rest done : List (List Nat)) (first : Option (Nat × Nat)),
    IsFirstSeparator (V_stristr pCurPos) done first →
    IsFirstSeparator (V_stristr pCurPos) (done ++ rest)
      (CSplitString.firstSeparatorLoop pCurPos rest done.length first) := by
  intro rest
  induction rest with
  | nil =>
    intro done first h
    simpa [CSplitString.firstSeparatorLoop] using h
  | cons sep rest ih =>
    intro done first h
    have hlen : (done ++ [sep]).length = done.length + 1 := by simp
    have hget : ∀ (j : Nat) (y : List Nat), (done ++ [sep]).get? j = some y →
        (j < done.length ∧ done.get? j = some y) ∨ (j = done.length ∧ y = sep) := by
      intro j y hy
      rw [List.get?_eq_getElem?] at hy
      by_cases hj : j < done.length
      · rw [List.getElem?_append_left hj] at hy
        exact Or.inl ⟨hj, by rw [List.get?_eq_getElem?]; exact hy⟩
      · rw [List.getElem?_append_right (by omega)] at hy
        have hj0 : j - done.length = 0 := by
          by_contra hne
          rw [List.getElem?_eq_none (by simp; omega)] at hy
          exact absurd hy (by simp)
        rw [hj0] at hy
        simp only [List.getElem?_cons_zero, Option.some.injEq] at hy
        exact Or.inr ⟨by omega, hy.symm⟩
    have hold : ∀ (j : Nat) (y : List Nat), done.get? j = some y →
        (done ++ [sep]).get? j = some y := by
      intro j y hy
      rw [List.get?_eq_getElem?] at hy ⊢
      have hj : j < done.length := by
        by_contra hne
        rw [List.getElem?_eq_none (by omega)] at hy
        exact absurd hy (by simp)
      rw [List.getElem?_append_left hj]
      exact hy
    have hnew : (done ++ [sep]).get? done.length = some sep := by
      rw [List.get?_eq_getElem?, List.getElem?_append_right (le_refl _)]
      simp
    have hnext : ∀ first1, IsFirstSeparator (V_stristr pCurPos) (done ++ [sep]) first1 →
        IsFirstSeparator (V_stristr pCurPos) (done ++ sep :: rest)
          (CSplitString.firstSeparatorLoop pCurPos rest (done.length + 1) first1) := by
      intro first1 h1
      have := ih (done ++ [sep]) first1 h1
      rw [hlen] at this
      simpa using this
    unfold CSplitString.firstSeparatorLoop
    cases hf : V_stristr pCurPos sep with
    | none =>
      simp only
      apply hnext
      cases first with
      | none =>
        intro y hy
        rcases List.mem_append.mp hy with h1 | h1
        · exact h y h1
        · simp only [List.mem_singleton] at h1
          rw [h1]
          exact hf
      | some it =>
        obtain ⟨i, t⟩ := it
        obtain ⟨sep0, h1, h2, h3⟩ := h
        refine ⟨sep0, hold i sep0 h1, h2, ?_⟩
        intro j y u hy hu
        rcases hget j y hy with ⟨_, hy1⟩ | ⟨_, hy1⟩
        · exact h3 j y u hy1 hu
        · rw [hy1, hf] at hu
          exact absurd hu (by simp)
    | some pTest =>
      simp only
      cases first with
      | none =>
        simp only
        apply hnext
        refine ⟨sep, hnew, hf, ?_⟩
        intro j y u hy hu
        rcases hget j y hy with ⟨hj, hy1⟩ | ⟨hj, hy1⟩
        · have hy2 : y ∈ done := List.get?_mem hy1
          rw [h y hy2] at hu
          exact absurd hu (by simp)
        · rw [hy1, hf] at hu
          simp only [Option.some.injEq] at hu
          omega
      | some it =>
        obtain ⟨i, t⟩ := it
        obtain ⟨sep0, h1, h2, h3⟩ := h
        have hi : i < done.length := by
          rw [List.get?_eq_getElem?] at h1
          by_contra hne
          rw [List.getElem?_eq_none (by omega)] at h1
          exact absurd h1 (by simp)
        simp only
        by_cases hlt : pTest < t
        · rw [if_pos hlt]
          apply hnext
          refine ⟨sep, hnew, hf, ?_⟩
          intro j y u hy hu
          rcases hget j y hy with ⟨hj, hy1⟩ | ⟨hj, hy1⟩
          · have := h3 j y u hy1 hu
            omega
          · rw [hy1, hf] at hu
            simp only [Option.some.injEq] at hu
            omega
        · rw [if_neg hlt]
          apply hnext
          refine ⟨sep0, hold i sep0 h1, h2, ?_⟩
          intro j y u hy hu
          rcases hget j y hy with ⟨hj, hy1⟩ | ⟨hj, hy1⟩
          · exact h3 j y u hy1 hu
          · rw [hy1, hf] at hu
            simp only [Option.some.injEq] at hu
            omega

/-- What the separator scan finds, in terms of the positions of the text: nothing when no
separator occurs anywhere; otherwise the earliest position at which a separator occurs
and the first listed of the separators that occur there. -/
theorem firstSeparator_cut (seps : List (List Nat))
    (hseps : ∀ sep ∈ seps, sep ≠ [] ∧ ∀ x ∈ sep, x ≠ 0) (pCurPos : List Nat) :
    (CSplitString.firstSeparatorLoop pCurPos seps 0 none = none ∧
      ∀ j, seps.find? (fun sep => ciPrefix sep ((cstr pCurPos).drop j)) = none) ∨
    (∃ (i t : Nat) (sep0 : List Nat),
      CSplitString.firstSeparatorLoop pCurPos seps 0 none = some (i, t) ∧
      seps.getD i [] = sep0 ∧ sep0 ≠ [] ∧ (∀ x ∈ sep0, x ≠ 0) ∧
      t + sep0.length ≤ (cstr pCurPos).length ∧
      seps.find? (fun sep => ciPrefix sep ((cstr pCurPos).drop t)) = some sep0 ∧
      ∀ j, j < t → seps.find? (fun sep => ciPrefix sep ((cstr pCurPos).drop j)) = none) := by
  have hinv := firstSeparatorLoop_spec pCurPos seps [] none (by intro y hy; simp at hy)
  simp only [List.nil_append, List.length_nil] at hinv
  have hV : ∀ sep ∈ seps, V_stristr pCurPos sep = findCI sep (cstr pCurPos) 0 := by
    intro sep hs
    unfold V_stristr
    rw [cstr_of_nonzero sep (hseps sep hs).2, if_neg (hseps sep hs).1]
  have hmem : ∀ (j : Nat) (y : List Nat), seps.get? j = some y → y ∈ seps :=
    fun j y hy => List.get?_mem hy
  cases hres : CSplitString.firstSeparatorLoop pCurPos seps 0 none with
  | none =>
    left
    rw [hres] at hinv
    refine ⟨rfl, fun j => ?_⟩
    rw [List.find?_eq_none]
    intro sep hs
    have hnone := hinv sep hs
    rw [hV sep hs] at hnone
    rcases findCI_first sep (hseps sep hs).1 (cstr pCurPos) with ⟨_, h2⟩ | ⟨i, h1, _⟩
    · simp [h2 j]
    · rw [hnone] at h1
      exact absurd h1 (by simp)
  | some it =>
    obtain ⟨i, t⟩ := it
    right
    rw [hres] at hinv
    obtain ⟨sep0, h1, h2, h3⟩ := hinv
    have hs0 := hmem i sep0 h1
    rw [hV sep0 hs0] at h2
    have hearly : ∀ sep ∈ seps, ∀ (j k : Nat), seps.get? k = some sep →
        ciPrefix sep ((cstr pCurPos).drop j) = true → t ≤ j ∧ (k < i → t < j) := by
      intro sep hs j k hk hc
      rcases findCI_first sep (hseps sep hs).1 (cstr pCurPos) with ⟨_, h5⟩ | ⟨u, h4, _, _, h7⟩
      · rw [h5 j] at hc
        exact absurd hc (by simp)
      · have hu : u ≤ j := by
          by_contra hne
          rw [h7 j (by omega)] at hc
          exact absurd hc (by simp)
        have := h3 k sep u hk (by rw [hV sep hs]; exact h4)
        omega
    rcases findCI_first sep0 (hseps sep0 hs0).1 (cstr pCurPos) with ⟨h4, _⟩ | ⟨u, h4, h5, h6, _⟩
    · rw [h4] at h2
      exact absurd h2 (by simp)
    · rw [h4] at h2
      simp only [Option.some.injEq] at h2
      subst h2
      refine ⟨i, u, sep0, rfl, ?_, (hseps sep0 hs0).1, (hseps sep0 hs0).2, h6, ?_, ?_⟩
      · rw [List.getD_eq_getElem?_getD]
        rw [List.get?_eq_getElem?] at h1
        rw [h1]
        rfl
      · apply find?_of_first _ seps i sep0 h1 h5
        intro k y hk hy
        cases hc : ciPrefix y ((cstr pCurPos).drop u) with
        | false => rfl
        | true =>
          have := hearly y (hmem k y hy) u k hy hc
          omega
      · intro j hj
        rw [List.find?_eq_none]
        intro sep hs
        obtain ⟨k, hk⟩ := List.get?_of_mem hs
        cases hc : ciPrefix sep ((cstr pCurPos).drop j) with
        | false => simp
        | true =>
          have := hearly sep hs j k hk hc
          omega

/-- The string read at an offset of a region whose head is known up to a terminator. -/
theorem cstr_of_take (buf pre tok : List Nat) (n : Nat) (h : buf.take n = pre ++ tok ++ [0])
    (hz : ∀ x ∈ tok, x ≠ 0) : cstr (buf.drop pre.length) = tok := by
  have hb : buf = pre ++ (tok ++ 0 :: buf.drop n) := by
    conv_lhs => rw [← List.take_append_drop n buf, h]
    simp
  rw [hb, List.drop_left, cstr_append_of_nonzero tok _ hz]
  simp [cstr]

/-- The loop of `Construct` from a position of the source: the strings of the elements
are those gathered so far followed by the substrings of the rest of the source between
separator occurrences. -/
theorem constructLoop_spec (pString : List Nat) (seps : List (List Nat))
    (hseps : ∀ sep ∈ seps, sep ≠ [] ∧ ∀ x ∈ sep, x ≠ 0) :
    ∀ (fuel cur : Nat) (buf toks : List Nat) (out : List (List Nat)),
    cur ≤ (cstr pString).length → (cstr pString).length - cur < fuel →
    buf.length = (cstr pString).length + 1 →
    buf.drop cur = (cstr pString).drop cur ++ [0] →
    (∀ buf1 : List Nat, buf1.take cur = buf.take cur →
      toks.map (fun p => cstr (buf1.drop p)) = out) →
    ∃ r, CSplitString.constructLoop pString seps fuel cur ⟨buf, toks⟩ = some r ∧
      r.Strings = out ++ splitAux ciPrefix seps ((cstr pString).drop cur) 0 [] := by
  intro fuel
  induction fuel with
  | zero => intro cur buf toks out _ h; omega
  | succ fuel ih =>
    intro cur buf toks out hcur hfuel hlen hdrop htoks
    have hr : cstr (pString.drop cur) = (cstr pString).drop cur := cstr_drop pString cur hcur
    have hrz : ∀ x ∈ (cstr pString).drop cur, x ≠ 0 :=
      fun x hx => cstr_nonzero pString x (List.mem_of_mem_drop hx)
    generalize hrdef : (cstr pString).drop cur = r at hr hrz hdrop ⊢
    have hrlen : r.length = (cstr pString).length - cur := by
      rw [← hrdef, List.length_drop]
    unfold CSplitString.constructLoop
    rcases firstSeparator_cut seps hseps (pString.drop cur) with
      ⟨hres, hno⟩ | ⟨i, t, sep0, hres, hsep, hne, hz0, hfit, hfind, hbefore⟩
    · rw [hres]
      simp only
      rw [hr] at hno
      have hstr : V_strlen (pString.drop cur) = (r.length : Int) := by
        rw [V_strlen, hr]
      rw [hstr, splitAux_end ciPrefix seps r [] hno, List.nil_append]
      by_cases hnil : r = []
      · subst hnil
        rw [if_neg (by simp)]
        refine ⟨_, rfl, ?_⟩
        simp only [CSplitString.Strings, flushToken, if_true, List.append_nil]
        exact htoks buf rfl
      · have hpos : 0 < r.length := List.length_pos.mpr hnil
        rw [if_pos (by omega)]
        refine ⟨_, rfl, ?_⟩
        simp only [CSplitString.Strings, flushToken, hnil, if_false, List.map_append,
          List.map_cons, List.map_nil, htoks buf rfl, hdrop]
        rw [cstr_append_of_nonzero r _ hrz]
        simp [cstr]
    · rw [hres]
      simp only
      rw [hr] at hfit hfind hbefore
      have hspos : 0 < sep0.length := List.length_pos.mpr hne
      have hslen : (V_strlen (seps.getD i [])).toNat = sep0.length := by
        rw [hsep, V_strlen_of_nonzero sep0 hz0]
        simp
      rw [hslen]
      have hscan : splitAux ciPrefix seps r 0 [] =
          flushToken (r.take t) ++
            splitAux ciPrefix seps ((cstr pString).drop (cur + t + sep0.length)) 0 [] := by
        rw [splitAux_walk ciPrefix seps t r [] (by omega) hbefore, List.nil_append,
          splitAux_cut ciPrefix seps (r.drop t) (r.take t) sep0
            (by
              intro hc
              have := congrArg List.length hc
              simp only [List.length_drop, List.length_nil] at this
              omega) hne hfind]
        rw [← hrdef, List.drop_drop, List.drop_drop]
        congr 3
        omega
      have hdrop2 : buf.drop (cur + t + sep0.length) =
          (cstr pString).drop (cur + t + sep0.length) ++ [0] := by
        have h1 : buf.drop (cur + t + sep0.length) = (buf.drop cur).drop (t + sep0.length) := by
          rw [List.drop_drop]
          congr 1
          omega
        rw [h1, hdrop, List.drop_append_of_le_length (by omega), ← hrdef, List.drop_drop]
        congr 2
        omega
      by_cases ht : t > 0
      · rw [if_pos ht]
        have hst : ∀ z : Int, z.toNat = cur + t → storeAt buf z 0 = buf.set (cur + t) 0 := by
          intro z hz
          simp [storeAt, hz]
        rw [hst _ (by omega)]
        have hsetTake : (buf.set (cur + t) 0).take cur = buf.take cur := by
          rw [List.set_eq_take_append_cons_drop, if_pos (by omega),
            List.take_append_of_le_length (by simp; omega), List.take_take,
            min_eq_left (by omega)]
        have hsetHead : (buf.set (cur + t) 0).take (cur + t + 1) =
            buf.take cur ++ r.take t ++ [0] := by
          rw [List.set_eq_take_append_cons_drop, if_pos (by omega)]
          rw [show buf.take (cur + t) ++ 0 :: buf.drop (cur + t + 1) =
            (buf.take (cur + t) ++ [0]) ++ buf.drop (cur + t + 1) by simp]
          rw [List.take_left' (by simp; omega), List.take_add, hdrop,
            List.take_append_of_le_length (by omega)]
        obtain ⟨res, h1, h2⟩ := ih (cur + t + sep0.length)
          (buf.set (cur + t) 0) (toks ++ [cur]) (out ++ [r.take t])
          (by omega) (by omega) (by rw [List.length_set]; exact hlen)
          (by
            rw [List.drop_set_of_lt 0 buf (by omega)]
            exact hdrop2)
          (by
            intro buf1 hb1
            have hold : buf1.take cur = buf.take cur := by
              have := congrArg (List.take cur) hb1
              rw [List.take_take, List.take_take, min_eq_left (by omega), hsetTake] at this
              exact this
            have hnew : buf1.take (cur + t + 1) = buf.take cur ++ r.take t ++ [0] := by
              have := congrArg (List.take (cur + t + 1)) hb1
              rw [List.take_take, List.take_take, min_eq_left (by omega), hsetHead] at this
              exact this
            rw [List.map_append, htoks buf1 hold]
            simp only [List.map_cons, List.map_nil]
            have := cstr_of_take buf1 (buf.take cur) (r.take t) (cur + t + 1) hnew
              (fun x hx => hrz x (List.mem_of_mem_take hx))
            rw [show (buf.take cur).length = cur by simp; omega] at this
            rw [this])
        refine ⟨res, h1, ?_⟩
        rw [h2, hscan]
        have htk : r.take t ≠ [] := by
          intro hc
          have := congrArg List.length hc
          simp only [List.length_take, List.length_nil] at this
          omega
        simp [flushToken, htk]
      · rw [if_neg ht]
        have ht0 : t = 0 := by omega
        subst ht0
        obtain ⟨res, h1, h2⟩ := ih (cur + 0 + sep0.length) buf toks out
          (by omega) (by omega) hlen hdrop2
          (by
            intro buf1 hb1
            have hold : buf1.take cur = buf.take cur := by
              have := congrArg (List.take cur) hb1
              rw [List.take_take, List.take_take, min_eq_left (by omega)] at this
              exact this
            exact htoks buf1 hold)
        refine ⟨res, h1, ?_⟩
        rw [h2, hscan]
        simp [flushToken]

/-- A gathered substring inside which no separator occurrence starts holds no separator. -/
theorem token_holds_no_separator (seps : List (List Nat)) (hseps : ∀ sep ∈ seps, sep ≠ [])
    (acc r : List Nat)
    (hP : ∀ sep ∈ seps, ∀ i, i < acc.length → ciPrefix sep ((acc ++ r).drop i) = false) :
    ∀ sep ∈ seps, ∀ i, ¬ OccursAt sep acc i := by
  intro sep hs i hocc
  have hpos : 0 < sep.length := List.length_pos.mpr (hseps sep hs)
  have hi : i < acc.length := by have := hocc.1; omega
  have h2 : OccursAt sep (acc ++ r) i := by
    refine ⟨by rw [List.length_append]; have := hocc.1; omega, ?_⟩
    rw [List.drop_append_of_le_length (by omega),
      List.take_append_of_le_length (by rw [List.length_drop]; have := hocc.1; omega)]
    exact hocc.2
  have h3 := (ciPrefix_drop_iff sep (acc ++ r) i (hseps sep hs)).mpr h2
  rw [hP sep hs i hi] at h3
  exact absurd h3 (by simp)

/-- Every substring the walk produces is non-empty and holds no separator. -/
theorem splitAux_tokens (seps : List (List Nat)) (hseps : ∀ sep ∈ seps, sep ≠ []) :
    ∀ (r : List Nat) (skip : Nat) (acc : List Nat), (skip = 0 ∨ acc = []) →
    (∀ sep ∈ seps, ∀ i, i < acc.length → ciPrefix sep ((acc ++ r).drop i) = false) →
    ∀ t ∈ splitAux ciPrefix seps r skip acc,
      t ≠ [] ∧ ∀ sep ∈ seps, ∀ i, ¬ OccursAt sep t i := by
  have hflush : ∀ (r acc : List Nat),
      (∀ sep ∈ seps, ∀ i, i < acc.length → ciPrefix sep ((acc ++ r).drop i) = false) →
      ∀ t ∈ flushToken acc, t ≠ [] ∧ ∀ sep ∈ seps, ∀ i, ¬ OccursAt sep t i := by
    intro r acc hP t ht
    unfold flushToken at ht
    split at ht
    · simp at ht
    · rename_i hne
      simp only [List.mem_singleton] at ht
      subst ht
      exact ⟨hne, token_holds_no_separator seps hseps t r hP⟩
  intro r
  induction r with
  | nil =>
    intro skip acc _ hP t ht
    have : splitAux ciPrefix seps [] skip acc = flushToken acc := by
      cases skip <;> rfl
    rw [this] at ht
    exact hflush [] acc hP t ht
  | cons x r ih =>
    intro skip acc hskip hP t ht
    cases skip with
    | succ skip =>
      have hacc : acc = [] := by
        rcases hskip with h | h
        · omega
        · exact h
      subst hacc
      rw [splitAux] at ht
      exact ih skip [] (Or.inr rfl) (fun _ _ i hi => by simp at hi) t ht
    | zero =>
      rw [splitAux] at ht
      cases hf : seps.find? (fun sep => ciPrefix sep (x :: r)) with
      | some sep =>
        simp only [hf, List.mem_append] at ht
        rcases ht with ht | ht
        · exact hflush (x :: r) acc hP t ht
        · exact ih (sep.length - 1) [] (Or.inr rfl) (fun _ _ i hi => by simp at hi) t ht
      | none =>
        simp only [hf] at ht
        refine ih 0 (acc ++ [x]) (Or.inl rfl) ?_ t ht
        intro sep hs i hi
        simp only [List.length_append, List.length_singleton] at hi
        rw [List.append_assoc, List.singleton_append]
        by_cases hlt : i < acc.length
        · exact hP sep hs i hlt
        · have hieq : i = acc.length := by omega
          rw [hieq, List.drop_left]
          have := List.find?_eq_none.mp hf sep hs
          simpa using this

/-- C24, counterexample: the source `aXb` split on the separator `x`.  The code cuts at the
upper-case `X`, which is no exact-byte occurrence of the separator, and produces `a` and
`b`; the substrings between exact-byte occurrences are the one string `aXb`. -/
theorem C24_counterexample :
    (CSplitString.Construct [97, 88, 98, 0] [[120]]).map CSplitString.Strings =
      some [[97], [98]] ∧
    splitOn literalAt [[120]] (cstr [97, 88, 98, 0]) = [[97, 88, 98]] ∧
    ([[97], [98]] : List (List Nat)) ≠ [[97, 88, 98]] := by
  decide

/-- C24, amended: for every source string and every list of non-empty separators,
`Construct` returns, and the strings of its elements are, in left-to-right order, exactly
the non-empty substrings of the source that lie between consecutive separator occurrences
(and before the first, after the last), where a separator occurrence is a match without
regard to ASCII case, the earliest occurrence is cut first and among separators that occur
at the same position the first listed is taken; no produced string is empty and no
produced string holds an occurrence, in either case, of any separator. -/
theorem C24_split_ignoring_case (pString : List Nat) (seps : List (List Nat))
    (hseps : ∀ sep ∈ seps, sep ≠ [] ∧ ∀ x ∈ sep, x ≠ 0) :
    ∃ r, CSplitString.Construct pString seps = some r ∧
      r.Strings = splitOn ciPrefix seps (cstr pString) ∧
      ∀ t ∈ r.Strings, t ≠ [] ∧ ∀ sep ∈ seps, ∀ i, ¬ OccursAt sep t i := by
  obtain ⟨r, h1, h2⟩ := constructLoop_spec pString seps hseps ((V_strlen pString).toNat + 1) 0
    (cstr pString ++ [0]) [] [] (Nat.zero_le _) (by simp [V_strlen]) (by simp) (by simp)
    (fun _ _ => rfl)
  simp only [List.nil_append, List.drop_zero] at h2
  refine ⟨r, h1, h2, ?_⟩
  rw [h2]
  exact splitAux_tokens seps (fun sep hs => (hseps sep hs).1) (cstr pString) 0 [] (Or.inl rfl)
    (fun _ _ i hi => by simp at hi)

theorem C24_split_ignoring_case_witness :
    ∃ r, CSplitString.Construct [97, 88, 98, 0] [[120]] = some r ∧
      r.Strings = splitOn ciPrefix [[120]] (cstr [97, 88, 98, 0]) ∧
      ∀ t ∈ r.Strings, t ≠ [] ∧ ∀ sep ∈ ([[120]] : List (List Nat)), ∀ i, ¬ OccursAt sep t i :=
  C24_split_ignoring_case [97, 88, 98, 0] [[120]] (by decide)

/-! ## C31: the cursor invariant -/

/-- The put hook leaves the cursors and the error bits alone. -/
theorem OnPutOverflow_cursors (b : CUtlBuffer) (n : Int) :
    (b.OnPutOverflow n).2.m_Get = b.m_Get ∧ (b.OnPutOverflow n).2.m_Put = b.m_Put ∧
    (b.OnPutOverflow n).2.m_nMaxPut = b.m_nMaxPut ∧ (b.OnPutOverflow n).2.m_Error = b.m_Error := by
  cases hp : b.m_PutOverflowFunc
  simp only [CUtlBuffer.OnPutOverflow, hp, CUtlBuffer.PutOverflow]
  split <;> exact ⟨rfl, rfl, rfl, rfl⟩

/-- The put check leaves the cursors and the get latch alone. -/
theorem CheckPut_cursors (b : CUtlBuffer) (n : Int) :
    (b.CheckPut n).2.m_Get = b.m_Get ∧ (b.CheckPut n).2.m_Put = b.m_Put ∧
    (b.CheckPut n).2.m_nMaxPut = b.m_nMaxPut ∧
    (b.CheckPut n).2.m_Error.GET_OVERFLOW = b.m_Error.GET_OVERFLOW := by
  obtain ⟨h1, h2, h3, h4⟩ := OnPutOverflow_cursors b n
  unfold CUtlBuffer.CheckPut
  split
  · exact ⟨rfl, rfl, rfl, rfl⟩
  · split
    · rcases hc : b.OnPutOverflow n with ⟨ok, b1⟩
      rw [hc] at h1 h2 h3 h4
      simp only at h1 h2 h3 h4
      cases ok with
      | false => exact ⟨h1, h2, h3, by simp [CUtlBuffer.setPutOverflow, h4]⟩
      | true => exact ⟨h1, h2, h3, by rw [h4]⟩
    · exact ⟨rfl, rfl, rfl, rfl⟩

/-- The terminator bookkeeping raises the high-water mark to the position it is given and
leaves the cursors and the get latch alone. -/
theorem AddNullTermination_cursors (b : CUtlBuffer) (nPut : Int) :
    (b.AddNullTermination nPut).m_Get = b.m_Get ∧ (b.AddNullTermination nPut).m_Put = b.m_Put ∧
    (b.AddNullTermination nPut).m_nMaxPut = max b.m_nMaxPut nPut ∧
    (b.AddNullTermination nPut).m_Error.GET_OVERFLOW = b.m_Error.GET_OVERFLOW := by
  obtain ⟨h1, h2, h3, h4⟩ := CheckPut_cursors b 1
  unfold CUtlBuffer.AddNullTermination
  split
  · rename_i hgt
    have hmax : max b.m_nMaxPut nPut = nPut := max_eq_right (by omega)
    rw [hmax]
    split
    · rcases hc : b.CheckPut 1 with ⟨ok, b1⟩
      rw [hc] at h1 h2 h3 h4
      simp only at h1 h2 h3 h4
      cases ok with
      | false => exact ⟨h1, h2, rfl, by simp [CUtlBuffer.setPutOverflow, h4]⟩
      | true => exact ⟨h1, h2, rfl, h4⟩
    · exact ⟨rfl, rfl, rfl, rfl⟩
  · rename_i hle
    exact ⟨rfl, rfl, (max_eq_left (by omega)).symm, rfl⟩

/-- A put keeps the cursor invariant, leaves the get cursor and the get latch alone, and
leaves the high-water mark at the larger of its old value and the new put cursor. -/
theorem Put_cursors (b : CUtlBuffer) (pMem : List Nat) (size : Int) (h : b.m_Put ≤ b.m_nMaxPut) :
    (b.Put pMem size).m_Get = b.m_Get ∧
    (b.Put pMem size).m_Error.GET_OVERFLOW = b.m_Error.GET_OVERFLOW ∧
    (b.Put pMem size).m_Put ≤ (b.Put pMem size).m_nMaxPut ∧
    (b.Put pMem size).m_nMaxPut = max b.m_nMaxPut (b.Put pMem size).m_Put := by
  obtain ⟨h1, h2, h3, h4⟩ := CheckPut_cursors b size
  unfold CUtlBuffer.Put
  split
  · rcases hc : b.CheckPut size with ⟨ok, b1⟩
    rw [hc] at h1 h2 h3 h4
    simp only at h1 h2 h3 h4
    cases ok with
    | false =>
      simp only
      exact ⟨h1, h4, by omega, by rw [h3, h2, max_eq_left h]⟩
    | true =>
      simp only
      obtain ⟨a1, a2, a3, a4⟩ := AddNullTermination_cursors
        ({ b1 with
          m_Memory := { b1.m_Memory with
            m_pMemory := memcpyAt b1.m_Memory.m_pMemory (b1.m_Put - b1.m_nOffset) pMem size }
          m_Put := b1.m_Put + size } : CUtlBuffer) (b1.m_Put + size)
      simp only at a1 a2 a3 a4
      refine ⟨a1.trans h1, a4.trans h4, ?_, ?_⟩
      · rw [a2, a3]
        exact le_max_right _ _
      · rw [a2, a3, h3]
  · exact ⟨rfl, rfl, h, (max_eq_left h).symm⟩

/-- A put seek keeps the cursor invariant, leaves the get cursor and the get latch alone,
and leaves the high-water mark at the larger of its old value and the new put cursor. -/
theorem SeekPut_cursors (b : CUtlBuffer) (type : SeekType_t) (offset : Int) :
    (b.SeekPut type offset).m_Get = b.m_Get ∧
    (b.SeekPut type offset).m_Error.GET_OVERFLOW = b.m_Error.GET_OVERFLOW ∧
    (b.SeekPut type offset).m_Put ≤ (b.SeekPut type offset).m_nMaxPut ∧
    (b.SeekPut type offset).m_nMaxPut = max b.m_nMaxPut (b.SeekPut type offset).m_Put := by
  rw [SeekPut_seekPos]
  generalize seekPos b.m_Put b.m_nMaxPut type offset = q
  obtain ⟨h1, h2, h3, h4⟩ := OnPutOverflow_cursors b (-q - 1)
  obtain ⟨a1, a2, a3, a4⟩ := AddNullTermination_cursors
    ({ (b.OnPutOverflow (-q - 1)).2 with m_Put := q } : CUtlBuffer) q
  simp only at a1 a2 a3 a4
  refine ⟨a1.trans h1, ?_, ?_, ?_⟩
  · rw [a4, h4]
  · rw [a2, a3]
    exact le_max_right _ _
  · rw [a2, a3, h3]

/-- The get hook leaves the cursors and the error bits alone. -/
theorem OnGetOverflow_cursors (b : CUtlBuffer) (n : Int) :
    (b.OnGetOverflow n).2.m_Get = b.m_Get ∧ (b.OnGetOverflow n).2.m_Put = b.m_Put ∧
    (b.OnGetOverflow n).2.m_nMaxPut = b.m_nMaxPut ∧ (b.OnGetOverflow n).2.m_Error = b.m_Error := by
  cases hp : b.m_GetOverflowFunc <;>
    simp [CUtlBuffer.OnGetOverflow, hp, CUtlBuffer.GetOverflow, CUtlBuffer.StreamGetOverflow]

/-- The get check leaves the cursors alone; it succeeds only with the get latch clear and
the bytes asked for below the high-water mark, and a failure leaves the latch set. -/
theorem CheckGet_cursors (b : CUtlBuffer) (n : Int) :
    (b.CheckGet n).2.m_Get = b.m_Get ∧ (b.CheckGet n).2.m_Put = b.m_Put ∧
    (b.CheckGet n).2.m_nMaxPut = b.m_nMaxPut ∧
    ((b.CheckGet n).1 = true →
      (b.CheckGet n).2.m_Error.GET_OVERFLOW = false ∧ b.m_Error.GET_OVERFLOW = false ∧
      b.m_Get + n ≤ b.m_nMaxPut) ∧
    ((b.CheckGet n).1 = false → (b.CheckGet n).2.m_Error.GET_OVERFLOW = true) := by
  obtain ⟨h1, h2, h3, h4⟩ := OnGetOverflow_cursors b n
  unfold CUtlBuffer.CheckGet
  by_cases he : b.m_Error.GET_OVERFLOW = true
  · rw [if_pos he]
    exact ⟨rfl, rfl, rfl, fun hc => by simp at hc, fun _ => he⟩
  · have he2 : b.m_Error.GET_OVERFLOW = false := by simpa using he
    rw [if_neg he]
    by_cases hm : b.TellMaxPut < b.m_Get + n
    · rw [if_pos hm]
      exact ⟨rfl, rfl, rfl, fun hc => by simp at hc, fun _ => rfl⟩
    · rw [if_neg hm]
      simp only [CUtlBuffer.TellMaxPut, not_lt] at hm
      split
      · rcases hc : b.OnGetOverflow n with ⟨ok, b1⟩
        rw [hc] at h1 h2 h3 h4
        simp only at h1 h2 h3 h4
        cases ok with
        | false => exact ⟨h1, h2, h3, fun hx => by simp at hx, fun _ => rfl⟩
        | true =>
          exact ⟨h1, h2, h3, fun _ => ⟨by rw [h4]; exact he2, he2, hm⟩, fun hx => by simp at hx⟩
      · exact ⟨rfl, rfl, rfl, fun _ => ⟨he2, he2, hm⟩, fun hx => by simp at hx⟩

/-- A get leaves the put cursor and the high-water mark alone and keeps the get cursor at
or below the mark whenever the get latch is clear afterwards. -/
theorem Get_cursors (b : CUtlBuffer) (pMem : List Nat) (size : Int) (h : CursorsOk b) :
    (b.Get pMem size).1.m_Put = b.m_Put ∧ (b.Get pMem size).1.m_nMaxPut = b.m_nMaxPut ∧
    ((b.Get pMem size).1.m_Error.GET_OVERFLOW = false →
      (b.Get pMem size).1.m_Get ≤ (b.Get pMem size).1.m_nMaxPut) := by
  obtain ⟨h1, h2, h3, h4, h5⟩ := CheckGet_cursors b size
  unfold CUtlBuffer.Get
  split
  · rcases hc : b.CheckGet size with ⟨ok, b1⟩
    rw [hc] at h1 h2 h3 h4 h5
    simp only at h1 h2 h3 h4 h5
    cases ok with
    | false =>
      simp only
      refine ⟨h2, h3, fun he => ?_⟩
      rw [h5 rfl] at he
      exact absurd he (by simp)
    | true =>
      simp only
      refine ⟨h2, h3, fun _ => ?_⟩
      have := (h4 rfl).2.2
      omega
  · exact ⟨rfl, rfl, h.getLe⟩

/-- The peek check leaves the cursors and the get latch alone. -/
theorem CheckPeekGet_cursors (b : CUtlBuffer) (nOffset n : Int) :
    (b.CheckPeekGet nOffset n).2.m_Get = b.m_Get ∧ (b.CheckPeekGet nOffset n).2.m_Put = b.m_Put ∧
    (b.CheckPeekGet nOffset n).2.m_nMaxPut = b.m_nMaxPut ∧
    (b.CheckPeekGet nOffset n).2.m_Error.GET_OVERFLOW = b.m_Error.GET_OVERFLOW := by
  obtain ⟨h1, h2, h3, _, _⟩ := CheckGet_cursors b (nOffset + n)
  unfold CUtlBuffer.CheckPeekGet
  by_cases he : b.m_Error.GET_OVERFLOW = true
  · rw [if_pos he]
    exact ⟨rfl, rfl, rfl, rfl⟩
  · have he2 : b.m_Error.GET_OVERFLOW = false := by simpa using he
    rw [if_neg he]
    exact ⟨h1, h2, h3, by rw [he2]; rfl⟩

/-- The open-ended peek check leaves the cursors and the get latch alone, and grants no
more than the bytes between the get cursor and the high-water mark. -/
theorem CheckArbitraryPeekGet_cursors (b : CUtlBuffer) (nOffset n : Int) :
    (b.CheckArbitraryPeekGet nOffset n).2.2.m_Get = b.m_Get ∧
    (b.CheckArbitraryPeekGet nOffset n).2.2.m_Put = b.m_Put ∧
    (b.CheckArbitraryPeekGet nOffset n).2.2.m_nMaxPut = b.m_nMaxPut ∧
    (b.CheckArbitraryPeekGet nOffset n).2.2.m_Error.GET_OVERFLOW = b.m_Error.GET_OVERFLOW ∧
    ((b.CheckArbitraryPeekGet nOffset n).1 = true →
      b.m_Get + (b.CheckArbitraryPeekGet nOffset n).2.1 ≤ b.m_nMaxPut) := by
  unfold CUtlBuffer.CheckArbitraryPeekGet
  by_cases hge : b.TellGet + nOffset ≥ b.TellMaxPut
  · rw [if_pos hge]
    exact ⟨rfl, rfl, rfl, rfl, fun hc => by simp at hc⟩
  · rw [if_neg hge]
    simp only [CUtlBuffer.TellGet, CUtlBuffer.TellMaxPut]
    generalize (if b.m_Get + nOffset + n > b.m_nMaxPut then b.m_nMaxPut - b.m_Get - nOffset
      else n) = n1
    obtain ⟨h1, h2, h3, h4⟩ := CheckPeekGet_cursors b nOffset n1
    refine ⟨h1, h2, h3, h4, fun _ => ?_⟩
    rw [h1, h3]
    split <;> omega

/-- An open-ended get leaves the put cursor, the high-water mark and the get latch alone
and keeps the get cursor at or below the mark when it was so before. -/
theorem GetUpTo_cursors (b : CUtlBuffer) (pMem : List Nat) (nSize : Int) (h : CursorsOk b) :
    (b.GetUpTo pMem nSize).2.1.m_Put = b.m_Put ∧
    (b.GetUpTo pMem nSize).2.1.m_nMaxPut = b.m_nMaxPut ∧
    ((b.GetUpTo pMem nSize).2.1.m_Error.GET_OVERFLOW = false →
      (b.GetUpTo pMem nSize).2.1.m_Get ≤ (b.GetUpTo pMem nSize).2.1.m_nMaxPut) := by
  obtain ⟨h1, h2, h3, h4, h5⟩ := CheckArbitraryPeekGet_cursors b 0 nSize
  unfold CUtlBuffer.GetUpTo
  rcases hc : b.CheckArbitraryPeekGet 0 nSize with ⟨ok, n, b1⟩
  rw [hc] at h1 h2 h3 h4 h5
  simp only at h1 h2 h3 h4 h5
  cases ok with
  | true =>
    simp only
    refine ⟨h2, h3, fun _ => ?_⟩
    have := h5 rfl
    omega
  | false =>
    simp only
    refine ⟨h2, h3, fun he => ?_⟩
    rw [h4] at he
    rw [h1, h3]
    exact h.getLe he

/-- A get seek leaves the put cursor and the high-water mark alone, and leaves the get latch
clear exactly when the get cursor is at or below the mark. -/
theorem SeekGet_cursors (b : CUtlBuffer) (type : SeekType_t) (offset : Int) :
    (b.SeekGet type offset).m_Put = b.m_Put ∧ (b.SeekGet type offset).m_nMaxPut = b.m_nMaxPut ∧
    ((b.SeekGet type offset).m_Error.GET_OVERFLOW = false →
      (b.SeekGet type offset).m_Get ≤ (b.SeekGet type offset).m_nMaxPut) := by
  unfold CUtlBuffer.SeekGet
  generalize hb1 : (match type with
    | .SEEK_HEAD => ({ b with m_Get := offset } : CUtlBuffer)
    | .SEEK_CURRENT => { b with m_Get := b.m_Get + offset }
    | .SEEK_TAIL => { b with m_Get := b.m_nMaxPut - offset }) = b1
  have hp : b1.m_Put = b.m_Put ∧ b1.m_nMaxPut = b.m_nMaxPut := by
    rw [← hb1]
    cases type <;> exact ⟨rfl, rfl⟩
  simp only
  split
  · exact ⟨hp.1, hp.2, fun he => by simp [CUtlBuffer.setGetOverflow] at he⟩
  · rename_i hle
    obtain ⟨h1, h2, h3, h4⟩ := OnGetOverflow_cursors (b1.setGetOverflow false) (-1)
    split
    · refine ⟨h2.trans hp.1, h3.trans hp.2, fun _ => ?_⟩
      rw [h1, h3]
      simp only [CUtlBuffer.setGetOverflow]
      omega
    · refine ⟨hp.1, hp.2, fun _ => ?_⟩
      simp only [CUtlBuffer.setGetOverflow]
      omega

/-- Every operation keeps the cursor invariant and leaves the high-water mark at the larger
of its old value and the put cursor after the operation. -/
theorem BufOp_run_cursors (b : CUtlBuffer) (op : BufOp) (h : CursorsOk b) :
    CursorsOk (op.run b) ∧ (op.run b).m_nMaxPut = max b.m_nMaxPut (op.run b).m_Put := by
  cases op with
  | put pMem size =>
    obtain ⟨h1, h2, h3, h4⟩ := Put_cursors b pMem size h.putLe
    refine ⟨⟨h3, fun he => ?_⟩, h4⟩
    show (b.Put pMem size).m_Get ≤ (b.Put pMem size).m_nMaxPut
    have := h.getLe (by rw [← h2]; exact he)
    rw [h1, h4]
    exact le_trans this (le_max_left _ _)
  | seekPut type offset =>
    obtain ⟨h1, h2, h3, h4⟩ := SeekPut_cursors b type offset
    refine ⟨⟨h3, fun he => ?_⟩, h4⟩
    show (b.SeekPut type offset).m_Get ≤ (b.SeekPut type offset).m_nMaxPut
    have := h.getLe (by rw [← h2]; exact he)
    rw [h1, h4]
    exact le_trans this (le_max_left _ _)
  | get pMem size =>
    obtain ⟨h1, h2, h3⟩ := Get_cursors b pMem size h
    refine ⟨⟨?_, h3⟩, ?_⟩
    · show (b.Get pMem size).1.m_Put ≤ (b.Get pMem size).1.m_nMaxPut
      rw [h1, h2]
      exact h.putLe
    · show (b.Get pMem size).1.m_nMaxPut = max b.m_nMaxPut (b.Get pMem size).1.m_Put
      rw [h1, h2, max_eq_left h.putLe]
  | getUpTo pMem nSize =>
    obtain ⟨h1, h2, h3⟩ := GetUpTo_cursors b pMem nSize h
    refine ⟨⟨?_, h3⟩, ?_⟩
    · show (b.GetUpTo pMem nSize).2.1.m_Put ≤ (b.GetUpTo pMem nSize).2.1.m_nMaxPut
      rw [h1, h2]
      exact h.putLe
    · show (b.GetUpTo pMem nSize).2.1.m_nMaxPut = max b.m_nMaxPut (b.GetUpTo pMem nSize).2.1.m_Put
      rw [h1, h2, max_eq_left h.putLe]
  | seekGet type offset =>
    obtain ⟨h1, h2, h3⟩ := SeekGet_cursors b type offset
    refine ⟨⟨?_, h3⟩, ?_⟩
    · show (b.SeekGet type offset).m_Put ≤ (b.SeekGet type offset).m_nMaxPut
      rw [h1, h2]
      exact h.putLe
    · show (b.SeekGet type offset).m_nMaxPut = max b.m_nMaxPut (b.SeekGet type offset).m_Put
      rw [h1, h2, max_eq_left h.putLe]

/-- A session keeps the cursor invariant and leaves the high-water mark at the largest of
its old value and the put positions reached. -/
theorem runBufOps_cursors : ∀ (ops : List BufOp) (b : CUtlBuffer), CursorsOk b →
    CursorsOk (b.runBufOps ops) ∧
    (b.runBufOps ops).m_nMaxPut = (putsReached b ops).foldl max b.m_nMaxPut := by
  intro ops
  induction ops with
  | nil => intro b h; exact ⟨h, rfl⟩
  | cons op rest ih =>
    intro b h
    obtain ⟨h1, h2⟩ := BufOp_run_cursors b op h
    obtain ⟨h3, h4⟩ := ih (op.run b) h1
    refine ⟨h3, ?_⟩
    show ((op.run b).runBufOps rest).m_nMaxPut = _
    rw [h4, h2]
    rfl

/-- A buffer fresh from a constructor satisfies the cursor invariant, with the high-water
mark at the put cursor. -/
theorem FromConstructor_cursors (b : CUtlBuffer) (hb : b.FromConstructor) :
    CursorsOk b ∧ b.m_nMaxPut = b.m_Put := by
  rcases hb with ⟨growSize, initSize, nFlags, uninit, rfl⟩ | ⟨pBuffer, nFlags, uninit, rfl⟩
  · unfold CUtlBuffer.new
    simp only
    split
    · obtain ⟨a1, a2, a3, a4⟩ := AddNullTermination_cursors
        ({ m_Memory := CUtlMemory.Init growSize initSize uninit, m_Get := 0, m_Put := 0,
           m_Error := ⟨false, false⟩, m_Flags := nFlags, m_nTab := 0, m_nMaxPut := -1,
           m_nOffset := 0, m_GetOverflowFunc := .GetOverflow,
           m_PutOverflowFunc := .PutOverflow } : CUtlBuffer) 0
      simp only at a1 a2 a3 a4
      have hmax : max (-1 : Int) 0 = 0 := by decide
      rw [hmax] at a3
      exact ⟨⟨by rw [a2, a3], fun _ => by rw [a1, a3]⟩, by rw [a2, a3]⟩
    · exact ⟨⟨le_refl _, fun _ => le_refl _⟩, rfl⟩
  · unfold CUtlBuffer.newExternal
    simp only
    split
    · exact ⟨⟨le_refl _, fun _ => by simp⟩, rfl⟩
    · obtain ⟨a1, a2, a3, a4⟩ := AddNullTermination_cursors
        ({ m_Memory := CUtlMemory.SetExternalBuffer pBuffer uninit, m_Get := 0, m_Put := 0,
           m_Error := ⟨false, false⟩, m_Flags := nFlags, m_nTab := 0, m_nMaxPut := -1,
           m_nOffset := 0, m_GetOverflowFunc := .GetOverflow,
           m_PutOverflowFunc := .PutOverflow } : CUtlBuffer) 0
      simp only at a1 a2 a3 a4
      have hmax : max (-1 : Int) 0 = 0 := by decide
      rw [hmax] at a3
      exact ⟨⟨by rw [a2, a3], fun _ => by rw [a1, a3]⟩, by rw [a2, a3]⟩

/-- C31: for every buffer produced by a constructor, every finite sequence `ops` of `Put`,
`SeekPut`, `Get`, `GetUpTo` and `SeekGet` operations (whatever their arguments) and every
operation `op` applied after it: after `op`, `put_pos <= max_put`; `max_put` is not smaller
than before `op`; `max_put` is the largest of the put positions reached so far, the one at
construction included; and when GET_OVERFLOW is clear, `get_pos <= max_put`. -/
theorem C31_cursor_invariant (b0 : CUtlBuffer) (ops : List BufOp) (op : BufOp)
    (hb : b0.FromConstructor) :
    (op.run (b0.runBufOps ops)).m_Put ≤ (op.run (b0.runBufOps ops)).m_nMaxPut ∧
    (b0.runBufOps ops).m_nMaxPut ≤ (op.run (b0.runBufOps ops)).m_nMaxPut ∧
    (op.run (b0.runBufOps ops)).m_nMaxPut = (putsReached b0 (ops ++ [op])).foldl max b0.m_Put ∧
    ((op.run (b0.runBufOps ops)).m_Error.GET_OVERFLOW = false →
      (op.run (b0.runBufOps ops)).m_Get ≤ (op.run (b0.runBufOps ops)).m_nMaxPut) := by
  obtain ⟨h0, hm0⟩ := FromConstructor_cursors b0 hb
  obtain ⟨h1, _⟩ := runBufOps_cursors ops b0 h0
  obtain ⟨h2, h3⟩ := BufOp_run_cursors (b0.runBufOps ops) op h1
  obtain ⟨_, h5⟩ := runBufOps_cursors (ops ++ [op]) b0 h0
  have hrun : b0.runBufOps (ops ++ [op]) = op.run (b0.runBufOps ops) := by
    simp [CUtlBuffer.runBufOps, List.foldl_append]
  rw [hrun, hm0] at h5
  refine ⟨h2.putLe, ?_, h5, h2.getLe⟩
  rw [h3]
  exact le_max_left _ _

theorem C31_cursor_invariant_witness :
    ((BufOp.seekGet .SEEK_HEAD 2).run
        ((CUtlBuffer.new 0 0 ⟨false, false, false, false, false⟩ 205).runBufOps mixedSession)).m_Put ≤
      ((BufOp.seekGet .SEEK_HEAD 2).run
        ((CUtlBuffer.new 0 0 ⟨false, false, false, false, false⟩ 205).runBufOps mixedSession)).m_nMaxPut ∧
    ((CUtlBuffer.new 0 0 ⟨false, false, false, false, false⟩ 205).runBufOps mixedSession).m_nMaxPut ≤
      ((BufOp.seekGet .SEEK_HEAD 2).run
        ((CUtlBuffer.new 0 0 ⟨false, false, false, false, false⟩ 205).runBufOps mixedSession)).m_nMaxPut ∧
    ((BufOp.seekGet .SEEK_HEAD 2).run
        ((CUtlBuffer.new 0 0 ⟨false, false, false, false, false⟩ 205).runBufOps mixedSession)).m_nMaxPut =
      (putsReached (CUtlBuffer.new 0 0 ⟨false, false, false, false, false⟩ 205)
        (mixedSession ++ [BufOp.seekGet .SEEK_HEAD 2])).foldl max (CUtlBuffer.new 0 0 ⟨false, false, false, false, false⟩ 205).m_Put ∧
    ((BufOp.seekGet .SEEK_HEAD 2).run
        ((CUtlBuffer.new 0 0 ⟨false, false, false, false, false⟩ 205).runBufOps mixedSession)).m_Error.GET_OVERFLOW = false ∧
    ((BufOp.seekGet .SEEK_HEAD 2).run
        ((CUtlBuffer.new 0 0 ⟨false, false, false, false, false⟩ 205).runBufOps mixedSession)).m_Get ≤
      ((BufOp.seekGet .SEEK_HEAD 2).run
        ((CUtlBuffer.new 0 0 ⟨false, false, false, false, false⟩ 205).runBufOps mixedSession)).m_nMaxPut :=
  have h := C31_cursor_invariant (CUtlBuffer.new 0 0 ⟨false, false, false, false, false⟩ 205) mixedSession
    (BufOp.seekGet .SEEK_HEAD 2) (Or.inl ⟨0, 0, ⟨false, false, false, false, false⟩, 205, rfl⟩)
  ⟨h.1, h.2.1, h.2.2.1, by decide, h.2.2.2 (by decide)⟩

/-! ## C32: tokens that do not fit -/

section
open CUtlBuffer

/-- No comment starts at a byte that is not a slash, nor at a slash that is not followed
by a second one. -/
theorem Readable.eatCPPComment_lone {b : CUtlBuffer} {e : List Nat} (h : Readable b e)
    (pre post : List Nat) (x : Nat) (he : e = pre ++ x :: post)
    (hg : b.m_Get = (pre.length : Int)) (hx : x = 47 → post.head? ≠ some 47) :
    b.EatCPPComment = some (false, b) := by
  obtain ⟨tail, hp⟩ := h.ptr pre (x :: post) he hg
  unfold EatCPPComment
  rw [if_pos ⟨h.isText, h.isValid⟩]
  unfold PeekGet
  rcases CheckPeekGet_default b h.getFunc 0 2 with ⟨hc, _, hle⟩ | hc
  · rw [hc]
    simp only
    have hpp : ptrAt b.m_Memory.m_pMemory (b.m_Get + 0 - b.m_nOffset) = b.PeekGetPtr 0 := rfl
    rw [hpp, hp]
    cases post with
    | nil =>
      rw [h.loaded.maxPut, hg, he] at hle
      simp only [List.length_append, List.length_cons, List.length_nil] at hle
      push_cast at hle
      omega
    | cons y post1 =>
      by_cases h47 : x = 47
      · have hy : y ≠ 47 := by
          intro hc2
          exact hx h47 (by rw [hc2]; rfl)
        simp [deref, hy]
      · simp [deref, h47]
  · rw [hc]

/-- The loop at the head of `ParseToken` stops at a byte that is not white space and
starts no comment. -/
theorem Readable.parseSkipLoop_word {b : CUtlBuffer} {e : List Nat} (h : Readable b e)
    (bParseComments : Bool) (k : Nat) (pre ws post : List Nat) (x : Nat)
    (he : e = pre ++ (ws ++ x :: post)) (hg : b.m_Get = (pre.length : Int))
    (hws : ∀ y ∈ ws, V_isspace y = true) (hx : V_isspace x = false)
    (hx47 : bParseComments = true → x = 47 → post.head? ≠ some 47) :
    parseSkipLoop bParseComments (k + 1) b =
      some (true, b.atGet ((pre.length : Int) + (ws.length : Int))) := by
  have hw := h.eatWhiteSpace_run pre ws (x :: post) he hg hws (Or.inr ⟨x, _, rfl, hx⟩)
  simp only [if_false, reduceCtorEq] at hw
  unfold parseSkipLoop
  simp only [h.isValid, not_true_eq_false, if_false, hw]
  cases bParseComments with
  | false => simp
  | true =>
    simp only [if_true]
    rw [(h.atGet _).eatCPPComment_lone (pre ++ ws) post x (by rw [he]; simp) (by simp)
      (hx47 rfl)]

/-- The word loop, when the word does not end before the token buffer is full: it stops
after the bytes that fill the buffer, the last of them overwritten by the terminator. -/
theorem parseWordLoop_full (pBreaks : characterset_t) (nMaxLen : Int) (w : List Nat) :
    ∀ (b : CUtlBuffer) (e pre post acc junk : List Nat) (fuel c : Nat), Readable b e →
    e = pre ++ (w ++ post) → b.m_Get = (pre.length : Int) →
    (∀ x ∈ w, IN_CHARACTERSET pBreaks x = false ∧ x ≠ 34 ∧ leSpace x = false) →
    w.length < fuel → (acc.length : Int) + 1 + (w.length : Int) = nMaxLen →
    w.length + 1 ≤ junk.length →
    parseWordLoop pBreaks nMaxLen fuel b (acc ++ junk) (acc.length : Int) c =
      some (nMaxLen, acc ++ (c :: w).dropLast ++ 0 :: junk.drop (w.length + 1),
        b.atGet ((pre.length : Int) + (w.length : Int))) := by
  induction w with
  | nil =>
    intro b e pre post acc junk fuel c h he hg _ hfuel hmax hjunk
    obtain ⟨k, rfl⟩ : ∃ k, fuel = k + 1 := ⟨fuel - 1, by simp at hfuel; omega⟩
    obtain ⟨j0, junk1, rfl⟩ : ∃ j0 junk1, junk = j0 :: junk1 := by
      match junk, hjunk with
      | j0 :: junk1, _ => exact ⟨j0, junk1, rfl⟩
    simp only [List.length_nil, Nat.cast_zero, add_zero] at hmax ⊢
    unfold parseWordLoop
    simp only
    rw [if_pos hmax, storeAt_append, List.set_cons_zero, storeAt_append, List.set_cons_zero]
    rw [← hg, atGet_self]
    simp
  | cons x w ih =>
    intro b e pre post acc junk fuel c h he hg hw hfuel hmax hjunk
    obtain ⟨k, rfl⟩ : ∃ k, fuel = k + 1 := ⟨fuel - 1, by omega⟩
    obtain ⟨j0, junk1, rfl⟩ : ∃ j0 junk1, junk = j0 :: junk1 := by
      match junk, hjunk with
      | j0 :: junk1, _ => exact ⟨j0, junk1, rfl⟩
    simp only [List.length_cons] at hfuel hmax hjunk
    push_cast at hmax
    simp only [List.cons_append] at he
    obtain ⟨hx1, hx2, hx3⟩ := hw x (List.mem_cons_self _ _)
    unfold parseWordLoop
    simp only
    rw [if_neg (by omega), storeAt_append, List.set_cons_zero]
    rw [h.getChar pre _ x he hg]
    simp only [(h.atGet _).isValid, not_true_eq_false, if_false, hx1, hx2, hx3,
      Bool.false_eq_true, or_self]
    have hih := ih (b.atGet ((pre.length : Int) + 1)) e (pre ++ [x]) post (acc ++ [c]) junk1 k x
      (h.atGet _) (by rw [he]; simp) (by simp)
      (fun y hy => hw y (List.mem_cons_of_mem _ hy)) (by omega)
      (by simp only [List.length_append, List.length_singleton]; push_cast; omega) (by omega)
    simp only [List.append_assoc, List.singleton_append, List.length_append,
      List.length_singleton, Nat.cast_add, Nat.cast_one, atGet_atGet] at hih
    rw [hih]
    simp only [List.length_cons, List.drop_succ_cons, Nat.cast_add, Nat.cast_one,
      List.dropLast_cons₂, List.cons_append, List.append_assoc, Option.some.injEq,
      Prod.mk.injEq, true_and]
    congr 1
    omega

/-- The quoted-string loop, when the body does not end before the token buffer is full: it
stops after the bytes that fill the buffer, the last of them overwritten by the
terminator. -/
theorem parseQuotedLoop_full (nMaxLen : Int) (w : List Nat) :
    ∀ (b : CUtlBuffer) (e pre post acc junk : List Nat) (fuel x : Nat), Readable b e →
    e = pre ++ (x :: w ++ post) → b.m_Get = (pre.length : Int) →
    (∀ y ∈ x :: w, y ≠ 34 ∧ y ≠ 0) →
    w.length < fuel → (acc.length : Int) + 1 + (w.length : Int) = nMaxLen →
    w.length + 1 ≤ junk.length →
    parseQuotedLoop nMaxLen fuel b (acc ++ junk) (acc.length : Int) =
      some (nMaxLen, acc ++ (x :: w).dropLast ++ 0 :: junk.drop (w.length + 1),
        b.atGet ((pre.length : Int) + 1 + (w.length : Int))) := by
  induction w with
  | nil =>
    intro b e pre post acc junk fuel x h he hg hb hfuel hmax hjunk
    obtain ⟨k, rfl⟩ : ∃ k, fuel = k + 1 := ⟨fuel - 1, by simp at hfuel; omega⟩
    obtain ⟨j0, junk1, rfl⟩ : ∃ j0 junk1, junk = j0 :: junk1 := by
      match junk, hjunk with
      | j0 :: junk1, _ => exact ⟨j0, junk1, rfl⟩
    simp only [List.length_nil, Nat.cast_zero, add_zero] at hmax ⊢
    simp only [List.cons_append, List.nil_append] at he
    obtain ⟨hx1, hx2⟩ := hb x (List.mem_cons_self _ _)
    unfold parseQuotedLoop
    simp only [h.isValid, not_true_eq_false, if_false]
    rw [h.getChar pre _ x he hg]
    simp only [hx1, hx2, or_self, if_false]
    rw [if_pos hmax, storeAt_append, List.set_cons_zero, storeAt_append, List.set_cons_zero]
    simp
  | cons y w ih =>
    intro b e pre post acc junk fuel x h he hg hb hfuel hmax hjunk
    obtain ⟨k, rfl⟩ : ∃ k, fuel = k + 1 := ⟨fuel - 1, by omega⟩
    obtain ⟨j0, junk1, rfl⟩ : ∃ j0 junk1, junk = j0 :: junk1 := by
      match junk, hjunk with
      | j0 :: junk1, _ => exact ⟨j0, junk1, rfl⟩
    simp only [List.length_cons] at hfuel hmax hjunk
    push_cast at hmax
    simp only [List.cons_append] at he
    obtain ⟨hx1, hx2⟩ := hb x (List.mem_cons_self _ _)
    unfold parseQuotedLoop
    simp only [h.isValid, not_true_eq_false, if_false]
    rw [h.getChar pre _ x he hg]
    simp only [hx1, hx2, or_self, if_false]
    rw [if_neg (by omega), storeAt_append, List.set_cons_zero]
    have hih := ih (b.atGet ((pre.length : Int) + 1)) e (pre ++ [x]) post (acc ++ [x]) junk1 k y
      (h.atGet _) (by rw [he]; simp) (by simp)
      (fun z hz => hb z (List.mem_cons_of_mem _ hz)) (by omega)
      (by simp only [List.length_append, List.length_singleton]; push_cast; omega) (by omega)
    simp only [List.append_assoc, List.singleton_append, List.length_append,
      List.length_singleton, Nat.cast_add, Nat.cast_one, atGet_atGet] at hih
    rw [hih]
    simp only [List.length_cons, List.drop_succ_cons, Nat.cast_add, Nat.cast_one,
      List.dropLast_cons₂, List.cons_append, List.append_assoc, Option.some.injEq,
      Prod.mk.injEq, true_and]
    congr 1
    omega

/-- C32: for every break set, with or without comment parsing, every `max_len >= 1` and
every readable text buffer (fully materialised, no error, default hook) whose unread bytes
are white space followed by a token of which `t` is the first `max_len` bytes, over a token
buffer of at least `max_len` bytes.  When the token is a word (`t` starts with a byte that is
not white space, NUL, the double quote nor a break byte, no comment starts there when
comments are parsed, and `t` goes on with bytes that do not end a word), `ParseToken`
returns `max_len`, stores the
first `max_len - 1` bytes of `t` followed by NUL, and leaves `get_pos` just after the
`max_len` bytes of `t`.  When the token is quoted (a double quote, then `t` holding no double
quote and no NUL), `ParseToken` returns `max_len`, stores the first `max_len - 1` bytes of
`t` followed by NUL, and leaves `get_pos` just after the opening quote and the `max_len`
bytes of `t`.  In both cases the last byte of `t` is consumed and not stored. -/
theorem C32_ParseToken_fills_buffer {b : CUtlBuffer} {e : List Nat} (h : Readable b e)
    (pBreaks : characterset_t) (bParseComments : Bool) (buf : List Nat) (nMaxLen : Int)
    (pre ws w post : List Nat) (c : Nat) (hg : b.m_Get = (pre.length : Int))
    (hws : ∀ x ∈ ws, V_isspace x = true) (hlen : ((c :: w).length : Int) = nMaxLen)
    (hbuf : nMaxLen ≤ (buf.length : Int)) :
    (e = pre ++ (ws ++ c :: (w ++ post)) → V_isspace c = false → c ≠ 0 → c ≠ 34 →
      (bParseComments = true → c = 47 → (w ++ post).head? ≠ some 47) →
      IN_CHARACTERSET pBreaks c = false →
      (∀ x ∈ w, IN_CHARACTERSET pBreaks x = false ∧ x ≠ 34 ∧ leSpace x = false) →
      b.ParseToken pBreaks buf nMaxLen bParseComments =
        some (nMaxLen, (c :: w).dropLast ++ 0 :: buf.drop (c :: w).length,
          b.atGet ((pre.length : Int) + (ws.length : Int) + nMaxLen))) ∧
    (e = pre ++ (ws ++ 34 :: (c :: w ++ post)) → (∀ x ∈ c :: w, x ≠ 34 ∧ x ≠ 0) →
      b.ParseToken pBreaks buf nMaxLen bParseComments =
        some (nMaxLen, (c :: w).dropLast ++ 0 :: buf.drop (c :: w).length,
          b.atGet ((pre.length : Int) + (ws.length : Int) + 1 + nMaxLen))) := by
  simp only [List.length_cons] at hlen
  push_cast at hlen
  obtain ⟨j0, junk1, rfl⟩ : ∃ j0 junk1, buf = j0 :: junk1 := by
    cases buf with
    | nil => simp only [List.length_nil] at hbuf; omega
    | cons j0 junk1 => exact ⟨j0, junk1, rfl⟩
  have hst : storeAt (j0 :: junk1) 0 0 = 0 :: junk1 := by simp [storeAt]
  simp only [List.length_cons] at hbuf
  push_cast at hbuf
  constructor
  · intro he hc hc0 hc34 hc47 hcb hw
    have hskip : ∀ k : Nat, parseSkipLoop bParseComments (k + 1) b =
        some (true, b.atGet ((pre.length : Int) + (ws.length : Int))) := by
      intro k
      exact h.parseSkipLoop_word bParseComments k pre ws (w ++ post) c he hg hws hc hc47
    unfold CUtlBuffer.ParseToken
    simp only
    rw [hskip]
    simp only
    rw [(h.atGet _).getChar (pre ++ ws) (w ++ post) c (by rw [he]; simp) (by simp)]
    simp only [hc0, hc34, if_false, hcb, Bool.false_eq_true, CUtlBuffer.atGet_atGet]
    have hl := parseWordLoop_full pBreaks nMaxLen w
      (b.atGet (((pre ++ ws).length : Int) + 1)) e (pre ++ ws ++ [c]) post [] (0 :: junk1)
      (((b.atGet (((pre ++ ws).length : Int) + 1)).m_nMaxPut -
        (b.atGet (((pre ++ ws).length : Int) + 1)).m_Get).toNat + 2) c
      (h.atGet _) (by rw [he]; simp) (by simp; omega) hw
      (by
        simp only [CUtlBuffer.atGet_maxPut, CUtlBuffer.atGet_get, h.loaded.maxPut, he,
          List.length_append, List.length_cons]
        push_cast
        omega)
      (by simp only [List.length_nil, Nat.cast_zero]; omega)
      (by simp only [List.length_cons]; omega)
    simp only [List.nil_append, List.length_nil, Nat.cast_zero, zero_add] at hl
    rw [hst, hl]
    simp only [List.length_append, List.length_singleton, List.length_cons, List.length_nil,
      Nat.cast_add, Nat.cast_one, Nat.cast_zero, zero_add, CUtlBuffer.atGet_atGet,
      List.drop_succ_cons, Option.some.injEq, Prod.mk.injEq, true_and]
    congr 1
    omega
  · intro he hb
    unfold CUtlBuffer.ParseToken
    simp only
    rw [h.parseSkipLoop_stop bParseComments _ pre ws (c :: w ++ post) 34 he hg hws
      (by decide) (by decide)]
    simp only
    rw [(h.atGet _).getChar (pre ++ ws) (c :: w ++ post) 34 (by rw [he]; simp) (by simp)]
    simp only [if_true, OfNat.ofNat_ne_zero, if_false, CUtlBuffer.atGet_atGet]
    have hl := parseQuotedLoop_full nMaxLen w
      (b.atGet (((pre ++ ws).length : Int) + 1)) e (pre ++ ws ++ [34]) post [] (0 :: junk1)
      (((b.atGet (((pre ++ ws).length : Int) + 1)).m_nMaxPut -
        (b.atGet (((pre ++ ws).length : Int) + 1)).m_Get).toNat + 2) c
      (h.atGet _) (by rw [he]; simp) (by simp; omega) hb
      (by
        simp only [CUtlBuffer.atGet_maxPut, CUtlBuffer.atGet_get, h.loaded.maxPut, he,
          List.length_append, List.length_cons]
        push_cast
        omega)
      (by simp only [List.length_nil, Nat.cast_zero]; omega)
      (by simp only [List.length_cons]; omega)
    simp only [List.nil_append, List.length_nil, Nat.cast_zero, zero_add] at hl
    rw [hst, hl]
    simp only [List.length_append, List.length_singleton, List.length_cons, List.length_nil,
      Nat.cast_add, Nat.cast_one, Nat.cast_zero, zero_add, CUtlBuffer.atGet_atGet,
      List.drop_succ_cons, Option.some.injEq, Prod.mk.injEq, true_and]
    congr 1
    omega

theorem C32_ParseToken_fills_buffer_witness :
    (wholeText [32, 47, 97, 98, 32, 99]).ParseToken commaEquals [7, 7, 7] 2 true =
      some (2, [47, 0, 7], (wholeText [32, 47, 97, 98, 32, 99]).atGet 3) ∧
    (wholeText [32, 34, 107, 101, 121, 34]).ParseToken commaEquals [7, 7, 7] 2 true =
      some (2, [107, 0, 7], (wholeText [32, 34, 107, 101, 121, 34]).atGet 4) :=
  ⟨(C32_ParseToken_fills_buffer (b := wholeText [32, 47, 97, 98, 32, 99])
      (e := [32, 47, 97, 98, 32, 99])
      ⟨⟨by decide, by decide, by decide⟩, by decide, by decide, by decide⟩
      commaEquals true [7, 7, 7] 2 [] [32] [97] [98, 32, 99] 47
      (by decide) (by decide) (by decide) (by decide)).1 rfl (by decide) (by decide) (by decide)
      (by decide) (by decide) (by decide),
    (C32_ParseToken_fills_buffer (b := wholeText [32, 34, 107, 101, 121, 34])
      (e := [32, 34, 107, 101, 121, 34])
      ⟨⟨by decide, by decide, by decide⟩, by decide, by decide, by decide⟩
      commaEquals true [7, 7, 7] 2 [] [32] [101] [121, 34] 107
      (by decide) (by decide) (by decide) (by decide)).2 rfl (by decide)⟩

end

/-! ## C33: GetString and the capacity of the destination -/

section
open CUtlBuffer

/-- A relative get seek that stays inside the content only moves the cursor, in text and
in binary mode. -/
theorem seekCurrent_loaded {b : CUtlBuffer} {e : List Nat} (hl : Loaded b e)
    (herr : b.m_Error.GET_OVERFLOW = false) (hf : b.m_GetOverflowFunc = .GetOverflow) (n : Int)
    (hle : b.m_Get + n ≤ (e.length : Int)) :
    b.SeekGet .SEEK_CURRENT n = b.atGet (b.m_Get + n) := by
  rw [SeekGet_default b hf]
  have hd : decide (seekPos b.m_Get b.m_nMaxPut .SEEK_CURRENT n > b.m_nMaxPut) = false := by
    simp only [seekPos, decide_eq_false_iff_not, not_lt, gt_iff_lt, hl.maxPut]
    exact hle
  rw [hd]
  rw [setGetOverflow_same _ false (by exact herr)]
  rfl

/-- Storing the terminator right after bytes copied over the head of a destination. -/
theorem storeAt_after_copy (a dst : List Nat) (hlt : a.length < dst.length) :
    storeAt (a ++ dst.drop a.length) (a.length : Int) 0 = a ++ 0 :: dst.drop (a.length + 1) := by
  rw [storeAt_append, List.drop_eq_getElem_cons hlt]
  rfl

/-- The copy step of `GetString`: the string is copied whole when it fits, cut to the
capacity less one and skipped otherwise; either way the cursor ends after the string. -/
theorem getString_copy {b : CUtlBuffer} {e : List Nat} (hl : Loaded b e)
    (herr : b.m_Error.GET_OVERFLOW = false) (hf : b.m_GetOverflowFunc = .GetOverflow)
    (pre str post dst : List Nat) (m : Int) (he : e = pre ++ (str ++ post))
    (hg : b.m_Get = (pre.length : Int)) (hm : 1 ≤ m) (hdst : m ≤ (dst.length : Int)) :
    (if (str.length : Int) + 1 ≤ m then
        ((b.Get dst ((str.length : Int) + 1 - 1)).1,
          storeAt (b.Get dst ((str.length : Int) + 1 - 1)).2 ((str.length : Int) + 1 - 1) 0)
      else
        ((b.Get dst (m - 1)).1.SeekGet .SEEK_CURRENT ((str.length : Int) + 1 - m),
          storeAt (b.Get dst (m - 1)).2 (m - 1) 0)) =
      (b.atGet ((pre.length : Int) + (str.length : Int)),
        str.take (m - 1).toNat ++ 0 :: dst.drop (min str.length (m - 1).toNat + 1)) := by
  have hdrop : e.drop b.m_Get.toNat = str ++ post := by
    rw [hg, he]
    simp
  have hlen : (e.length : Int) = (pre.length : Int) + (str.length : Int) + (post.length : Int) := by
    rw [he]
    simp only [List.length_append]
    push_cast
    omega
  by_cases hfit : (str.length : Int) + 1 ≤ m
  · rw [if_pos hfit]
    have hget := Get_loaded hl dst str.length herr (by omega) (by omega)
    rw [show (str.length : Int) + 1 - 1 = (str.length : Int) by omega, hget, hdrop,
      List.take_left' rfl]
    simp only
    rw [storeAt_after_copy str dst (by omega), List.take_of_length_le (by omega),
      min_eq_left (by omega), hg]
    rfl
  · rw [if_neg hfit]
    obtain ⟨k, hk⟩ : ∃ k : Nat, m - 1 = (k : Int) := Int.eq_ofNat_of_zero_le (by omega)
    have hkl : k < str.length := by omega
    have hget := Get_loaded hl dst k herr (by omega) (by omega)
    rw [hk, hget, hdrop, List.take_append_of_le_length (by omega)]
    simp only
    have hk2 : (str.take k).length = k := by
      rw [List.length_take]
      omega
    have hst := storeAt_after_copy (str.take k) dst (by omega)
    rw [hk2] at hst
    rw [hst, Int.toNat_ofNat, min_eq_right (by omega)]
    have hl2 : Loaded (b.atGet (b.m_Get + (k : Int))) e :=
      ⟨hl.offset, hl.maxPut, hl.content⟩
    have hseek := seekCurrent_loaded hl2 herr hf ((str.length : Int) + 1 - m)
      (by simp only [atGet_get]; omega)
    have hb : ({ b with m_Get := b.m_Get + (k : Int) } : CUtlBuffer) =
        b.atGet (b.m_Get + (k : Int)) := rfl
    rw [hb, hseek]
    simp only [atGet_get, atGet_atGet, Prod.mk.injEq, and_true]
    congr 1
    omega

/-- C33: for every fully materialised buffer (window base 0, content `e`, default get hook,
`0 <= get_pos`) with no error set whose `PeekStringLength` is `L >= 1`: let `ws` be the
leading white space of the unread content in text mode (nothing in binary mode) and `str`
the `L - 1` bytes after it.  There is one buffer state `b1` such that for every capacity
`m >= 1` and every destination of at least `m` bytes `GetString (dst, m)` returns, leaves
the buffer in the state `b1` and stores the first `min (L - 1, m - 1)` bytes of `str`
followed by NUL.  In `b1` the get cursor is past `ws` and `str`, and in binary mode also
past the NUL that ends the string when the content holds one; no error is set, except
GET_OVERFLOW in binary mode when the content ends with the string and holds no NUL. -/
theorem C33_GetString_capacity (b : CUtlBuffer) (e : List Nat) (L : Int) (hl : Loaded b e)
    (herr : b.m_Error = ⟨false, false⟩) (hf : b.m_GetOverflowFunc = .GetOverflow)
    (h0 : 0 ≤ b.m_Get) (hL : b.PeekStringLength = some (L, b)) (hL1 : 1 ≤ L) :
    ∃ (ws str : List Nat) (b1 : CUtlBuffer),
      ws = (if b.IsText then (e.drop b.m_Get.toNat).takeWhile V_isspace else []) ∧
      str = ((e.drop b.m_Get.toNat).drop ws.length).take (L - 1).toNat ∧
      (str.length : Int) = L - 1 ∧
      b1.m_Get = b.m_Get + (ws.length : Int) + (L - 1) +
        (if b.IsText = false ∧ b.m_Get + (L - 1) < b.m_nMaxPut then 1 else 0) ∧
      b1.m_Error = ⟨false, decide (b.IsText = false ∧ b.m_nMaxPut ≤ b.m_Get + (L - 1))⟩ ∧
      ∀ (m : Int) (dst : List Nat), 1 ≤ m → m ≤ (dst.length : Int) →
        b.GetString dst m =
          some (b1, str.take (m - 1).toNat ++
            0 :: dst.drop ((min (L - 1) (m - 1)).toNat + 1)) := by
  obtain ⟨g, hg⟩ := Int.eq_ofNat_of_zero_le h0
  have hgn : b.m_Get.toNat = g := by omega
  have hge : b.m_Error.GET_OVERFLOW = false := by rw [herr]
  have hv : b.IsValid = true := by simp [IsValid, herr]
  have hmp := hl.maxPut
  rw [hgn]
  have hpk := PeekStringLength_loaded b e hl herr h0
  rw [hgn] at hpk
  have hsplit : e = e.take g ++ e.drop g := (List.take_append_drop g e).symm
  cases ht : b.IsText with
  | true =>
    have h1 := hpk.1 ht
    rw [hL] at h1
    simp only [Option.some.injEq, Prod.mk.injEq, and_true] at h1
    have hne : (e.drop g).dropWhile V_isspace ≠ [] := by
      intro hc
      rw [if_pos hc] at h1
      omega
    rw [if_neg hne] at h1
    generalize hS : ((e.drop g).dropWhile V_isspace).takeWhile
      (fun x => !(V_isspace x || x == 0)) = S at h1
    have hrest : (e.drop g).dropWhile V_isspace =
        S ++ ((e.drop g).dropWhile V_isspace).dropWhile (fun x => !(V_isspace x || x == 0)) := by
      rw [← hS, List.takeWhile_append_dropWhile]
    have hgle : g ≤ e.length := by
      by_contra hc
      rw [List.drop_eq_nil_of_le (by omega)] at hne
      exact hne rfl
    have hr : Readable b e := ⟨hl, herr, hf, by simpa [IsText] using ht⟩
    obtain ⟨pre1, hp1, heat⟩ := hr.eatWhiteSpace_drop (e.take g) (e.drop g) hsplit
      (by rw [hg, List.length_take, min_eq_left hgle]) hne
    have hwsl : pre1.length = g + ((e.drop g).takeWhile V_isspace).length := by
      have ha := congrArg List.length hp1
      have hb := congrArg List.length
        (List.takeWhile_append_dropWhile V_isspace (e.drop g))
      simp only [List.length_append, List.length_drop] at ha hb
      omega
    have h1b : L = (S.length : Int) + 1 := by omega
    have hstr : ((e.drop g).drop ((e.drop g).takeWhile V_isspace).length).take (L - 1).toNat =
        S := by
      rw [drop_takeWhile_length V_isspace (e.drop g), hrest,
        show (L - 1).toNat = S.length by omega, List.take_left' rfl]
    refine ⟨(e.drop g).takeWhile V_isspace, S,
      b.atGet ((g : Int) + (((e.drop g).takeWhile V_isspace).length : Int) + (S.length : Int)),
      by simp, hstr.symm, by omega, ?_, ?_, ?_⟩
    · simp only [atGet_get, Bool.true_eq_false, false_and, if_false, hg]
      omega
    · simp only [atGet_error, herr, Bool.true_eq_false, false_and, decide_False]
    · intro m dst hm hdst
      unfold GetString
      rw [if_neg (by simp [hv]), if_neg (by omega), hL]
      simp only [ht, if_true, heat]
      rw [if_neg (by omega)]
      have hcore := getString_copy (b := b.atGet (pre1.length : Int)) (e := e)
        ⟨hl.offset, hl.maxPut, hl.content⟩ hge hf pre1 S _ dst m
        (by rw [hp1, hrest]) rfl hm hdst
      rw [← h1b] at hcore
      rw [hcore]
      have htf : b.m_Flags.TEXT_BUFFER = true := ht
      simp only [atGet, IsText, htf, not_true_eq_false, if_false, Option.some.injEq,
        Prod.mk.injEq, hwsl]
      refine ⟨by push_cast; rfl, ?_⟩
      congr 3
      omega
  | false =>
    have h1 := hpk.2 ht
    rw [hL] at h1
    simp only [Option.some.injEq, Prod.mk.injEq, and_true] at h1
    have hlt : ¬ (b.m_nMaxPut ≤ b.m_Get) := by
      intro hc
      rw [if_pos hc] at h1
      omega
    rw [if_neg hlt] at h1
    generalize hS : (e.drop g).takeWhile (fun x => !(x == 0)) = S at h1
    have hrest : e.drop g = S ++ (e.drop g).dropWhile (fun x => !(x == 0)) := by
      rw [← hS, List.takeWhile_append_dropWhile]
    have hgle : g ≤ e.length := by omega
    have hSle : g + S.length ≤ e.length := by
      have := congrArg List.length hrest
      simp only [List.length_append, List.length_drop] at this
      omega
    have h1b : L = (S.length : Int) + 1 := by omega
    have hstr : ((e.drop g).drop ([] : List Nat).length).take (L - 1).toNat = S := by
      simp only [List.length_nil, List.drop_zero]
      rw [hrest, show (L - 1).toNat = S.length by omega, List.take_left' rfl]
    have hl2 : Loaded (b.atGet ((g : Int) + (S.length : Int))) e :=
      ⟨hl.offset, hl.maxPut, hl.content⟩
    have hchar : (b.atGet ((g : Int) + (S.length : Int))).GetChar.2 =
        (if g + S.length < e.length then b.atGet ((g : Int) + (S.length : Int) + 1)
          else (b.atGet ((g : Int) + (S.length : Int))).setGetOverflow true) := by
      unfold GetChar
      by_cases hin : g + S.length < e.length
      · rw [if_pos hin, CheckGet_loaded hl2 1 hge (by simp only [atGet_get]; omega)
          (by simp only [atGet_get]; omega)]
        rfl
      · rw [if_neg hin, CheckGet_overflow (b.atGet ((g : Int) + (S.length : Int))) 1 hge
          (by simp only [atGet_get, atGet_maxPut]; omega)]
    refine ⟨[], S,
      (if g + S.length < e.length then b.atGet ((g : Int) + (S.length : Int) + 1)
        else (b.atGet ((g : Int) + (S.length : Int))).setGetOverflow true),
      by simp, hstr.symm, by omega, ?_, ?_, ?_⟩
    · by_cases hin : g + S.length < e.length
      · rw [if_pos hin, if_pos ⟨rfl, by omega⟩]
        simp only [atGet_get, List.length_nil, Nat.cast_zero]
        omega
      · rw [if_neg hin, if_neg (fun hc => hin (by have := hc.2; omega))]
        simp only [setGetOverflow, atGet_get, List.length_nil, Nat.cast_zero]
        omega
    · by_cases hin : g + S.length < e.length
      · rw [if_pos hin, decide_eq_false (fun hc => by have := hc.2; omega)]
        exact herr
      · rw [if_neg hin, decide_eq_true ⟨rfl, by omega⟩]
        simp [setGetOverflow, atGet, herr]
    · intro m dst hm hdst
      unfold GetString
      rw [if_neg (by simp [hv]), if_neg (by omega), hL]
      simp only [ht, Bool.false_eq_true, if_false]
      rw [if_neg (by omega)]
      have hcore := getString_copy (b := b) (e := e) hl hge hf (e.take g) S _ dst m
        (by rw [← hrest]; exact hsplit) (by rw [hg, List.length_take, min_eq_left hgle]) hm hdst
      rw [← h1b] at hcore
      rw [List.length_take, min_eq_left hgle] at hcore
      rw [hcore]
      have htf : (b.atGet ((g : Int) + (S.length : Int))).IsText = false := ht
      simp only [htf, Bool.false_eq_true, not_false_eq_true, if_true, hchar, Option.some.injEq,
        Prod.mk.injEq, true_and]
      congr 3
      omega

theorem C33_GetString_capacity_witness :
    ∃ (ws str : List Nat) (b1 : CUtlBuffer),
      ws = (if (wholeText keyValueText).IsText
        then (keyValueText.drop (wholeText keyValueText).m_Get.toNat).takeWhile V_isspace
        else []) ∧
      str = ((keyValueText.drop (wholeText keyValueText).m_Get.toNat).drop ws.length).take
        ((4 : Int) - 1).toNat ∧
      (str.length : Int) = (4 : Int) - 1 ∧
      b1.m_Get = (wholeText keyValueText).m_Get + (ws.length : Int) + ((4 : Int) - 1) +
        (if (wholeText keyValueText).IsText = false ∧
            (wholeText keyValueText).m_Get + ((4 : Int) - 1) < (wholeText keyValueText).m_nMaxPut
          then 1 else 0) ∧
      b1.m_Error = ⟨false, decide ((wholeText keyValueText).IsText = false ∧
        (wholeText keyValueText).m_nMaxPut ≤ (wholeText keyValueText).m_Get + ((4 : Int) - 1))⟩ ∧
      ∀ (m : Int) (dst : List Nat), 1 ≤ m → m ≤ (dst.length : Int) →
        (wholeText keyValueText).GetString dst m =
          some (b1, str.take (m - 1).toNat ++
            0 :: dst.drop ((min ((4 : Int) - 1) (m - 1)).toNat + 1)) :=
  C33_GetString_capacity (wholeText keyValueText) keyValueText 4 ⟨by decide, by decide, by decide⟩
    (by decide) (by decide) (by decide) (by decide) (by decide)

/-- C33, the case the claim leaves out: a binary buffer holding `abcd` and no NUL is fully
materialised, has no error set and a `PeekStringLength` of 5; `GetString` with room for 8
bytes stores `abcd` and NUL, but leaves the get cursor at 4, the end of the content, not
at 5, and sets GET_OVERFLOW: there is no terminating NUL to step over. -/
theorem C33_counterexample :
    Loaded (CUtlBuffer.newExternal [97, 98, 99, 100] ⟨false, false, false, true, false⟩ 205)
      [97, 98, 99, 100] ∧
    (CUtlBuffer.newExternal [97, 98, 99, 100] ⟨false, false, false, true, false⟩ 205).m_Error =
      ⟨false, false⟩ ∧
    (CUtlBuffer.newExternal [97, 98, 99, 100] ⟨false, false, false, true, false⟩
      205).PeekStringLength =
      some (5, CUtlBuffer.newExternal [97, 98, 99, 100] ⟨false, false, false, true, false⟩ 205) ∧
    ((CUtlBuffer.newExternal [97, 98, 99, 100] ⟨false, false, false, true, false⟩ 205).GetString
      [7, 7, 7, 7, 7, 7, 7, 7] 8).map (fun r => (r.1.m_Get, r.1.m_Error, r.2)) =
      some (4, ⟨false, true⟩, [97, 98, 99, 100, 0, 7, 7, 7]) :=
  ⟨⟨by decide, by decide, by decide⟩, by decide, by decide, by decide⟩

end

/-! ## C34: strings written and read back in binary mode -/

section
open CUtlBuffer

/-- In binary mode `GetString` with room for the string copies it with its NUL and steps
over the NUL in the buffer. -/
theorem GetString_binary {b : CUtlBuffer} {e : List Nat} (hl : Loaded b e)
    (herr : b.m_Error = ⟨false, false⟩) (hf : b.m_GetOverflowFunc = .GetOverflow)
    (ht : b.IsText = false) (pre s post dst : List Nat) (m : Int)
    (he : e = pre ++ (s ++ 0 :: post)) (hs : ∀ x ∈ s, x ≠ 0)
    (hg : b.m_Get = (pre.length : Int)) (hm : (s.length : Int) < m)
    (hdst : m ≤ (dst.length : Int)) :
    b.GetString dst m =
      some (b.atGet ((pre.length : Int) + (s.length : Int) + 1),
        s ++ 0 :: dst.drop (s.length + 1)) := by
  have hge : b.m_Error.GET_OVERFLOW = false := by rw [herr]
  have hv : b.IsValid = true := by simp [IsValid, herr]
  have hgn : b.m_Get.toNat = pre.length := by omega
  have hlen : (e.length : Int) = (pre.length : Int) + (s.length : Int) + 1 + (post.length : Int) := by
    rw [he]
    simp only [List.length_append, List.length_cons]
    push_cast
    omega
  have hdrop : e.drop pre.length = s ++ 0 :: post := by
    rw [he]
    simp
  have hpk := (PeekStringLength_loaded b e hl herr (by omega)).2 ht
  rw [hgn, hdrop, if_neg (by rw [hl.maxPut]; omega)] at hpk
  have hcs : (s ++ 0 :: post).takeWhile (fun x => !(x == 0)) = s := cstr_terminated s post hs
  rw [hcs] at hpk
  unfold GetString
  rw [if_neg (by simp [hv]), if_neg (by omega), hpk]
  simp only [ht, Bool.false_eq_true, if_false]
  rw [if_neg (by omega)]
  have hcore := getString_copy (b := b) (e := e) hl hge hf pre s (0 :: post) dst m he hg
    (by omega) hdst
  rw [add_comm (1 : Int)]
  rw [hcore]
  have htf : (b.atGet ((pre.length : Int) + (s.length : Int))).IsText = false := ht
  have hl2 : Loaded (b.atGet ((pre.length : Int) + (s.length : Int))) e :=
    ⟨hl.offset, hl.maxPut, hl.content⟩
  have hchar : (b.atGet ((pre.length : Int) + (s.length : Int))).GetChar.2 =
      b.atGet ((pre.length : Int) + (s.length : Int) + 1) := by
    unfold GetChar
    rw [CheckGet_loaded hl2 1 hge (by simp only [atGet_get]; omega)
      (by simp only [atGet_get]; omega)]
    rfl
  simp only [htf, Bool.false_eq_true, not_false_eq_true, if_true, hchar, Option.some.injEq,
    Prod.mk.injEq, true_and]
  rw [List.take_of_length_le (by omega), min_eq_left (by omega)]

/-- Writing NUL-free strings with `PutString` to a writable binary buffer appends each
with its NUL. -/
theorem putStrings_writable (ss : List (List Nat)) (hs : ∀ s ∈ ss, ∀ x ∈ s, x ≠ 0) :
    ∀ (b : CUtlBuffer) (c : List Nat), WritableAt b c → b.IsText = false →
      ∃ b1, b.putStrings ss = some b1 ∧ WritableAt b1 (c ++ terminatedBytes ss) ∧
        PutFrame b b1 := by
  induction ss with
  | nil =>
    intro b c h _
    exact ⟨b, rfl, by simpa [terminatedBytes] using h, PutFrame_refl b⟩
  | cons s ss ih =>
    intro b c h ht
    have hs1 : ∀ x ∈ s, x ≠ 0 := hs s (List.mem_cons_self _ _)
    have hput : b.PutString (some (s ++ [0])) =
        some (b.Put (s ++ [0]) (((s ++ [0]).length : Nat) : Int)) := by
      unfold PutString
      rw [if_pos (by simp [ht])]
      simp only [cstr_terminated s [] hs1, V_strlen, List.length_append, List.length_singleton,
        Nat.cast_add, Nat.cast_one]
    obtain ⟨hw, hfr⟩ := Put_writable h (s ++ [0])
    have ht1 : (b.Put (s ++ [0]) (((s ++ [0]).length : Nat) : Int)).IsText = false := by
      simp only [IsText, hfr.flags]
      exact ht
    obtain ⟨b1, hb1, hw1, hf1⟩ := ih (fun t htm => hs t (List.mem_cons_of_mem _ htm)) _ _ hw ht1
    refine ⟨b1, ?_, ?_, PutFrame_trans hfr hf1⟩
    · simp only [putStrings, hput, hb1]
    · simpa [terminatedBytes, List.append_assoc] using hw1

/-- Reading back, in binary mode, the strings that sit one after the other from the get
cursor to the end of the content. -/
theorem getStrings_binary (e dst : List Nat) (m : Int) (hdst : m ≤ (dst.length : Int)) :
    ∀ (ss : List (List Nat)) (b : CUtlBuffer) (pre : List Nat), Loaded b e →
      b.m_Error = ⟨false, false⟩ → b.m_GetOverflowFunc = .GetOverflow → b.IsText = false →
      e = pre ++ terminatedBytes ss → b.m_Get = (pre.length : Int) →
      (∀ s ∈ ss, ∀ x ∈ s, x ≠ 0) → (∀ s ∈ ss, (s.length : Int) < m) →
      b.getStrings dst m ss.length = some (b.atGet (e.length : Int), ss) := by
  intro ss
  induction ss with
  | nil =>
    intro b pre _ _ _ _ he hg _ _
    have : (e.length : Int) = b.m_Get := by
      rw [he, hg]
      simp [terminatedBytes]
    rw [this]
    rfl
  | cons s ss ih =>
    intro b pre hl herr hf ht he hg hs hm
    have hs1 : ∀ x ∈ s, x ≠ 0 := hs s (List.mem_cons_self _ _)
    have he1 : e = pre ++ (s ++ 0 :: terminatedBytes ss) := by
      rw [he]
      simp [terminatedBytes]
    have hget := GetString_binary hl herr hf ht pre s (terminatedBytes ss) dst m he1 hs1 hg
      (hm s (List.mem_cons_self _ _)) hdst
    have hrec := ih (b.atGet ((pre.length : Int) + (s.length : Int) + 1)) (pre ++ (s ++ [0]))
      ⟨hl.offset, hl.maxPut, hl.content⟩ herr hf ht
      (by rw [he1]; simp)
      (by simp only [atGet_get, List.length_append, List.length_singleton]; push_cast; omega)
      (fun t htm => hs t (List.mem_cons_of_mem _ htm))
      (fun t htm => hm t (List.mem_cons_of_mem _ htm))
    simp only [List.length_cons, getStrings, hget, hrec, cstr_terminated s _ hs1]
    rfl

/-- C34: for every list `ss` of NUL-free strings (empty strings and white space allowed),
writing them in order with `PutString` to a fresh growable binary-mode buffer succeeds
and leaves `get_pos` at 0; calling `GetString` as many times as there are strings, with a
destination whose capacity `m` exceeds every string length, then returns the strings of
`ss` in order, ends with `get_pos = put_pos` and leaves both error flags clear. -/
theorem C34_binary_strings_round_trip (growSize initSize : Int) (nFlags : BufferFlags_t)
    (uninit : Nat) (ss : List (List Nat)) (dst : List Nat) (m : Int)
    (hgrow : 0 ≤ growSize) (hbin : nFlags.TEXT_BUFFER = false) (hro : nFlags.READ_ONLY = false)
    (hs : ∀ s ∈ ss, ∀ x ∈ s, x ≠ 0) (hm : ∀ s ∈ ss, (s.length : Int) < m)
    (hdst : m ≤ (dst.length : Int)) :
    ∃ b1 b2 : CUtlBuffer,
      (CUtlBuffer.new growSize initSize nFlags uninit).putStrings ss = some b1 ∧
      b1.m_Get = 0 ∧
      b1.getStrings dst m ss.length = some (b2, ss) ∧
      b2.m_Get = b2.m_Put ∧ b2.m_Error = ⟨false, false⟩ := by
  obtain ⟨hw, hg0, herr0, hfl0, _, hgf0⟩ := new_writable growSize initSize nFlags uninit hgrow hro
  have ht0 : (CUtlBuffer.new growSize initSize nFlags uninit).IsText = false := by
    simp only [IsText, hfl0]
    exact hbin
  obtain ⟨b1, hb1, hw1, hf1⟩ := putStrings_writable ss hs _ _ hw ht0
  simp only [List.nil_append] at hw1
  have hg1 : b1.m_Get = 0 := by rw [hf1.get, hg0]
  have herr1 : b1.m_Error = ⟨false, false⟩ := by rw [hf1.error, herr0]
  have ht1 : b1.IsText = false := by
    simp only [IsText, hf1.flags]
    exact ht0
  have hrd := getStrings_binary (terminatedBytes ss) dst m hdst ss b1 [] (loaded_of_writable hw1)
    herr1 (by rw [hf1.getFunc, hgf0]) ht1 rfl (by simpa using hg1) hs hm
  refine ⟨b1, _, hb1, hg1, hrd, ?_, ?_⟩
  · simp only [atGet]
    exact hw1.put.symm
  · exact herr1

theorem C34_binary_strings_round_trip_witness :
    ∃ b1 b2 : CUtlBuffer,
      (CUtlBuffer.new 0 0 ⟨false, false, false, false, false⟩ 205).putStrings
        [[97, 32, 98], [], [99]] = some b1 ∧
      b1.m_Get = 0 ∧
      b1.getStrings [7, 7, 7, 7, 7] 4 [[97, 32, 98], [], [99]].length =
        some (b2, [[97, 32, 98], [], [99]]) ∧
      b2.m_Get = b2.m_Put ∧ b2.m_Error = ⟨false, false⟩ :=
  C34_binary_strings_round_trip 0 0 ⟨false, false, false, false, false⟩ 205
    [[97, 32, 98], [], [99]] [7, 7, 7, 7, 7] 4 (by decide) rfl rfl (by decide) (by decide)
    (by decide)

end

end Tier1
